import Mathlib

/-!
# Greedy vertex-colouring heuristics: a shallow embedding

The six colouring routines of `RecursiveLargestFirst.c` are translated into Lean functions.
`FirstFit.c`, `WelshPowell.c` and `IncidenceDegreeOrdering.c` hold copies of the first
four of them that differ in comments and in the name of one local variable only.  The
routines of `colorRefinament.c` follow them, with conventions of their own stated there.

Conventions of the embedding.
* A C array is a total function from its index to its value; only the indices below the
  array length are ever read or written by the code.  `store a i x` is the assignment
  `a[i] = x`.
* `int` values are `Int`, except array indices and `colored_count`, which only count up
  from `0` and are `Nat`.  Every value the routines compute lies between `-1` and
  `num_vertices + 1`, so no arithmetic wraps for any `num_vertices` below `INT_MAX`.
* A vertex id variable that the code initialises to the sentinel `-1` is an `Option Nat`:
  `none` is the sentinel, `some v` is the id `v`.
* A `for` loop over `0 .. n-1` is a left fold over `List.range n`.  A `while` loop whose
  number of rounds is not fixed in advance is `while_loop`, a recursion on a fuel counter
  that returns `none` when the fuel runs out before the loop's own exit.
* `qsort` is not part of the repository: the array it leaves behind is a parameter
  `sorted` of the routines that sort, constrained by `QsortResult`.
-/

/-- The assignment `a[i] = x` on an array seen as a function. -/
def store {ι α : Type} [DecidableEq ι] (a : ι → α) (i : ι) (x : α) : ι → α :=
  fun j => if j = i then x else a j

/-- The struct `Graph`: vertex count, edge count and the adjacency matrix. -/
structure Graph where
  num_vertices : Nat
  num_arestas : Nat
  adj_matrix : Nat → Nat → Int

/-- The struct `VertexDegree`: a vertex id paired with its degree. -/
structure VertexDegree where
  id : Nat
  degree : Int
  deriving DecidableEq

/-- A valid graph: at least one vertex, 0/1 entries, symmetric, zero diagonal. -/
def Graph.Valid (g : Graph) : Prop :=
  1 ≤ g.num_vertices ∧
  (∀ u, u < g.num_vertices → ∀ v, v < g.num_vertices →
      g.adj_matrix u v = 0 ∨ g.adj_matrix u v = 1) ∧
  (∀ u, u < g.num_vertices → ∀ v, v < g.num_vertices →
      g.adj_matrix u v = g.adj_matrix v u) ∧
  (∀ v, v < g.num_vertices → g.adj_matrix v v = 0)

/-- A proper colouring of the vertices `0 .. num_vertices-1`. -/
def ProperColoring (g : Graph) (colors : Nat → Int) : Prop :=
  ∀ u, u < g.num_vertices → ∀ v, v < g.num_vertices →
    g.adj_matrix u v = 1 → colors u ≠ colors v

/-- The scratch array `available_colors` after the neighbour scan of vertex `v`: every entry
starts `true`, and the entry at `colors[neighbor]` is cleared for each `neighbor` with
`adj_matrix[v][neighbor] == 1` that passes the routine's own test `marks neighbor`. -/
def mark_unavailable (g : Graph) (v : Nat) (colors : Nat → Int) (marks : Nat → Bool) :
    Int → Bool :=
  (List.range g.num_vertices).foldl
    (fun available_colors neighbor =>
      if g.adj_matrix v neighbor = 1 ∧ marks neighbor = true then
        store available_colors (colors neighbor) false
      else available_colors)
    (fun _ => true)

/-- The search `while (chosen_color <= n && !available_colors[chosen_color]) chosen_color++`,
entered with `chosen_color = c` and `k` candidates `c .. n` left. -/
def search_color (n : Nat) (available_colors : Int → Bool) : Nat → Int → Int
  | 0, c => c
  | k + 1, c =>
    if c ≤ (n : Int) ∧ available_colors c = false then
      search_color n available_colors k (c + 1)
    else c

/-- The smallest available colour: the search started at `chosen_color = 1`. -/
def chosen_color (n : Nat) (available_colors : Int → Bool) : Int :=
  search_color n available_colors n 1

/-- What a colouring routine leaves behind: the `colors` array and the returned `int`. -/
structure Outcome where
  colors : Nat → Int
  returned : Int

/-- State of the first-fit loops: the `colors` array and `max_colors_used`. -/
structure FFState where
  colors : Nat → Int
  max_colors_used : Int

/-- Body of the vertex loop of `first_fit_coloring` (and of
`largest_degree_ordering_coloring`) for the vertex `v`. -/
def first_fit_step (g : Graph) (st : FFState) (v : Nat) : FFState :=
  let available_colors := mark_unavailable g v st.colors
    (fun neighbor =>
      decide (st.colors neighbor ≠ 0) && decide (st.colors neighbor ≤ (g.num_vertices : Int)))
  let c := chosen_color g.num_vertices available_colors
  { colors := store st.colors v c
    max_colors_used := if c > st.max_colors_used then c else st.max_colors_used }

/-- The routine `first_fit_coloring`: vertices in the order `0, 1, .., num_vertices-1`. -/
def first_fit_coloring (g : Graph) : Outcome :=
  let st := (List.range g.num_vertices).foldl (first_fit_step g)
    { colors := fun _ => 0, max_colors_used := 0 }
  { colors := st.colors, returned := st.max_colors_used }

/-- The comparator `compare_vertex_degree` handed to `qsort`. -/
def compare_vertex_degree (a b : VertexDegree) : Int :=
  b.degree - a.degree

/-- The degree counted by the inner loop of `calculate_all_degrees` for row `i`. -/
def row_degree (g : Graph) (i : Nat) : Int :=
  (List.range g.num_vertices).foldl
    (fun degree j => if g.adj_matrix i j = 1 then degree + 1 else degree) 0

/-- The routine `calculate_all_degrees`: the table of `(id, degree)` entries. -/
def calculate_all_degrees (g : Graph) : List VertexDegree :=
  (List.range g.num_vertices).map (fun i => { id := i, degree := row_degree g i })

/-- Contract of `qsort` with `compare_vertex_degree`: the array left behind is a
rearrangement of the degree table in which no entry compares greater than a later one. -/
def QsortResult (g : Graph) (sorted : List VertexDegree) : Prop :=
  sorted.Perm (calculate_all_degrees g) ∧
  sorted.Pairwise (fun a b => compare_vertex_degree a b ≤ 0)

/-- The read `all_vertices_degrees[v].degree` on the unsorted table. -/
def table_degree (table : List VertexDegree) (v : Nat) : Int :=
  (table.getD v { id := 0, degree := 0 }).degree

/-- The routine `largest_degree_ordering_coloring` after its `qsort` call: the first-fit
step applied to `sorted[i].id` for `i = 0, 1, ..`. -/
def largest_degree_ordering_coloring (g : Graph) (sorted : List VertexDegree) : Outcome :=
  let st := sorted.foldl (fun st e => first_fit_step g st e.id)
    { colors := fun _ => 0, max_colors_used := 0 }
  { colors := st.colors, returned := st.max_colors_used }

/-- How one round of a `while` loop ends. -/
inductive Round (σ : Type) where
  | leave : Round σ
  | again : σ → Round σ
  | starved : Round σ

/-- The loop `while (cond) { body }`: `Round.leave` is a `break` out of it, `Round.again`
the end of a round, `Round.starved` a loop nested in the body that ran out of fuel. -/
def while_loop {σ : Type} (cond : σ → Bool) (body : σ → Round σ) : Nat → σ → Option σ
  | 0, st => if cond st = true then none else some st
  | fuel + 1, st =>
    if cond st = true then
      match body st with
      | Round.leave => some st
      | Round.again st1 => while_loop cond body fuel st1
      | Round.starved => none
    else some st

/-- State of the main loop of `welsh_powell_coloring`. -/
structure WPState where
  colors : Nat → Int
  is_colored : Nat → Bool
  colored_count : Nat
  current_color : Int

/-- The scan for `start_vertex_id`: the id of the first entry of the sorted array that is
not colored (`none` stands for `-1`). -/
def wp_start_vertex (sorted : List VertexDegree) (is_colored : Nat → Bool) : Option Nat :=
  (sorted.find? (fun e => !is_colored e.id)).map (fun e => e.id)

/-- The flag `can_color_with_current` for the vertex `v`: cleared when some `j` has
`adj_matrix[v][j] == 1` and `colors[j] == current_color`. -/
def can_color_with_current (g : Graph) (colors : Nat → Int) (current_color : Int) (v : Nat) :
    Bool :=
  !(List.range g.num_vertices).any
    (fun j => decide (g.adj_matrix v j = 1) && decide (colors j = current_color))

/-- Body of the pass `for (i ...)` of `welsh_powell_coloring` for one entry of the array. -/
def wp_pass_step (g : Graph) (start_vertex_id : Nat) (st : WPState) (e : VertexDegree) :
    WPState :=
  let current_v_id := e.id
  if st.is_colored current_v_id = false ∧ g.adj_matrix start_vertex_id current_v_id = 0 then
    if can_color_with_current g st.colors st.current_color current_v_id = true then
      { st with
        colors := store st.colors current_v_id st.current_color
        is_colored := store st.is_colored current_v_id true
        colored_count := st.colored_count + 1 }
    else st
  else st

/-- One round of the main loop of `welsh_powell_coloring`. -/
def wp_round (g : Graph) (sorted : List VertexDegree) (st : WPState) : Round WPState :=
  match wp_start_vertex sorted st.is_colored with
  | none => Round.leave
  | some start_vertex_id =>
    let st1 : WPState :=
      { st with
        colors := store st.colors start_vertex_id st.current_color
        is_colored := store st.is_colored start_vertex_id true
        colored_count := st.colored_count + 1 }
    let st2 := sorted.foldl (wp_pass_step g start_vertex_id) st1
    Round.again { st2 with current_color := st2.current_color + 1 }

/-- The main loop of `welsh_powell_coloring`, run from the initial state. -/
def wp_main_loop (g : Graph) (sorted : List VertexDegree) : Option WPState :=
  while_loop (fun st => decide (st.colored_count < g.num_vertices)) (wp_round g sorted)
    g.num_vertices
    { colors := fun _ => 0, is_colored := fun _ => false, colored_count := 0,
      current_color := 1 }

/-- The routine `welsh_powell_coloring` after its `qsort` call. -/
def welsh_powell_coloring (g : Graph) (sorted : List VertexDegree) : Option Outcome :=
  (wp_main_loop g sorted).map
    (fun st => { colors := st.colors, returned := st.current_color - 1 })

/-- The running values of a selection scan: the vertex chosen so far (`none` stands for
`-1`), the best primary key and the degree kept for the tie-break. -/
structure Selection where
  vertex : Option Nat
  max_key : Int
  max_degree : Int

/-- Body of the candidate scan shared by `incidence_degree_ordering_coloring`,
`dsatur_coloring` and the inner loop of `recursive_largest_first_coloring`: `eligible` is
the test that opens the body, `key` the count computed for the candidate and `degree` the
read `all_vertices_degrees[v_candidate].degree`. -/
def select_step (eligible : Nat → Bool) (key degree : Nat → Int) (s : Selection)
    (v_candidate : Nat) : Selection :=
  if eligible v_candidate = true then
    if key v_candidate > s.max_key then
      { vertex := some v_candidate, max_key := key v_candidate,
        max_degree := degree v_candidate }
    else if key v_candidate = s.max_key then
      if degree v_candidate > s.max_degree then
        { s with vertex := some v_candidate, max_degree := degree v_candidate }
      else s
    else s
  else s

/-- The candidate scan over `v_candidate = 0 .. n-1`, entered with the vertex `-1` and both
maxima `-1`. -/
def select_vertex (n : Nat) (eligible : Nat → Bool) (key degree : Nat → Int) : Option Nat :=
  ((List.range n).foldl (select_step eligible key degree)
    { vertex := none, max_key := -1, max_degree := -1 }).vertex

/-- The scan for `first_vertex_to_color_id` in `incidence_degree_ordering_coloring` and
`dsatur_coloring`: the first entry of the table whose degree beats all earlier ones. -/
def first_vertex_to_color (table : List VertexDegree) : Option Nat :=
  (table.foldl
    (fun (p : Option Nat × Int) e => if e.degree > p.2 then (some e.id, e.degree) else p)
    (none, -1)).1

/-- State of the main loops of `incidence_degree_ordering_coloring` and `dsatur_coloring`. -/
structure DynState where
  colors : Nat → Int
  is_colored : Nat → Bool
  colored_count : Nat
  max_colors_used : Int

/-- The state in which the main loop of `incidence_degree_ordering_coloring` and of
`dsatur_coloring` is entered: the first vertex, when there is one, holds colour 1. -/
def seed_state (table : List VertexDegree) : DynState :=
  match first_vertex_to_color table with
  | none =>
    { colors := fun _ => 0, is_colored := fun _ => false, colored_count := 0,
      max_colors_used := 0 }
  | some first_vertex_to_color_id =>
    { colors := store (fun _ => 0) first_vertex_to_color_id 1
      is_colored := store (fun _ => false) first_vertex_to_color_id true
      colored_count := 1
      max_colors_used := 1 }

/-- The tail of a round of `incidence_degree_ordering_coloring` and `dsatur_coloring`: the
chosen colour is written to `v_to_color` and the counters are updated. -/
def assign_color (st : DynState) (v_to_color : Nat) (c : Int) : DynState :=
  { colors := store st.colors v_to_color c
    is_colored := store st.is_colored v_to_color true
    colored_count := st.colored_count + 1
    max_colors_used := if c > st.max_colors_used then c else st.max_colors_used }

/-- The count `current_colored_neighbors` of `incidence_degree_ordering_coloring`. -/
def colored_neighbors (g : Graph) (is_colored : Nat → Bool) (v_candidate : Nat) : Int :=
  (List.range g.num_vertices).foldl
    (fun current_colored_neighbors neighbor =>
      if g.adj_matrix v_candidate neighbor = 1 ∧ is_colored neighbor = true then
        current_colored_neighbors + 1
      else current_colored_neighbors) 0

/-- One round of the main loop of `incidence_degree_ordering_coloring`. -/
def ido_round (g : Graph) (table : List VertexDegree) (st : DynState) : Round DynState :=
  match select_vertex g.num_vertices (fun v => !st.is_colored v)
      (colored_neighbors g st.is_colored) (table_degree table) with
  | none => Round.leave
  | some v_to_color =>
    let available_colors := mark_unavailable g v_to_color st.colors
      (fun neighbor =>
        st.is_colored neighbor && decide (st.colors neighbor ≤ (g.num_vertices : Int)))
    Round.again (assign_color st v_to_color (chosen_color g.num_vertices available_colors))

/-- The routine `incidence_degree_ordering_coloring`. -/
def incidence_degree_ordering_coloring (g : Graph) : Option Outcome :=
  (while_loop (fun st => decide (st.colored_count < g.num_vertices))
      (ido_round g (calculate_all_degrees g)) g.num_vertices
      (seed_state (calculate_all_degrees g))).map
    (fun st => { colors := st.colors, returned := st.max_colors_used })

/-- The count `current_saturation_degree` of `dsatur_coloring`, computed together with the
scratch array `neighbor_colors_present`. -/
def saturation_degree (g : Graph) (colors : Nat → Int) (is_colored : Nat → Bool)
    (v_candidate : Nat) : Int :=
  ((List.range g.num_vertices).foldl
    (fun (p : (Int → Bool) × Int) neighbor =>
      if g.adj_matrix v_candidate neighbor = 1 ∧ is_colored neighbor = true then
        let neighbor_color := colors neighbor
        if neighbor_color > 0 ∧ neighbor_color ≤ (g.num_vertices : Int) then
          if p.1 neighbor_color = false then (store p.1 neighbor_color true, p.2 + 1) else p
        else p
      else p)
    (fun _ => false, 0)).2

/-- One round of the main loop of `dsatur_coloring`. -/
def dsatur_round (g : Graph) (table : List VertexDegree) (st : DynState) : Round DynState :=
  match select_vertex g.num_vertices (fun v => !st.is_colored v)
      (saturation_degree g st.colors st.is_colored) (table_degree table) with
  | none => Round.leave
  | some v_to_color =>
    let available_colors := mark_unavailable g v_to_color st.colors
      (fun neighbor =>
        st.is_colored neighbor &&
          (decide (st.colors neighbor > 0) &&
            decide (st.colors neighbor ≤ (g.num_vertices : Int))))
    Round.again (assign_color st v_to_color (chosen_color g.num_vertices available_colors))

/-- The routine `dsatur_coloring`. -/
def dsatur_coloring (g : Graph) : Option Outcome :=
  (while_loop (fun st => decide (st.colored_count < g.num_vertices))
      (dsatur_round g (calculate_all_degrees g)) g.num_vertices
      (seed_state (calculate_all_degrees g))).map
    (fun st => { colors := st.colors, returned := st.max_colors_used })

/-- State of the main loop of `recursive_largest_first_coloring`. -/
structure RLFState where
  colors : Nat → Int
  is_colored : Nat → Bool
  colored_count : Nat
  current_color : Int
  max_colors_used : Int

/-- State of the inner loop of `recursive_largest_first_coloring`, which grows one colour
class: the arrays it writes and the frontier `set_U`. -/
structure ClassState where
  colors : Nat → Int
  is_colored : Nat → Bool
  colored_count : Nat
  set_U : Nat → Bool

/-- The scan for `start_vertex_id` in `recursive_largest_first_coloring`: over the table
entries, the first uncolored one whose degree beats all earlier uncolored ones. -/
def rlf_start_vertex (table : List VertexDegree) (is_colored : Nat → Bool) : Option Nat :=
  (table.foldl
    (fun (p : Option Nat × Int) e =>
      if is_colored e.id = false then
        if e.degree > p.2 then (some e.id, e.degree) else p
      else p)
    (none, -1)).1

/-- The loop that sets `set_U[neighbor] = true` for every neighbour of `v`. -/
def add_neighbors (g : Graph) (v : Nat) (set_U : Nat → Bool) : Nat → Bool :=
  (List.range g.num_vertices).foldl
    (fun set_U neighbor => if g.adj_matrix v neighbor = 1 then store set_U neighbor true
      else set_U)
    set_U

/-- The count `current_neighbors_in_U` of `recursive_largest_first_coloring`. -/
def neighbors_in_U (g : Graph) (set_U : Nat → Bool) (v_candidate : Nat) : Int :=
  (List.range g.num_vertices).foldl
    (fun current_neighbors_in_U neighbor_of_candidate =>
      if g.adj_matrix v_candidate neighbor_of_candidate = 1 ∧
          set_U neighbor_of_candidate = true then
        current_neighbors_in_U + 1
      else current_neighbors_in_U) 0

/-- One round of the inner loop `while (true)` of `recursive_largest_first_coloring`. -/
def rlf_class_round (g : Graph) (table : List VertexDegree) (current_color : Int)
    (cs : ClassState) : Round ClassState :=
  match select_vertex g.num_vertices (fun v => !cs.is_colored v && !cs.set_U v)
      (neighbors_in_U g cs.set_U) (table_degree table) with
  | none => Round.leave
  | some next_vertex_for_current_color =>
    Round.again
      { colors := store cs.colors next_vertex_for_current_color current_color
        is_colored := store cs.is_colored next_vertex_for_current_color true
        colored_count := cs.colored_count + 1
        set_U := add_neighbors g next_vertex_for_current_color cs.set_U }

/-- One round of the main loop of `recursive_largest_first_coloring`: a colour class is
opened at `start_vertex_id`, grown by the inner loop and closed. -/
def rlf_round (g : Graph) (table : List VertexDegree) (st : RLFState) : Round RLFState :=
  match rlf_start_vertex table st.is_colored with
  | none => Round.leave
  | some start_vertex_id =>
    let cs0 : ClassState :=
      { colors := store st.colors start_vertex_id st.current_color
        is_colored := store st.is_colored start_vertex_id true
        colored_count := st.colored_count + 1
        set_U := add_neighbors g start_vertex_id (fun _ => false) }
    match while_loop (fun _ => true) (rlf_class_round g table st.current_color)
        (g.num_vertices + 1) cs0 with
    | none => Round.starved
    | some cs =>
      let current_color := st.current_color + 1
      Round.again
        { colors := cs.colors
          is_colored := cs.is_colored
          colored_count := cs.colored_count
          current_color := current_color
          max_colors_used :=
            if current_color > st.max_colors_used then current_color - 1
            else st.max_colors_used }

/-- The main loop of `recursive_largest_first_coloring`, run from the initial state. -/
def rlf_main_loop (g : Graph) : Option RLFState :=
  while_loop (fun st => decide (st.colored_count < g.num_vertices))
    (rlf_round g (calculate_all_degrees g)) g.num_vertices
    { colors := fun _ => 0, is_colored := fun _ => false, colored_count := 0,
      current_color := 1, max_colors_used := 0 }

/-- The routine `recursive_largest_first_coloring`. -/
def recursive_largest_first_coloring (g : Graph) : Option Outcome :=
  (rlf_main_loop g).map (fun st => { colors := st.colors, returned := st.max_colors_used })

/-- Every entry of `colors[0 .. num_vertices-1]` lies in `1 .. num_vertices`. -/
def InRange (g : Graph) (colors : Nat → Int) : Prop :=
  ∀ v, v < g.num_vertices → 1 ≤ colors v ∧ colors v ≤ (g.num_vertices : Int)

/-- The largest entry of `colors[0 .. num_vertices-1]`, for an array with an entry. -/
def max_entry (g : Graph) (colors : Nat → Int) : Int :=
  (List.range g.num_vertices).foldl (fun m v => max m (colors v)) (colors 0)

/-- The triangle on the vertices 0, 1, 2. -/
def triangle : Graph :=
  { num_vertices := 3, num_arestas := 3,
    adj_matrix := fun u v => if u < 3 ∧ v < 3 ∧ u ≠ v then 1 else 0 }

/-- The 4-cycle with the edges 0-1, 1-2, 2-3, 3-0. -/
def cycle4 : Graph :=
  { num_vertices := 4, num_arestas := 4,
    adj_matrix := fun u v =>
      if u < 4 ∧ v < 4 ∧ ((u + 1) % 4 = v ∨ (v + 1) % 4 = u) then 1 else 0 }

/-- The star with centre 1 and leaves 0, 2, 3: vertex 1 has degree 3, the others 1. -/
def star3 : Graph :=
  { num_vertices := 4, num_arestas := 3,
    adj_matrix := fun u v =>
      if (u = 1 ∧ v < 4 ∧ v ≠ 1) ∨ (v = 1 ∧ u < 4 ∧ u ≠ 1) then 1 else 0 }

/-- A degree-sorted arrangement of the degree table of `star3`, ties in the order
3, 0, 2. -/
def star3_sorted : List VertexDegree :=
  [{ id := 1, degree := 3 }, { id := 3, degree := 1 }, { id := 0, degree := 1 },
    { id := 2, degree := 1 }]

/-- A degree-sorted arrangement of the degree table of `cycle4`, where all degrees tie. -/
def cycle4_sorted : List VertexDegree :=
  [{ id := 2, degree := 2 }, { id := 0, degree := 2 }, { id := 3, degree := 2 },
    { id := 1, degree := 2 }]

/-! ## Predicates used by the proofs -/

/-- Every vertex that holds a colour differs from each of its neighbours. -/
def PartialProper (g : Graph) (colors : Nat → Int) : Prop :=
  ∀ u, u < g.num_vertices → ∀ w, w < g.num_vertices →
    g.adj_matrix u w = 1 → colors u ≠ 0 → colors u ≠ colors w

/-- Every colour of `1 .. m` is held by some vertex. -/
def AllUsed (g : Graph) (colors : Nat → Int) (m : Int) : Prop :=
  ∀ c, 1 ≤ c → c ≤ m → ∃ v, v < g.num_vertices ∧ colors v = c

/-- Every colour below the colour of a vertex is held by one of its neighbours. -/
def Greedy (g : Graph) (colors : Nat → Int) : Prop :=
  ∀ v, v < g.num_vertices → ∀ x, 1 ≤ x → x < colors v →
    ∃ w, w < g.num_vertices ∧ g.adj_matrix v w = 1 ∧ colors w = x

/-- The value `m` bounds the array and, unless it is still `0`, is held by some vertex;
and no colour of `1 .. m` is skipped. -/
def MaxOK (g : Graph) (colors : Nat → Int) (m : Int) : Prop :=
  (∀ v, colors v ≤ m) ∧ ((∃ v, v < g.num_vertices ∧ colors v = m) ∨ m = 0) ∧
  AllUsed g colors m

/-- Number of `true` entries among the first `n` of a flag array. -/
def count_true (f : Nat → Bool) : Nat → Nat
  | 0 => 0
  | n + 1 => count_true f n + (if f n = true then 1 else 0)

/-- Invariant of the first-fit loops once `k` vertices were visited: colored vertices
differ from their neighbours, every colour lies in `0 .. k`, `max_colors_used` is the
largest entry, and every colour below a vertex's own is held by one of its neighbours. -/
def FFInv (g : Graph) (k : Nat) (st : FFState) : Prop :=
  PartialProper g st.colors ∧
  (∀ v, 0 ≤ st.colors v ∧ st.colors v ≤ (k : Int)) ∧
  MaxOK g st.colors st.max_colors_used ∧
  Greedy g st.colors

/-- Invariant of the main loops of `incidence_degree_ordering_coloring` and
`dsatur_coloring`: `colored_count` counts the flags set in `is_colored`, the flags tell
the nonzero colours, colours lie in `0 .. colored_count`, colored vertices differ from
their neighbours, `max_colors_used` is the largest entry, and every colour below a
vertex's own is held by one of its neighbours. -/
def DynInv (g : Graph) (st : DynState) : Prop :=
  st.colored_count = count_true st.is_colored g.num_vertices ∧
  (∀ v, 0 ≤ st.colors v ∧ st.colors v ≤ (st.colored_count : Int)) ∧
  (∀ v, v < g.num_vertices →
    (st.is_colored v = true → 1 ≤ st.colors v) ∧ (st.is_colored v = false → st.colors v = 0)) ∧
  PartialProper g st.colors ∧
  MaxOK g st.colors st.max_colors_used ∧
  Greedy g st.colors

/-- Invariant at the head of the main loops of `welsh_powell_coloring` and
`recursive_largest_first_coloring`, where colour `current_color` is about to be opened:
`colored_count` counts the flags set, the flags tell the nonzero colours, every colour in
use is below `current_color`, at most `colored_count` colours were opened, colored
vertices differ from their neighbours and every colour opened so far is in use. -/
def ClassHeadInv (g : Graph) (colors : Nat → Int) (is_colored : Nat → Bool)
    (colored_count : Nat) (current_color : Int) : Prop :=
  colored_count = count_true is_colored g.num_vertices ∧
  1 ≤ current_color ∧ current_color ≤ (colored_count : Int) + 1 ∧
  (∀ v, 0 ≤ colors v ∧ colors v ≤ current_color - 1) ∧
  (∀ v, v < g.num_vertices →
    (is_colored v = true → 1 ≤ colors v) ∧ (is_colored v = false → colors v = 0)) ∧
  PartialProper g colors ∧
  AllUsed g colors (current_color - 1)

/-- Invariant while the class of colour `current_color` is being grown. -/
def ClassGrowInv (g : Graph) (colors : Nat → Int) (is_colored : Nat → Bool)
    (colored_count : Nat) (current_color : Int) : Prop :=
  colored_count = count_true is_colored g.num_vertices ∧
  1 ≤ current_color ∧ current_color ≤ (colored_count : Int) ∧
  (∀ v, 0 ≤ colors v ∧ colors v ≤ current_color) ∧
  (∀ v, v < g.num_vertices →
    (is_colored v = true → 1 ≤ colors v) ∧ (is_colored v = false → colors v = 0)) ∧
  PartialProper g colors ∧
  AllUsed g colors current_color

/-- Invariant of the inner loop of `recursive_largest_first_coloring` for the class of
colour `current_color`: the class invariant, and `set_U` holds every neighbour of every
vertex of the class. -/
def RLFClassInv (g : Graph) (current_color : Int) (cs : ClassState) : Prop :=
  ClassGrowInv g cs.colors cs.is_colored cs.colored_count current_color ∧
  ∀ w, w < g.num_vertices → cs.colors w = current_color →
    ∀ x, x < g.num_vertices → g.adj_matrix w x = 1 → cs.set_U x = true

/-- Invariant of the main loop of `recursive_largest_first_coloring`. -/
def RLFInv (g : Graph) (st : RLFState) : Prop :=
  ClassHeadInv g st.colors st.is_colored st.colored_count st.current_color ∧
  st.max_colors_used = st.current_color - 1

/-- The values of `colors[0 .. num_vertices-1]` are exactly the colours `1 .. k`. -/
def ColorsAre (g : Graph) (colors : Nat → Int) (k : Int) : Prop :=
  (∀ v, v < g.num_vertices → 1 ≤ colors v ∧ colors v ≤ k) ∧
  ∀ c, 1 ≤ c → c ≤ k → ∃ v, v < g.num_vertices ∧ colors v = c

/-- The number of distinct values in `colors[0 .. num_vertices-1]`. -/
def distinct_colors (g : Graph) (colors : Nat → Int) : Nat :=
  ((List.range g.num_vertices).map colors).dedup.length

/-- The largest number of 1-entries in a row of the adjacency matrix. -/
def max_degree (g : Graph) : Int :=
  (List.range g.num_vertices).foldl (fun m i => max m (row_degree g i)) 0

/-- The colours of the vertices 0, 1, 2 are pairwise different. -/
def ThreeDifferent (colors : Nat → Int) : Prop :=
  colors 0 ≠ colors 1 ∧ colors 1 ≠ colors 2 ∧ colors 0 ≠ colors 2

/-- A graph on 5 vertices with the edges 0-2, 0-3, 1-3, 0-4 and 2-4. -/
def saturation_graph : Graph :=
  { num_vertices := 5, num_arestas := 5,
    adj_matrix := fun u v =>
      if (u, v) ∈ [(0, 2), (2, 0), (0, 3), (3, 0), (1, 3), (3, 1), (0, 4), (4, 0), (2, 4),
          (4, 2)] then 1
      else 0 }

/-- A partial colouring of `saturation_graph`: vertices 0 and 1 hold colour 1, vertex 2
holds colour 2, vertices 3 and 4 are uncolored. -/
def saturation_colors : Nat → Int :=
  fun v => if v = 0 then 1 else if v = 1 then 1 else if v = 2 then 2 else 0

/-- The flags `is_colored` that go with `saturation_colors`. -/
def saturation_is_colored : Nat → Bool :=
  fun v => decide (v < 3)

/-- A degree-sorted arrangement of the degree table of `triangle`, where all degrees tie. -/
def triangle_sorted : List VertexDegree :=
  [{ id := 1, degree := 2 }, { id := 2, degree := 2 }, { id := 0, degree := 2 }]

/-! ## Colour refinement (`colorRefinament.c`)

A matrix `int **` is a function of the row and the column index.  A run of the C code has
no defined behaviour when it indexes an array outside its bounds or when an `int`
operation overflows; the embedding then stops with the `Fault` that occurred.  The
refinement loop runs on fuel and stops with `Fault.out_of_fuel` when the fuel is used up
before `changed` stays `0`. -/

/-- Why a run of `color_refinement` has no result. -/
inductive Fault where
  | out_of_bounds : Fault
  | overflow : Fault
  | out_of_fuel : Fault
  deriving DecidableEq

/-- The largest `int`. -/
def int_max : Int := 2147483647

/-- The smallest `int`. -/
def int_min : Int := -2147483648

/-- An `int` operation whose exact result is `x`: a fault when `x` is no `int`. -/
def int_result (x : Int) : Except Fault Int :=
  if int_min ≤ x ∧ x ≤ int_max then Except.ok x else Except.error Fault.overflow

/-- The row sum `degree` that `init_colors` computes for row `i`, by the statements
`degree += incidence[i][j]`. -/
def row_sum (incidence : Nat → Nat → Int) (m : Nat) (i : Nat) : Except Fault Int :=
  (List.range m).foldlM (fun degree j => int_result (degree + incidence i j)) 0

/-- The routine `init_colors`: `color[i]` becomes the sum of row `i`. -/
def init_colors (incidence : Nat → Nat → Int) (n m : Nat) (color : Nat → Int) :
    Except Fault (Nat → Int) :=
  (List.range n).foldlM
    (fun color i => do
      let degree ← row_sum incidence m i
      Except.ok (store color i degree))
    color

/-- The statement `signature[idx]++` on the `n`-entry array `signature`. -/
def bump (n : Nat) (signature : Int → Int) (idx : Int) : Except Fault (Int → Int) :=
  if 0 ≤ idx ∧ idx < (n : Int) then
    if signature idx < int_max then Except.ok (store signature idx (signature idx + 1))
    else Except.error Fault.overflow
  else Except.error Fault.out_of_bounds

/-- The loops over `j` and `k` of `refine_colors` for row `i`: the array `signature`,
zeroed by `calloc`, after them. -/
def row_signature (incidence : Nat → Nat → Int) (n m : Nat) (color : Nat → Int) (i : Nat) :
    Except Fault (Int → Int) :=
  (List.range m).foldlM
    (fun signature j =>
      if incidence i j ≠ 0 then
        (List.range n).foldlM
          (fun signature k =>
            if k ≠ i ∧ incidence k j ≠ 0 then bump n signature (color k)
            else Except.ok signature)
          signature
      else Except.ok signature)
    (fun _ => 0)

/-- The loop over `c` of `refine_colors`: `hash = hash * 31 + c * signature[c]` for every
`c` with `signature[c] > 0`. -/
def signature_hash (n : Nat) (signature : Int → Int) : Except Fault Int :=
  (List.range n).foldlM
    (fun hash (c : Nat) =>
      if signature (c : Int) > 0 then do
        let a ← int_result (hash * 31)
        let b ← int_result ((c : Int) * signature (c : Int))
        int_result (a + b)
      else Except.ok hash)
    0

/-- The routine `refine_colors`: `new_color[i]` becomes the hash of the signature of row
`i`, for `i = 0 .. n-1`. -/
def refine_colors (incidence : Nat → Nat → Int) (n m : Nat) (color new_color : Nat → Int) :
    Except Fault (Nat → Int) :=
  (List.range n).foldlM
    (fun new_color i => do
      let signature ← row_signature incidence n m color i
      let hash ← signature_hash n signature
      Except.ok (store new_color i hash))
    new_color

/-- State of the refinement loop of `color_refinement`. -/
structure RefineState where
  color1 : Nat → Int
  color2 : Nat → Int
  new_color1 : Nat → Int
  new_color2 : Nat → Int
  changed : Int

/-- The loop that follows the two `refine_colors` calls: `changed` is set when a colour of
the first matrix differs from its new colour, and both colour arrays take the new
colours. -/
def copy_back (n : Nat) (st : RefineState) : RefineState :=
  (List.range n).foldl
    (fun st i =>
      { st with
        changed := if st.color1 i ≠ st.new_color1 i then 1 else st.changed
        color1 := store st.color1 i (st.new_color1 i)
        color2 := store st.color2 i (st.new_color2 i) })
    st

/-- One round of the loop `while (changed)`. -/
def refine_round (inc1 inc2 : Nat → Nat → Int) (n m : Nat) (st : RefineState) :
    Except Fault RefineState := do
  let new_color1 ← refine_colors inc1 n m st.color1 st.new_color1
  let new_color2 ← refine_colors inc2 n m st.color2 st.new_color2
  Except.ok (copy_back n
    { st with new_color1 := new_color1, new_color2 := new_color2, changed := 0 })

/-- The loop `while (changed)` of `color_refinement`. -/
def refinement_loop (inc1 inc2 : Nat → Nat → Int) (n m : Nat) :
    Nat → RefineState → Except Fault RefineState
  | 0, st => if st.changed ≠ 0 then Except.error Fault.out_of_fuel else Except.ok st
  | fuel + 1, st =>
    if st.changed ≠ 0 then
      match refine_round inc1 inc2 n m st with
      | Except.ok st1 => refinement_loop inc1 inc2 n m fuel st1
      | Except.error f => Except.error f
    else Except.ok st

/-- The state in which `color_refinement` enters its loop: both colour arrays hold the row
sums and `changed` is `1`. -/
def refine_start (inc1 inc2 : Nat → Nat → Int) (n m : Nat) : Except Fault RefineState := do
  let color1 ← init_colors inc1 n m (fun _ => 0)
  let color2 ← init_colors inc2 n m (fun _ => 0)
  Except.ok
    { color1 := color1
      color2 := color2
      new_color1 := fun _ => 0
      new_color2 := fun _ => 0
      changed := 1 }

/-- The statement `freq[color % (n * n)]++` on the `n * n`-entry array `freq`; the `%` of C
truncates towards zero.  An entry counts rows, so it stays at most `n` and cannot
overflow. -/
def bump_freq (n : Nat) (freq : Int → Int) (color : Int) : Except Fault (Int → Int) :=
  if 0 ≤ Int.tmod color ((n : Int) * n) ∧ Int.tmod color ((n : Int) * n) < (n : Int) * n then
    Except.ok (store freq (Int.tmod color ((n : Int) * n))
      (freq (Int.tmod color ((n : Int) * n)) + 1))
  else Except.error Fault.out_of_bounds

/-- The loop that fills `freq1` and `freq2`, both zeroed by `calloc`. -/
def fill_freq (n : Nat) (color1 color2 : Nat → Int) :
    Except Fault ((Int → Int) × (Int → Int)) :=
  (List.range n).foldlM
    (fun (p : (Int → Int) × (Int → Int)) i => do
      let freq1 ← bump_freq n p.1 (color1 i)
      let freq2 ← bump_freq n p.2 (color2 i)
      Except.ok (freq1, freq2))
    (fun _ => 0, fun _ => 0)

/-- The loop that compares the two frequency arrays: `result` is `0` when some bucket
differs and `1` otherwise. -/
def compare_freq (n : Nat) (freq1 freq2 : Int → Int) : Int :=
  if (List.range (n * n)).any (fun i => decide (freq1 (i : Int) ≠ freq2 (i : Int))) = true then 0
  else 1

/-- The part of `color_refinement` that follows the loop, for the final colours. -/
def verdict (n : Nat) (color1 color2 : Nat → Int) : Except Fault Int := do
  let _ ← int_result ((n : Int) * n)
  let p ← fill_freq n color1 color2
  Except.ok (compare_freq n p.1 p.2)

/-- The colours of the two matrices when the loop of `color_refinement` stops. -/
def final_colors (fuel : Nat) (inc1 inc2 : Nat → Nat → Int) (n m : Nat) :
    Except Fault RefineState := do
  let st ← refine_start inc1 inc2 n m
  refinement_loop inc1 inc2 n m fuel st

/-- The routine `color_refinement`. -/
def color_refinement (fuel : Nat) (inc1 inc2 : Nat → Nat → Int) (n m : Nat) :
    Except Fault Int := do
  let st ← final_colors fuel inc1 inc2 n m
  verdict n st.color1 st.color2

/-- A matrix given by the list of its rows; entries outside the lists are 0. -/
def matrix_of (rows : List (List Int)) : Nat → Nat → Int :=
  fun i j => (rows.getD i []).getD j 0

/-- Entries 0 and 1 only, in the `n` rows and `m` columns of the matrix. -/
def IsBinary (n m : Nat) (incidence : Nat → Nat → Int) : Prop :=
  ∀ i, i < n → ∀ j, j < m → incidence i j = 0 ∨ incidence i j = 1

/-- The second matrix is the first one after a permutation of its rows and a permutation
of its columns. -/
def Permuted (n m : Nat) (inc1 inc2 : Nat → Nat → Int) : Prop :=
  ∃ (rows : Equiv.Perm (Fin n)) (cols : Equiv.Perm (Fin m)),
    ∀ (i : Fin n) (j : Fin m), inc2 (rows i) (cols j) = inc1 i j

/-- The number of 1-entries of an `n x m` matrix. -/
def total_ones (n m : Nat) (incidence : Nat → Nat → Int) : Nat :=
  ((List.range n).map
    (fun i => ((List.range m).filter (fun j => incidence i j = 1)).length)).sum

/-- The number of rows `i < n` whose colour is congruent to `b` modulo `n * n`. -/
def bucket_count (n : Nat) (color : Nat → Int) (b : Nat) : Nat :=
  ((Finset.range n).filter (fun i => color i % ((n : Int) * n) = (b : Int))).card

/-- The number of times the loops of `refine_colors` for row `i` reach `signature[c]++`:
the pairs of a column `j` with `incidence[i][j]` set and a row `k` other than `i` with
`incidence[k][j]` set and `color[k] = c`. -/
def signature_count (incidence : Nat → Nat → Int) (n m : Nat) (color : Nat → Int) (i : Nat)
    (c : Int) : Int :=
  ∑ j in Finset.range m,
    if incidence i j ≠ 0 then
      ∑ k in Finset.range n, if k ≠ i ∧ incidence k j ≠ 0 ∧ color k = c then 1 else 0
    else 0

/-- The colours of the second matrix are those of the first one, moved along the row
permutation. -/
def ColorsPermuted (n : Nat) (rows : Equiv.Perm (Fin n)) (color1 color2 : Nat → Int) : Prop :=
  ∀ k : Fin n, color2 (rows k) = color1 k

/-- The 3 x 2 matrix with the rows 01, 01, 10. -/
def refine_example1 : Nat → Nat → Int :=
  matrix_of [[0, 1], [0, 1], [1, 0]]

/-- The matrix `refine_example1` with its rows 1 and 2 swapped and its two columns
swapped: the rows 10, 01, 10. -/
def refine_example2 : Nat → Nat → Int :=
  matrix_of [[1, 0], [0, 1], [1, 0]]

/-- The 3 x 2 matrix with the rows 10, 00, 00. -/
def refine_example3 : Nat → Nat → Int :=
  matrix_of [[1, 0], [0, 0], [0, 0]]

/-- The 2 x 1 matrix with the rows 1, 1. -/
def refine_pair1 : Nat → Nat → Int :=
  matrix_of [[1], [1]]

/-- The 2 x 1 matrix with the rows 1, 0. -/
def refine_pair2 : Nat → Nat → Int :=
  matrix_of [[1], [0]]

/-- The states in which the loop `while (cond) { body }`, entered in the state `init`,
evaluates its condition: `init`, and every state left by a round that ran to its end from
such a state in which the condition held. -/
inductive Reached {σ : Type} (cond : σ → Bool) (body : σ → Round σ) (init : σ) : σ → Prop where
  | start : Reached cond body init init
  | step (st st1 : σ) : Reached cond body init st → cond st = true →
      body st = Round.again st1 → Reached cond body init st1

/-- The states at the head of the main loop of `welsh_powell_coloring`. -/
def WpReached (g : Graph) (sorted : List VertexDegree) (st : WPState) : Prop :=
  Reached (fun st => decide (st.colored_count < g.num_vertices)) (wp_round g sorted)
    { colors := fun _ => 0, is_colored := fun _ => false, colored_count := 0,
      current_color := 1 } st

/-- The states at the head of the main loop of `incidence_degree_ordering_coloring`. -/
def IdoReached (g : Graph) (st : DynState) : Prop :=
  Reached (fun st => decide (st.colored_count < g.num_vertices))
    (ido_round g (calculate_all_degrees g)) (seed_state (calculate_all_degrees g)) st

/-- The states at the head of the main loop of `dsatur_coloring`. -/
def DsaturReached (g : Graph) (st : DynState) : Prop :=
  Reached (fun st => decide (st.colored_count < g.num_vertices))
    (dsatur_round g (calculate_all_degrees g)) (seed_state (calculate_all_degrees g)) st

/-- The states at the head of the main loop of `recursive_largest_first_coloring`. -/
def RlfReached (g : Graph) (st : RLFState) : Prop :=
  Reached (fun st => decide (st.colored_count < g.num_vertices))
    (rlf_round g (calculate_all_degrees g))
    { colors := fun _ => 0, is_colored := fun _ => false, colored_count := 0,
      current_color := 1, max_colors_used := 0 } st

/-- The pair `(key v, degree v)` is at most the pair `(key s, degree s)` in the
lexicographic order. -/
def LexLe (key degree : Nat → Int) (v s : Nat) : Prop :=
  key v < key s ∨ (key v = key s ∧ degree v ≤ degree s)

/-- The vertex `s` is an eligible vertex below `n` whose pair `(key, degree)` is the
lexicographic maximum over the eligible vertices below `n`, and it has the lowest id among
the eligible vertices with that pair. -/
def IsLexMax (n : Nat) (eligible : Nat → Bool) (key degree : Nat → Int) (s : Nat) : Prop :=
  s < n ∧ eligible s = true ∧
  ∀ v, v < n → eligible v = true →
    LexLe key degree v s ∧ (key v = key s → degree v = degree s → s ≤ v)

/-- The number of neighbours `w` of `v` with `flags[w]` set. -/
def flagged_neighbors (g : Graph) (flags : Nat → Bool) (v : Nat) : Nat :=
  ((Finset.range g.num_vertices).filter
    (fun w => g.adj_matrix v w = 1 ∧ flags w = true)).card

/-- The number of distinct colours among the colored neighbours of `v`. -/
def distinct_neighbor_colors (g : Graph) (colors : Nat → Int) (is_colored : Nat → Bool)
    (v : Nat) : Nat :=
  (((Finset.range g.num_vertices).filter
    (fun w => g.adj_matrix v w = 1 ∧ is_colored w = true)).image colors).card

/-- The colour `c` is the smallest positive integer that no colored neighbour of `v`
holds. -/
def SmallestAbsent (g : Graph) (colors : Nat → Int) (is_colored : Nat → Bool) (v : Nat)
    (c : Int) : Prop :=
  1 ≤ c ∧
  (∀ w, w < g.num_vertices → g.adj_matrix v w = 1 → is_colored w = true → colors w ≠ c) ∧
  ∀ x, 1 ≤ x → x < c →
    ∃ w, w < g.num_vertices ∧ g.adj_matrix v w = 1 ∧ is_colored w = true ∧ colors w = x

/-- The vertex `s` is a vertex below `n` that passes the test `E`, its degree is the
largest among such vertices, and it has the lowest id among those of that degree. -/
def IsMaxDegree (n : Nat) (E : Nat → Prop) (degree : Nat → Int) (s : Nat) : Prop :=
  s < n ∧ E s ∧
  ∀ v, v < n → E v → degree v ≤ degree s ∧ (degree v = degree s → s ≤ v)

/-- The state in which the inner loop of `recursive_largest_first_coloring` is entered for
the class opened at `start_vertex_id`: that vertex holds the active colour and `set_U`,
zeroed by `calloc`, holds its neighbours. -/
def rlf_open_class (g : Graph) (st : RLFState) (start_vertex_id : Nat) : ClassState :=
  { colors := store st.colors start_vertex_id st.current_color
    is_colored := store st.is_colored start_vertex_id true
    colored_count := st.colored_count + 1
    set_U := add_neighbors g start_vertex_id (fun _ => false) }

/-- The class state in which the inner loop of `recursive_largest_first_coloring` ends
when it is entered in `cs`. -/
def rlf_grow_class (g : Graph) (table : List VertexDegree) (current_color : Int)
    (cs : ClassState) : Option ClassState :=
  while_loop (fun _ => true) (rlf_class_round g table current_color) (g.num_vertices + 1) cs

/-- The state in which a round of the main loop of `recursive_largest_first_coloring`
ends when its inner loop ended in `cs`: the class is closed and `current_color` moves on. -/
def rlf_close_class (st : RLFState) (cs : ClassState) : RLFState :=
  { colors := cs.colors
    is_colored := cs.is_colored
    colored_count := cs.colored_count
    current_color := st.current_color + 1
    max_colors_used :=
      if st.current_color + 1 > st.max_colors_used then st.current_color + 1 - 1
      else st.max_colors_used }

/-- How the class being grown relates to the state `st` in which it was opened: the
vertices colored before keep their colours, the vertices colored since hold the active
colour, and `set_U` holds only neighbours of vertices of the class. -/
def RLFGrowRel (g : Graph) (st : RLFState) (cs : ClassState) : Prop :=
  (∀ v, st.is_colored v = true → cs.colors v = st.colors v ∧ cs.is_colored v = true) ∧
  (∀ v, v < g.num_vertices → cs.is_colored v = true → st.is_colored v = false →
    cs.colors v = st.current_color) ∧
  (∀ x, x < g.num_vertices → cs.set_U x = true →
    ∃ w, w < g.num_vertices ∧ cs.colors w = st.current_color ∧ g.adj_matrix w x = 1)

/-- Following the specification (4.2): the smallest positive integer not equal to any
already-decided neighbour's colour. The candidates `1, 2, ..` are tried in increasing order,
up to one above the largest of those colours. -/
def spec_smallest_available (g : Graph) (colors : Nat → Int) (decided : List Nat) (v : Nat) :
    Int :=
  let used := (decided.filter (fun u => decide (g.adj_matrix v u = 1))).map colors
  let largest := used.foldl max 0
  match (List.range (largest.toNat + 1)).find?
      (fun (k : Nat) => !used.contains ((k : Int) + 1)) with
  | some k => (k : Int) + 1
  | none => largest + 1

/-- Following the specification (4.2, 4.3): the primitive applied to the vertices of `order`
one after the other, each vertex becoming already decided once it has its colour. -/
def spec_first_fit_along (g : Graph) (order : List Nat) : (Nat → Int) × List Nat :=
  order.foldl
    (fun p v => (store p.1 v (spec_smallest_available g p.1 p.2 v), v :: p.2))
    (fun _ => 0, [])

/-- Following the specification (4.5): the primitive applied to the vertices in the order
of the sorted degree table. -/
def spec_largest_degree_ordering (g : Graph) (sorted : List VertexDegree) : Nat → Int :=
  (spec_first_fit_along g (sorted.map (fun e => e.id))).1

/-- The state in which `welsh_powell_coloring` enters its main loop. -/
def wp_example_start : WPState :=
  { colors := fun _ => 0, is_colored := fun _ => false, colored_count := 0,
    current_color := 1 }

/-- The state in which `recursive_largest_first_coloring` enters its main loop. -/
def rlf_example_start : RLFState :=
  { colors := fun _ => 0, is_colored := fun _ => false, colored_count := 0,
    current_color := 1, max_colors_used := 0 }

/-- The class of colour 1 of `cycle4` right after it was opened at vertex 0. -/
def rlf_example_class : ClassState :=
  rlf_open_class cycle4 rlf_example_start 0

/-- The class of colour 1 of `cycle4` after the inner loop took vertex 2. -/
def rlf_example_class_next : ClassState :=
  { colors := store rlf_example_class.colors 2 1
    is_colored := store rlf_example_class.is_colored 2 true
    colored_count := rlf_example_class.colored_count + 1
    set_U := add_neighbors cycle4 2 rlf_example_class.set_U }

/-- The state in which `incidence_degree_ordering_coloring` and `dsatur_coloring` enter
their main loop on `star3`. -/
def dyn_example_start : DynState :=
  seed_state (calculate_all_degrees star3)

/-! ## The maximal points (`maxPt.c`, `maxPtRecur.c`)

The array `Pt* pts[]` is a function of the index; what a routine prints is the list of the
points it printed, in the order of the `printf` calls. -/

/-- The struct `Pt`. -/
structure Pt where
  x : Int
  y : Int
  deriving DecidableEq

/-- The routine `domina`: `q` has both coordinates at least those of `p`. -/
def domina (p q : Pt) : Bool :=
  decide (q.x ≥ p.x ∧ q.y ≥ p.y)

/-- The inner loop over `j` of `max` and of `max_recurs` for the index `i`: the flag
`dominated` it leaves, set (and the loop left by `break`) at the first `j` with `i != j`
and `domina(pts[i], pts[j])`. -/
def dominated (n : Nat) (pts : Nat → Pt) (i : Nat) : Bool :=
  (List.range n).any (fun j => decide (i ≠ j) && domina (pts i) (pts j))

/-- The routine `max` of `maxPt.c` (the name `max` is taken in Lean): the points it
prints. -/
def max_points (n : Nat) (pts : Nat → Pt) : List Pt :=
  (List.range n).foldl
    (fun printed i => if dominated n pts i = true then printed else printed ++ [pts i])
    []

/-- The routine `max_recurs` of `maxPtRecur.c`, called with `idx`: the points it prints.
The first argument bounds the depth of the calls; `none` when it is used up. -/
def max_recurs (n : Nat) (pts : Nat → Pt) : Nat → Nat → Option (List Pt)
  | 0, _ => none
  | depth + 1, idx =>
    if idx = n then some []
    else
      (max_recurs n pts depth (idx + 1)).map
        (fun rest => if dominated n pts idx = true then rest else pts idx :: rest)

/-- The three points of the `main` of `maxPt.c`: (0, 4), (2, 5), (3, 3). -/
def main_points : Nat → Pt :=
  fun i => if i = 0 then { x := 0, y := 4 } else if i = 1 then { x := 2, y := 5 }
    else { x := 3, y := 3 }

/-- The 3 x 3 matrix without a 1-entry. -/
def refine_zero3 : Nat → Nat → Int :=
  matrix_of [[0, 0, 0], [0, 0, 0], [0, 0, 0]]

/-- The 3 x 3 matrix with the rows 110, 100, 010. -/
def refine_path3 : Nat → Nat → Int :=
  matrix_of [[1, 1, 0], [1, 0, 0], [0, 1, 0]]

/-- The 3 x 3 matrix with the rows 011, 101, 110: the adjacency matrix of the triangle. -/
def refine_triangle : Nat → Nat → Int :=
  matrix_of [[0, 1, 1], [1, 0, 1], [1, 1, 0]]

/-- The 3 x 3 matrix with the rows 000, 001, 011. -/
def refine_swap3 : Nat → Nat → Int :=
  matrix_of [[0, 0, 0], [0, 0, 1], [0, 1, 1]]

/-- The three rows hold the colours (0, 1, 2) or the colours (0, 2, 1). -/
def Swap3Colors (color : Nat → Int) : Prop :=
  color 0 = 0 ∧ ((color 1 = 1 ∧ color 2 = 2) ∨ (color 1 = 2 ∧ color 2 = 1))

/-- What a round of a main loop does to the flags `is_colored` and to `colored_count`: the
count grows, no flag is cleared, and some vertex below `n` has its flag set by the round. -/
def ColorsOneMore (n : Nat) (is_colored : Nat → Bool) (colored_count : Nat)
    (is_colored1 : Nat → Bool) (colored_count1 : Nat) : Prop :=
  colored_count < colored_count1 ∧
  (∀ v, is_colored v = true → is_colored1 v = true) ∧
  ∃ v, v < n ∧ is_colored v = false ∧ is_colored1 v = true

/-- Some vertex that stands before position `i` of the sequence `ids` is a neighbour of
`v` and holds the colour `x`. -/
def EarlierHolds (g : Graph) (ids : List Nat) (colors : Nat → Int) (i v : Nat) (x : Int) :
    Prop :=
  ∃ (j u : Nat), j < i ∧ ids[j]? = some u ∧ g.adj_matrix v u = 1 ∧ colors u = x

/-- The array `colors` is the first-fit colouring along the sequence `ids`: the vertex at
position `i` holds the smallest positive integer that no neighbour at an earlier position
holds. -/
def FirstFitAlong (g : Graph) (ids : List Nat) (colors : Nat → Int) : Prop :=
  ∀ (i v : Nat), ids[i]? = some v →
    1 ≤ colors v ∧
    (∀ (j u : Nat), j < i → ids[j]? = some u → g.adj_matrix v u = 1 → colors u ≠ colors v) ∧
    ∀ x, 1 ≤ x → x < colors v → EarlierHolds g ids colors i v x

/-- Invariant at the head of the main loop of `welsh_powell_coloring` for the sequence
`ids` of the sorted ids: every colour below the colour of a colored vertex, and every
colour below `current_color` for an uncolored one, is held by a neighbour that stands
earlier in the sequence. -/
def WpOrderInv (g : Graph) (ids : List Nat) (st : WPState) : Prop :=
  ∀ (i v : Nat), ids[i]? = some v → ∀ x, 1 ≤ x →
    x < (if st.is_colored v = true then st.colors v else st.current_color) →
    EarlierHolds g ids st.colors i v x

/-- Invariant of the pass of `welsh_powell_coloring` for the colour `cc` and the start
vertex `s`, once the entries at the positions below `k` were visited: as `WpOrderInv`,
where an uncolored vertex already visited has an earlier neighbour of colour `cc` too;
the vertices of colour `cc` are `s` and vertices already visited; and `s` stands before
every uncolored vertex. -/
def WpPassInv (g : Graph) (ids : List Nat) (s : Nat) (cc : Int) (k : Nat) (st : WPState) :
    Prop :=
  st.current_color = cc ∧ st.colors s = cc ∧
  (∀ (i v : Nat), ids[i]? = some v → ∀ x, 1 ≤ x →
    x < (if st.is_colored v = true then st.colors v else if i < k then cc + 1 else cc) →
    EarlierHolds g ids st.colors i v x) ∧
  (∀ (i u : Nat), ids[i]? = some u → st.colors u = cc → i < k ∨ u = s) ∧
  ∃ p, ids[p]? = some s ∧
    ∀ (i v : Nat), ids[i]? = some v → st.is_colored v = false → p < i

/-- Invariant at the head of the main loop of `recursive_largest_first_coloring`: every
colour below the colour of a colored vertex, and every colour below `current_color` for an
uncolored one, is held by a neighbour. -/
def ClassGreedy (g : Graph) (colors : Nat → Int) (is_colored : Nat → Bool)
    (current_color : Int) : Prop :=
  ∀ v, v < g.num_vertices → ∀ x, 1 ≤ x →
    x < (if is_colored v = true then colors v else current_color) →
    ∃ w, w < g.num_vertices ∧ g.adj_matrix v w = 1 ∧ colors w = x

/-! ## Arrays, the colour search and the neighbour scan -/

theorem store_same {ι α : Type} [DecidableEq ι] (a : ι → α) (i : ι) (x : α) :
    store a i x i = x := by
  simp [store]

theorem store_other {ι α : Type} [DecidableEq ι] (a : ι → α) (i j : ι) (x : α) (h : j ≠ i) :
    store a i x j = a j := by
  simp [store, h]

/-- The search never moves below its entry value, stops on an available colour or past
`n` when it was given all the candidates left, and skips unavailable colours only. -/
theorem search_color_spec (n : Nat) (av : Int → Bool) :
    ∀ (k : Nat) (c : Int), c ≤ search_color n av k c ∧
      (∀ x, c ≤ x → x < search_color n av k c → av x = false) ∧
      (c + (k : Int) = (n : Int) + 1 →
        search_color n av k c ≤ (n : Int) + 1 ∧
        (search_color n av k c ≤ (n : Int) → av (search_color n av k c) = true)) := by
  intro k
  induction k with
  | zero =>
    intro c
    refine ⟨le_refl _, ?_, ?_⟩
    · intro x h1 h2
      simp only [search_color] at h2
      omega
    · intro h
      simp only [search_color]
      constructor
      · omega
      · intro h2
        push_cast at h
        omega
  | succ k ih =>
    intro c
    simp only [search_color]
    by_cases hc : c ≤ (n : Int) ∧ av c = false
    · rw [if_pos hc]
      obtain ⟨h1, h2, h3⟩ := ih (c + 1)
      refine ⟨by omega, ?_, ?_⟩
      · intro x hx1 hx2
        by_cases hxc : x = c
        · rw [hxc]; exact hc.2
        · exact h2 x (by omega) hx2
      · intro h
        exact h3 (by push_cast at h; omega)
    · rw [if_neg hc]
      refine ⟨le_refl _, ?_, ?_⟩
      · intro x hx1 hx2
        omega
      · intro h
        constructor
        · push_cast at h; omega
        · intro h2
          by_contra hav
          exact hc ⟨h2, by simpa using hav⟩

theorem chosen_color_pos (n : Nat) (av : Int → Bool) : 1 ≤ chosen_color n av :=
  (search_color_spec n av n 1).1

theorem chosen_color_le_of_available (n : Nat) (av : Int → Bool) (x : Int) (h1 : 1 ≤ x)
    (hx : av x = true) : chosen_color n av ≤ x := by
  by_contra h
  have := (search_color_spec n av n 1).2.1 x h1 (by unfold chosen_color at h; omega)
  rw [hx] at this
  exact Bool.noConfusion this

theorem chosen_color_available (n : Nat) (av : Int → Bool)
    (h : chosen_color n av ≤ (n : Int)) : av (chosen_color n av) = true :=
  ((search_color_spec n av n 1).2.2 (by omega)).2 h

theorem chosen_color_skips (n : Nat) (av : Int → Bool) (x : Int) (h1 : 1 ≤ x)
    (h2 : x < chosen_color n av) : av x = false :=
  (search_color_spec n av n 1).2.1 x h1 h2

/-- The scan over the first `k` neighbours clears exactly the colours of the marked ones. -/
theorem mark_prefix_spec (g : Graph) (v : Nat) (colors : Nat → Int) (marks : Nat → Bool)
    (k : Nat) (c : Int) :
    (List.range k).foldl
      (fun available_colors neighbor =>
        if g.adj_matrix v neighbor = 1 ∧ marks neighbor = true then
          store available_colors (colors neighbor) false
        else available_colors)
      (fun _ => true) c = false ↔
    ∃ w, w < k ∧ g.adj_matrix v w = 1 ∧ marks w = true ∧ colors w = c := by
  induction k with
  | zero => simp
  | succ k ih =>
    rw [List.range_succ, List.foldl_append]
    simp only [List.foldl_cons, List.foldl_nil]
    by_cases hk : g.adj_matrix v k = 1 ∧ marks k = true
    · rw [if_pos hk]
      by_cases hc : c = colors k
      · subst hc
        simp only [store_same, true_iff]
        exact ⟨k, Nat.lt_succ_self k, hk.1, hk.2, rfl⟩
      · rw [store_other _ _ _ _ hc, ih]
        constructor
        · rintro ⟨w, hw, h⟩
          exact ⟨w, Nat.lt_succ_of_lt hw, h⟩
        · rintro ⟨w, hw, h1, h2, h3⟩
          have hwk : w ≠ k := by
            intro e
            subst e
            exact hc h3.symm
          exact ⟨w, by omega, h1, h2, h3⟩
    · rw [if_neg hk, ih]
      constructor
      · rintro ⟨w, hw, h⟩
        exact ⟨w, Nat.lt_succ_of_lt hw, h⟩
      · rintro ⟨w, hw, h1, h2, h3⟩
        have hwk : w ≠ k := by
          intro e
          subst e
          exact hk ⟨h1, h2⟩
        exact ⟨w, by omega, h1, h2, h3⟩

theorem mark_unavailable_spec (g : Graph) (v : Nat) (colors : Nat → Int)
    (marks : Nat → Bool) (c : Int) :
    mark_unavailable g v colors marks c = false ↔
    ∃ w, w < g.num_vertices ∧ g.adj_matrix v w = 1 ∧ marks w = true ∧ colors w = c :=
  mark_prefix_spec g v colors marks g.num_vertices c

/-- The colour chosen for `v` when `k < n` bounds every colour in use and every vertex
with a nonzero colour is marked: it lies in `1 .. k+1` and no neighbour holds it. -/
theorem chosen_color_spec (g : Graph) (v : Nat) (colors : Nat → Int) (marks : Nat → Bool)
    (k : Nat) (hk : k < g.num_vertices)
    (hb : ∀ w, 0 ≤ colors w ∧ colors w ≤ (k : Int))
    (hm : ∀ w, w < g.num_vertices → colors w ≠ 0 → marks w = true) :
    1 ≤ chosen_color g.num_vertices (mark_unavailable g v colors marks) ∧
    chosen_color g.num_vertices (mark_unavailable g v colors marks) ≤ (k : Int) + 1 ∧
    ∀ w, w < g.num_vertices → g.adj_matrix v w = 1 →
      colors w ≠ chosen_color g.num_vertices (mark_unavailable g v colors marks) := by
  have hfree : mark_unavailable g v colors marks ((k : Int) + 1) = true := by
    by_contra h
    have h2 : mark_unavailable g v colors marks ((k : Int) + 1) = false := by simpa using h
    obtain ⟨w, _, _, _, hw⟩ := (mark_unavailable_spec g v colors marks _).1 h2
    have := (hb w).2
    omega
  have hpos := chosen_color_pos g.num_vertices (mark_unavailable g v colors marks)
  have hle := chosen_color_le_of_available g.num_vertices
    (mark_unavailable g v colors marks) ((k : Int) + 1) (by omega) hfree
  refine ⟨hpos, hle, ?_⟩
  intro w hw hadj heq
  have hav := chosen_color_available g.num_vertices (mark_unavailable g v colors marks)
    (by omega)
  have hne : colors w ≠ 0 := by omega
  have : mark_unavailable g v colors marks
      (chosen_color g.num_vertices (mark_unavailable g v colors marks)) = false :=
    (mark_unavailable_spec g v colors marks _).2 ⟨w, hw, hadj, hm w hw hne, heq⟩
  rw [hav] at this
  exact Bool.noConfusion this

/-- Every colour below the chosen one is held by a marked neighbour of `v`. -/
theorem chosen_color_below (g : Graph) (v : Nat) (colors : Nat → Int) (marks : Nat → Bool)
    (x : Int) (h1 : 1 ≤ x)
    (h2 : x < chosen_color g.num_vertices (mark_unavailable g v colors marks)) :
    ∃ w, w < g.num_vertices ∧ g.adj_matrix v w = 1 ∧ colors w = x := by
  have := chosen_color_skips g.num_vertices (mark_unavailable g v colors marks) x h1 h2
  obtain ⟨w, hw, hadj, _, hc⟩ := (mark_unavailable_spec g v colors marks x).1 this
  exact ⟨w, hw, hadj, hc⟩

/-! ## Invariants shared by the six routines -/

theorem partialProper_zero (g : Graph) : PartialProper g (fun _ => 0) := by
  intro u _ w _ _ h
  exact absurd rfl h

/-- Writing to `v` a nonzero colour that none of its neighbours holds keeps every colored
vertex different from its neighbours. -/
theorem partialProper_store (g : Graph) (hg : g.Valid) (colors : Nat → Int) (v : Nat)
    (c : Int) (hv : v < g.num_vertices) (hP : PartialProper g colors)
    (hfree : ∀ w, w < g.num_vertices → g.adj_matrix v w = 1 → colors w ≠ c) :
    PartialProper g (store colors v c) := by
  obtain ⟨_, _, hsym, hdiag⟩ := hg
  intro u hu w hw hadj hne
  by_cases huv : u = v
  · subst huv
    have hwu : w ≠ u := by
      intro e
      subst e
      have := hdiag w hw
      omega
    rw [store_same, store_other _ _ _ _ hwu]
    exact fun e => hfree w hw hadj e.symm
  · rw [store_other _ _ _ _ huv] at hne ⊢
    by_cases hwv : w = v
    · subst hwv
      rw [store_same]
      have hadj2 : g.adj_matrix w u = 1 := by rw [← hsym u hu w hw]; exact hadj
      exact hfree u hu hadj2
    · rw [store_other _ _ _ _ hwv]
      exact hP u hu w hw hadj hne

theorem properColoring_of_colored (g : Graph) (colors : Nat → Int)
    (hP : PartialProper g colors) (hall : ∀ v, v < g.num_vertices → 1 ≤ colors v) :
    ProperColoring g colors := by
  intro u hu v hv hadj
  have := hall u hu
  exact hP u hu v hv hadj (by omega)

theorem allUsed_store (g : Graph) (colors : Nat → Int) (m : Int) (v : Nat) (c : Int)
    (h0 : colors v = 0) (hU : AllUsed g colors m) : AllUsed g (store colors v c) m := by
  intro x hx1 hx2
  obtain ⟨w, hw, hwx⟩ := hU x hx1 hx2
  have hwv : w ≠ v := by
    intro e
    subst e
    omega
  exact ⟨w, hw, by rw [store_other _ _ _ _ hwv]; exact hwx⟩

theorem greedy_zero (g : Graph) : Greedy g (fun _ => 0) := by
  intro v _ x h1 h2
  simp only at h2
  omega

theorem greedy_store (g : Graph) (colors : Nat → Int) (v : Nat) (c : Int)
    (h0 : colors v = 0) (hG : Greedy g colors)
    (hbelow : ∀ x, 1 ≤ x → x < c →
      ∃ w, w < g.num_vertices ∧ g.adj_matrix v w = 1 ∧ colors w = x) :
    Greedy g (store colors v c) := by
  intro u hu x hx1 hx2
  have key : ∃ w, w < g.num_vertices ∧ g.adj_matrix u w = 1 ∧ colors w = x := by
    by_cases huv : u = v
    · subst huv
      rw [store_same] at hx2
      exact hbelow x hx1 hx2
    · rw [store_other _ _ _ _ huv] at hx2
      exact hG u hu x hx1 hx2
  obtain ⟨w, hw, hadj, hwx⟩ := key
  have hwv : w ≠ v := by
    intro e
    subst e
    omega
  exact ⟨w, hw, hadj, by rw [store_other _ _ _ _ hwv]; exact hwx⟩

/-- The running maximum after an uncolored vertex receives a positive colour all of whose
predecessors are in use. -/
theorem maxOK_store (g : Graph) (colors : Nat → Int) (m : Int) (v : Nat) (c : Int)
    (hv : v < g.num_vertices) (h0 : colors v = 0) (hc : 1 ≤ c) (hM : MaxOK g colors m)
    (hbelow : ∀ x, 1 ≤ x → x < c → ∃ w, w < g.num_vertices ∧ colors w = x) :
    MaxOK g (store colors v c) (if c > m then c else m) := by
  obtain ⟨hle, hex, hU⟩ := hM
  have hm0 : 0 ≤ m := by have := hle v; omega
  refine ⟨?_, ?_, ?_⟩
  · intro w
    by_cases hwv : w = v
    · subst hwv
      rw [store_same]
      split <;> omega
    · rw [store_other _ _ _ _ hwv]
      have := hle w
      split <;> omega
  · by_cases hcm : c > m
    · rw [if_pos hcm]
      exact Or.inl ⟨v, hv, store_same _ _ _⟩
    · rw [if_neg hcm]
      rcases hex with ⟨w, hw, hwm⟩ | h
      · have hwv : w ≠ v := by
          intro e
          subst e
          omega
        exact Or.inl ⟨w, hw, by rw [store_other _ _ _ _ hwv]; exact hwm⟩
      · omega
  · by_cases hcm : c > m
    · rw [if_pos hcm]
      intro x hx1 hx2
      by_cases hxc : x = c
      · exact ⟨v, hv, by rw [hxc]; exact store_same _ _ _⟩
      · obtain ⟨w, hw, hwx⟩ := hbelow x hx1 (by omega)
        have hwv : w ≠ v := by
          intro e
          subst e
          omega
        exact ⟨w, hw, by rw [store_other _ _ _ _ hwv]; exact hwx⟩
    · rw [if_neg hcm]
      exact allUsed_store g colors m v c h0 hU

theorem count_true_le (f : Nat → Bool) (n : Nat) : count_true f n ≤ n := by
  induction n with
  | zero => simp [count_true]
  | succ n ih =>
    simp only [count_true]
    split <;> omega

theorem count_true_full (f : Nat → Bool) (n : Nat) (h : n ≤ count_true f n) :
    ∀ v, v < n → f v = true := by
  induction n with
  | zero => intro v hv; omega
  | succ n ih =>
    intro v hv
    simp only [count_true] at h
    have hle := count_true_le f n
    by_cases hn : f n = true
    · rw [if_pos hn] at h
      by_cases hvn : v = n
      · rw [hvn]; exact hn
      · exact ih (by omega) v (by omega)
    · rw [if_neg hn] at h
      omega

theorem count_true_store_ge (f : Nat → Bool) (n v : Nat) (hv : n ≤ v) :
    count_true (store f v true) n = count_true f n := by
  induction n with
  | zero => rfl
  | succ n ih =>
    simp only [count_true]
    rw [ih (by omega), store_other _ _ _ _ (by omega : n ≠ v)]

theorem count_true_store (f : Nat → Bool) (n v : Nat) (hv : v < n) (hf : f v = false) :
    count_true (store f v true) n = count_true f n + 1 := by
  induction n with
  | zero => omega
  | succ n ih =>
    simp only [count_true]
    by_cases hvn : v = n
    · subst hvn
      rw [count_true_store_ge _ _ _ (le_refl _), store_same, hf]
      simp
    · rw [ih (by omega), store_other _ _ _ _ (fun e => hvn e.symm)]
      omega

/-- A `while` loop whose rounds keep an invariant and lower a measure that is positive
whenever the loop condition holds ends, given fuel for the measure, in a state where the
invariant holds and the loop was left by its condition or by a `break`. -/
theorem while_loop_spec {σ : Type} (cond : σ → Bool) (body : σ → Round σ) (Inv : σ → Prop)
    (mu : σ → Nat)
    (hpos : ∀ st, Inv st → cond st = true → 0 < mu st)
    (hstep : ∀ st, Inv st → cond st = true →
      body st = Round.leave ∨ ∃ st1, body st = Round.again st1 ∧ Inv st1 ∧ mu st1 < mu st) :
    ∀ (fuel : Nat) (st : σ), Inv st → mu st ≤ fuel →
      ∃ st1, while_loop cond body fuel st = some st1 ∧ Inv st1 ∧
        (cond st1 = false ∨ body st1 = Round.leave) := by
  intro fuel
  induction fuel with
  | zero =>
    intro st hI hmu
    by_cases hc : cond st = true
    · have := hpos st hI hc
      omega
    · refine ⟨st, ?_, hI, Or.inl (by simpa using hc)⟩
      simp [while_loop, hc]
  | succ fuel ih =>
    intro st hI hmu
    by_cases hc : cond st = true
    · rcases hstep st hI hc with hl | ⟨st1, hb, hI1, hlt⟩
      · refine ⟨st, ?_, hI, Or.inr hl⟩
        simp [while_loop, hc, hl]
      · obtain ⟨st2, h1, h2, h3⟩ := ih st1 hI1 (by omega)
        refine ⟨st2, ?_, h2, h3⟩
        simp [while_loop, hc, hb, h1]
    · refine ⟨st, ?_, hI, Or.inl (by simpa using hc)⟩
      simp [while_loop, hc]

/-! ## First fit and largest-degree ordering -/

theorem first_fit_step_inv (g : Graph) (hg : g.Valid) (k : Nat) (st : FFState) (v : Nat)
    (hv : v < g.num_vertices) (hk : k < g.num_vertices) (h0 : st.colors v = 0)
    (hI : FFInv g k st) :
    FFInv g (k + 1) (first_fit_step g st v) ∧
    1 ≤ (first_fit_step g st v).colors v ∧
    ∀ w, w ≠ v → (first_fit_step g st v).colors w = st.colors w := by
  obtain ⟨hP, hB, hM, hG⟩ := hI
  obtain ⟨hc1, hc2, hc3⟩ := chosen_color_spec g v st.colors
    (fun neighbor =>
      decide (st.colors neighbor ≠ 0) && decide (st.colors neighbor ≤ (g.num_vertices : Int)))
    k hk hB
    (by
      intro w _ hne
      have := (hB w).2
      simp only [Bool.and_eq_true, decide_eq_true_eq]
      exact ⟨hne, by omega⟩)
  refine ⟨⟨?_, ?_, ?_, ?_⟩, ?_, ?_⟩
  · exact partialProper_store g hg st.colors v _ hv hP hc3
  · intro w
    simp only [first_fit_step]
    by_cases hwv : w = v
    · subst hwv
      rw [store_same]
      constructor
      · omega
      · push_cast; exact hc2
    · rw [store_other _ _ _ _ hwv]
      have := hB w
      push_cast
      omega
  · apply maxOK_store g st.colors st.max_colors_used v _ hv h0 hc1 hM
    intro x hx1 hx2
    obtain ⟨w, hw, _, hc⟩ := chosen_color_below g v st.colors _ x hx1 hx2
    exact ⟨w, hw, hc⟩
  · exact greedy_store g st.colors v _ h0 hG
      (fun x hx1 hx2 => chosen_color_below g v st.colors _ x hx1 hx2)
  · simp only [first_fit_step, store_same]
    exact hc1
  · intro w hwv
    simp only [first_fit_step]
    exact store_other _ _ _ _ hwv

theorem first_fit_fold_inv (g : Graph) (hg : g.Valid) :
    ∀ (l : List Nat) (st : FFState) (k : Nat), FFInv g k st →
      (∀ v, v ∈ l → v < g.num_vertices ∧ st.colors v = 0) → l.Nodup →
      k + l.length ≤ g.num_vertices →
      FFInv g (k + l.length) (l.foldl (first_fit_step g) st) ∧
      (∀ v, v ∈ l → 1 ≤ (l.foldl (first_fit_step g) st).colors v) ∧
      (∀ w, w ∉ l → (l.foldl (first_fit_step g) st).colors w = st.colors w) := by
  intro l
  induction l with
  | nil =>
    intro st k hI _ _ _
    simpa using hI
  | cons v l ih =>
    intro st k hI hl hnd hlen
    have hvl : v ∉ l := (List.nodup_cons.1 hnd).1
    have hndl : l.Nodup := (List.nodup_cons.1 hnd).2
    simp only [List.length_cons] at hlen
    obtain ⟨hv, hv0⟩ := hl v (List.mem_cons_self v l)
    obtain ⟨hI1, hpos, hsame⟩ := first_fit_step_inv g hg k st v hv (by omega) hv0 hI
    obtain ⟨hI2, hall, hfix⟩ := ih (first_fit_step g st v) (k + 1) hI1
      (by
        intro w hw
        have hwv : w ≠ v := fun e => hvl (e ▸ hw)
        obtain ⟨h1, h2⟩ := hl w (List.mem_cons_of_mem v hw)
        exact ⟨h1, by rw [hsame w hwv]; exact h2⟩)
      hndl (by omega)
    simp only [List.foldl_cons, List.length_cons]
    refine ⟨?_, ?_, ?_⟩
    · have e : k + (l.length + 1) = k + 1 + l.length := by omega
      rw [e]
      exact hI2
    · intro w hw
      rcases List.mem_cons.1 hw with e | hwl
      · subst e
        rw [hfix w hvl]
        exact hpos
      · exact hall w hwl
    · intro w hw
      have hwv : w ≠ v := fun e => hw (e ▸ List.mem_cons_self v l)
      have hwl : w ∉ l := fun h => hw (List.mem_cons_of_mem v h)
      rw [hfix w hwl, hsame w hwv]

theorem ffInv_init (g : Graph) :
    FFInv g 0 { colors := fun _ => 0, max_colors_used := 0 } := by
  refine ⟨partialProper_zero g, ?_, ⟨?_, Or.inr rfl, ?_⟩, greedy_zero g⟩
  · intro v; simp
  · intro v; simp
  · intro c h1 h2
    simp only at h2
    omega

/-- What a first-fit pass over a list holding every vertex exactly once leaves behind. -/
theorem first_fit_order_spec (g : Graph) (hg : g.Valid) (l : List Nat) (hnd : l.Nodup)
    (hmem : ∀ v, v ∈ l ↔ v < g.num_vertices) (hlen : l.length = g.num_vertices) :
    PartialProper g (l.foldl (first_fit_step g)
      { colors := fun _ => 0, max_colors_used := 0 }).colors ∧
    (∀ v, v < g.num_vertices →
      1 ≤ (l.foldl (first_fit_step g) { colors := fun _ => 0, max_colors_used := 0 }).colors v ∧
      (l.foldl (first_fit_step g) { colors := fun _ => 0, max_colors_used := 0 }).colors v ≤
        (g.num_vertices : Int)) ∧
    MaxOK g (l.foldl (first_fit_step g) { colors := fun _ => 0, max_colors_used := 0 }).colors
      (l.foldl (first_fit_step g)
        { colors := fun _ => 0, max_colors_used := 0 }).max_colors_used := by
  obtain ⟨⟨hP, hB, hM, _⟩, hall, _⟩ := first_fit_fold_inv g hg l
    { colors := fun _ => 0, max_colors_used := 0 } 0 (ffInv_init g)
    (fun v hv => ⟨(hmem v).1 hv, rfl⟩) hnd (by omega)
  refine ⟨hP, ?_, hM⟩
  intro v hv
  refine ⟨hall v ((hmem v).2 hv), ?_⟩
  have := (hB v).2
  rw [hlen] at this
  simpa using this

theorem table_ids (g : Graph) :
    (calculate_all_degrees g).map (fun e => e.id) = List.range g.num_vertices := by
  simp [calculate_all_degrees, List.map_map, Function.comp_def]

theorem sorted_ids_perm (g : Graph) (sorted : List VertexDegree) (hs : QsortResult g sorted) :
    (sorted.map (fun e => e.id)).Perm (List.range g.num_vertices) := by
  rw [← table_ids g]
  exact hs.1.map _

theorem sorted_ids_nodup (g : Graph) (sorted : List VertexDegree) (hs : QsortResult g sorted) :
    (sorted.map (fun e => e.id)).Nodup :=
  (sorted_ids_perm g sorted hs).nodup_iff.2 (List.nodup_range _)

theorem sorted_ids_mem (g : Graph) (sorted : List VertexDegree) (hs : QsortResult g sorted)
    (v : Nat) : v ∈ sorted.map (fun e => e.id) ↔ v < g.num_vertices := by
  rw [(sorted_ids_perm g sorted hs).mem_iff, List.mem_range]

theorem sorted_length (g : Graph) (sorted : List VertexDegree) (hs : QsortResult g sorted) :
    sorted.length = g.num_vertices := by
  have := (sorted_ids_perm g sorted hs).length_eq
  simpa using this

theorem ldo_as_fold (g : Graph) (sorted : List VertexDegree) (st : FFState) :
    sorted.foldl (fun st e => first_fit_step g st e.id) st =
      (sorted.map (fun e => e.id)).foldl (first_fit_step g) st := by
  rw [List.foldl_map]

/-! ## The degree table and the selection scans -/

theorem count_fold_ge (p : Nat → Prop) [DecidablePred p] :
    ∀ (l : List Nat) (d : Int),
      d ≤ l.foldl (fun degree j => if p j then degree + 1 else degree) d := by
  intro l
  induction l with
  | nil => intro d; simp
  | cons j l ih =>
    intro d
    simp only [List.foldl_cons]
    by_cases hj : p j
    · rw [if_pos hj]
      have := ih (d + 1)
      omega
    · rw [if_neg hj]
      exact ih d

theorem row_degree_nonneg (g : Graph) (i : Nat) : 0 ≤ row_degree g i :=
  count_fold_ge (fun j => g.adj_matrix i j = 1) _ 0

theorem colored_neighbors_nonneg (g : Graph) (is_colored : Nat → Bool) (v : Nat) :
    0 ≤ colored_neighbors g is_colored v :=
  count_fold_ge (fun j => g.adj_matrix v j = 1 ∧ is_colored j = true) _ 0

theorem neighbors_in_U_nonneg (g : Graph) (set_U : Nat → Bool) (v : Nat) :
    0 ≤ neighbors_in_U g set_U v :=
  count_fold_ge (fun j => g.adj_matrix v j = 1 ∧ set_U j = true) _ 0

theorem saturation_fold_ge (g : Graph) (colors : Nat → Int) (is_colored : Nat → Bool)
    (v : Nat) :
    ∀ (l : List Nat) (p : (Int → Bool) × Int),
      p.2 ≤ (l.foldl
        (fun (p : (Int → Bool) × Int) neighbor =>
          if g.adj_matrix v neighbor = 1 ∧ is_colored neighbor = true then
            let neighbor_color := colors neighbor
            if neighbor_color > 0 ∧ neighbor_color ≤ (g.num_vertices : Int) then
              if p.1 neighbor_color = false then (store p.1 neighbor_color true, p.2 + 1)
              else p
            else p
          else p) p).2 := by
  intro l
  induction l with
  | nil => intro p; simp
  | cons j l ih =>
    intro p
    simp only [List.foldl_cons]
    refine le_trans ?_ (ih _)
    split
    · split
      · split
        · simp
        · exact le_refl _
      · exact le_refl _
    · exact le_refl _

theorem saturation_degree_nonneg (g : Graph) (colors : Nat → Int) (is_colored : Nat → Bool)
    (v : Nat) : 0 ≤ saturation_degree g colors is_colored v :=
  saturation_fold_ge g colors is_colored v _ (fun _ => false, 0)

theorem mem_table (g : Graph) (e : VertexDegree) (he : e ∈ calculate_all_degrees g) :
    e.id < g.num_vertices ∧ 0 ≤ e.degree := by
  simp only [calculate_all_degrees, List.mem_map, List.mem_range] at he
  obtain ⟨i, hi, rfl⟩ := he
  exact ⟨hi, row_degree_nonneg g i⟩

theorem table_has (g : Graph) (v : Nat) (hv : v < g.num_vertices) :
    ∃ e, e ∈ calculate_all_degrees g ∧ e.id = v := by
  refine ⟨{ id := v, degree := row_degree g v }, ?_, rfl⟩
  simp only [calculate_all_degrees, List.mem_map, List.mem_range]
  exact ⟨v, hv, rfl⟩

/-- The scan over the first `k` candidates: a chosen vertex is an eligible candidate, and
the sentinel survives only when no candidate was eligible. -/
theorem select_prefix_spec (eligible : Nat → Bool) (key degree : Nat → Int)
    (hkey : ∀ v, eligible v = true → 0 ≤ key v) (k : Nat) :
    (∀ v, ((List.range k).foldl (select_step eligible key degree)
        { vertex := none, max_key := -1, max_degree := -1 }).vertex = some v →
      v < k ∧ eligible v = true) ∧
    (((List.range k).foldl (select_step eligible key degree)
        { vertex := none, max_key := -1, max_degree := -1 }).vertex = none →
      ((List.range k).foldl (select_step eligible key degree)
        { vertex := none, max_key := -1, max_degree := -1 }).max_key = -1 ∧
      ∀ v, v < k → eligible v = false) := by
  induction k with
  | zero => simp
  | succ k ih =>
    rw [List.range_succ, List.foldl_append]
    simp only [List.foldl_cons, List.foldl_nil]
    generalize (List.range k).foldl (select_step eligible key degree)
      { vertex := none, max_key := -1, max_degree := -1 } = s at ih ⊢
    obtain ⟨ih1, ih2⟩ := ih
    have hsome : s.vertex ≠ none → ∀ v, s.vertex = some v → v < k + 1 ∧ eligible v = true := by
      intro _ v hv
      exact ⟨Nat.lt_succ_of_lt (ih1 v hv).1, (ih1 v hv).2⟩
    by_cases he : eligible k = true
    · have hk0 := hkey k he
      unfold select_step
      rw [if_pos he]
      by_cases h1 : key k > s.max_key
      · rw [if_pos h1]
        refine ⟨?_, ?_⟩
        · intro v hv
          simp only [Option.some.injEq] at hv
          subst hv
          exact ⟨Nat.lt_succ_self _, he⟩
        · intro h
          simp at h
      · rw [if_neg h1]
        have hne : s.vertex ≠ none := by
          intro hn
          have := (ih2 hn).1
          omega
        by_cases h2 : key k = s.max_key
        · rw [if_pos h2]
          by_cases h3 : degree k > s.max_degree
          · rw [if_pos h3]
            refine ⟨?_, ?_⟩
            · intro v hv
              simp only [Option.some.injEq] at hv
              subst hv
              exact ⟨Nat.lt_succ_self _, he⟩
            · intro h
              simp at h
          · rw [if_neg h3]
            exact ⟨hsome hne, fun h => absurd h hne⟩
        · rw [if_neg h2]
          exact ⟨hsome hne, fun h => absurd h hne⟩
    · unfold select_step
      rw [if_neg he]
      refine ⟨?_, ?_⟩
      · intro v hv
        exact ⟨Nat.lt_succ_of_lt (ih1 v hv).1, (ih1 v hv).2⟩
      · intro h
        refine ⟨(ih2 h).1, ?_⟩
        intro v hv
        by_cases hvk : v = k
        · rw [hvk]; simpa using he
        · exact (ih2 h).2 v (by omega)

theorem select_vertex_some (n : Nat) (eligible : Nat → Bool) (key degree : Nat → Int)
    (hkey : ∀ v, eligible v = true → 0 ≤ key v) (v : Nat)
    (h : select_vertex n eligible key degree = some v) : v < n ∧ eligible v = true :=
  (select_prefix_spec eligible key degree hkey n).1 v h

theorem select_vertex_none (n : Nat) (eligible : Nat → Bool) (key degree : Nat → Int)
    (hkey : ∀ v, eligible v = true → 0 ≤ key v)
    (h : select_vertex n eligible key degree = none) : ∀ v, v < n → eligible v = false :=
  ((select_prefix_spec eligible key degree hkey n).2 h).2

theorem first_vertex_fold_mem (Q : Nat → Prop) :
    ∀ (l : List VertexDegree) (p : Option Nat × Int),
      (∀ v, p.1 = some v → Q v) → (∀ e, e ∈ l → Q e.id) →
      ∀ v, (l.foldl
        (fun (p : Option Nat × Int) e => if e.degree > p.2 then (some e.id, e.degree) else p)
        p).1 = some v → Q v := by
  intro l
  induction l with
  | nil => intro p hp _ v hv; exact hp v hv
  | cons e l ih =>
    intro p hp hl v hv
    simp only [List.foldl_cons] at hv
    refine ih _ ?_ (fun e1 h1 => hl e1 (List.mem_cons_of_mem e h1)) v hv
    intro w hw
    by_cases h : e.degree > p.2
    · rw [if_pos h] at hw
      simp only [Option.some.injEq] at hw
      subst hw
      exact hl e (List.mem_cons_self e l)
    · rw [if_neg h] at hw
      exact hp w hw

theorem first_vertex_lt (g : Graph) (v : Nat)
    (h : first_vertex_to_color (calculate_all_degrees g) = some v) : v < g.num_vertices :=
  first_vertex_fold_mem (fun v => v < g.num_vertices) _ (none, -1)
    (fun v hv => by simp at hv) (fun e he => (mem_table g e he).1) v h

/-! ## Incidence-degree ordering and DSATUR -/

theorem assign_color_inv (g : Graph) (hg : g.Valid) (st : DynState) (v : Nat) (c : Int)
    (hI : DynInv g st) (hv : v < g.num_vertices) (hu : st.is_colored v = false)
    (hc1 : 1 ≤ c) (hc2 : c ≤ (st.colored_count : Int) + 1)
    (hfree : ∀ w, w < g.num_vertices → g.adj_matrix v w = 1 → st.colors w ≠ c)
    (hbelow : ∀ x, 1 ≤ x → x < c →
      ∃ w, w < g.num_vertices ∧ g.adj_matrix v w = 1 ∧ st.colors w = x) :
    DynInv g (assign_color st v c) := by
  obtain ⟨hC, hB, hF, hP, hM, hG⟩ := hI
  refine ⟨?_, ?_, ?_, ?_, ?_, ?_⟩
  · simp only [assign_color]
    rw [count_true_store _ _ _ hv hu, hC]
  · intro w
    simp only [assign_color]
    by_cases hwv : w = v
    · subst hwv
      rw [store_same]
      push_cast
      omega
    · rw [store_other _ _ _ _ hwv]
      have := hB w
      push_cast
      omega
  · intro w hw
    simp only [assign_color]
    by_cases hwv : w = v
    · subst hwv
      rw [store_same, store_same]
      exact ⟨fun _ => hc1, fun h => by simp at h⟩
    · rw [store_other _ _ _ _ hwv, store_other _ _ _ _ hwv]
      exact hF w hw
  · exact partialProper_store g hg st.colors v c hv hP hfree
  · apply maxOK_store g st.colors st.max_colors_used v c hv ((hF v hv).2 hu) hc1 hM
    intro x hx1 hx2
    obtain ⟨w, hw, _, hc⟩ := hbelow x hx1 hx2
    exact ⟨w, hw, hc⟩
  · exact greedy_store g st.colors v c ((hF v hv).2 hu) hG hbelow

theorem seed_inv (g : Graph) (hg : g.Valid) :
    DynInv g (seed_state (calculate_all_degrees g)) := by
  unfold seed_state
  cases hfv : first_vertex_to_color (calculate_all_degrees g) with
  | none =>
    simp only
    refine ⟨?_, ?_, ?_, partialProper_zero g,
      ⟨?_, Or.inr rfl, fun c h1 h2 => by simp only at h2; omega⟩, greedy_zero g⟩
    · have : ∀ n, count_true (fun _ => false) n = 0 := by
        intro n
        induction n with
        | zero => rfl
        | succ n ih => simp [count_true, ih]
      exact (this _).symm
    · intro v; simp
    · intro v _; simp
    · intro v; simp
  | some s =>
    simp only
    have hs := first_vertex_lt g s hfv
    have hinit : DynInv g
        { colors := fun _ => 0, is_colored := fun _ => false, colored_count := 0,
          max_colors_used := 0 } := by
      refine ⟨?_, ?_, ?_, partialProper_zero g,
      ⟨?_, Or.inr rfl, fun c h1 h2 => by simp only at h2; omega⟩, greedy_zero g⟩
      · have : ∀ n, count_true (fun _ => false) n = 0 := by
          intro n
          induction n with
          | zero => rfl
          | succ n ih => simp [count_true, ih]
        exact (this _).symm
      · intro v; simp
      · intro v _; simp
      · intro v; simp
    have := assign_color_inv g hg _ s 1 hinit hs rfl (le_refl _) (by simp)
      (fun w _ _ => by simp) (fun x h1 h2 => by omega)
    simpa [assign_color] using this

/-- A round that colors an eligible vertex with the colour chosen by the neighbour scan
keeps the invariant, for any marking test that covers every colored neighbour. -/
theorem chosen_round_inv (g : Graph) (hg : g.Valid) (st : DynState) (v : Nat)
    (marks : Nat → Bool) (hI : DynInv g st) (hlt : st.colored_count < g.num_vertices)
    (hv : v < g.num_vertices) (hu : st.is_colored v = false)
    (hm : ∀ w, w < g.num_vertices → st.colors w ≠ 0 → marks w = true) :
    DynInv g (assign_color st v
      (chosen_color g.num_vertices (mark_unavailable g v st.colors marks))) := by
  obtain ⟨h1, h2, h3⟩ := chosen_color_spec g v st.colors marks st.colored_count hlt hI.2.1 hm
  exact assign_color_inv g hg st v _ hI hv hu h1 h2 h3
    (fun x hx1 hx2 => chosen_color_below g v st.colors marks x hx1 hx2)

theorem ido_round_spec (g : Graph) (hg : g.Valid) (st : DynState) (hI : DynInv g st)
    (hlt : st.colored_count < g.num_vertices) :
    (ido_round g (calculate_all_degrees g) st = Round.leave ∧
      ∀ v, v < g.num_vertices → st.is_colored v = true) ∨
    ∃ st1, ido_round g (calculate_all_degrees g) st = Round.again st1 ∧ DynInv g st1 ∧
      st1.colored_count = st.colored_count + 1 := by
  have hkey : ∀ v, (fun v => !st.is_colored v) v = true →
      0 ≤ colored_neighbors g st.is_colored v :=
    fun v _ => colored_neighbors_nonneg g st.is_colored v
  unfold ido_round
  cases hsel : select_vertex g.num_vertices (fun v => !st.is_colored v)
      (colored_neighbors g st.is_colored) (table_degree (calculate_all_degrees g)) with
  | none =>
    left
    refine ⟨rfl, ?_⟩
    intro v hv
    have := select_vertex_none _ _ _ _ hkey hsel v hv
    simpa using this
  | some v =>
    right
    obtain ⟨hv, hel⟩ := select_vertex_some _ _ _ _ hkey v hsel
    have hu : st.is_colored v = false := by simpa using hel
    refine ⟨_, rfl, ?_, rfl⟩
    apply chosen_round_inv g hg st v _ hI hlt hv hu
    intro w hw hne
    have hcol : st.is_colored w = true := by
      by_contra h
      exact hne ((hI.2.2.1 w hw).2 (by simpa using h))
    have := (hI.2.1 w).2
    simp only [Bool.and_eq_true, decide_eq_true_eq]
    exact ⟨hcol, by omega⟩

theorem dsatur_round_spec (g : Graph) (hg : g.Valid) (st : DynState) (hI : DynInv g st)
    (hlt : st.colored_count < g.num_vertices) :
    (dsatur_round g (calculate_all_degrees g) st = Round.leave ∧
      ∀ v, v < g.num_vertices → st.is_colored v = true) ∨
    ∃ st1, dsatur_round g (calculate_all_degrees g) st = Round.again st1 ∧ DynInv g st1 ∧
      st1.colored_count = st.colored_count + 1 := by
  have hkey : ∀ v, (fun v => !st.is_colored v) v = true →
      0 ≤ saturation_degree g st.colors st.is_colored v :=
    fun v _ => saturation_degree_nonneg g st.colors st.is_colored v
  unfold dsatur_round
  cases hsel : select_vertex g.num_vertices (fun v => !st.is_colored v)
      (saturation_degree g st.colors st.is_colored)
      (table_degree (calculate_all_degrees g)) with
  | none =>
    left
    refine ⟨rfl, ?_⟩
    intro v hv
    have := select_vertex_none _ _ _ _ hkey hsel v hv
    simpa using this
  | some v =>
    right
    obtain ⟨hv, hel⟩ := select_vertex_some _ _ _ _ hkey v hsel
    have hu : st.is_colored v = false := by simpa using hel
    refine ⟨_, rfl, ?_, rfl⟩
    apply chosen_round_inv g hg st v _ hI hlt hv hu
    intro w hw hne
    have hcol : st.is_colored w = true := by
      by_contra h
      exact hne ((hI.2.2.1 w hw).2 (by simpa using h))
    have h1 := (hI.2.1 w).2
    have h2 := (hI.2.1 w).1
    simp only [Bool.and_eq_true, decide_eq_true_eq]
    exact ⟨hcol, by omega, by omega⟩

/-- The main loop shared by the two routines, run with `num_vertices` units of fuel from
the seeded state, ends with every vertex colored and the invariant in force. -/
theorem dyn_loop_spec (g : Graph) (hg : g.Valid) (body : DynState → Round DynState)
    (hbody : ∀ st, DynInv g st → st.colored_count < g.num_vertices →
      (body st = Round.leave ∧ ∀ v, v < g.num_vertices → st.is_colored v = true) ∨
      ∃ st1, body st = Round.again st1 ∧ DynInv g st1 ∧
        st1.colored_count = st.colored_count + 1) :
    ∃ st, while_loop (fun st => decide (st.colored_count < g.num_vertices)) body
        g.num_vertices (seed_state (calculate_all_degrees g)) = some st ∧
      DynInv g st ∧ ∀ v, v < g.num_vertices → st.is_colored v = true := by
  obtain ⟨st, hrun, hI, hexit⟩ := while_loop_spec
    (fun st : DynState => decide (st.colored_count < g.num_vertices)) body (DynInv g)
    (fun st => g.num_vertices - st.colored_count)
    (by
      intro st _ hc
      have hc1 : st.colored_count < g.num_vertices := by simpa using hc
      show 0 < g.num_vertices - st.colored_count
      omega)
    (by
      intro st hI hc
      have hc1 : st.colored_count < g.num_vertices := by simpa using hc
      rcases hbody st hI hc1 with ⟨hl, _⟩ | ⟨st1, h1, h2, h3⟩
      · exact Or.inl hl
      · refine Or.inr ⟨st1, h1, h2, ?_⟩
        show g.num_vertices - st1.colored_count < g.num_vertices - st.colored_count
        omega)
    g.num_vertices (seed_state (calculate_all_degrees g)) (seed_inv g hg)
    (Nat.sub_le _ _)
  refine ⟨st, hrun, hI, ?_⟩
  by_cases hc : st.colored_count < g.num_vertices
  · rcases hexit with h | h
    · simp only [decide_eq_false_iff_not] at h
      exact absurd hc h
    · rcases hbody st hI hc with ⟨_, hall⟩ | ⟨st1, h1, _, _⟩
      · exact hall
      · rw [h] at h1
        exact Round.noConfusion h1
  · apply count_true_full
    rw [← hI.1]
    omega

/-- Summary of a finished run of the shared loop. -/
theorem dyn_final (g : Graph) (st : DynState) (hI : DynInv g st)
    (hall : ∀ v, v < g.num_vertices → st.is_colored v = true) :
    ProperColoring g st.colors ∧
    (∀ v, v < g.num_vertices → 1 ≤ st.colors v ∧ st.colors v ≤ (g.num_vertices : Int)) ∧
    MaxOK g st.colors st.max_colors_used := by
  obtain ⟨hC, hB, hF, hP, hM, _⟩ := hI
  have hpos : ∀ v, v < g.num_vertices → 1 ≤ st.colors v :=
    fun v hv => (hF v hv).1 (hall v hv)
  refine ⟨properColoring_of_colored g st.colors hP hpos, ?_, hM⟩
  intro v hv
  refine ⟨hpos v hv, ?_⟩
  have h1 := (hB v).2
  have h2 := count_true_le st.is_colored g.num_vertices
  rw [← hC] at h2
  omega

theorem ido_spec (g : Graph) (hg : g.Valid) :
    ∃ out, incidence_degree_ordering_coloring g = some out ∧
      ProperColoring g out.colors ∧
      (∀ v, v < g.num_vertices → 1 ≤ out.colors v ∧ out.colors v ≤ (g.num_vertices : Int)) ∧
      MaxOK g out.colors out.returned := by
  obtain ⟨st, hrun, hI, hall⟩ := dyn_loop_spec g hg (ido_round g (calculate_all_degrees g))
    (ido_round_spec g hg)
  refine ⟨{ colors := st.colors, returned := st.max_colors_used }, ?_, dyn_final g st hI hall⟩
  simp [incidence_degree_ordering_coloring, hrun]

theorem dsatur_spec (g : Graph) (hg : g.Valid) :
    ∃ out, dsatur_coloring g = some out ∧
      ProperColoring g out.colors ∧
      (∀ v, v < g.num_vertices → 1 ≤ out.colors v ∧ out.colors v ≤ (g.num_vertices : Int)) ∧
      MaxOK g out.colors out.returned := by
  obtain ⟨st, hrun, hI, hall⟩ := dyn_loop_spec g hg
    (dsatur_round g (calculate_all_degrees g)) (dsatur_round_spec g hg)
  refine ⟨{ colors := st.colors, returned := st.max_colors_used }, ?_, dyn_final g st hI hall⟩
  simp [dsatur_coloring, hrun]

/-! ## Colour classes: Welsh-Powell and recursive largest first -/

theorem class_grow (g : Graph) (hg : g.Valid) (colors : Nat → Int) (is_colored : Nat → Bool)
    (count : Nat) (cc : Int) (v : Nat) (hI : ClassGrowInv g colors is_colored count cc)
    (hv : v < g.num_vertices) (hu : is_colored v = false)
    (hfree : ∀ w, w < g.num_vertices → g.adj_matrix v w = 1 → colors w ≠ cc) :
    ClassGrowInv g (store colors v cc) (store is_colored v true) (count + 1) cc := by
  obtain ⟨hC, h1, h2, hB, hF, hP, hU⟩ := hI
  refine ⟨?_, h1, by push_cast; omega, ?_, ?_, ?_,
    allUsed_store g colors cc v cc ((hF v hv).2 hu) hU⟩
  · rw [count_true_store _ _ _ hv hu, hC]
  · intro w
    by_cases hwv : w = v
    · subst hwv
      rw [store_same]
      omega
    · rw [store_other _ _ _ _ hwv]
      exact hB w
  · intro w hw
    by_cases hwv : w = v
    · subst hwv
      rw [store_same, store_same]
      exact ⟨fun _ => h1, fun h => by simp at h⟩
    · rw [store_other _ _ _ _ hwv, store_other _ _ _ _ hwv]
      exact hF w hw
  · exact partialProper_store g hg colors v cc hv hP hfree

theorem class_open (g : Graph) (hg : g.Valid) (colors : Nat → Int) (is_colored : Nat → Bool)
    (count : Nat) (cc : Int) (s : Nat) (hI : ClassHeadInv g colors is_colored count cc)
    (hs : s < g.num_vertices) (hu : is_colored s = false) :
    ClassGrowInv g (store colors s cc) (store is_colored s true) (count + 1) cc := by
  obtain ⟨hC, h1, h2, hB, hF, hP, hU⟩ := hI
  refine ⟨?_, h1, by push_cast; omega, ?_, ?_, ?_, ?_⟩
  · rw [count_true_store _ _ _ hs hu, hC]
  · intro w
    by_cases hws : w = s
    · subst hws
      rw [store_same]
      omega
    · rw [store_other _ _ _ _ hws]
      have := hB w
      omega
  · intro w hw
    by_cases hws : w = s
    · subst hws
      rw [store_same, store_same]
      exact ⟨fun _ => h1, fun h => by simp at h⟩
    · rw [store_other _ _ _ _ hws, store_other _ _ _ _ hws]
      exact hF w hw
  · apply partialProper_store g hg colors s cc hs hP
    intro w _ _
    have := (hB w).2
    omega
  · intro x hx1 hx2
    by_cases hxc : x = cc
    · exact ⟨s, hs, by rw [hxc]; exact store_same _ _ _⟩
    · exact allUsed_store g colors (cc - 1) s cc ((hF s hs).2 hu) hU x hx1 (by omega)

theorem class_close (g : Graph) (colors : Nat → Int) (is_colored : Nat → Bool)
    (count : Nat) (cc : Int) (hI : ClassGrowInv g colors is_colored count cc) :
    ClassHeadInv g colors is_colored count (cc + 1) := by
  obtain ⟨hC, h1, h2, hB, hF, hP, hU⟩ := hI
  refine ⟨hC, by omega, by omega, ?_, hF, hP, ?_⟩
  · intro w
    have := hB w
    omega
  · intro x hx1 hx2
    exact hU x hx1 (by omega)

theorem classHead_init (g : Graph) :
    ClassHeadInv g (fun _ => 0) (fun _ => false) 0 1 := by
  refine ⟨?_, le_refl _, by simp, ?_, ?_, partialProper_zero g,
    fun c h1 h2 => by omega⟩
  · have : ∀ n, count_true (fun _ => false) n = 0 := by
      intro n
      induction n with
      | zero => rfl
      | succ n ih => simp [count_true, ih]
    exact (this _).symm
  · intro v; simp
  · intro v _; simp

/-- Summary of a run that ends at the loop head with every vertex colored. -/
theorem classHead_final (g : Graph) (colors : Nat → Int) (is_colored : Nat → Bool)
    (count : Nat) (cc : Int) (hI : ClassHeadInv g colors is_colored count cc)
    (hall : ∀ v, v < g.num_vertices → is_colored v = true) :
    ProperColoring g colors ∧
    (∀ v, v < g.num_vertices → 1 ≤ colors v ∧ colors v ≤ (g.num_vertices : Int)) ∧
    cc - 1 ≤ (g.num_vertices : Int) ∧
    MaxOK g colors (cc - 1) := by
  obtain ⟨hC, h1, h2, hB, hF, hP, hU⟩ := hI
  have hpos : ∀ v, v < g.num_vertices → 1 ≤ colors v :=
    fun v hv => (hF v hv).1 (hall v hv)
  have hcn := count_true_le is_colored g.num_vertices
  rw [← hC] at hcn
  refine ⟨properColoring_of_colored g colors hP hpos, ?_, by omega, ?_, ?_, hU⟩
  · intro v hv
    have := (hB v).2
    exact ⟨hpos v hv, by omega⟩
  · intro v
    exact (hB v).2
  · by_cases h : cc = 1
    · exact Or.inr (by omega)
    · exact Or.inl (hU (cc - 1) (by omega) (le_refl _))

theorem can_color_free (g : Graph) (colors : Nat → Int) (cc : Int) (v : Nat)
    (h : can_color_with_current g colors cc v = true) :
    ∀ w, w < g.num_vertices → g.adj_matrix v w = 1 → colors w ≠ cc := by
  intro w hw hadj hcol
  simp only [can_color_with_current, Bool.not_eq_true', List.any_eq_false, List.mem_range,
    Bool.and_eq_true, decide_eq_true_eq, not_and] at h
  exact h w hw hadj hcol

theorem wp_pass_inv (g : Graph) (hg : g.Valid) (start : Nat) :
    ∀ (l : List VertexDegree) (st : WPState), (∀ e, e ∈ l → e.id < g.num_vertices) →
      ClassGrowInv g st.colors st.is_colored st.colored_count st.current_color →
      ClassGrowInv g (l.foldl (wp_pass_step g start) st).colors
        (l.foldl (wp_pass_step g start) st).is_colored
        (l.foldl (wp_pass_step g start) st).colored_count
        (l.foldl (wp_pass_step g start) st).current_color ∧
      st.colored_count ≤ (l.foldl (wp_pass_step g start) st).colored_count := by
  intro l
  induction l with
  | nil => intro st _ hI; exact ⟨hI, le_refl _⟩
  | cons e l ih =>
    intro st hl hI
    simp only [List.foldl_cons]
    have he := hl e (List.mem_cons_self e l)
    have hl2 : ∀ e1, e1 ∈ l → e1.id < g.num_vertices :=
      fun e1 h1 => hl e1 (List.mem_cons_of_mem e h1)
    have key : ClassGrowInv g (wp_pass_step g start st e).colors
        (wp_pass_step g start st e).is_colored (wp_pass_step g start st e).colored_count
        (wp_pass_step g start st e).current_color ∧
        st.colored_count ≤ (wp_pass_step g start st e).colored_count := by
      unfold wp_pass_step
      by_cases h1 : st.is_colored e.id = false ∧ g.adj_matrix start e.id = 0
      · simp only [if_pos h1]
        by_cases h2 : can_color_with_current g st.colors st.current_color e.id = true
        · simp only [if_pos h2]
          exact ⟨class_grow g hg _ _ _ _ e.id hI he h1.1 (can_color_free g _ _ _ h2),
            Nat.le_succ _⟩
        · simp only [if_neg h2]
          exact ⟨hI, le_refl _⟩
      · simp only [if_neg h1]
        exact ⟨hI, le_refl _⟩
    obtain ⟨h3, h4⟩ := ih _ hl2 key.1
    exact ⟨h3, le_trans key.2 h4⟩

theorem wp_round_spec (g : Graph) (hg : g.Valid) (sorted : List VertexDegree)
    (hs : QsortResult g sorted) (st : WPState)
    (hI : ClassHeadInv g st.colors st.is_colored st.colored_count st.current_color) :
    (wp_round g sorted st = Round.leave ∧
      ∀ v, v < g.num_vertices → st.is_colored v = true) ∨
    ∃ st1, wp_round g sorted st = Round.again st1 ∧
      ClassHeadInv g st1.colors st1.is_colored st1.colored_count st1.current_color ∧
      st.colored_count < st1.colored_count := by
  have hids : ∀ e, e ∈ sorted → e.id < g.num_vertices := by
    intro e he
    exact (sorted_ids_mem g sorted hs e.id).1 (List.mem_map_of_mem _ he)
  unfold wp_round
  cases hst : wp_start_vertex sorted st.is_colored with
  | none =>
    left
    refine ⟨rfl, ?_⟩
    intro v hv
    obtain ⟨e, he, hev⟩ := List.mem_map.1 ((sorted_ids_mem g sorted hs v).2 hv)
    simp only [wp_start_vertex, Option.map_eq_none', List.find?_eq_none] at hst
    have := hst e he
    rw [hev] at this
    simpa using this
  | some s =>
    right
    simp only [wp_start_vertex, Option.map_eq_some'] at hst
    obtain ⟨e, hfind, hes⟩ := hst
    have hmem := List.mem_of_find?_eq_some hfind
    have hunc := List.find?_some hfind
    have hs1 : s < g.num_vertices := hes ▸ hids e hmem
    have hu : st.is_colored s = false := by
      rw [← hes]
      simpa using hunc
    have hopen := class_open g hg _ _ _ _ s hI hs1 hu
    obtain ⟨hpass, hmono⟩ := wp_pass_inv g hg s sorted
      { st with
        colors := store st.colors s st.current_color
        is_colored := store st.is_colored s true
        colored_count := st.colored_count + 1 } hids hopen
    refine ⟨_, rfl, ?_, ?_⟩
    · exact class_close g _ _ _ _ hpass
    · simp only at hmono ⊢
      omega

theorem wp_loop_spec (g : Graph) (hg : g.Valid) (sorted : List VertexDegree)
    (hs : QsortResult g sorted) :
    ∃ st, wp_main_loop g sorted = some st ∧
      ClassHeadInv g st.colors st.is_colored st.colored_count st.current_color ∧
      ∀ v, v < g.num_vertices → st.is_colored v = true := by
  obtain ⟨st, hrun, hI, hexit⟩ := while_loop_spec
    (fun st : WPState => decide (st.colored_count < g.num_vertices)) (wp_round g sorted)
    (fun st => ClassHeadInv g st.colors st.is_colored st.colored_count st.current_color)
    (fun st => g.num_vertices - st.colored_count)
    (by
      intro st _ hc
      have hc1 : st.colored_count < g.num_vertices := by simpa using hc
      show 0 < g.num_vertices - st.colored_count
      omega)
    (by
      intro st hI hc
      have hc1 : st.colored_count < g.num_vertices := by simpa using hc
      rcases wp_round_spec g hg sorted hs st hI with ⟨hl, _⟩ | ⟨st1, h1, h2, h3⟩
      · exact Or.inl hl
      · refine Or.inr ⟨st1, h1, h2, ?_⟩
        show g.num_vertices - st1.colored_count < g.num_vertices - st.colored_count
        omega)
    g.num_vertices
    { colors := fun _ => 0, is_colored := fun _ => false, colored_count := 0,
      current_color := 1 }
    (classHead_init g) (Nat.sub_le _ _)
  refine ⟨st, hrun, hI, ?_⟩
  by_cases hc : st.colored_count < g.num_vertices
  · rcases hexit with h | h
    · simp only [decide_eq_false_iff_not] at h
      exact absurd hc h
    · rcases wp_round_spec g hg sorted hs st hI with ⟨_, hall⟩ | ⟨st1, h1, _, _⟩
      · exact hall
      · rw [h] at h1
        exact Round.noConfusion h1
  · apply count_true_full
    rw [← hI.1]
    omega

theorem wp_spec (g : Graph) (hg : g.Valid) (sorted : List VertexDegree)
    (hs : QsortResult g sorted) :
    ∃ out, welsh_powell_coloring g sorted = some out ∧
      ProperColoring g out.colors ∧
      (∀ v, v < g.num_vertices → 1 ≤ out.colors v ∧ out.colors v ≤ (g.num_vertices : Int)) ∧
      out.returned ≤ (g.num_vertices : Int) ∧
      MaxOK g out.colors out.returned := by
  obtain ⟨st, hrun, hI, hall⟩ := wp_loop_spec g hg sorted hs
  refine ⟨{ colors := st.colors, returned := st.current_color - 1 }, ?_,
    classHead_final g _ _ _ _ hI hall⟩
  simp [welsh_powell_coloring, hrun]

theorem add_neighbors_prefix (g : Graph) (v : Nat) (set_U : Nat → Bool) (k x : Nat) :
    (List.range k).foldl
      (fun set_U neighbor =>
        if g.adj_matrix v neighbor = 1 then store set_U neighbor true else set_U)
      set_U x = true ↔
    set_U x = true ∨ (x < k ∧ g.adj_matrix v x = 1) := by
  induction k with
  | zero => simp
  | succ k ih =>
    rw [List.range_succ, List.foldl_append]
    simp only [List.foldl_cons, List.foldl_nil]
    by_cases hk : g.adj_matrix v k = 1
    · rw [if_pos hk]
      by_cases hx : x = k
      · subst hx
        simp only [store_same, true_iff]
        exact Or.inr ⟨Nat.lt_succ_self _, hk⟩
      · rw [store_other _ _ _ _ hx, ih]
        constructor
        · rintro (h | ⟨h1, h2⟩)
          · exact Or.inl h
          · exact Or.inr ⟨by omega, h2⟩
        · rintro (h | ⟨h1, h2⟩)
          · exact Or.inl h
          · exact Or.inr ⟨by omega, h2⟩
    · rw [if_neg hk, ih]
      constructor
      · rintro (h | ⟨h1, h2⟩)
        · exact Or.inl h
        · exact Or.inr ⟨by omega, h2⟩
      · rintro (h | ⟨h1, h2⟩)
        · exact Or.inl h
        · have hx : x ≠ k := by
            intro e
            subst e
            exact hk h2
          exact Or.inr ⟨by omega, h2⟩

theorem add_neighbors_spec (g : Graph) (v : Nat) (set_U : Nat → Bool) (x : Nat) :
    add_neighbors g v set_U x = true ↔
    set_U x = true ∨ (x < g.num_vertices ∧ g.adj_matrix v x = 1) :=
  add_neighbors_prefix g v set_U g.num_vertices x

theorem rlf_start_fold_some (is_colored : Nat → Bool) :
    ∀ (l : List VertexDegree) (p : Option Nat × Int) (v : Nat),
      (l.foldl
        (fun (p : Option Nat × Int) e =>
          if is_colored e.id = false then
            if e.degree > p.2 then (some e.id, e.degree) else p
          else p) p).1 = some v →
      p.1 = some v ∨ ∃ e, e ∈ l ∧ e.id = v ∧ is_colored v = false := by
  intro l
  induction l with
  | nil => intro p v hv; exact Or.inl hv
  | cons e l ih =>
    intro p v hv
    simp only [List.foldl_cons] at hv
    rcases ih _ v hv with h | ⟨e1, h1, h2, h3⟩
    · by_cases hc : is_colored e.id = false
      · rw [if_pos hc] at h
        by_cases hd : e.degree > p.2
        · rw [if_pos hd] at h
          simp only [Option.some.injEq] at h
          exact Or.inr ⟨e, List.mem_cons_self e l, h, h ▸ hc⟩
        · rw [if_neg hd] at h
          exact Or.inl h
      · rw [if_neg hc] at h
        exact Or.inl h
    · exact Or.inr ⟨e1, List.mem_cons_of_mem e h1, h2, h3⟩

theorem rlf_start_fold_keeps (is_colored : Nat → Bool) :
    ∀ (l : List VertexDegree) (p : Option Nat × Int), p.1 ≠ none →
      (l.foldl
        (fun (p : Option Nat × Int) e =>
          if is_colored e.id = false then
            if e.degree > p.2 then (some e.id, e.degree) else p
          else p) p).1 ≠ none := by
  intro l
  induction l with
  | nil => intro p hp; exact hp
  | cons e l ih =>
    intro p hp
    simp only [List.foldl_cons]
    apply ih
    split
    · split
      · simp
      · exact hp
    · exact hp

theorem rlf_start_fold_none (is_colored : Nat → Bool) :
    ∀ (l : List VertexDegree) (p : Option Nat × Int), (p.1 = none → p.2 < 0) →
      (∀ e, e ∈ l → 0 ≤ e.degree) →
      (l.foldl
        (fun (p : Option Nat × Int) e =>
          if is_colored e.id = false then
            if e.degree > p.2 then (some e.id, e.degree) else p
          else p) p).1 = none →
      ∀ e, e ∈ l → is_colored e.id = true := by
  intro l
  induction l with
  | nil => intro p _ _ _ e he; simp at he
  | cons e l ih =>
    intro p hp hdeg hnone e1 he1
    simp only [List.foldl_cons] at hnone
    have hdl : ∀ e2, e2 ∈ l → 0 ≤ e2.degree :=
      fun e2 h2 => hdeg e2 (List.mem_cons_of_mem e h2)
    have hde := hdeg e (List.mem_cons_self e l)
    by_cases hc : is_colored e.id = false
    · exfalso
      rw [if_pos hc] at hnone
      by_cases hd : e.degree > p.2
      · rw [if_pos hd] at hnone
        exact rlf_start_fold_keeps is_colored l _ (by simp) hnone
      · rw [if_neg hd] at hnone
        have hp1 : p.1 ≠ none := by
          intro h
          have := hp h
          omega
        exact rlf_start_fold_keeps is_colored l p hp1 hnone
    · rw [if_neg hc] at hnone
      rcases List.mem_cons.1 he1 with h | h
      · rw [h]
        simpa using hc
      · exact ih p hp hdl hnone e1 h

theorem rlf_start_some (g : Graph) (is_colored : Nat → Bool) (v : Nat)
    (h : rlf_start_vertex (calculate_all_degrees g) is_colored = some v) :
    v < g.num_vertices ∧ is_colored v = false := by
  rcases rlf_start_fold_some is_colored _ (none, -1) v h with h1 | ⟨e, he, hev, hc⟩
  · simp at h1
  · exact ⟨hev ▸ (mem_table g e he).1, hc⟩

theorem rlf_start_none (g : Graph) (is_colored : Nat → Bool)
    (h : rlf_start_vertex (calculate_all_degrees g) is_colored = none) :
    ∀ v, v < g.num_vertices → is_colored v = true := by
  intro v hv
  obtain ⟨e, he, hev⟩ := table_has g v hv
  have := rlf_start_fold_none is_colored _ (none, -1) (fun _ => by simp)
    (fun e he => (mem_table g e he).2) h e he
  rw [hev] at this
  exact this

theorem count_true_lt (f : Nat → Bool) (n v : Nat) (hv : v < n) (hf : f v = false) :
    count_true f n < n := by
  have h1 := count_true_store f n v hv hf
  have h2 := count_true_le (store f v true) n
  omega

theorem rlf_class_round_spec (g : Graph) (hg : g.Valid) (cc : Int) (cs : ClassState)
    (hI : RLFClassInv g cc cs) :
    rlf_class_round g (calculate_all_degrees g) cc cs = Round.leave ∨
    ∃ cs1, rlf_class_round g (calculate_all_degrees g) cc cs = Round.again cs1 ∧
      RLFClassInv g cc cs1 ∧ cs1.colored_count = cs.colored_count + 1 ∧
      cs.colored_count < g.num_vertices := by
  have hkey : ∀ v, (fun v => !cs.is_colored v && !cs.set_U v) v = true →
      0 ≤ neighbors_in_U g cs.set_U v :=
    fun v _ => neighbors_in_U_nonneg g cs.set_U v
  unfold rlf_class_round
  cases hsel : select_vertex g.num_vertices (fun v => !cs.is_colored v && !cs.set_U v)
      (neighbors_in_U g cs.set_U) (table_degree (calculate_all_degrees g)) with
  | none => exact Or.inl rfl
  | some v =>
    right
    obtain ⟨hv, hel⟩ := select_vertex_some _ _ _ _ hkey v hsel
    simp only [Bool.and_eq_true, Bool.not_eq_true'] at hel
    obtain ⟨hu, hnu⟩ := hel
    obtain ⟨hG, hU⟩ := hI
    obtain ⟨_, _, hsym, _⟩ := hg
    have hfree : ∀ w, w < g.num_vertices → g.adj_matrix v w = 1 → cs.colors w ≠ cc := by
      intro w hw hadj hcol
      have hadj2 : g.adj_matrix w v = 1 := by rw [hsym w hw v hv]; exact hadj
      have := hU w hw hcol v hv hadj2
      rw [hnu] at this
      exact Bool.noConfusion this
    have hg2 : g.Valid := ⟨by assumption, by assumption, hsym, by assumption⟩
    refine ⟨_, rfl, ⟨class_grow g hg2 _ _ _ _ v hG hv hu hfree, ?_⟩, rfl, ?_⟩
    · intro w hw hcol x hx hadj
      simp only at hcol ⊢
      rw [add_neighbors_spec]
      by_cases hwv : w = v
      · subst hwv
        exact Or.inr ⟨hx, hadj⟩
      · rw [store_other _ _ _ _ hwv] at hcol
        exact Or.inl (hU w hw hcol x hx hadj)
    · rw [hG.1]
      exact count_true_lt _ _ v hv hu

theorem rlf_round_spec (g : Graph) (hg : g.Valid) (st : RLFState) (hI : RLFInv g st) :
    (rlf_round g (calculate_all_degrees g) st = Round.leave ∧
      ∀ v, v < g.num_vertices → st.is_colored v = true) ∨
    ∃ st1, rlf_round g (calculate_all_degrees g) st = Round.again st1 ∧ RLFInv g st1 ∧
      st.colored_count < st1.colored_count := by
  obtain ⟨hH, hmax⟩ := hI
  unfold rlf_round
  cases hst : rlf_start_vertex (calculate_all_degrees g) st.is_colored with
  | none => exact Or.inl ⟨rfl, rlf_start_none g st.is_colored hst⟩
  | some s =>
    right
    obtain ⟨hs, hu⟩ := rlf_start_some g st.is_colored s hst
    have hopen := class_open g hg _ _ _ _ s hH hs hu
    have hcs0 : RLFClassInv g st.current_color
        { colors := store st.colors s st.current_color
          is_colored := store st.is_colored s true
          colored_count := st.colored_count + 1
          set_U := add_neighbors g s (fun _ => false) } := by
      refine ⟨hopen, ?_⟩
      intro w hw hcol x hx hadj
      simp only at hcol ⊢
      have hws : w = s := by
        by_contra hne
        rw [store_other _ _ _ _ hne] at hcol
        have := (hH.2.2.2.1 w).2
        omega
      subst hws
      rw [add_neighbors_spec]
      exact Or.inr ⟨hx, hadj⟩
    obtain ⟨cs, hrun, ⟨hIcs, hge⟩, _⟩ := while_loop_spec
      (fun _ : ClassState => true) (rlf_class_round g (calculate_all_degrees g) st.current_color)
      (fun cs => RLFClassInv g st.current_color cs ∧ st.colored_count + 1 ≤ cs.colored_count)
      (fun cs => g.num_vertices - cs.colored_count + 1)
      (by
        intro cs _ _
        show 0 < g.num_vertices - cs.colored_count + 1
        omega)
      (by
        intro cs hIc _
        rcases rlf_class_round_spec g hg st.current_color cs hIc.1 with
          hl | ⟨cs1, h1, h2, h3, h4⟩
        · exact Or.inl hl
        · refine Or.inr ⟨cs1, h1, ⟨h2, by have := hIc.2; omega⟩, ?_⟩
          show g.num_vertices - cs1.colored_count + 1 < g.num_vertices - cs.colored_count + 1
          omega)
      (g.num_vertices + 1) _ ⟨hcs0, le_refl _⟩
      (by
        show g.num_vertices - (st.colored_count + 1) + 1 ≤ g.num_vertices + 1
        omega)
    simp only [hrun]
    refine ⟨_, rfl, ⟨class_close g _ _ _ _ hIcs.1, ?_⟩, ?_⟩
    · simp only
      rw [if_pos (by rw [hmax]; omega)]
    · simp only
      omega

theorem rlf_loop_spec (g : Graph) (hg : g.Valid) :
    ∃ st, rlf_main_loop g = some st ∧ RLFInv g st ∧
      ∀ v, v < g.num_vertices → st.is_colored v = true := by
  obtain ⟨st, hrun, hI, hexit⟩ := while_loop_spec
    (fun st : RLFState => decide (st.colored_count < g.num_vertices))
    (rlf_round g (calculate_all_degrees g)) (RLFInv g)
    (fun st => g.num_vertices - st.colored_count)
    (by
      intro st _ hc
      have hc1 : st.colored_count < g.num_vertices := by simpa using hc
      show 0 < g.num_vertices - st.colored_count
      omega)
    (by
      intro st hI hc
      have hc1 : st.colored_count < g.num_vertices := by simpa using hc
      rcases rlf_round_spec g hg st hI with ⟨hl, _⟩ | ⟨st1, h1, h2, h3⟩
      · exact Or.inl hl
      · refine Or.inr ⟨st1, h1, h2, ?_⟩
        show g.num_vertices - st1.colored_count < g.num_vertices - st.colored_count
        omega)
    g.num_vertices
    { colors := fun _ => 0, is_colored := fun _ => false, colored_count := 0,
      current_color := 1, max_colors_used := 0 }
    ⟨classHead_init g, by simp⟩ (Nat.sub_le _ _)
  refine ⟨st, hrun, hI, ?_⟩
  by_cases hc : st.colored_count < g.num_vertices
  · rcases hexit with h | h
    · simp only [decide_eq_false_iff_not] at h
      exact absurd hc h
    · rcases rlf_round_spec g hg st hI with ⟨_, hall⟩ | ⟨st1, h1, _, _⟩
      · exact hall
      · rw [h] at h1
        exact Round.noConfusion h1
  · apply count_true_full
    rw [← hI.1.1]
    omega

theorem rlf_spec (g : Graph) (hg : g.Valid) :
    ∃ out, recursive_largest_first_coloring g = some out ∧
      ProperColoring g out.colors ∧
      (∀ v, v < g.num_vertices → 1 ≤ out.colors v ∧ out.colors v ≤ (g.num_vertices : Int)) ∧
      out.returned ≤ (g.num_vertices : Int) ∧
      MaxOK g out.colors out.returned := by
  obtain ⟨st, hrun, hI, hall⟩ := rlf_loop_spec g hg
  have hfin := classHead_final g _ _ _ _ hI.1 hall
  rw [← hI.2] at hfin
  refine ⟨{ colors := st.colors, returned := st.max_colors_used }, ?_, hfin⟩
  simp [recursive_largest_first_coloring, hrun]

/-! ## Summaries for first fit and largest-degree ordering, and the largest entry -/

theorem ff_spec (g : Graph) (hg : g.Valid) :
    ProperColoring g (first_fit_coloring g).colors ∧
    InRange g (first_fit_coloring g).colors ∧
    MaxOK g (first_fit_coloring g).colors (first_fit_coloring g).returned := by
  obtain ⟨hP, hR, hM⟩ := first_fit_order_spec g hg (List.range g.num_vertices)
    (List.nodup_range _) (fun v => List.mem_range) (List.length_range _)
  exact ⟨properColoring_of_colored g _ hP (fun v hv => (hR v hv).1), hR, hM⟩

theorem ldo_spec (g : Graph) (hg : g.Valid) (sorted : List VertexDegree)
    (hs : QsortResult g sorted) :
    ProperColoring g (largest_degree_ordering_coloring g sorted).colors ∧
    InRange g (largest_degree_ordering_coloring g sorted).colors ∧
    MaxOK g (largest_degree_ordering_coloring g sorted).colors
      (largest_degree_ordering_coloring g sorted).returned := by
  obtain ⟨hP, hR, hM⟩ := first_fit_order_spec g hg (sorted.map (fun e => e.id))
    (sorted_ids_nodup g sorted hs) (sorted_ids_mem g sorted hs)
    (by rw [List.length_map]; exact sorted_length g sorted hs)
  simp only [largest_degree_ordering_coloring, ldo_as_fold]
  exact ⟨properColoring_of_colored g _ hP (fun v hv => (hR v hv).1), hR, hM⟩

theorem max_entry_prefix (colors : Nat → Int) (k : Nat) :
    (∀ v, v < k → colors v ≤ (List.range k).foldl (fun m v => max m (colors v)) (colors 0)) ∧
    colors 0 ≤ (List.range k).foldl (fun m v => max m (colors v)) (colors 0) ∧
    ((List.range k).foldl (fun m v => max m (colors v)) (colors 0) = colors 0 ∨
      ∃ v, v < k ∧ colors v = (List.range k).foldl (fun m v => max m (colors v)) (colors 0)) := by
  induction k with
  | zero => simp
  | succ k ih =>
    rw [List.range_succ, List.foldl_append]
    simp only [List.foldl_cons, List.foldl_nil]
    generalize (List.range k).foldl (fun m v => max m (colors v)) (colors 0) = r at ih ⊢
    obtain ⟨h1, h2, h3⟩ := ih
    refine ⟨?_, le_trans h2 (le_max_left _ _), ?_⟩
    · intro v hv
      by_cases hvk : v = k
      · rw [hvk]; exact le_max_right _ _
      · exact le_trans (h1 v (by omega)) (le_max_left _ _)
    · by_cases hle : colors k ≤ r
      · rw [max_eq_left hle]
        rcases h3 with h | ⟨v, hv, hvr⟩
        · exact Or.inl h
        · exact Or.inr ⟨v, by omega, hvr⟩
      · rw [max_eq_right (by omega)]
        exact Or.inr ⟨k, Nat.lt_succ_self _, rfl⟩

/-- A bound of the array that some vertex attains is the largest entry. -/
theorem eq_max_entry (g : Graph) (hn : 1 ≤ g.num_vertices) (colors : Nat → Int) (m : Int)
    (hle : ∀ v, v < g.num_vertices → colors v ≤ m)
    (hex : ∃ v, v < g.num_vertices ∧ colors v = m) : m = max_entry g colors := by
  obtain ⟨h1, h2, h3⟩ := max_entry_prefix colors g.num_vertices
  obtain ⟨v, hv, hvm⟩ := hex
  have hge : m ≤ max_entry g colors := hvm ▸ h1 v hv
  have hle2 : max_entry g colors ≤ m := by
    rcases h3 with h | ⟨w, hw, hwr⟩
    · unfold max_entry
      rw [h]
      exact hle 0 (by omega)
    · unfold max_entry
      rw [← hwr]
      exact hle w hw
  omega

theorem maxOK_eq_max_entry (g : Graph) (hn : 1 ≤ g.num_vertices) (colors : Nat → Int)
    (m : Int) (hR : InRange g colors) (hM : MaxOK g colors m) : m = max_entry g colors := by
  apply eq_max_entry g hn colors m (fun v _ => hM.1 v)
  rcases hM.2.1 with h | h
  · exact h
  · exfalso
    have h1 := (hR 0 (by omega)).1
    have h2 := hM.1 0
    omega

/-! ## The claims -/

/-- C1: for every valid graph, the `colors` array left by `first_fit_coloring` is a proper
colouring: adjacent vertices hold different colours. -/
theorem first_fit_coloring_proper (g : Graph) (hg : g.Valid) :
    ProperColoring g (first_fit_coloring g).colors :=
  (ff_spec g hg).1

theorem first_fit_coloring_proper_witness :
    cycle4.Valid ∧ ProperColoring cycle4 (first_fit_coloring cycle4).colors :=
  ⟨by unfold Graph.Valid; decide,
    first_fit_coloring_proper cycle4 (by unfold Graph.Valid; decide)⟩

/-- C2: for every valid graph, `dsatur_coloring` returns and the `colors` array it leaves
is a proper colouring. -/
theorem dsatur_coloring_proper (g : Graph) (hg : g.Valid) :
    ∃ out, dsatur_coloring g = some out ∧ ProperColoring g out.colors := by
  obtain ⟨out, h1, h2, _⟩ := dsatur_spec g hg
  exact ⟨out, h1, h2⟩

theorem dsatur_coloring_proper_witness :
    triangle.Valid ∧ ∃ out, dsatur_coloring triangle = some out ∧
      ProperColoring triangle out.colors :=
  ⟨by unfold Graph.Valid; decide,
    dsatur_coloring_proper triangle (by unfold Graph.Valid; decide)⟩

/-- C3: for every valid graph, `recursive_largest_first_coloring` returns and the `colors`
array it leaves is a proper colouring; and every round of the inner loop that adds a
vertex to the active class takes a vertex that is uncolored and outside the frontier
`set_U`, and writes the active colour to that vertex only. -/
theorem recursive_largest_first_coloring_proper (g : Graph) (hg : g.Valid) :
    (∃ out, recursive_largest_first_coloring g = some out ∧ ProperColoring g out.colors) ∧
    ∀ (current_color : Int) (cs cs1 : ClassState),
      rlf_class_round g (calculate_all_degrees g) current_color cs = Round.again cs1 →
      ∃ v, v < g.num_vertices ∧ cs.is_colored v = false ∧ cs.set_U v = false ∧
        cs1.colors = store cs.colors v current_color := by
  constructor
  · obtain ⟨out, h1, h2, _⟩ := rlf_spec g hg
    exact ⟨out, h1, h2⟩
  · intro cc cs cs1 h
    have hkey : ∀ v, (fun v => !cs.is_colored v && !cs.set_U v) v = true →
        0 ≤ neighbors_in_U g cs.set_U v :=
      fun v _ => neighbors_in_U_nonneg g cs.set_U v
    unfold rlf_class_round at h
    cases hsel : select_vertex g.num_vertices (fun v => !cs.is_colored v && !cs.set_U v)
        (neighbors_in_U g cs.set_U) (table_degree (calculate_all_degrees g)) with
    | none =>
      rw [hsel] at h
      exact Round.noConfusion h
    | some v =>
      rw [hsel] at h
      obtain ⟨hv, hel⟩ := select_vertex_some _ _ _ _ hkey v hsel
      simp only [Bool.and_eq_true, Bool.not_eq_true'] at hel
      simp only [Round.again.injEq] at h
      exact ⟨v, hv, hel.1, hel.2, by rw [← h]⟩

theorem recursive_largest_first_coloring_proper_witness :
    star3.Valid ∧
    (∃ out, recursive_largest_first_coloring star3 = some out ∧
      ProperColoring star3 out.colors) ∧
    ∀ (current_color : Int) (cs cs1 : ClassState),
      rlf_class_round star3 (calculate_all_degrees star3) current_color cs =
        Round.again cs1 →
      ∃ v, v < star3.num_vertices ∧ cs.is_colored v = false ∧ cs.set_U v = false ∧
        cs1.colors = store cs.colors v current_color :=
  ⟨by unfold Graph.Valid; decide,
    recursive_largest_first_coloring_proper star3 (by unfold Graph.Valid; decide)⟩

/-- C4: for every valid graph and every array `sorted` that `qsort` may leave (any order
among equal degrees), `welsh_powell_coloring` returns and the `colors` array it leaves is
a proper colouring. -/
theorem welsh_powell_coloring_proper (g : Graph) (hg : g.Valid)
    (sorted : List VertexDegree) (hs : QsortResult g sorted) :
    ∃ out, welsh_powell_coloring g sorted = some out ∧ ProperColoring g out.colors := by
  obtain ⟨out, h1, h2, _⟩ := wp_spec g hg sorted hs
  exact ⟨out, h1, h2⟩

theorem welsh_powell_coloring_proper_witness :
    star3.Valid ∧ QsortResult star3 star3_sorted ∧
    ∃ out, welsh_powell_coloring star3 star3_sorted = some out ∧
      ProperColoring star3 out.colors :=
  ⟨by unfold Graph.Valid; decide, by unfold QsortResult; decide,
    welsh_powell_coloring_proper star3 (by unfold Graph.Valid; decide) star3_sorted
      (by unfold QsortResult; decide)⟩

/-- C5: for every valid graph, `incidence_degree_ordering_coloring` returns and the
`colors` array it leaves is a proper colouring. -/
theorem incidence_degree_ordering_coloring_proper (g : Graph) (hg : g.Valid) :
    ∃ out, incidence_degree_ordering_coloring g = some out ∧
      ProperColoring g out.colors := by
  obtain ⟨out, h1, h2, _⟩ := ido_spec g hg
  exact ⟨out, h1, h2⟩

theorem incidence_degree_ordering_coloring_proper_witness :
    cycle4.Valid ∧ ∃ out, incidence_degree_ordering_coloring cycle4 = some out ∧
      ProperColoring cycle4 out.colors :=
  ⟨by unfold Graph.Valid; decide,
    incidence_degree_ordering_coloring_proper cycle4 (by unfold Graph.Valid; decide)⟩

/-- C6: for every valid graph and every array `sorted` that `qsort` may leave (any order
among equal degrees), the `colors` array left by `largest_degree_ordering_coloring` is a
proper colouring. -/
theorem largest_degree_ordering_coloring_proper (g : Graph) (hg : g.Valid)
    (sorted : List VertexDegree) (hs : QsortResult g sorted) :
    ProperColoring g (largest_degree_ordering_coloring g sorted).colors :=
  (ldo_spec g hg sorted hs).1

theorem largest_degree_ordering_coloring_proper_witness :
    cycle4.Valid ∧ QsortResult cycle4 cycle4_sorted ∧
    ProperColoring cycle4 (largest_degree_ordering_coloring cycle4 cycle4_sorted).colors :=
  ⟨by unfold Graph.Valid; decide, by unfold QsortResult; decide,
    largest_degree_ordering_coloring_proper cycle4 (by unfold Graph.Valid; decide)
      cycle4_sorted (by unfold QsortResult; decide)⟩

/-- C7: for every valid graph, after `first_fit_coloring`,
`largest_degree_ordering_coloring`, `incidence_degree_ordering_coloring` or
`dsatur_coloring` every entry `colors[v]` lies in `1 .. num_vertices`: no vertex is left
at `0`, and no colour search ended at `num_vertices + 1`, each entry being the value a
search stopped at (or the seed's colour 1). -/
theorem first_fit_family_in_range (g : Graph) (hg : g.Valid) (sorted : List VertexDegree)
    (hs : QsortResult g sorted) :
    InRange g (first_fit_coloring g).colors ∧
    InRange g (largest_degree_ordering_coloring g sorted).colors ∧
    (∃ out, incidence_degree_ordering_coloring g = some out ∧ InRange g out.colors) ∧
    (∃ out, dsatur_coloring g = some out ∧ InRange g out.colors) := by
  refine ⟨(ff_spec g hg).2.1, (ldo_spec g hg sorted hs).2.1, ?_, ?_⟩
  · obtain ⟨out, h1, _, h3, _⟩ := ido_spec g hg
    exact ⟨out, h1, h3⟩
  · obtain ⟨out, h1, _, h3, _⟩ := dsatur_spec g hg
    exact ⟨out, h1, h3⟩

theorem first_fit_family_in_range_witness :
    star3.Valid ∧ QsortResult star3 star3_sorted ∧
    InRange star3 (first_fit_coloring star3).colors ∧
    InRange star3 (largest_degree_ordering_coloring star3 star3_sorted).colors ∧
    (∃ out, incidence_degree_ordering_coloring star3 = some out ∧ InRange star3 out.colors) ∧
    (∃ out, dsatur_coloring star3 = some out ∧ InRange star3 out.colors) :=
  ⟨by unfold Graph.Valid; decide, by unfold QsortResult; decide,
    first_fit_family_in_range star3 (by unfold Graph.Valid; decide) star3_sorted
      (by unfold QsortResult; decide)⟩

/-- C8: for every valid graph (and every array `sorted` that `qsort` may leave), after
`welsh_powell_coloring` or `recursive_largest_first_coloring` every entry `colors[v]`
lies in `1 .. num_vertices` and the returned count is at most `num_vertices`. -/
theorem class_family_in_range (g : Graph) (hg : g.Valid) (sorted : List VertexDegree)
    (hs : QsortResult g sorted) :
    (∃ out, welsh_powell_coloring g sorted = some out ∧ InRange g out.colors ∧
      out.returned ≤ (g.num_vertices : Int)) ∧
    (∃ out, recursive_largest_first_coloring g = some out ∧ InRange g out.colors ∧
      out.returned ≤ (g.num_vertices : Int)) := by
  constructor
  · obtain ⟨out, h1, _, h3, h4, _⟩ := wp_spec g hg sorted hs
    exact ⟨out, h1, h3, h4⟩
  · obtain ⟨out, h1, _, h3, h4, _⟩ := rlf_spec g hg
    exact ⟨out, h1, h3, h4⟩

theorem class_family_in_range_witness :
    cycle4.Valid ∧ QsortResult cycle4 cycle4_sorted ∧
    (∃ out, welsh_powell_coloring cycle4 cycle4_sorted = some out ∧
      InRange cycle4 out.colors ∧ out.returned ≤ (cycle4.num_vertices : Int)) ∧
    (∃ out, recursive_largest_first_coloring cycle4 = some out ∧ InRange cycle4 out.colors ∧
      out.returned ≤ (cycle4.num_vertices : Int)) :=
  ⟨by unfold Graph.Valid; decide, by unfold QsortResult; decide,
    class_family_in_range cycle4 (by unfold Graph.Valid; decide) cycle4_sorted
      (by unfold QsortResult; decide)⟩

/-- C9: for every valid graph, the integer returned by `first_fit_coloring`,
`largest_degree_ordering_coloring`, `incidence_degree_ordering_coloring` and
`dsatur_coloring` is the largest entry of the `colors` array the call produced. -/
theorem first_fit_family_returns_max (g : Graph) (hg : g.Valid)
    (sorted : List VertexDegree) (hs : QsortResult g sorted) :
    (first_fit_coloring g).returned = max_entry g (first_fit_coloring g).colors ∧
    (largest_degree_ordering_coloring g sorted).returned =
      max_entry g (largest_degree_ordering_coloring g sorted).colors ∧
    (∃ out, incidence_degree_ordering_coloring g = some out ∧
      out.returned = max_entry g out.colors) ∧
    (∃ out, dsatur_coloring g = some out ∧ out.returned = max_entry g out.colors) := by
  have hn := hg.1
  refine ⟨?_, ?_, ?_, ?_⟩
  · obtain ⟨_, h2, h3⟩ := ff_spec g hg
    exact maxOK_eq_max_entry g hn _ _ h2 h3
  · obtain ⟨_, h2, h3⟩ := ldo_spec g hg sorted hs
    exact maxOK_eq_max_entry g hn _ _ h2 h3
  · obtain ⟨out, h1, _, h3, h4⟩ := ido_spec g hg
    exact ⟨out, h1, maxOK_eq_max_entry g hn _ _ h3 h4⟩
  · obtain ⟨out, h1, _, h3, h4⟩ := dsatur_spec g hg
    exact ⟨out, h1, maxOK_eq_max_entry g hn _ _ h3 h4⟩

theorem first_fit_family_returns_max_witness :
    triangle.Valid ∧ QsortResult triangle (calculate_all_degrees triangle) ∧
    (first_fit_coloring triangle).returned =
      max_entry triangle (first_fit_coloring triangle).colors ∧
    (largest_degree_ordering_coloring triangle (calculate_all_degrees triangle)).returned =
      max_entry triangle
        (largest_degree_ordering_coloring triangle (calculate_all_degrees triangle)).colors ∧
    (∃ out, incidence_degree_ordering_coloring triangle = some out ∧
      out.returned = max_entry triangle out.colors) ∧
    (∃ out, dsatur_coloring triangle = some out ∧
      out.returned = max_entry triangle out.colors) :=
  ⟨by unfold Graph.Valid; decide, by unfold QsortResult; decide,
    first_fit_family_returns_max triangle (by unfold Graph.Valid; decide)
      (calculate_all_degrees triangle) (by unfold QsortResult; decide)⟩

/-- C10: for every valid graph, the main loop of `recursive_largest_first_coloring` ends
in a state whose `max_colors_used`, the integer returned, equals `current_color - 1`, the
number of colour classes opened, and equals the largest entry of the `colors` array. -/
theorem recursive_largest_first_returns_max (g : Graph) (hg : g.Valid) :
    ∃ st, rlf_main_loop g = some st ∧
      recursive_largest_first_coloring g =
        some { colors := st.colors, returned := st.max_colors_used } ∧
      st.max_colors_used = st.current_color - 1 ∧
      st.max_colors_used = max_entry g st.colors := by
  obtain ⟨st, hrun, hI, hall⟩ := rlf_loop_spec g hg
  have hfin := classHead_final g _ _ _ _ hI.1 hall
  rw [← hI.2] at hfin
  refine ⟨st, hrun, ?_, hI.2, maxOK_eq_max_entry g hg.1 _ _ hfin.2.1 hfin.2.2.2⟩
  simp [recursive_largest_first_coloring, hrun]

theorem recursive_largest_first_returns_max_witness :
    star3.Valid ∧ ∃ st, rlf_main_loop star3 = some st ∧
      recursive_largest_first_coloring star3 =
        some { colors := st.colors, returned := st.max_colors_used } ∧
      st.max_colors_used = st.current_color - 1 ∧
      st.max_colors_used = max_entry star3 st.colors :=
  ⟨by unfold Graph.Valid; decide,
    recursive_largest_first_returns_max star3 (by unfold Graph.Valid; decide)⟩

/-! ## Colours in use, degrees and small instances -/

theorem maxOK_nonneg (g : Graph) (colors : Nat → Int) (m : Int) (hR : InRange g colors)
    (hM : MaxOK g colors m) : 0 ≤ m := by
  rcases hM.2.1 with ⟨v, hv, hvm⟩ | h
  · have := (hR v hv).1
    omega
  · omega

theorem colorsAre_of_maxOK (g : Graph) (colors : Nat → Int) (m : Int) (hR : InRange g colors)
    (hM : MaxOK g colors m) : ColorsAre g colors m :=
  ⟨fun v hv => ⟨(hR v hv).1, hM.1 v⟩, hM.2.2⟩

/-- An array whose values are exactly `1 .. k` holds `k` distinct values. -/
theorem distinct_colors_eq (g : Graph) (colors : Nat → Int) (k : Int) (hk : 0 ≤ k)
    (h : ColorsAre g colors k) : (distinct_colors g colors : Int) = k := by
  have hset : ((List.range g.num_vertices).map colors).toFinset = Finset.Icc 1 k := by
    ext c
    simp only [List.mem_toFinset, List.mem_map, List.mem_range, Finset.mem_Icc]
    constructor
    · rintro ⟨v, hv, rfl⟩
      exact h.1 v hv
    · rintro ⟨h1, h2⟩
      exact h.2 c h1 h2
  have hcard : distinct_colors g colors = (Finset.Icc 1 k).card := by
    rw [← hset, List.card_toFinset]
    rfl
  rw [hcard, Int.card_Icc]
  have : k + 1 - 1 = k := by omega
  rw [this, Int.toNat_of_nonneg hk]

theorem triangle_three (colors : Nat → Int) (m : Int) (hP : ProperColoring triangle colors)
    (hR : InRange triangle colors) (hM : MaxOK triangle colors m) :
    m = 3 ∧ ThreeDifferent colors := by
  have h01 := hP 0 (by decide) 1 (by decide) (by decide)
  have h12 := hP 1 (by decide) 2 (by decide) (by decide)
  have h02 := hP 0 (by decide) 2 (by decide) (by decide)
  have r0 := hR 0 (by decide)
  have r1 := hR 1 (by decide)
  have r2 := hR 2 (by decide)
  have hn : (triangle.num_vertices : Int) = 3 := rfl
  rw [hn] at r0 r1 r2
  have m0 := hM.1 0
  have m1 := hM.1 1
  have m2 := hM.1 2
  refine ⟨?_, h01, h12, h02⟩
  rcases hM.2.1 with ⟨v, hv, hvm⟩ | h
  · have hv3 : v < 3 := hv
    have : v = 0 ∨ v = 1 ∨ v = 2 := by omega
    rcases this with e | e | e <;> subst e <;> omega
  · omega

theorem count_fold_eq_card (p : Nat → Prop) [DecidablePred p] (k : Nat) :
    (List.range k).foldl (fun degree j => if p j then degree + 1 else degree) (0 : Int) =
      (((Finset.range k).filter p).card : Int) := by
  induction k with
  | zero => simp
  | succ k ih =>
    rw [List.range_succ, List.foldl_append, Finset.range_succ]
    simp only [List.foldl_cons, List.foldl_nil]
    rw [ih]
    by_cases hk : p k
    · rw [if_pos hk, Finset.filter_insert, if_pos hk,
        Finset.card_insert_of_not_mem (by simp)]
      push_cast
      rfl
    · rw [if_neg hk, Finset.filter_insert, if_neg hk]

theorem row_degree_eq_card (g : Graph) (v : Nat) :
    row_degree g v =
      (((Finset.range g.num_vertices).filter (fun w => g.adj_matrix v w = 1)).card : Int) :=
  count_fold_eq_card (fun w => g.adj_matrix v w = 1) g.num_vertices

/-- In a colouring where every colour below a vertex's own is held by a neighbour, the
colour of a vertex is at most its degree plus one. -/
theorem greedy_le_degree (g : Graph) (colors : Nat → Int) (hG : Greedy g colors) (v : Nat)
    (hv : v < g.num_vertices) : colors v ≤ row_degree g v + 1 := by
  have hsub : Finset.Icc 1 (colors v - 1) ⊆
      ((Finset.range g.num_vertices).filter (fun w => g.adj_matrix v w = 1)).image colors := by
    intro x hx
    simp only [Finset.mem_Icc] at hx
    obtain ⟨w, hw, hadj, hwx⟩ := hG v hv x hx.1 (by omega)
    simp only [Finset.mem_image, Finset.mem_filter, Finset.mem_range]
    exact ⟨w, ⟨hw, hadj⟩, hwx⟩
  have h1 := Finset.card_le_card hsub
  have h2 := Finset.card_image_le
    (s := (Finset.range g.num_vertices).filter (fun w => g.adj_matrix v w = 1)) (f := colors)
  rw [Int.card_Icc] at h1
  rw [row_degree_eq_card]
  omega

theorem fold_max_ge (f : Nat → Int) (init : Int) (k : Nat) :
    init ≤ (List.range k).foldl (fun m i => max m (f i)) init ∧
    ∀ v, v < k → f v ≤ (List.range k).foldl (fun m i => max m (f i)) init := by
  induction k with
  | zero => simp
  | succ k ih =>
    rw [List.range_succ, List.foldl_append]
    simp only [List.foldl_cons, List.foldl_nil]
    refine ⟨le_trans ih.1 (le_max_left _ _), ?_⟩
    intro v hv
    by_cases hvk : v = k
    · rw [hvk]; exact le_max_right _ _
    · exact le_trans (ih.2 v (by omega)) (le_max_left _ _)

theorem row_degree_le_max_degree (g : Graph) (v : Nat) (hv : v < g.num_vertices) :
    row_degree g v ≤ max_degree g :=
  (fold_max_ge (row_degree g) 0 g.num_vertices).2 v hv

theorem max_degree_nonneg (g : Graph) : 0 ≤ max_degree g :=
  (fold_max_ge (row_degree g) 0 g.num_vertices).1

theorem ff_greedy (g : Graph) (hg : g.Valid) : Greedy g (first_fit_coloring g).colors :=
  (first_fit_fold_inv g hg (List.range g.num_vertices)
    { colors := fun _ => 0, max_colors_used := 0 } 0 (ffInv_init g)
    (fun v hv => ⟨List.mem_range.1 hv, rfl⟩) (List.nodup_range _)
    (by rw [List.length_range]; omega)).1.2.2.2

/-! ## The claims on counts, bounds and small instances -/

/-- C11: for every valid graph (and every array `sorted` that `qsort` may leave), the main
loop of `welsh_powell_coloring` ends in a state whose `current_color - 1`, the integer
returned and the number of passes made, is the largest entry of the `colors` array. -/
theorem welsh_powell_returns_max (g : Graph) (hg : g.Valid) (sorted : List VertexDegree)
    (hs : QsortResult g sorted) :
    ∃ st, wp_main_loop g sorted = some st ∧
      welsh_powell_coloring g sorted =
        some { colors := st.colors, returned := st.current_color - 1 } ∧
      st.current_color - 1 = max_entry g st.colors := by
  obtain ⟨st, hrun, hI, hall⟩ := wp_loop_spec g hg sorted hs
  have hfin := classHead_final g _ _ _ _ hI hall
  refine ⟨st, hrun, ?_, maxOK_eq_max_entry g hg.1 _ _ hfin.2.1 hfin.2.2.2⟩
  simp [welsh_powell_coloring, hrun]

theorem welsh_powell_returns_max_witness :
    star3.Valid ∧ QsortResult star3 star3_sorted ∧
    ∃ st, wp_main_loop star3 star3_sorted = some st ∧
      welsh_powell_coloring star3 star3_sorted =
        some { colors := st.colors, returned := st.current_color - 1 } ∧
      st.current_color - 1 = max_entry star3 st.colors :=
  ⟨by unfold Graph.Valid; decide, by unfold QsortResult; decide,
    welsh_powell_returns_max star3 (by unfold Graph.Valid; decide) star3_sorted
      (by unfold QsortResult; decide)⟩

/-- C12: for every valid graph and each of the six colouring routines, the values in the
`colors` array are exactly `1 .. k` for the returned integer `k`, no colour skipped, and
`k` is the number of distinct values in the array. -/
theorem returned_counts_distinct_colors (g : Graph) (hg : g.Valid)
    (sorted : List VertexDegree) (hs : QsortResult g sorted) :
    (ColorsAre g (first_fit_coloring g).colors (first_fit_coloring g).returned ∧
      (distinct_colors g (first_fit_coloring g).colors : Int) =
        (first_fit_coloring g).returned) ∧
    (∃ out, welsh_powell_coloring g sorted = some out ∧
      ColorsAre g out.colors out.returned ∧
      (distinct_colors g out.colors : Int) = out.returned) ∧
    (ColorsAre g (largest_degree_ordering_coloring g sorted).colors
        (largest_degree_ordering_coloring g sorted).returned ∧
      (distinct_colors g (largest_degree_ordering_coloring g sorted).colors : Int) =
        (largest_degree_ordering_coloring g sorted).returned) ∧
    (∃ out, incidence_degree_ordering_coloring g = some out ∧
      ColorsAre g out.colors out.returned ∧
      (distinct_colors g out.colors : Int) = out.returned) ∧
    (∃ out, dsatur_coloring g = some out ∧
      ColorsAre g out.colors out.returned ∧
      (distinct_colors g out.colors : Int) = out.returned) ∧
    (∃ out, recursive_largest_first_coloring g = some out ∧
      ColorsAre g out.colors out.returned ∧
      (distinct_colors g out.colors : Int) = out.returned) := by
  have key : ∀ (colors : Nat → Int) (m : Int), InRange g colors → MaxOK g colors m →
      ColorsAre g colors m ∧ (distinct_colors g colors : Int) = m := by
    intro colors m hR hM
    have hC := colorsAre_of_maxOK g colors m hR hM
    exact ⟨hC, distinct_colors_eq g colors m (maxOK_nonneg g colors m hR hM) hC⟩
  refine ⟨?_, ?_, ?_, ?_, ?_, ?_⟩
  · obtain ⟨_, h2, h3⟩ := ff_spec g hg
    exact key _ _ h2 h3
  · obtain ⟨out, h1, _, h3, _, h5⟩ := wp_spec g hg sorted hs
    exact ⟨out, h1, key _ _ h3 h5⟩
  · obtain ⟨_, h2, h3⟩ := ldo_spec g hg sorted hs
    exact key _ _ h2 h3
  · obtain ⟨out, h1, _, h3, h4⟩ := ido_spec g hg
    exact ⟨out, h1, key _ _ h3 h4⟩
  · obtain ⟨out, h1, _, h3, h4⟩ := dsatur_spec g hg
    exact ⟨out, h1, key _ _ h3 h4⟩
  · obtain ⟨out, h1, _, h3, _, h5⟩ := rlf_spec g hg
    exact ⟨out, h1, key _ _ h3 h5⟩

theorem returned_counts_distinct_colors_witness :
    star3.Valid ∧ QsortResult star3 star3_sorted ∧
    (ColorsAre star3 (first_fit_coloring star3).colors (first_fit_coloring star3).returned ∧
      (distinct_colors star3 (first_fit_coloring star3).colors : Int) =
        (first_fit_coloring star3).returned) ∧
    (∃ out, welsh_powell_coloring star3 star3_sorted = some out ∧
      ColorsAre star3 out.colors out.returned ∧
      (distinct_colors star3 out.colors : Int) = out.returned) ∧
    (ColorsAre star3 (largest_degree_ordering_coloring star3 star3_sorted).colors
        (largest_degree_ordering_coloring star3 star3_sorted).returned ∧
      (distinct_colors star3
          (largest_degree_ordering_coloring star3 star3_sorted).colors : Int) =
        (largest_degree_ordering_coloring star3 star3_sorted).returned) ∧
    (∃ out, incidence_degree_ordering_coloring star3 = some out ∧
      ColorsAre star3 out.colors out.returned ∧
      (distinct_colors star3 out.colors : Int) = out.returned) ∧
    (∃ out, dsatur_coloring star3 = some out ∧
      ColorsAre star3 out.colors out.returned ∧
      (distinct_colors star3 out.colors : Int) = out.returned) ∧
    (∃ out, recursive_largest_first_coloring star3 = some out ∧
      ColorsAre star3 out.colors out.returned ∧
      (distinct_colors star3 out.colors : Int) = out.returned) :=
  ⟨by unfold Graph.Valid; decide, by unfold QsortResult; decide,
    returned_counts_distinct_colors star3 (by unfold Graph.Valid; decide) star3_sorted
      (by unfold QsortResult; decide)⟩

/-- C13: for every valid graph, whatever the labelling of its vertices,
`first_fit_coloring` returns at most `max_degree + 1`, where `max_degree` is the largest
number of 1-entries in a row of the adjacency matrix. -/
theorem first_fit_at_most_max_degree_succ (g : Graph) (hg : g.Valid) :
    (first_fit_coloring g).returned ≤ max_degree g + 1 := by
  obtain ⟨_, _, hM⟩ := ff_spec g hg
  rcases hM.2.1 with ⟨v, hv, hvm⟩ | h
  · rw [← hvm]
    have h1 := greedy_le_degree g _ (ff_greedy g hg) v hv
    have h2 := row_degree_le_max_degree g v hv
    omega
  · have := max_degree_nonneg g
    omega

theorem first_fit_at_most_max_degree_succ_witness :
    star3.Valid ∧ (first_fit_coloring star3).returned ≤ max_degree star3 + 1 :=
  ⟨by unfold Graph.Valid; decide,
    first_fit_at_most_max_degree_succ star3 (by unfold Graph.Valid; decide)⟩

/-- C14: on the 4-cycle with the vertices 0..3 and the edges 0-1, 1-2, 2-3, 3-0,
`first_fit_coloring` writes `colors = [1, 2, 1, 2]` and returns 2. -/
theorem first_fit_on_cycle4 :
    (∀ u, u < 4 → ∀ v, v < 4 →
      (cycle4.adj_matrix u v = 1 ↔
        (u, v) ∈ [(0, 1), (1, 0), (1, 2), (2, 1), (2, 3), (3, 2), (3, 0), (0, 3)])) ∧
    cycle4.num_vertices = 4 ∧
    (List.range 4).map (first_fit_coloring cycle4).colors = [1, 2, 1, 2] ∧
    (first_fit_coloring cycle4).returned = 2 := by
  refine ⟨by decide, rfl, by decide, by decide⟩

/-- C15: on the triangle with the vertices 0..2 and the edges 0-1, 1-2, 0-2, each of the
six colouring routines (with any array `sorted` that `qsort` may leave) returns 3 and
gives the three vertices three different colours. -/
theorem six_routines_on_triangle (sorted : List VertexDegree)
    (hs : QsortResult triangle sorted) :
    ((first_fit_coloring triangle).returned = 3 ∧
      ThreeDifferent (first_fit_coloring triangle).colors) ∧
    (∃ out, welsh_powell_coloring triangle sorted = some out ∧ out.returned = 3 ∧
      ThreeDifferent out.colors) ∧
    ((largest_degree_ordering_coloring triangle sorted).returned = 3 ∧
      ThreeDifferent (largest_degree_ordering_coloring triangle sorted).colors) ∧
    (∃ out, incidence_degree_ordering_coloring triangle = some out ∧ out.returned = 3 ∧
      ThreeDifferent out.colors) ∧
    (∃ out, dsatur_coloring triangle = some out ∧ out.returned = 3 ∧
      ThreeDifferent out.colors) ∧
    (∃ out, recursive_largest_first_coloring triangle = some out ∧ out.returned = 3 ∧
      ThreeDifferent out.colors) := by
  have hg : triangle.Valid := by unfold Graph.Valid; decide
  refine ⟨?_, ?_, ?_, ?_, ?_, ?_⟩
  · obtain ⟨h1, h2, h3⟩ := ff_spec triangle hg
    exact triangle_three _ _ h1 h2 h3
  · obtain ⟨out, h1, h2, h3, _, h5⟩ := wp_spec triangle hg sorted hs
    exact ⟨out, h1, triangle_three _ _ h2 h3 h5⟩
  · obtain ⟨h1, h2, h3⟩ := ldo_spec triangle hg sorted hs
    exact triangle_three _ _ h1 h2 h3
  · obtain ⟨out, h1, h2, h3, h4⟩ := ido_spec triangle hg
    exact ⟨out, h1, triangle_three _ _ h2 h3 h4⟩
  · obtain ⟨out, h1, h2, h3, h4⟩ := dsatur_spec triangle hg
    exact ⟨out, h1, triangle_three _ _ h2 h3 h4⟩
  · obtain ⟨out, h1, h2, h3, _, h5⟩ := rlf_spec triangle hg
    exact ⟨out, h1, triangle_three _ _ h2 h3 h5⟩

theorem six_routines_on_triangle_witness :
    QsortResult triangle triangle_sorted ∧
    ((first_fit_coloring triangle).returned = 3 ∧
      ThreeDifferent (first_fit_coloring triangle).colors) ∧
    (∃ out, welsh_powell_coloring triangle triangle_sorted = some out ∧ out.returned = 3 ∧
      ThreeDifferent out.colors) ∧
    ((largest_degree_ordering_coloring triangle triangle_sorted).returned = 3 ∧
      ThreeDifferent (largest_degree_ordering_coloring triangle triangle_sorted).colors) ∧
    (∃ out, incidence_degree_ordering_coloring triangle = some out ∧ out.returned = 3 ∧
      ThreeDifferent out.colors) ∧
    (∃ out, dsatur_coloring triangle = some out ∧ out.returned = 3 ∧
      ThreeDifferent out.colors) ∧
    (∃ out, recursive_largest_first_coloring triangle = some out ∧ out.returned = 3 ∧
      ThreeDifferent out.colors) :=
  ⟨by unfold QsortResult; decide,
    six_routines_on_triangle triangle_sorted (by unfold QsortResult; decide)⟩

/-- C19: there is a valid graph on 5 vertices with a partial colouring (proper on the
colored vertices, flags matching the colours) in which the uncolored vertices 3 and 4 have
the same number of colored neighbours but different numbers of distinct colours among
them, and on which the selection scan of `incidence_degree_ordering_coloring` picks
vertex 3 while the selection scan of `dsatur_coloring` picks vertex 4. -/
theorem dsatur_and_ido_select_differently :
    ∃ (g : Graph) (colors : Nat → Int) (is_colored : Nat → Bool),
      g.Valid ∧ g.num_vertices = 5 ∧ PartialProper g colors ∧
      (∀ v, v < 5 → (is_colored v = true ↔ colors v ≠ 0)) ∧
      is_colored 3 = false ∧ is_colored 4 = false ∧
      colored_neighbors g is_colored 3 = colored_neighbors g is_colored 4 ∧
      saturation_degree g colors is_colored 3 ≠ saturation_degree g colors is_colored 4 ∧
      select_vertex g.num_vertices (fun v => !is_colored v) (colored_neighbors g is_colored)
        (table_degree (calculate_all_degrees g)) = some 3 ∧
      select_vertex g.num_vertices (fun v => !is_colored v)
        (saturation_degree g colors is_colored)
        (table_degree (calculate_all_degrees g)) = some 4 := by
  refine ⟨saturation_graph, saturation_colors, saturation_is_colored,
    by unfold Graph.Valid; decide, rfl, by unfold PartialProper; decide, by decide,
    by decide, by decide, by decide, by decide, by decide, by decide⟩

/-- C20: for every graph, in an array that `qsort` with `compare_vertex_degree` may leave
from the table of `calculate_all_degrees`, the degrees are non-increasing along the
positions, and every entry still pairs a vertex id with that vertex's degree. -/
theorem sorted_degrees_non_increasing (g : Graph) (sorted : List VertexDegree)
    (hs : QsortResult g sorted) :
    (∀ (i j : Nat) (hij : i < j) (hj : j < sorted.length),
      (sorted.get ⟨j, hj⟩).degree ≤ (sorted.get ⟨i, lt_trans hij hj⟩).degree) ∧
    ∀ e, e ∈ sorted → e.id < g.num_vertices ∧ e.degree = row_degree g e.id := by
  constructor
  · intro i j hij hj
    have := List.pairwise_iff_get.1 hs.2 ⟨i, lt_trans hij hj⟩ ⟨j, hj⟩ hij
    simp only [compare_vertex_degree] at this
    omega
  · intro e he
    have hmem := hs.1.mem_iff.1 he
    simp only [calculate_all_degrees, List.mem_map, List.mem_range] at hmem
    obtain ⟨i, hi, rfl⟩ := hmem
    exact ⟨hi, rfl⟩

theorem sorted_degrees_non_increasing_witness :
    QsortResult star3 star3_sorted ∧
    (∀ (i j : Nat) (hij : i < j) (hj : j < star3_sorted.length),
      (star3_sorted.get ⟨j, hj⟩).degree ≤
        (star3_sorted.get ⟨i, lt_trans hij hj⟩).degree) ∧
    ∀ e, e ∈ star3_sorted → e.id < star3.num_vertices ∧ e.degree = row_degree star3 e.id :=
  ⟨by unfold QsortResult; decide,
    sorted_degrees_non_increasing star3 star3_sorted (by unfold QsortResult; decide)⟩

/-! ## Colour refinement: what a run without fault computes -/

theorem foldlM_range_succ {β : Type} (f : β → Nat → Except Fault β) (k : Nat) (init : β) :
    (List.range (k + 1)).foldlM f init =
      (List.range k).foldlM f init >>= fun s => f s k := by
  rw [List.range_succ, List.foldlM_append]
  congr 1
  funext s
  simp [List.foldlM]

theorem except_bind_ok {α β : Type} (x : Except Fault α) (k : α → Except Fault β) (r : β)
    (h : (x >>= k) = Except.ok r) : ∃ a, x = Except.ok a ∧ k a = Except.ok r := by
  cases x with
  | error e => exact Except.noConfusion h
  | ok a => exact ⟨a, rfl, h⟩

theorem foldlM_congr_mem {α β : Type} (f f1 : β → α → Except Fault β) :
    ∀ (l : List α) (init : β), (∀ x, x ∈ l → ∀ s, f s x = f1 s x) →
      l.foldlM f init = l.foldlM f1 init := by
  intro l
  induction l with
  | nil => intro init _; rfl
  | cons a l ih =>
    intro init h
    simp only [List.foldlM_cons]
    rw [h a (List.mem_cons_self a l) init]
    congr 1
    funext s
    exact ih s (fun x hx => h x (List.mem_cons_of_mem a hx))

theorem bump_ok (n : Nat) (signature : Int → Int) (idx : Int) (r : Int → Int)
    (h : bump n signature idx = Except.ok r) :
    r = store signature idx (signature idx + 1) ∧ 0 ≤ idx ∧ idx < (n : Int) := by
  unfold bump at h
  split at h
  · rename_i hb
    split at h
    · simp only [Except.ok.injEq] at h
      exact ⟨h.symm, hb⟩
    · exact Except.noConfusion h
  · exact Except.noConfusion h

/-- The loop over `k` of `refine_colors`, run over the first `K` rows: each entry of the
signature grows by the number of rows that reached it. -/
theorem inner_signature_count (incidence : Nat → Nat → Int) (n : Nat) (color : Nat → Int)
    (i j : Nat) (K : Nat) :
    ∀ (s0 r : Int → Int),
      (List.range K).foldlM
        (fun signature k =>
          if k ≠ i ∧ incidence k j ≠ 0 then bump n signature (color k)
          else Except.ok signature) s0 = Except.ok r →
      ∀ c, r c = s0 c +
        ∑ k in Finset.range K, if k ≠ i ∧ incidence k j ≠ 0 ∧ color k = c then 1 else 0 := by
  induction K with
  | zero =>
    intro s0 r h c
    simp only [List.range_zero, List.foldlM_nil] at h
    have : s0 = r := by
      injection h
    simp [this]
  | succ K ih =>
    intro s0 r h c
    rw [foldlM_range_succ] at h
    obtain ⟨s1, h1, h2⟩ := except_bind_ok _ _ _ h
    rw [Finset.sum_range_succ, ← add_assoc, ← ih s0 s1 h1 c]
    by_cases hk : K ≠ i ∧ incidence K j ≠ 0
    · rw [if_pos hk] at h2
      obtain ⟨hr, _, _⟩ := bump_ok n s1 (color K) r h2
      rw [hr]
      by_cases hc : color K = c
      · rw [if_pos ⟨hk.1, hk.2, hc⟩, ← hc, store_same]
      · rw [if_neg (fun h3 => hc h3.2.2), store_other _ _ _ _ (fun e => hc e.symm)]
        simp
    · rw [if_neg hk] at h2
      have : s1 = r := by
        injection h2
      rw [if_neg (fun h3 => hk ⟨h3.1, h3.2.1⟩), this]
      simp

/-- A signature computed without fault holds, at every index, the number of times the
loops reached that index. -/
theorem row_signature_count (incidence : Nat → Nat → Int) (n m : Nat) (color : Nat → Int)
    (i : Nat) (r : Int → Int) (h : row_signature incidence n m color i = Except.ok r) :
    ∀ c, r c = signature_count incidence n m color i c := by
  have key : ∀ (M : Nat) (r : Int → Int),
      (List.range M).foldlM
        (fun signature j =>
          if incidence i j ≠ 0 then
            (List.range n).foldlM
              (fun signature k =>
                if k ≠ i ∧ incidence k j ≠ 0 then bump n signature (color k)
                else Except.ok signature)
              signature
          else Except.ok signature)
        (fun _ => 0) = Except.ok r →
      ∀ c, r c = ∑ j in Finset.range M,
        if incidence i j ≠ 0 then
          ∑ k in Finset.range n, if k ≠ i ∧ incidence k j ≠ 0 ∧ color k = c then 1 else 0
        else 0 := by
    intro M
    induction M with
    | zero =>
      intro r h c
      simp only [List.range_zero, List.foldlM_nil] at h
      have : (fun _ => 0) = r := by
        injection h
      simp [← this]
    | succ M ih =>
      intro r h c
      rw [foldlM_range_succ] at h
      obtain ⟨s1, h1, h2⟩ := except_bind_ok _ _ _ h
      rw [Finset.sum_range_succ, ← ih s1 h1 c]
      by_cases hM : incidence i M ≠ 0
      · rw [if_pos hM] at h2
        rw [if_pos hM]
        exact inner_signature_count incidence n color i M n s1 r h2 c
      · rw [if_neg hM] at h2
        have : s1 = r := by
          injection h2
        rw [if_neg hM, this]
        simp
  exact key m r h

theorem signature_hash_congr (n : Nat) (s1 s2 : Int → Int)
    (h : ∀ c : Nat, c < n → s1 (c : Int) = s2 (c : Int)) :
    signature_hash n s1 = signature_hash n s2 := by
  unfold signature_hash
  apply foldlM_congr_mem
  intro c hc hash
  rw [h c (List.mem_range.1 hc)]

/-- A pass of `refine_colors` without fault gives every row the hash of a signature that
holds the counts of `signature_count`. -/
theorem refine_colors_ok (incidence : Nat → Nat → Int) (n m : Nat) (color : Nat → Int) :
    ∀ (K : Nat) (nc r : Nat → Int),
      (List.range K).foldlM
        (fun new_color i => do
          let signature ← row_signature incidence n m color i
          let hash ← signature_hash n signature
          Except.ok (store new_color i hash)) nc = Except.ok r →
      (∀ i, i < K → ∃ signature,
        (∀ c, signature c = signature_count incidence n m color i c) ∧
        signature_hash n signature = Except.ok (r i)) ∧
      ∀ i, K ≤ i → r i = nc i := by
  intro K
  induction K with
  | zero =>
    intro nc r h
    simp only [List.range_zero, List.foldlM_nil] at h
    have : nc = r := by
      injection h
    subst this
    exact ⟨fun i hi => absurd hi (Nat.not_lt_zero i), fun i _ => rfl⟩
  | succ K ih =>
    intro nc r h
    rw [foldlM_range_succ] at h
    obtain ⟨r1, h1, h2⟩ := except_bind_ok _ _ _ h
    obtain ⟨sig, hs, h3⟩ := except_bind_ok _ _ _ h2
    obtain ⟨hash, hh, h4⟩ := except_bind_ok _ _ _ h3
    have hr : r = store r1 K hash := by
      injection h4 with h5
      exact h5.symm
    obtain ⟨ih1, ih2⟩ := ih nc r1 h1
    constructor
    · intro i hi
      by_cases hiK : i = K
      · subst hiK
        refine ⟨sig, row_signature_count incidence n m color i sig hs, ?_⟩
        rw [hr, store_same]
        exact hh
      · obtain ⟨s, hs1, hs2⟩ := ih1 i (by omega)
        refine ⟨s, hs1, ?_⟩
        rw [hr, store_other _ _ _ _ hiK]
        exact hs2
    · intro i hi
      rw [hr, store_other _ _ _ _ (by omega : i ≠ K)]
      exact ih2 i (by omega)

/-! ## Colour refinement on a matrix and its row and column permutation -/

theorem sum_range_perm (n : Nat) (p : Equiv.Perm (Fin n)) (F G : Nat → Int)
    (h : ∀ k : Fin n, G (p k) = F k) :
    ∑ k in Finset.range n, G k = ∑ k in Finset.range n, F k := by
  rw [Finset.sum_range, Finset.sum_range, ← Equiv.sum_comp p (fun k : Fin n => G k)]
  exact Finset.sum_congr rfl (fun k _ => h k)

theorem signature_count_permuted (n m : Nat) (inc1 inc2 : Nat → Nat → Int)
    (rows : Equiv.Perm (Fin n)) (cols : Equiv.Perm (Fin m))
    (hperm : ∀ (i : Fin n) (j : Fin m), inc2 (rows i) (cols j) = inc1 i j)
    (color1 color2 : Nat → Int) (hcol : ColorsPermuted n rows color1 color2) (i : Fin n)
    (c : Int) :
    signature_count inc2 n m color2 (rows i) c = signature_count inc1 n m color1 i c := by
  unfold signature_count
  apply sum_range_perm m cols
  intro j
  simp only [hperm i j]
  by_cases hij : inc1 i j ≠ 0
  · rw [if_pos hij, if_pos hij]
    apply sum_range_perm n rows
    intro k
    simp only [hperm k j, hcol k]
    have hki : ((rows k : Fin n) : Nat) ≠ ((rows i : Fin n) : Nat) ↔ (k : Nat) ≠ (i : Nat) := by
      constructor
      · intro h e
        exact h (by rw [Fin.val_injective e])
      · intro h e
        exact h (congrArg Fin.val (rows.injective (Fin.val_injective e)))
    by_cases hk : (k : Nat) ≠ (i : Nat)
    · simp only [hki.2 hk, hk, ne_eq, not_false_eq_true, true_and]
    · rw [if_neg (fun h => hk (hki.1 h.1)), if_neg (fun h => hk h.1)]
  · rw [if_neg hij, if_neg hij]

/-- One pass of `refine_colors` on each matrix, both without fault, keeps the colours of
the second matrix a rearrangement of those of the first along the row permutation. -/
theorem refine_colors_permuted (n m : Nat) (inc1 inc2 : Nat → Nat → Int)
    (rows : Equiv.Perm (Fin n)) (cols : Equiv.Perm (Fin m))
    (hperm : ∀ (i : Fin n) (j : Fin m), inc2 (rows i) (cols j) = inc1 i j)
    (color1 color2 nc1 nc2 r1 r2 : Nat → Int) (hcol : ColorsPermuted n rows color1 color2)
    (h1 : refine_colors inc1 n m color1 nc1 = Except.ok r1)
    (h2 : refine_colors inc2 n m color2 nc2 = Except.ok r2) :
    ColorsPermuted n rows r1 r2 := by
  intro k
  obtain ⟨s1, hs1, hh1⟩ := (refine_colors_ok inc1 n m color1 n nc1 r1 h1).1 k k.isLt
  obtain ⟨s2, hs2, hh2⟩ :=
    (refine_colors_ok inc2 n m color2 n nc2 r2 h2).1 (rows k) (rows k).isLt
  have hsame : signature_hash n s2 = signature_hash n s1 := by
    apply signature_hash_congr
    intro c _
    rw [hs1, hs2]
    exact signature_count_permuted n m inc1 inc2 rows cols hperm color1 color2 hcol k c
  rw [hsame, hh1] at hh2
  injection hh2 with e
  exact e.symm

theorem int_result_ok (x r : Int) (h : int_result x = Except.ok r) :
    r = x ∧ int_min ≤ x ∧ x ≤ int_max := by
  unfold int_result at h
  split at h
  · rename_i hb
    injection h with e
    exact ⟨e.symm, hb⟩
  · exact Except.noConfusion h

theorem row_sum_ok (incidence : Nat → Nat → Int) (i : Nat) :
    ∀ (m : Nat) (r : Int), row_sum incidence m i = Except.ok r →
      r = ∑ j in Finset.range m, incidence i j := by
  intro m
  induction m with
  | zero =>
    intro r h
    simp only [row_sum, List.range_zero, List.foldlM_nil] at h
    have : (0 : Int) = r := by
      injection h
    simp [← this]
  | succ m ih =>
    intro r h
    unfold row_sum at h
    rw [foldlM_range_succ] at h
    obtain ⟨d, h1, h2⟩ := except_bind_ok _ _ _ h
    rw [Finset.sum_range_succ, ← ih d h1]
    exact (int_result_ok _ _ h2).1

/-- Colours initialised without fault are the row sums. -/
theorem init_colors_ok (incidence : Nat → Nat → Int) (m : Nat) :
    ∀ (K : Nat) (c0 r : Nat → Int),
      (List.range K).foldlM
        (fun color i => do
          let degree ← row_sum incidence m i
          Except.ok (store color i degree)) c0 = Except.ok r →
      ∀ i, i < K → r i = ∑ j in Finset.range m, incidence i j := by
  intro K
  induction K with
  | zero => intro c0 r _ i hi; exact absurd hi (Nat.not_lt_zero i)
  | succ K ih =>
    intro c0 r h i hi
    rw [foldlM_range_succ] at h
    obtain ⟨r1, h1, h2⟩ := except_bind_ok _ _ _ h
    obtain ⟨d, hd, h3⟩ := except_bind_ok _ _ _ h2
    have hr : r = store r1 K d := by
      injection h3 with e
      exact e.symm
    by_cases hiK : i = K
    · subst hiK
      rw [hr, store_same]
      exact row_sum_ok incidence i m d hd
    · rw [hr, store_other _ _ _ _ hiK]
      exact ih c0 r1 h1 i (by omega)

theorem refine_start_permuted (n m : Nat) (inc1 inc2 : Nat → Nat → Int)
    (rows : Equiv.Perm (Fin n)) (cols : Equiv.Perm (Fin m))
    (hperm : ∀ (i : Fin n) (j : Fin m), inc2 (rows i) (cols j) = inc1 i j)
    (st : RefineState) (h : refine_start inc1 inc2 n m = Except.ok st) :
    ColorsPermuted n rows st.color1 st.color2 := by
  unfold refine_start at h
  obtain ⟨c1, h1, h2⟩ := except_bind_ok _ _ _ h
  obtain ⟨c2, h3, h4⟩ := except_bind_ok _ _ _ h2
  have hst : st.color1 = c1 ∧ st.color2 = c2 := by
    injection h4 with e
    rw [← e]
    exact ⟨rfl, rfl⟩
  intro k
  rw [hst.1, hst.2, init_colors_ok inc1 m n _ c1 h1 k k.isLt,
    init_colors_ok inc2 m n _ c2 h3 (rows k) (rows k).isLt]
  apply sum_range_perm m cols
  intro j
  exact hperm k j

/-- After the copy loop both colour arrays hold the new colours on the rows `0 .. n-1`;
the new colours themselves are left as they were. -/
theorem copy_back_spec (st : RefineState) (K : Nat) :
    ((List.range K).foldl
      (fun st i =>
        { st with
          changed := if st.color1 i ≠ st.new_color1 i then 1 else st.changed
          color1 := store st.color1 i (st.new_color1 i)
          color2 := store st.color2 i (st.new_color2 i) }) st).new_color1 = st.new_color1 ∧
    ((List.range K).foldl
      (fun st i =>
        { st with
          changed := if st.color1 i ≠ st.new_color1 i then 1 else st.changed
          color1 := store st.color1 i (st.new_color1 i)
          color2 := store st.color2 i (st.new_color2 i) }) st).new_color2 = st.new_color2 ∧
    (∀ i, i < K → ((List.range K).foldl
      (fun st i =>
        { st with
          changed := if st.color1 i ≠ st.new_color1 i then 1 else st.changed
          color1 := store st.color1 i (st.new_color1 i)
          color2 := store st.color2 i (st.new_color2 i) }) st).color1 i = st.new_color1 i) ∧
    (∀ i, i < K → ((List.range K).foldl
      (fun st i =>
        { st with
          changed := if st.color1 i ≠ st.new_color1 i then 1 else st.changed
          color1 := store st.color1 i (st.new_color1 i)
          color2 := store st.color2 i (st.new_color2 i) }) st).color2 i = st.new_color2 i) := by
  induction K with
  | zero => simp
  | succ K ih =>
    rw [List.range_succ, List.foldl_append]
    simp only [List.foldl_cons, List.foldl_nil]
    obtain ⟨h1, h2, h3, h4⟩ := ih
    refine ⟨h1, h2, ?_, ?_⟩
    · intro i hi
      by_cases hiK : i = K
      · subst hiK
        rw [store_same, h1]
      · rw [store_other _ _ _ _ hiK]
        exact h3 i (by omega)
    · intro i hi
      by_cases hiK : i = K
      · subst hiK
        rw [store_same, h2]
      · rw [store_other _ _ _ _ hiK]
        exact h4 i (by omega)

theorem refine_round_permuted (n m : Nat) (inc1 inc2 : Nat → Nat → Int)
    (rows : Equiv.Perm (Fin n)) (cols : Equiv.Perm (Fin m))
    (hperm : ∀ (i : Fin n) (j : Fin m), inc2 (rows i) (cols j) = inc1 i j)
    (st st1 : RefineState) (hcol : ColorsPermuted n rows st.color1 st.color2)
    (h : refine_round inc1 inc2 n m st = Except.ok st1) :
    ColorsPermuted n rows st1.color1 st1.color2 := by
  unfold refine_round at h
  obtain ⟨r1, h1, h2⟩ := except_bind_ok _ _ _ h
  obtain ⟨r2, h3, h4⟩ := except_bind_ok _ _ _ h2
  have hnew := refine_colors_permuted n m inc1 inc2 rows cols hperm _ _ _ _ r1 r2 hcol h1 h3
  have hst1 : st1 = copy_back n
      { st with new_color1 := r1, new_color2 := r2, changed := 0 } := by
    injection h4 with e
    exact e.symm
  obtain ⟨_, _, h5, h6⟩ := copy_back_spec
    { st with new_color1 := r1, new_color2 := r2, changed := 0 } n
  intro k
  rw [hst1]
  unfold copy_back
  rw [h5 k k.isLt, h6 (rows k) (rows k).isLt]
  exact hnew k

theorem refinement_loop_permuted (n m : Nat) (inc1 inc2 : Nat → Nat → Int)
    (rows : Equiv.Perm (Fin n)) (cols : Equiv.Perm (Fin m))
    (hperm : ∀ (i : Fin n) (j : Fin m), inc2 (rows i) (cols j) = inc1 i j) :
    ∀ (fuel : Nat) (st st1 : RefineState), ColorsPermuted n rows st.color1 st.color2 →
      refinement_loop inc1 inc2 n m fuel st = Except.ok st1 →
      ColorsPermuted n rows st1.color1 st1.color2 := by
  intro fuel
  induction fuel with
  | zero =>
    intro st st1 hcol h
    unfold refinement_loop at h
    split at h
    · exact Except.noConfusion h
    · injection h with e
      rw [← e]
      exact hcol
  | succ fuel ih =>
    intro st st1 hcol h
    unfold refinement_loop at h
    split at h
    · split at h
      · rename_i st2 hround
        exact ih st2 st1
          (refine_round_permuted n m inc1 inc2 rows cols hperm st st2 hcol hround) h
      · exact Except.noConfusion h
    · injection h with e
      rw [← e]
      exact hcol

/-! ## Colour refinement: the frequency arrays and the verdict -/

theorem bump_freq_ok (n : Nat) (freq : Int → Int) (color : Int) (r : Int → Int)
    (h : bump_freq n freq color = Except.ok r) :
    r = store freq (Int.tmod color ((n : Int) * n))
        (freq (Int.tmod color ((n : Int) * n)) + 1) ∧
    0 ≤ Int.tmod color ((n : Int) * n) ∧ Int.tmod color ((n : Int) * n) < (n : Int) * n := by
  unfold bump_freq at h
  split at h
  · rename_i hb
    injection h with e
    exact ⟨e.symm, hb⟩
  · exact Except.noConfusion h

theorem bump_store_count (freq : Int → Int) (idx b : Int) :
    store freq idx (freq idx + 1) b = freq b + if idx = b then 1 else 0 := by
  by_cases h : idx = b
  · rw [if_pos h, ← h, store_same]
  · rw [if_neg h, store_other _ _ _ _ (fun e => h e.symm)]
    simp

/-- The frequency arrays filled without fault: every bucket holds the number of rows whose
colour has that remainder, and every remainder is a valid index. -/
theorem fill_freq_ok (n : Nat) (color1 color2 : Nat → Int) :
    ∀ (K : Nat) (p0 p : (Int → Int) × (Int → Int)),
      (List.range K).foldlM
        (fun (p : (Int → Int) × (Int → Int)) i => do
          let freq1 ← bump_freq n p.1 (color1 i)
          let freq2 ← bump_freq n p.2 (color2 i)
          Except.ok (freq1, freq2)) p0 = Except.ok p →
      (∀ b, p.1 b = p0.1 b +
        ∑ i in Finset.range K, if Int.tmod (color1 i) ((n : Int) * n) = b then 1 else 0) ∧
      (∀ b, p.2 b = p0.2 b +
        ∑ i in Finset.range K, if Int.tmod (color2 i) ((n : Int) * n) = b then 1 else 0) ∧
      ∀ i, i < K →
        (0 ≤ Int.tmod (color1 i) ((n : Int) * n) ∧
          Int.tmod (color1 i) ((n : Int) * n) < (n : Int) * n) ∧
        (0 ≤ Int.tmod (color2 i) ((n : Int) * n) ∧
          Int.tmod (color2 i) ((n : Int) * n) < (n : Int) * n) := by
  intro K
  induction K with
  | zero =>
    intro p0 p h
    simp only [List.range_zero, List.foldlM_nil] at h
    have : p0 = p := by
      injection h
    subst this
    refine ⟨fun b => by simp, fun b => by simp, fun i hi => absurd hi (Nat.not_lt_zero i)⟩
  | succ K ih =>
    intro p0 p h
    rw [foldlM_range_succ] at h
    obtain ⟨p1, h1, h2⟩ := except_bind_ok _ _ _ h
    obtain ⟨f1, hf1, h3⟩ := except_bind_ok _ _ _ h2
    obtain ⟨f2, hf2, h4⟩ := except_bind_ok _ _ _ h3
    have hp : p = (f1, f2) := by
      injection h4 with e
      exact e.symm
    obtain ⟨e1, b1⟩ := bump_freq_ok n p1.1 (color1 K) f1 hf1
    obtain ⟨e2, b2⟩ := bump_freq_ok n p1.2 (color2 K) f2 hf2
    obtain ⟨ih1, ih2, ih3⟩ := ih p0 p1 h1
    refine ⟨?_, ?_, ?_⟩
    · intro b
      rw [hp, Finset.sum_range_succ, ← add_assoc, ← ih1 b]
      show f1 b = _
      rw [e1]
      exact bump_store_count _ _ _
    · intro b
      rw [hp, Finset.sum_range_succ, ← add_assoc, ← ih2 b]
      show f2 b = _
      rw [e2]
      exact bump_store_count _ _ _
    · intro i hi
      by_cases hiK : i = K
      · subst hiK
        exact ⟨b1, b2⟩
      · exact ih3 i (by omega)

theorem compare_freq_cases (n : Nat) (freq1 freq2 : Int → Int) :
    (compare_freq n freq1 freq2 = 1 ∨ compare_freq n freq1 freq2 = 0) ∧
    (compare_freq n freq1 freq2 = 1 ↔
      ∀ b : Nat, b < n * n → freq1 (b : Int) = freq2 (b : Int)) := by
  unfold compare_freq
  by_cases h : (List.range (n * n)).any
      (fun i => decide (freq1 (i : Int) ≠ freq2 (i : Int))) = true
  · rw [if_pos h]
    refine ⟨Or.inr rfl, ?_⟩
    constructor
    · intro e
      exact absurd e (by decide)
    · intro hall
      exfalso
      simp only [List.any_eq_true, List.mem_range, decide_eq_true_eq] at h
      obtain ⟨b, hb, hne⟩ := h
      exact hne (hall b hb)
  · rw [if_neg h]
    refine ⟨Or.inl rfl, ?_⟩
    constructor
    · intro _ b hb
      by_contra hne
      apply h
      simp only [List.any_eq_true, List.mem_range, decide_eq_true_eq]
      exact ⟨b, hb, hne⟩
    · intro _
      rfl

theorem tmod_eq_emod_of_index (a b : Int) (h0 : 0 ≤ Int.tmod a b) (h1 : Int.tmod a b < b) :
    Int.tmod a b = a % b := by
  have h := Int.tmod_add_tdiv a b
  have : a % b = (Int.tmod a b + b * a.tdiv b) % b := by rw [h]
  rw [this, Int.add_mul_emod_self_left, Int.emod_eq_of_lt h0 h1]

theorem bucket_count_eq_sum (n : Nat) (color : Nat → Int)
    (hidx : ∀ i, i < n → 0 ≤ Int.tmod (color i) ((n : Int) * n) ∧
      Int.tmod (color i) ((n : Int) * n) < (n : Int) * n) (b : Nat) :
    (bucket_count n color b : Int) =
      ∑ i in Finset.range n, if Int.tmod (color i) ((n : Int) * n) = (b : Int) then 1 else 0 := by
  unfold bucket_count
  rw [Finset.card_filter]
  push_cast
  apply Finset.sum_congr rfl
  intro i hi
  have hi1 := hidx i (Finset.mem_range.1 hi)
  rw [tmod_eq_emod_of_index _ _ hi1.1 hi1.2]

/-- A verdict reached without fault is 1 or 0, and it is 1 exactly when every bucket holds
as many rows of the first matrix as of the second. -/
theorem verdict_spec (n : Nat) (color1 color2 : Nat → Int) (r : Int)
    (h : verdict n color1 color2 = Except.ok r) :
    (r = 1 ∨ r = 0) ∧
    (r = 1 ↔ ∀ b, b < n * n → bucket_count n color1 b = bucket_count n color2 b) := by
  unfold verdict at h
  obtain ⟨_, _, h1⟩ := except_bind_ok _ _ _ h
  obtain ⟨p, hp, h2⟩ := except_bind_ok _ _ _ h1
  have hr : r = compare_freq n p.1 p.2 := by
    injection h2 with e
    exact e.symm
  obtain ⟨hf1, hf2, hidx⟩ := fill_freq_ok n color1 color2 n _ p hp
  obtain ⟨hc1, hc2⟩ := compare_freq_cases n p.1 p.2
  rw [hr]
  refine ⟨hc1, ?_⟩
  rw [hc2]
  have e1 : ∀ b : Nat, p.1 (b : Int) = (bucket_count n color1 b : Int) := by
    intro b
    rw [hf1, bucket_count_eq_sum n color1 (fun i hi => (hidx i hi).1) b]
    simp
  have e2 : ∀ b : Nat, p.2 (b : Int) = (bucket_count n color2 b : Int) := by
    intro b
    rw [hf2, bucket_count_eq_sum n color2 (fun i hi => (hidx i hi).2) b]
    simp
  constructor
  · intro hall b hb
    have := hall b hb
    rw [e1, e2] at this
    exact_mod_cast this
  · intro hall b hb
    rw [e1, e2, hall b hb]

theorem verdict_permuted (n : Nat) (rows : Equiv.Perm (Fin n)) (color1 color2 : Nat → Int)
    (hcol : ColorsPermuted n rows color1 color2) (r : Int)
    (h : verdict n color1 color2 = Except.ok r) : r = 1 := by
  have h0 := h
  unfold verdict at h
  obtain ⟨_, _, h1⟩ := except_bind_ok _ _ _ h
  obtain ⟨p, hp, h2⟩ := except_bind_ok _ _ _ h1
  have hr : r = compare_freq n p.1 p.2 := by
    injection h2 with e
    exact e.symm
  obtain ⟨hf1, hf2, _⟩ := fill_freq_ok n color1 color2 n _ p hp
  rw [hr, (compare_freq_cases n p.1 p.2).2]
  intro b _
  rw [hf1, hf2]
  simp only [zero_add]
  symm
  apply sum_range_perm n rows
  intro k
  simp only [hcol k]

theorem color_refinement_ok (fuel : Nat) (inc1 inc2 : Nat → Nat → Int) (n m : Nat) (r : Int)
    (h : color_refinement fuel inc1 inc2 n m = Except.ok r) :
    ∃ st0 st, refine_start inc1 inc2 n m = Except.ok st0 ∧
      refinement_loop inc1 inc2 n m fuel st0 = Except.ok st ∧
      final_colors fuel inc1 inc2 n m = Except.ok st ∧
      verdict n st.color1 st.color2 = Except.ok r := by
  unfold color_refinement at h
  obtain ⟨st, h1, h2⟩ := except_bind_ok _ _ _ h
  have h3 := h1
  unfold final_colors at h3
  obtain ⟨st0, h4, h5⟩ := except_bind_ok _ _ _ h3
  exact ⟨st0, st, h4, h5, h1, h2⟩

theorem binary_row_sum (incidence : Nat → Nat → Int) (n m : Nat)
    (hb : IsBinary n m incidence) (i : Nat) (hi : i < n) :
    ∀ M, M ≤ m → ∑ j in Finset.range M, incidence i j =
      (((List.range M).filter (fun j => incidence i j = 1)).length : Int) := by
  intro M
  induction M with
  | zero => intro _; simp
  | succ M ih =>
    intro hM
    rw [Finset.sum_range_succ, ih (by omega), List.range_succ, List.filter_append,
      List.length_append]
    rcases hb i hi M (by omega) with h | h
    · simp [h]
    · simp [h]

theorem binary_colors_sum (incidence : Nat → Nat → Int) (n m : Nat)
    (hb : IsBinary n m incidence) (color : Nat → Int)
    (hc : ∀ i, i < n → color i = ∑ j in Finset.range m, incidence i j) :
    ∀ N, N ≤ n → ((List.range N).map color).sum = (total_ones N m incidence : Int) := by
  intro N
  induction N with
  | zero => intro _; simp [total_ones]
  | succ N ih =>
    intro hN
    unfold total_ones
    rw [List.range_succ, List.map_append, List.sum_append, List.map_append, List.sum_append,
      ih (by omega)]
    simp only [List.map_cons, List.map_nil, List.sum_cons, List.sum_nil, add_zero]
    rw [hc N (by omega), binary_row_sum incidence n m hb N (by omega) m (le_refl _)]
    unfold total_ones
    push_cast
    rfl

/-! ## The claims on colour refinement -/

/-- C16: for two `n x m` matrices where the second is the first after a permutation of its
rows and a permutation of its columns, `color_refinement` returns 1 whenever it returns:
whenever its refinement loop stops (within any fuel) and the run has defined behaviour. -/
theorem color_refinement_of_permuted (n m : Nat) (inc1 inc2 : Nat → Nat → Int)
    (hperm : Permuted n m inc1 inc2) (fuel : Nat) (r : Int)
    (h : color_refinement fuel inc1 inc2 n m = Except.ok r) : r = 1 := by
  obtain ⟨rows, cols, hp⟩ := hperm
  obtain ⟨st0, st, h0, hloop, _, hv⟩ := color_refinement_ok fuel inc1 inc2 n m r h
  have hstart := refine_start_permuted n m inc1 inc2 rows cols hp st0 h0
  have hfinal := refinement_loop_permuted n m inc1 inc2 rows cols hp fuel st0 st hstart hloop
  exact verdict_permuted n rows st.color1 st.color2 hfinal r hv

theorem color_refinement_of_permuted_witness :
    IsBinary 3 2 refine_example1 ∧ Permuted 3 2 refine_example1 refine_example2 ∧
    color_refinement 4 refine_example1 refine_example2 3 2 = Except.ok 1 ∧ (1 : Int) = 1 :=
  ⟨by unfold IsBinary; decide, ⟨Equiv.swap 1 2, Equiv.swap 0 1, by decide⟩, by rfl,
    color_refinement_of_permuted 3 2 refine_example1 refine_example2
      ⟨Equiv.swap 1 2, Equiv.swap 0 1, by decide⟩ 4 1 (by rfl)⟩

/-- C17, as stated, fails: the 1 x 1 matrices `[1]` and `[0]` differ in their number of
1-entries, and `color_refinement` returns 1 on them, not 0. -/
theorem differing_totals_may_return_one :
    IsBinary 1 1 (matrix_of [[1]]) ∧ IsBinary 1 1 (matrix_of [[0]]) ∧
    total_ones 1 1 (matrix_of [[1]]) ≠ total_ones 1 1 (matrix_of [[0]]) ∧
    color_refinement 2 (matrix_of [[1]]) (matrix_of [[0]]) 1 1 = Except.ok 1 ∧
    color_refinement 2 (matrix_of [[1]]) (matrix_of [[0]]) 1 1 ≠ Except.ok 0 := by
  refine ⟨by unfold IsBinary; decide, by unfold IsBinary; decide, by decide, by rfl, ?_⟩
  intro h
  have h1 : color_refinement 2 (matrix_of [[1]]) (matrix_of [[0]]) 1 1 = Except.ok 1 := by rfl
  rw [h1] at h
  injection h with e
  exact absurd e (by decide)

/-- C17, amended: for two `n x m` 0/1 matrices whose numbers of 1-entries differ, the
colours set by `init_colors` (the row sums) of the one matrix are no rearrangement of
those of the other; `color_refinement`, when it returns, returns 0 exactly when the
colours at the end of the refinement loop fill some bucket differently for the two
matrices, and 1 otherwise. -/
theorem differing_totals_verdict (n m : Nat) (inc1 inc2 : Nat → Nat → Int)
    (hb1 : IsBinary n m inc1) (hb2 : IsBinary n m inc2)
    (htot : total_ones n m inc1 ≠ total_ones n m inc2) (fuel : Nat) (r : Int)
    (h : color_refinement fuel inc1 inc2 n m = Except.ok r) :
    ∃ st0 st, refine_start inc1 inc2 n m = Except.ok st0 ∧
      final_colors fuel inc1 inc2 n m = Except.ok st ∧
      ¬ ((List.range n).map st0.color1).Perm ((List.range n).map st0.color2) ∧
      (r = 0 ∨ r = 1) ∧
      (r = 0 ↔ ∃ b, b < n * n ∧ bucket_count n st.color1 b ≠ bucket_count n st.color2 b) := by
  obtain ⟨st0, st, h0, _, hfin, hv⟩ := color_refinement_ok fuel inc1 inc2 n m r h
  obtain ⟨hr, hiff⟩ := verdict_spec n st.color1 st.color2 r hv
  refine ⟨st0, st, h0, hfin, ?_, hr.symm, ?_⟩
  · intro hperm
    have h1 := h0
    unfold refine_start at h1
    obtain ⟨c1, hc1, h2⟩ := except_bind_ok _ _ _ h1
    obtain ⟨c2, hc2, h3⟩ := except_bind_ok _ _ _ h2
    have hst : st0.color1 = c1 ∧ st0.color2 = c2 := by
      injection h3 with e
      rw [← e]
      exact ⟨rfl, rfl⟩
    have s1 := binary_colors_sum inc1 n m hb1 st0.color1
      (fun i hi => by rw [hst.1]; exact init_colors_ok inc1 m n _ c1 hc1 i hi) n (le_refl _)
    have s2 := binary_colors_sum inc2 n m hb2 st0.color2
      (fun i hi => by rw [hst.2]; exact init_colors_ok inc2 m n _ c2 hc2 i hi) n (le_refl _)
    have := hperm.sum_eq
    rw [s1, s2] at this
    exact htot (by exact_mod_cast this)
  · constructor
    · intro hr0
      by_contra hne
      have hall : ∀ b, b < n * n → bucket_count n st.color1 b = bucket_count n st.color2 b := by
        intro b hb
        by_contra hb2
        exact hne ⟨b, hb, hb2⟩
      have := hiff.2 hall
      omega
    · rintro ⟨b, hb, hne⟩
      rcases hr with h1 | h0
      · exact absurd (hiff.1 h1 b hb) hne
      · exact h0

theorem differing_totals_verdict_witness :
    IsBinary 2 1 refine_pair1 ∧ IsBinary 2 1 refine_pair2 ∧
    total_ones 2 1 refine_pair1 ≠ total_ones 2 1 refine_pair2 ∧
    color_refinement 3 refine_pair1 refine_pair2 2 1 = Except.ok 0 ∧
    ∃ st0 st, refine_start refine_pair1 refine_pair2 2 1 = Except.ok st0 ∧
      final_colors 3 refine_pair1 refine_pair2 2 1 = Except.ok st ∧
      ¬ ((List.range 2).map st0.color1).Perm ((List.range 2).map st0.color2) ∧
      ((0 : Int) = 0 ∨ (0 : Int) = 1) ∧
      ((0 : Int) = 0 ↔
        ∃ b, b < 2 * 2 ∧ bucket_count 2 st.color1 b ≠ bucket_count 2 st.color2 b) :=
  ⟨by unfold IsBinary; decide, by unfold IsBinary; decide, by decide, by rfl,
    differing_totals_verdict 2 1 refine_pair1 refine_pair2 (by unfold IsBinary; decide)
      (by unfold IsBinary; decide) (by decide) 3 0 (by rfl)⟩

/-- C18: when `color_refinement` returns, it returns 1 or 0, and it returns 1 exactly when
for every bucket `b` in `0 .. n*n-1` the number of rows of the first matrix whose final
colour is congruent to `b` modulo `n*n` equals that number for the second matrix. -/
theorem color_refinement_verdict (fuel : Nat) (inc1 inc2 : Nat → Nat → Int) (n m : Nat)
    (r : Int) (h : color_refinement fuel inc1 inc2 n m = Except.ok r) :
    ∃ st, final_colors fuel inc1 inc2 n m = Except.ok st ∧
      (r = 1 ∨ r = 0) ∧
      (r = 1 ↔ ∀ b, b < n * n → bucket_count n st.color1 b = bucket_count n st.color2 b) := by
  obtain ⟨_, st, _, _, hfin, hv⟩ := color_refinement_ok fuel inc1 inc2 n m r h
  exact ⟨st, hfin, verdict_spec n st.color1 st.color2 r hv⟩

theorem color_refinement_verdict_witness :
    color_refinement 4 refine_example1 refine_example3 3 2 = Except.ok 0 ∧
    ∃ st, final_colors 4 refine_example1 refine_example3 3 2 = Except.ok st ∧
      ((0 : Int) = 1 ∨ (0 : Int) = 0) ∧
      ((0 : Int) = 1 ↔
        ∀ b, b < 3 * 3 → bucket_count 3 st.color1 b = bucket_count 3 st.color2 b) :=
  ⟨by rfl, color_refinement_verdict 4 refine_example1 refine_example3 3 2 0 (by rfl)⟩

/-! ## States reached by the main loops -/

theorem reached_inv {σ : Type} (cond : σ → Bool) (body : σ → Round σ) (init : σ)
    (Inv : σ → Prop) (h0 : Inv init)
    (hstep : ∀ st st1, Inv st → cond st = true → body st = Round.again st1 → Inv st1) :
    ∀ st, Reached cond body init st → Inv st := by
  intro st h
  induction h with
  | start => exact h0
  | step st st1 _ hc hb ih => exact hstep st st1 ih hc hb

/-- The state in which a `while` loop ends is one of the states it reached. -/
theorem while_loop_reached {σ : Type} (cond : σ → Bool) (body : σ → Round σ) (init : σ) :
    ∀ (fuel : Nat) (st st1 : σ), Reached cond body init st →
      while_loop cond body fuel st = some st1 → Reached cond body init st1 := by
  intro fuel
  induction fuel with
  | zero =>
    intro st st1 hr h
    unfold while_loop at h
    split at h
    · exact Option.noConfusion h
    · injection h with e
      exact e ▸ hr
  | succ fuel ih =>
    intro st st1 hr h
    unfold while_loop at h
    split at h
    · rename_i hc
      split at h
      · injection h with e
        exact e ▸ hr
      · rename_i st2 hb
        exact ih st2 st1 (Reached.step st st2 hr hc hb) h
      · exact Option.noConfusion h
    · injection h with e
      exact e ▸ hr

theorem count_true_all (f : Nat → Bool) (n : Nat) (h : ∀ v, v < n → f v = true) :
    count_true f n = n := by
  induction n with
  | zero => rfl
  | succ n ih =>
    simp only [count_true]
    rw [ih (fun v hv => h v (by omega)), h n (Nat.lt_succ_self n)]
    simp

theorem wp_reached_inv (g : Graph) (hg : g.Valid) (sorted : List VertexDegree)
    (hs : QsortResult g sorted) (st : WPState) (h : WpReached g sorted st) :
    ClassHeadInv g st.colors st.is_colored st.colored_count st.current_color := by
  refine reached_inv _ _ _
    (fun st : WPState =>
      ClassHeadInv g st.colors st.is_colored st.colored_count st.current_color)
    (classHead_init g) ?_ st h
  intro st st1 hI _ hb
  rcases wp_round_spec g hg sorted hs st hI with ⟨hl, _⟩ | ⟨st2, h1, h2, _⟩
  · rw [hl] at hb
    exact Round.noConfusion hb
  · rw [h1] at hb
    injection hb with e
    exact e ▸ h2

theorem rlf_reached_inv (g : Graph) (hg : g.Valid) (st : RLFState) (h : RlfReached g st) :
    RLFInv g st := by
  refine reached_inv _ _ _ (RLFInv g) ⟨classHead_init g, by simp⟩ ?_ st h
  intro st st1 hI _ hb
  rcases rlf_round_spec g hg st hI with ⟨hl, _⟩ | ⟨st2, h1, h2, _⟩
  · rw [hl] at hb
    exact Round.noConfusion hb
  · rw [h1] at hb
    injection hb with e
    exact e ▸ h2

theorem ido_reached_inv (g : Graph) (hg : g.Valid) (st : DynState) (h : IdoReached g st) :
    DynInv g st := by
  refine reached_inv _ _ _ (DynInv g) (seed_inv g hg) ?_ st h
  intro st st1 hI hc hb
  have hlt : st.colored_count < g.num_vertices := by simpa using hc
  rcases ido_round_spec g hg st hI hlt with ⟨hl, _⟩ | ⟨st2, h1, h2, _⟩
  · rw [hl] at hb
    exact Round.noConfusion hb
  · rw [h1] at hb
    injection hb with e
    exact e ▸ h2

theorem dsatur_reached_inv (g : Graph) (hg : g.Valid) (st : DynState)
    (h : DsaturReached g st) : DynInv g st := by
  refine reached_inv _ _ _ (DynInv g) (seed_inv g hg) ?_ st h
  intro st st1 hI hc hb
  have hlt : st.colored_count < g.num_vertices := by simpa using hc
  rcases dsatur_round_spec g hg st hI hlt with ⟨hl, _⟩ | ⟨st2, h1, h2, _⟩
  · rw [hl] at hb
    exact Round.noConfusion hb
  · rw [h1] at hb
    injection hb with e
    exact e ▸ h2

/-- C21: on a valid graph the 'no vertex found' exits are not taken: in every state in
which a main loop finds `colored_count < num_vertices`, `start_vertex_id` of
`welsh_powell_coloring` and of `recursive_largest_first_coloring` and
`next_vertex_to_color_id` of `incidence_degree_ordering_coloring` and of
`dsatur_coloring` are not `-1`; and each routine returns an array without a `0`. -/
theorem no_vertex_found_unreachable (g : Graph) (hg : g.Valid) (sorted : List VertexDegree)
    (hs : QsortResult g sorted) :
    (∀ st, WpReached g sorted st → st.colored_count < g.num_vertices →
      wp_start_vertex sorted st.is_colored ≠ none) ∧
    (∀ st, RlfReached g st → st.colored_count < g.num_vertices →
      rlf_start_vertex (calculate_all_degrees g) st.is_colored ≠ none) ∧
    (∀ st, IdoReached g st → st.colored_count < g.num_vertices →
      select_vertex g.num_vertices (fun v => !st.is_colored v)
        (colored_neighbors g st.is_colored)
        (table_degree (calculate_all_degrees g)) ≠ none) ∧
    (∀ st, DsaturReached g st → st.colored_count < g.num_vertices →
      select_vertex g.num_vertices (fun v => !st.is_colored v)
        (saturation_degree g st.colors st.is_colored)
        (table_degree (calculate_all_degrees g)) ≠ none) ∧
    (∃ out, welsh_powell_coloring g sorted = some out ∧
      ∀ v, v < g.num_vertices → out.colors v ≠ 0) ∧
    (∃ out, recursive_largest_first_coloring g = some out ∧
      ∀ v, v < g.num_vertices → out.colors v ≠ 0) ∧
    (∃ out, incidence_degree_ordering_coloring g = some out ∧
      ∀ v, v < g.num_vertices → out.colors v ≠ 0) ∧
    (∃ out, dsatur_coloring g = some out ∧
      ∀ v, v < g.num_vertices → out.colors v ≠ 0) := by
  have full : ∀ (is_colored : Nat → Bool) (count : Nat),
      count = count_true is_colored g.num_vertices → count < g.num_vertices →
      (∀ v, v < g.num_vertices → is_colored v = true) → False := by
    intro f c hc hlt hall
    rw [count_true_all f _ hall] at hc
    omega
  refine ⟨?_, ?_, ?_, ?_, ?_, ?_, ?_, ?_⟩
  · intro st hr hlt hnone
    have hI := wp_reached_inv g hg sorted hs st hr
    rcases wp_round_spec g hg sorted hs st hI with ⟨_, hall⟩ | ⟨st1, h1, _, _⟩
    · exact full _ _ hI.1 hlt hall
    · simp only [wp_round, hnone] at h1
      exact Round.noConfusion h1
  · intro st hr hlt hnone
    have hI := rlf_reached_inv g hg st hr
    exact full _ _ hI.1.1 hlt (rlf_start_none g st.is_colored hnone)
  · intro st hr hlt hnone
    have hI := ido_reached_inv g hg st hr
    rcases ido_round_spec g hg st hI hlt with ⟨_, hall⟩ | ⟨st1, h1, _, _⟩
    · exact full _ _ hI.1 hlt hall
    · simp only [ido_round, hnone] at h1
      exact Round.noConfusion h1
  · intro st hr hlt hnone
    have hI := dsatur_reached_inv g hg st hr
    rcases dsatur_round_spec g hg st hI hlt with ⟨_, hall⟩ | ⟨st1, h1, _, _⟩
    · exact full _ _ hI.1 hlt hall
    · simp only [dsatur_round, hnone] at h1
      exact Round.noConfusion h1
  · obtain ⟨out, h1, _, h3, _⟩ := wp_spec g hg sorted hs
    exact ⟨out, h1, fun v hv => by have := (h3 v hv).1; omega⟩
  · obtain ⟨out, h1, _, h3, _⟩ := rlf_spec g hg
    exact ⟨out, h1, fun v hv => by have := (h3 v hv).1; omega⟩
  · obtain ⟨out, h1, _, h3, _⟩ := ido_spec g hg
    exact ⟨out, h1, fun v hv => by have := (h3 v hv).1; omega⟩
  · obtain ⟨out, h1, _, h3, _⟩ := dsatur_spec g hg
    exact ⟨out, h1, fun v hv => by have := (h3 v hv).1; omega⟩

theorem no_vertex_found_unreachable_witness :
    star3.Valid ∧
    QsortResult star3 star3_sorted ∧
    ((∀ st, WpReached star3 star3_sorted st → st.colored_count < star3.num_vertices →
      wp_start_vertex star3_sorted st.is_colored ≠ none) ∧
    (∀ st, RlfReached star3 st → st.colored_count < star3.num_vertices →
      rlf_start_vertex (calculate_all_degrees star3) st.is_colored ≠ none) ∧
    (∀ st, IdoReached star3 st → st.colored_count < star3.num_vertices →
      select_vertex star3.num_vertices (fun v => !st.is_colored v)
        (colored_neighbors star3 st.is_colored)
        (table_degree (calculate_all_degrees star3)) ≠ none) ∧
    (∀ st, DsaturReached star3 st → st.colored_count < star3.num_vertices →
      select_vertex star3.num_vertices (fun v => !st.is_colored v)
        (saturation_degree star3 st.colors st.is_colored)
        (table_degree (calculate_all_degrees star3)) ≠ none) ∧
    (∃ out, welsh_powell_coloring star3 star3_sorted = some out ∧
      ∀ v, v < star3.num_vertices → out.colors v ≠ 0) ∧
    (∃ out, recursive_largest_first_coloring star3 = some out ∧
      ∀ v, v < star3.num_vertices → out.colors v ≠ 0) ∧
    (∃ out, incidence_degree_ordering_coloring star3 = some out ∧
      ∀ v, v < star3.num_vertices → out.colors v ≠ 0) ∧
    (∃ out, dsatur_coloring star3 = some out ∧
      ∀ v, v < star3.num_vertices → out.colors v ≠ 0)) :=
  ⟨by unfold Graph.Valid; decide, by unfold QsortResult; decide,
    no_vertex_found_unreachable star3 (by unfold Graph.Valid; decide) star3_sorted
      (by unfold QsortResult; decide)⟩

/-! ## The selection scan picks the lexicographic maximum -/

theorem lexLe_key_le (key degree : Nat → Int) (v s : Nat) (h : LexLe key degree v s) :
    key v ≤ key s := by
  rcases h with h | ⟨h, _⟩ <;> omega

/-- The scan over the first `k` candidates keeps the first eligible candidate with the
lexicographically largest pair, together with that pair. -/
theorem select_prefix_max (eligible : Nat → Bool) (key degree : Nat → Int)
    (hkey : ∀ v, eligible v = true → 0 ≤ key v) (k : Nat) :
    ∀ w, ((List.range k).foldl (select_step eligible key degree)
        { vertex := none, max_key := -1, max_degree := -1 }).vertex = some w →
      ((List.range k).foldl (select_step eligible key degree)
        { vertex := none, max_key := -1, max_degree := -1 }).max_key = key w ∧
      ((List.range k).foldl (select_step eligible key degree)
        { vertex := none, max_key := -1, max_degree := -1 }).max_degree = degree w ∧
      IsLexMax k eligible key degree w := by
  induction k with
  | zero => intro w h; simp at h
  | succ k ih =>
    have hpre := select_prefix_spec eligible key degree hkey k
    rw [List.range_succ, List.foldl_append]
    simp only [List.foldl_cons, List.foldl_nil]
    generalize (List.range k).foldl (select_step eligible key degree)
      { vertex := none, max_key := -1, max_degree := -1 } = s at ih hpre ⊢
    obtain ⟨_, hnone⟩ := hpre
    -- the candidates below `k` stay dominated when the chosen vertex is kept
    have keep : ∀ w, s.vertex = some w →
        (eligible k = true → LexLe key degree k w ∧
          (key k = key w → degree k = degree w → w ≤ k)) →
        IsLexMax (k + 1) eligible key degree w := by
      intro w hw hk
      obtain ⟨_, _, hw1, hw2, hw3⟩ := ih w hw
      refine ⟨by omega, hw2, ?_⟩
      intro v hv hev
      by_cases hvk : v = k
      · subst hvk
        exact hk hev
      · exact hw3 v (by omega) hev
    -- the candidate `k` dominates the candidates below it when it is taken
    have take : (∀ w, s.vertex = some w →
          key w < key k ∨ (key w = key k ∧ degree w < degree k)) →
        eligible k = true → IsLexMax (k + 1) eligible key degree k := by
      intro hdom hek
      refine ⟨Nat.lt_succ_self k, hek, ?_⟩
      intro v hv hev
      by_cases hvk : v = k
      · subst hvk
        exact ⟨Or.inr ⟨rfl, le_refl _⟩, fun _ _ => le_refl _⟩
      · have hvlt : v < k := by omega
        cases hsv : s.vertex with
        | none =>
          have := (hnone hsv).2 v hvlt
          rw [hev] at this
          exact Bool.noConfusion this
        | some w =>
          obtain ⟨_, _, _, _, hw3⟩ := ih w hsv
          obtain ⟨hle, _⟩ := hw3 v hvlt hev
          have hkv := lexLe_key_le key degree v w hle
          rcases hdom w hsv with h1 | ⟨h1, h2⟩
          · exact ⟨Or.inl (by omega), fun e _ => by omega⟩
          · rcases hle with h3 | ⟨h3, h4⟩
            · exact ⟨Or.inl (by omega), fun e _ => by omega⟩
            · exact ⟨Or.inr ⟨by omega, by omega⟩, fun _ e => by omega⟩
    intro w hw
    by_cases he : eligible k = true
    · have hk0 := hkey k he
      unfold select_step at hw ⊢
      rw [if_pos he] at hw ⊢
      by_cases h1 : key k > s.max_key
      · rw [if_pos h1] at hw ⊢
        simp only [Option.some.injEq] at hw
        subst hw
        refine ⟨rfl, rfl, take ?_ he⟩
        intro w hsw
        have := (ih w hsw).1
        exact Or.inl (by omega)
      · rw [if_neg h1] at hw ⊢
        have hne : s.vertex ≠ none := by
          intro hn
          have := (hnone hn).1
          omega
        by_cases h2 : key k = s.max_key
        · rw [if_pos h2] at hw ⊢
          by_cases h3 : degree k > s.max_degree
          · rw [if_pos h3] at hw ⊢
            simp only [Option.some.injEq] at hw
            subst hw
            refine ⟨h2.symm, rfl, take ?_ he⟩
            intro w hsw
            obtain ⟨e1, e2, _⟩ := ih w hsw
            exact Or.inr ⟨by omega, by omega⟩
          · rw [if_neg h3] at hw ⊢
            obtain ⟨e1, e2, hmax⟩ := ih w hw
            refine ⟨e1, e2, keep w hw ?_⟩
            intro _
            exact ⟨Or.inr ⟨by omega, by omega⟩, fun _ _ => by have := hmax.1; omega⟩
        · rw [if_neg h2] at hw ⊢
          obtain ⟨e1, e2, hmax⟩ := ih w hw
          refine ⟨e1, e2, keep w hw ?_⟩
          intro _
          exact ⟨Or.inl (by omega), fun e _ => by omega⟩
    · unfold select_step at hw ⊢
      rw [if_neg he] at hw ⊢
      obtain ⟨e1, e2, _⟩ := ih w hw
      exact ⟨e1, e2, keep w hw (fun h => absurd h he)⟩

/-- The vertex chosen by a selection scan is the first eligible vertex with the
lexicographically largest pair `(key, degree)`. -/
theorem select_vertex_max (n : Nat) (eligible : Nat → Bool) (key degree : Nat → Int)
    (hkey : ∀ v, eligible v = true → 0 ≤ key v) (s : Nat)
    (h : select_vertex n eligible key degree = some s) : IsLexMax n eligible key degree s :=
  (select_prefix_max eligible key degree hkey n s h).2.2

theorem isLexMax_congr (n : Nat) (eligible : Nat → Bool) (key degree key1 degree1 : Nat → Int)
    (hk : ∀ v, v < n → key v = key1 v) (hd : ∀ v, v < n → degree v = degree1 v) (s : Nat)
    (h : IsLexMax n eligible key degree s) : IsLexMax n eligible key1 degree1 s := by
  obtain ⟨hs, he, hmax⟩ := h
  refine ⟨hs, he, ?_⟩
  intro v hv hev
  obtain ⟨h1, h2⟩ := hmax v hv hev
  unfold LexLe at h1 ⊢
  rw [← hk v hv, ← hk s hs, ← hd v hv, ← hd s hs]
  exact ⟨h1, h2⟩

/-! ## The keys of the selection scans -/

theorem table_degree_eq (g : Graph) (v : Nat) (hv : v < g.num_vertices) :
    table_degree (calculate_all_degrees g) v = row_degree g v := by
  simp [table_degree, calculate_all_degrees, List.getD_eq_getElem?_getD, hv]

theorem colored_neighbors_eq (g : Graph) (is_colored : Nat → Bool) (v : Nat) :
    colored_neighbors g is_colored v = (flagged_neighbors g is_colored v : Int) :=
  count_fold_eq_card (fun w => g.adj_matrix v w = 1 ∧ is_colored w = true) g.num_vertices

theorem neighbors_in_U_eq (g : Graph) (set_U : Nat → Bool) (v : Nat) :
    neighbors_in_U g set_U v = (flagged_neighbors g set_U v : Int) :=
  count_fold_eq_card (fun w => g.adj_matrix v w = 1 ∧ set_U w = true) g.num_vertices

/-- The scan of `dsatur_coloring` over the first `k` neighbours: the scratch array marks
the colours met on colored neighbours and the counter holds their number. -/
theorem saturation_upto (g : Graph) (colors : Nat → Int) (is_colored : Nat → Bool)
    (v : Nat)
    (hrange : ∀ w, w < g.num_vertices → is_colored w = true →
      0 < colors w ∧ colors w ≤ (g.num_vertices : Int))
    (k : Nat) (hk : k ≤ g.num_vertices) :
    (∀ c, ((List.range k).foldl
        (fun (p : (Int → Bool) × Int) neighbor =>
          if g.adj_matrix v neighbor = 1 ∧ is_colored neighbor = true then
            let neighbor_color := colors neighbor
            if neighbor_color > 0 ∧ neighbor_color ≤ (g.num_vertices : Int) then
              if p.1 neighbor_color = false then (store p.1 neighbor_color true, p.2 + 1)
              else p
            else p
          else p) (fun _ => false, 0)).1 c = true ↔
      c ∈ ((Finset.range k).filter
        (fun w => g.adj_matrix v w = 1 ∧ is_colored w = true)).image colors) ∧
    ((List.range k).foldl
        (fun (p : (Int → Bool) × Int) neighbor =>
          if g.adj_matrix v neighbor = 1 ∧ is_colored neighbor = true then
            let neighbor_color := colors neighbor
            if neighbor_color > 0 ∧ neighbor_color ≤ (g.num_vertices : Int) then
              if p.1 neighbor_color = false then (store p.1 neighbor_color true, p.2 + 1)
              else p
            else p
          else p) (fun _ => false, 0)).2 =
      ((((Finset.range k).filter
        (fun w => g.adj_matrix v w = 1 ∧ is_colored w = true)).image colors).card : Int) := by
  induction k with
  | zero => simp
  | succ k ih =>
    rw [List.range_succ, List.foldl_append, Finset.range_succ]
    simp only [List.foldl_cons, List.foldl_nil]
    obtain ⟨ih1, ih2⟩ := ih (by omega)
    generalize (List.range k).foldl
        (fun (p : (Int → Bool) × Int) neighbor =>
          if g.adj_matrix v neighbor = 1 ∧ is_colored neighbor = true then
            let neighbor_color := colors neighbor
            if neighbor_color > 0 ∧ neighbor_color ≤ (g.num_vertices : Int) then
              if p.1 neighbor_color = false then (store p.1 neighbor_color true, p.2 + 1)
              else p
            else p
          else p) (fun _ => false, 0) = p at ih1 ih2 ⊢
    by_cases hq : g.adj_matrix v k = 1 ∧ is_colored k = true
    · have hr := hrange k (by omega) hq.2
      rw [if_pos hq, Finset.filter_insert, if_pos hq, Finset.image_insert]
      simp only [gt_iff_lt, hr, and_self, if_true]
      by_cases hp : p.1 (colors k) = false
      · rw [if_pos hp]
        have hnot : colors k ∉ ((Finset.range k).filter
            (fun w => g.adj_matrix v w = 1 ∧ is_colored w = true)).image colors := by
          intro hmem
          rw [← ih1, hp] at hmem
          exact Bool.noConfusion hmem
        constructor
        · intro c
          rw [Finset.mem_insert]
          show store p.1 (colors k) true c = true ↔ _
          by_cases hc : c = colors k
          · subst hc
            simp [store_same]
          · rw [store_other _ _ _ _ hc, ih1]
            simp [hc]
        · show p.2 + 1 = _
          rw [Finset.card_insert_of_not_mem hnot, ih2]
          push_cast
          rfl
      · rw [if_neg hp]
        have hin : colors k ∈ ((Finset.range k).filter
            (fun w => g.adj_matrix v w = 1 ∧ is_colored w = true)).image colors := by
          rw [← ih1]
          simpa using hp
        rw [Finset.insert_eq_of_mem hin]
        exact ⟨ih1, ih2⟩
    · rw [if_neg hq, Finset.filter_insert, if_neg hq]
      exact ⟨ih1, ih2⟩

/-- When every colored vertex holds a colour of `1 .. num_vertices`, the counter
`current_saturation_degree` is the number of distinct colours among the colored
neighbours. -/
theorem saturation_degree_eq (g : Graph) (colors : Nat → Int) (is_colored : Nat → Bool)
    (v : Nat)
    (hrange : ∀ w, w < g.num_vertices → is_colored w = true →
      0 < colors w ∧ colors w ≤ (g.num_vertices : Int)) :
    saturation_degree g colors is_colored v =
      (distinct_neighbor_colors g colors is_colored v : Int) :=
  (saturation_upto g colors is_colored v hrange g.num_vertices (le_refl _)).2

/-! ## The rounds of incidence-degree ordering and DSATUR, vertex by vertex -/

theorem dynInv_colored_range (g : Graph) (st : DynState) (hI : DynInv g st) :
    ∀ w, w < g.num_vertices → st.is_colored w = true →
      0 < st.colors w ∧ st.colors w ≤ (g.num_vertices : Int) := by
  intro w hw hc
  have h1 := (hI.2.2.1 w hw).1 hc
  have h2 := (hI.2.1 w).2
  have h3 := count_true_le st.is_colored g.num_vertices
  rw [← hI.1] at h3
  omega

/-- The colour found by the neighbour scan of a round is the smallest positive integer
that no colored neighbour holds, for any marking test that covers every colored
neighbour. -/
theorem chosen_smallest_absent (g : Graph) (st : DynState) (hI : DynInv g st)
    (hlt : st.colored_count < g.num_vertices) (v : Nat) (marks : Nat → Bool)
    (hm : ∀ w, w < g.num_vertices → st.colors w ≠ 0 → marks w = true) :
    SmallestAbsent g st.colors st.is_colored v
      (chosen_color g.num_vertices (mark_unavailable g v st.colors marks)) := by
  obtain ⟨h1, _, h3⟩ := chosen_color_spec g v st.colors marks st.colored_count hlt hI.2.1 hm
  refine ⟨h1, fun w hw hadj _ => h3 w hw hadj, ?_⟩
  intro x hx1 hx2
  obtain ⟨w, hw, hadj, hwx⟩ := chosen_color_below g v st.colors marks x hx1 hx2
  refine ⟨w, hw, hadj, ?_, hwx⟩
  by_contra hc
  have := (hI.2.2.1 w hw).2 (by simpa using hc)
  omega

/-- A round of `incidence_degree_ordering_coloring` from a state that keeps the loop
invariant: the vertex it takes and the colour it gives. -/
theorem ido_round_shape (g : Graph) (st : DynState) (hI : DynInv g st)
    (hlt : st.colored_count < g.num_vertices) (st1 : DynState)
    (h : ido_round g (calculate_all_degrees g) st = Round.again st1) :
    ∃ s c, st1 = assign_color st s c ∧ st.is_colored s = false ∧
      IsLexMax g.num_vertices (fun v => !st.is_colored v)
        (fun v => (flagged_neighbors g st.is_colored v : Int)) (row_degree g) s ∧
      SmallestAbsent g st.colors st.is_colored s c := by
  have hkey : ∀ v, (fun v => !st.is_colored v) v = true →
      0 ≤ colored_neighbors g st.is_colored v :=
    fun v _ => colored_neighbors_nonneg g st.is_colored v
  unfold ido_round at h
  cases hsel : select_vertex g.num_vertices (fun v => !st.is_colored v)
      (colored_neighbors g st.is_colored) (table_degree (calculate_all_degrees g)) with
  | none =>
    rw [hsel] at h
    exact Round.noConfusion h
  | some s =>
    rw [hsel] at h
    simp only [Round.again.injEq] at h
    have hmax := select_vertex_max _ _ _ _ hkey s hsel
    have hu : st.is_colored s = false := by simpa using hmax.2.1
    refine ⟨s, _, h.symm, hu, ?_, ?_⟩
    · exact isLexMax_congr _ _ _ _ _ _ (fun v _ => colored_neighbors_eq g st.is_colored v)
        (fun v hv => table_degree_eq g v hv) s hmax
    · apply chosen_smallest_absent g st hI hlt
      intro w hw hne
      have hcol : st.is_colored w = true := by
        by_contra hc
        exact hne ((hI.2.2.1 w hw).2 (by simpa using hc))
      have := (dynInv_colored_range g st hI w hw hcol).2
      simp only [Bool.and_eq_true, decide_eq_true_eq]
      exact ⟨hcol, this⟩

/-- A round of `dsatur_coloring` from a state that keeps the loop invariant: the vertex it
takes and the colour it gives. -/
theorem dsatur_round_shape (g : Graph) (st : DynState) (hI : DynInv g st)
    (hlt : st.colored_count < g.num_vertices) (st1 : DynState)
    (h : dsatur_round g (calculate_all_degrees g) st = Round.again st1) :
    ∃ s c, st1 = assign_color st s c ∧ st.is_colored s = false ∧
      IsLexMax g.num_vertices (fun v => !st.is_colored v)
        (fun v => (distinct_neighbor_colors g st.colors st.is_colored v : Int))
        (row_degree g) s ∧
      SmallestAbsent g st.colors st.is_colored s c := by
  have hkey : ∀ v, (fun v => !st.is_colored v) v = true →
      0 ≤ saturation_degree g st.colors st.is_colored v :=
    fun v _ => saturation_degree_nonneg g st.colors st.is_colored v
  unfold dsatur_round at h
  cases hsel : select_vertex g.num_vertices (fun v => !st.is_colored v)
      (saturation_degree g st.colors st.is_colored)
      (table_degree (calculate_all_degrees g)) with
  | none =>
    rw [hsel] at h
    exact Round.noConfusion h
  | some s =>
    rw [hsel] at h
    simp only [Round.again.injEq] at h
    have hmax := select_vertex_max _ _ _ _ hkey s hsel
    have hu : st.is_colored s = false := by simpa using hmax.2.1
    refine ⟨s, _, h.symm, hu, ?_, ?_⟩
    · exact isLexMax_congr _ _ _ _ _ _
        (fun v _ => saturation_degree_eq g st.colors st.is_colored v
          (dynInv_colored_range g st hI))
        (fun v hv => table_degree_eq g v hv) s hmax
    · apply chosen_smallest_absent g st hI hlt
      intro w hw hne
      have hcol : st.is_colored w = true := by
        by_contra hc
        exact hne ((hI.2.2.1 w hw).2 (by simpa using hc))
      have := dynInv_colored_range g st hI w hw hcol
      simp only [Bool.and_eq_true, decide_eq_true_eq]
      exact ⟨hcol, by omega, this.2⟩

theorem ido_round_again (g : Graph) (hg : g.Valid) (st : DynState) (hI : DynInv g st)
    (hlt : st.colored_count < g.num_vertices) :
    ∃ st1, ido_round g (calculate_all_degrees g) st = Round.again st1 := by
  rcases ido_round_spec g hg st hI hlt with ⟨_, hall⟩ | ⟨st1, h1, _, _⟩
  · exfalso
    have := hI.1
    rw [count_true_all _ _ hall] at this
    omega
  · exact ⟨st1, h1⟩

theorem dsatur_round_again (g : Graph) (hg : g.Valid) (st : DynState) (hI : DynInv g st)
    (hlt : st.colored_count < g.num_vertices) :
    ∃ st1, dsatur_round g (calculate_all_degrees g) st = Round.again st1 := by
  rcases dsatur_round_spec g hg st hI hlt with ⟨_, hall⟩ | ⟨st1, h1, _, _⟩
  · exfalso
    have := hI.1
    rw [count_true_all _ _ hall] at this
    omega
  · exact ⟨st1, h1⟩

/-- C24: in every selection round of `dsatur_coloring` on a valid graph, the chosen vertex
`s` is uncolored, its pair (number of distinct colours among its colored neighbours, total
degree) is the lexicographic maximum over the uncolored vertices, `s` has the lowest id
among the uncolored vertices with that pair, and `s` receives the smallest positive colour
that none of its colored neighbours holds. -/
theorem dsatur_selection_round (g : Graph) (hg : g.Valid) (st : DynState)
    (hr : DsaturReached g st) (hlt : st.colored_count < g.num_vertices) :
    ∃ s c, dsatur_round g (calculate_all_degrees g) st = Round.again (assign_color st s c) ∧
      st.is_colored s = false ∧
      IsLexMax g.num_vertices (fun v => !st.is_colored v)
        (fun v => (distinct_neighbor_colors g st.colors st.is_colored v : Int))
        (row_degree g) s ∧
      SmallestAbsent g st.colors st.is_colored s c := by
  have hI := dsatur_reached_inv g hg st hr
  obtain ⟨st1, h1⟩ := dsatur_round_again g hg st hI hlt
  obtain ⟨s, c, e, h2, h3, h4⟩ := dsatur_round_shape g st hI hlt st1 h1
  exact ⟨s, c, e ▸ h1, h2, h3, h4⟩

theorem dsatur_selection_round_witness :
    star3.Valid ∧
    DsaturReached star3 dyn_example_start ∧
    dyn_example_start.colored_count < star3.num_vertices ∧
    (∃ s c, dsatur_round star3 (calculate_all_degrees star3) dyn_example_start = Round.again
        (assign_color dyn_example_start s c) ∧
      dyn_example_start.is_colored s = false ∧
      IsLexMax star3.num_vertices (fun v => !dyn_example_start.is_colored v)
        (fun v => (distinct_neighbor_colors star3 dyn_example_start.colors
            dyn_example_start.is_colored v : Int))
        (row_degree star3) s ∧
      SmallestAbsent star3 dyn_example_start.colors dyn_example_start.is_colored s c) :=
  ⟨by unfold Graph.Valid; decide, by unfold DsaturReached; exact Reached.start, by decide,
    dsatur_selection_round star3 (by unfold Graph.Valid; decide) dyn_example_start
      (by unfold DsaturReached; exact Reached.start) (by decide)⟩

/-- C25: in every selection round of `incidence_degree_ordering_coloring` on a valid graph,
the chosen vertex `s` is uncolored, its pair (number of colored neighbours, total degree)
is the lexicographic maximum over the uncolored vertices, `s` has the lowest id among the
uncolored vertices with that pair, and `s` receives the smallest positive colour that none
of its colored neighbours holds. -/
theorem ido_selection_round (g : Graph) (hg : g.Valid) (st : DynState)
    (hr : IdoReached g st) (hlt : st.colored_count < g.num_vertices) :
    ∃ s c, ido_round g (calculate_all_degrees g) st = Round.again (assign_color st s c) ∧
      st.is_colored s = false ∧
      IsLexMax g.num_vertices (fun v => !st.is_colored v)
        (fun v => (flagged_neighbors g st.is_colored v : Int)) (row_degree g) s ∧
      SmallestAbsent g st.colors st.is_colored s c := by
  have hI := ido_reached_inv g hg st hr
  obtain ⟨st1, h1⟩ := ido_round_again g hg st hI hlt
  obtain ⟨s, c, e, h2, h3, h4⟩ := ido_round_shape g st hI hlt st1 h1
  exact ⟨s, c, e ▸ h1, h2, h3, h4⟩

theorem ido_selection_round_witness :
    star3.Valid ∧
    IdoReached star3 dyn_example_start ∧
    dyn_example_start.colored_count < star3.num_vertices ∧
    (∃ s c, ido_round star3 (calculate_all_degrees star3) dyn_example_start = Round.again
        (assign_color dyn_example_start s c) ∧
      dyn_example_start.is_colored s = false ∧
      IsLexMax star3.num_vertices (fun v => !dyn_example_start.is_colored v)
        (fun v => (flagged_neighbors star3 dyn_example_start.is_colored v : Int)) (row_degree
            star3) s ∧
      SmallestAbsent star3 dyn_example_start.colors dyn_example_start.is_colored s c) :=
  ⟨by unfold Graph.Valid; decide, by unfold IdoReached; exact Reached.start, by decide,
    ido_selection_round star3 (by unfold Graph.Valid; decide) dyn_example_start
      (by unfold IdoReached; exact Reached.start) (by decide)⟩

/-! ## The scans for the vertex of largest degree -/

/-- The scan for the first vertex of largest degree among those that pass a test, over the
first `k` vertices. -/
theorem degree_scan_upto (E : Nat → Prop) [DecidablePred E] (degree : Nat → Int)
    (hdeg : ∀ v, 0 ≤ degree v) (k : Nat) :
    (((List.range k).foldl
        (fun (p : Option Nat × Int) i =>
          if E i then if degree i > p.2 then (some i, degree i) else p else p)
        (none, -1)).1 = none →
      ((List.range k).foldl
        (fun (p : Option Nat × Int) i =>
          if E i then if degree i > p.2 then (some i, degree i) else p else p)
        (none, -1)).2 = -1 ∧ ∀ v, v < k → ¬ E v) ∧
    ∀ w, ((List.range k).foldl
        (fun (p : Option Nat × Int) i =>
          if E i then if degree i > p.2 then (some i, degree i) else p else p)
        (none, -1)).1 = some w →
      ((List.range k).foldl
        (fun (p : Option Nat × Int) i =>
          if E i then if degree i > p.2 then (some i, degree i) else p else p)
        (none, -1)).2 = degree w ∧ IsMaxDegree k E degree w := by
  induction k with
  | zero => simp
  | succ k ih =>
    rw [List.range_succ, List.foldl_append]
    simp only [List.foldl_cons, List.foldl_nil]
    generalize (List.range k).foldl
        (fun (p : Option Nat × Int) i =>
          if E i then if degree i > p.2 then (some i, degree i) else p else p)
        (none, -1) = p at ih ⊢
    obtain ⟨ihn, ihs⟩ := ih
    by_cases hE : E k
    · rw [if_pos hE]
      by_cases hd : degree k > p.2
      · rw [if_pos hd]
        refine ⟨fun h => by simp at h, ?_⟩
        intro w hw
        simp only [Option.some.injEq] at hw
        subst hw
        refine ⟨rfl, Nat.lt_succ_self _, hE, ?_⟩
        intro v hv hEv
        by_cases hvk : v = k
        · subst hvk
          exact ⟨le_refl _, fun _ => le_refl _⟩
        · cases hp : p.1 with
          | none => exact absurd hEv ((ihn hp).2 v (by omega))
          | some u =>
            obtain ⟨e, _, _, hmax⟩ := ihs u hp
            have := (hmax v (by omega) hEv).1
            exact ⟨by omega, fun e2 => by omega⟩
      · rw [if_neg hd]
        have hne : p.1 ≠ none := by
          intro hn
          have := (ihn hn).1
          have := hdeg k
          omega
        refine ⟨fun h => absurd h hne, ?_⟩
        intro w hw
        obtain ⟨e, hwk, hEw, hmax⟩ := ihs w hw
        refine ⟨e, by omega, hEw, ?_⟩
        intro v hv hEv
        by_cases hvk : v = k
        · subst hvk
          exact ⟨by omega, fun _ => by omega⟩
        · exact hmax v (by omega) hEv
    · rw [if_neg hE]
      constructor
      · intro h
        refine ⟨(ihn h).1, ?_⟩
        intro v hv
        by_cases hvk : v = k
        · rw [hvk]; exact hE
        · exact (ihn h).2 v (by omega)
      · intro w hw
        obtain ⟨e, hwk, hEw, hmax⟩ := ihs w hw
        refine ⟨e, by omega, hEw, ?_⟩
        intro v hv hEv
        by_cases hvk : v = k
        · subst hvk
          exact absurd hEv hE
        · exact hmax v (by omega) hEv

/-- The vertex found by the scan for `start_vertex_id`: an uncolored vertex of largest
degree among the uncolored ones, with the lowest id among those. -/
theorem rlf_start_vertex_max (g : Graph) (is_colored : Nat → Bool) (s : Nat)
    (h : rlf_start_vertex (calculate_all_degrees g) is_colored = some s) :
    IsMaxDegree g.num_vertices (fun v => is_colored v = false) (row_degree g) s := by
  unfold rlf_start_vertex calculate_all_degrees at h
  rw [List.foldl_map] at h
  exact ((degree_scan_upto (fun v => is_colored v = false) (row_degree g)
    (row_degree_nonneg g) g.num_vertices).2 s h).2

/-- The vertex found by the scan for `first_vertex_to_color_id`: a vertex of largest
degree, with the lowest id among those. -/
theorem first_vertex_max (g : Graph) (s : Nat)
    (h : first_vertex_to_color (calculate_all_degrees g) = some s) :
    IsMaxDegree g.num_vertices (fun _ => True) (row_degree g) s := by
  unfold first_vertex_to_color calculate_all_degrees at h
  rw [List.foldl_map] at h
  have := (degree_scan_upto (fun _ => True) (row_degree g)
    (row_degree_nonneg g) g.num_vertices).2 s
  simp only [if_true] at this
  exact (this h).2

theorem first_vertex_some (g : Graph) (hn : 1 ≤ g.num_vertices) :
    ∃ s, first_vertex_to_color (calculate_all_degrees g) = some s := by
  cases h : first_vertex_to_color (calculate_all_degrees g) with
  | some s => exact ⟨s, rfl⟩
  | none =>
    exfalso
    unfold first_vertex_to_color calculate_all_degrees at h
    rw [List.foldl_map] at h
    have := (degree_scan_upto (fun _ => True) (row_degree g)
      (row_degree_nonneg g) g.num_vertices).1
    simp only [if_true] at this
    exact (this h).2 0 (by omega) trivial

/-! ## The seed of incidence-degree ordering and DSATUR, and the classes of RLF -/

/-- A round of the main loop of `recursive_largest_first_coloring`, cut into the opening
of the class, the inner loop and the closing of the class. -/
theorem rlf_round_eq (g : Graph) (table : List VertexDegree) (st : RLFState) :
    rlf_round g table st =
      match rlf_start_vertex table st.is_colored with
      | none => Round.leave
      | some s =>
        match rlf_grow_class g table st.current_color (rlf_open_class g st s) with
        | none => Round.starved
        | some cs => Round.again (rlf_close_class st cs) := by
  rfl

theorem assign_color_other (st : DynState) (v : Nat) (c : Int) (s : Nat) (h : s ≠ v) :
    (assign_color st v c).colors s = st.colors s ∧
    (assign_color st v c).is_colored s = st.is_colored s := by
  simp only [assign_color]
  exact ⟨store_other _ _ _ _ h, store_other _ _ _ _ h⟩

theorem seed_state_some (table : List VertexDegree) (s : Nat)
    (h : first_vertex_to_color table = some s) :
    seed_state table =
      { colors := store (fun _ => 0) s 1
        is_colored := store (fun _ => false) s true
        colored_count := 1
        max_colors_used := 1 } := by
  unfold seed_state
  rw [h]

/-- C26: on a valid graph `incidence_degree_ordering_coloring` and `dsatur_coloring` both
enter their main loop in a state where the vertex of largest degree, the one of lowest id
among those of that degree, holds colour 1 and no other vertex holds a colour; and that
vertex holds colour 1 in the `colors` array each of them returns. -/
theorem seed_vertex_keeps_colour_one (g : Graph) (hg : g.Valid) :
    ∃ s, first_vertex_to_color (calculate_all_degrees g) = some s ∧
      IsMaxDegree g.num_vertices (fun _ => True) (row_degree g) s ∧
      (seed_state (calculate_all_degrees g)).colors = store (fun _ => 0) s 1 ∧
      (seed_state (calculate_all_degrees g)).is_colored = store (fun _ => false) s true ∧
      (∃ out, incidence_degree_ordering_coloring g = some out ∧ out.colors s = 1) ∧
      (∃ out, dsatur_coloring g = some out ∧ out.colors s = 1) := by
  obtain ⟨s, hs⟩ := first_vertex_some g hg.1
  have hseed := seed_state_some (calculate_all_degrees g) s hs
  have h0 : (seed_state (calculate_all_degrees g)).colors s = 1 ∧
      (seed_state (calculate_all_degrees g)).is_colored s = true := by
    rw [hseed]
    show store (fun _ => (0 : Int)) s 1 s = 1 ∧ store (fun _ => false) s true s = true
    exact ⟨store_same _ _ _, store_same _ _ _⟩
  have keep : ∀ (st : DynState) (v : Nat) (c : Int),
      (st.colors s = 1 ∧ st.is_colored s = true) → st.is_colored v = false →
      (assign_color st v c).colors s = 1 ∧ (assign_color st v c).is_colored s = true := by
    intro st v c hP hv
    have hsv : s ≠ v := by
      intro e
      rw [e, hv] at hP
      exact Bool.noConfusion hP.2
    obtain ⟨e1, e2⟩ := assign_color_other st v c s hsv
    rw [e1, e2]
    exact hP
  refine ⟨s, hs, first_vertex_max g s hs, by rw [hseed], by rw [hseed], ?_, ?_⟩
  · obtain ⟨st, hrun, _, _⟩ := dyn_loop_spec g hg (ido_round g (calculate_all_degrees g))
      (ido_round_spec g hg)
    have hreach := while_loop_reached _ _ _ _ _ st Reached.start hrun
    have hP := reached_inv _ _ _
      (fun st : DynState => DynInv g st ∧ st.colors s = 1 ∧ st.is_colored s = true)
      ⟨seed_inv g hg, h0⟩
      (by
        intro st st1 hI hc hb
        have hlt : st.colored_count < g.num_vertices := by simpa using hc
        obtain ⟨v, c, e, hu, _, _⟩ := ido_round_shape g st hI.1 hlt st1 hb
        refine ⟨?_, e ▸ keep st v c hI.2 hu⟩
        rcases ido_round_spec g hg st hI.1 hlt with ⟨hl, _⟩ | ⟨st2, h1, h2, _⟩
        · rw [hl] at hb
          exact Round.noConfusion hb
        · rw [h1] at hb
          injection hb with e2
          exact e2 ▸ h2)
      st hreach
    refine ⟨{ colors := st.colors, returned := st.max_colors_used }, ?_, hP.2.1⟩
    simp [incidence_degree_ordering_coloring, hrun]
  · obtain ⟨st, hrun, _, _⟩ := dyn_loop_spec g hg
      (dsatur_round g (calculate_all_degrees g)) (dsatur_round_spec g hg)
    have hreach := while_loop_reached _ _ _ _ _ st Reached.start hrun
    have hP := reached_inv _ _ _
      (fun st : DynState => DynInv g st ∧ st.colors s = 1 ∧ st.is_colored s = true)
      ⟨seed_inv g hg, h0⟩
      (by
        intro st st1 hI hc hb
        have hlt : st.colored_count < g.num_vertices := by simpa using hc
        obtain ⟨v, c, e, hu, _, _⟩ := dsatur_round_shape g st hI.1 hlt st1 hb
        refine ⟨?_, e ▸ keep st v c hI.2 hu⟩
        rcases dsatur_round_spec g hg st hI.1 hlt with ⟨hl, _⟩ | ⟨st2, h1, h2, _⟩
        · rw [hl] at hb
          exact Round.noConfusion hb
        · rw [h1] at hb
          injection hb with e2
          exact e2 ▸ h2)
      st hreach
    refine ⟨{ colors := st.colors, returned := st.max_colors_used }, ?_, hP.2.1⟩
    simp [dsatur_coloring, hrun]

theorem seed_vertex_keeps_colour_one_witness :
    star3.Valid ∧
    (∃ s, first_vertex_to_color (calculate_all_degrees star3) = some s ∧
      IsMaxDegree star3.num_vertices (fun _ => True) (row_degree star3) s ∧
      (seed_state (calculate_all_degrees star3)).colors = store (fun _ => 0) s 1 ∧
      (seed_state (calculate_all_degrees star3)).is_colored = store (fun _ => false) s true ∧
      (∃ out, incidence_degree_ordering_coloring star3 = some out ∧ out.colors s = 1) ∧
      (∃ out, dsatur_coloring star3 = some out ∧ out.colors s = 1)) :=
  ⟨by unfold Graph.Valid; decide,
    seed_vertex_keeps_colour_one star3 (by unfold Graph.Valid; decide)⟩

/-- C27: in `recursive_largest_first_coloring` on a valid graph, every round of the main
loop opens its colour class at an uncolored vertex whose degree is the largest among the
vertices uncolored at that moment, the one of lowest id among those; the inner loop is
entered with that vertex holding the active colour and with `set_U` holding exactly the
neighbours of that vertex, nothing of the previous class. -/
theorem rlf_class_opening (g : Graph) (hg : g.Valid) (st : RLFState) (hr : RlfReached g st)
    (hlt : st.colored_count < g.num_vertices) :
    ∃ s, rlf_start_vertex (calculate_all_degrees g) st.is_colored = some s ∧
      IsMaxDegree g.num_vertices (fun v => st.is_colored v = false) (row_degree g) s ∧
      rlf_round g (calculate_all_degrees g) st =
        (match rlf_grow_class g (calculate_all_degrees g) st.current_color
            (rlf_open_class g st s) with
          | none => Round.starved
          | some cs => Round.again (rlf_close_class st cs)) ∧
      (rlf_open_class g st s).colors = store st.colors s st.current_color ∧
      ∀ x, x < g.num_vertices →
        ((rlf_open_class g st s).set_U x = true ↔ g.adj_matrix s x = 1) := by
  have hI := rlf_reached_inv g hg st hr
  cases hs : rlf_start_vertex (calculate_all_degrees g) st.is_colored with
  | none =>
    exfalso
    have hall := rlf_start_none g st.is_colored hs
    have := hI.1.1
    rw [count_true_all _ _ hall] at this
    omega
  | some s =>
    refine ⟨s, rfl, rlf_start_vertex_max g st.is_colored s hs, ?_, rfl, ?_⟩
    · rw [rlf_round_eq, hs]
    · intro x hx
      simp only [rlf_open_class]
      rw [add_neighbors_spec]
      constructor
      · rintro (h | ⟨_, h⟩)
        · exact Bool.noConfusion h
        · exact h
      · intro h
        exact Or.inr ⟨hx, h⟩

theorem rlf_class_opening_witness :
    cycle4.Valid ∧
    RlfReached cycle4 rlf_example_start ∧
    rlf_example_start.colored_count < cycle4.num_vertices ∧
    (∃ s, rlf_start_vertex (calculate_all_degrees cycle4) rlf_example_start.is_colored = some s ∧
      IsMaxDegree cycle4.num_vertices (fun v => rlf_example_start.is_colored v = false) (row_degree
          cycle4) s ∧
      rlf_round cycle4 (calculate_all_degrees cycle4) rlf_example_start =
        (match rlf_grow_class cycle4 (calculate_all_degrees cycle4) rlf_example_start.current_color
            (rlf_open_class cycle4 rlf_example_start s) with
          | none => Round.starved
          | some cs => Round.again (rlf_close_class rlf_example_start cs)) ∧
      (rlf_open_class cycle4 rlf_example_start s).colors = store rlf_example_start.colors s
          rlf_example_start.current_color ∧
      ∀ x, x < cycle4.num_vertices →
        ((rlf_open_class cycle4 rlf_example_start s).set_U x = true ↔ cycle4.adj_matrix s x = 1)) :=
  ⟨by unfold Graph.Valid; decide, by unfold RlfReached; exact Reached.start, by decide,
    rlf_class_opening cycle4 (by unfold Graph.Valid; decide) rlf_example_start
      (by unfold RlfReached; exact Reached.start) (by decide)⟩

/-- What a round of the inner loop of `recursive_largest_first_coloring` that adds a
vertex does. -/
theorem rlf_class_round_shape (g : Graph) (current_color : Int) (cs cs1 : ClassState)
    (h : rlf_class_round g (calculate_all_degrees g) current_color cs = Round.again cs1) :
    ∃ s, cs.is_colored s = false ∧ cs.set_U s = false ∧
      IsLexMax g.num_vertices (fun v => !cs.is_colored v && !cs.set_U v)
        (fun v => (flagged_neighbors g cs.set_U v : Int)) (row_degree g) s ∧
      cs1.colors = store cs.colors s current_color ∧
      cs1.is_colored = store cs.is_colored s true ∧
      cs1.colored_count = cs.colored_count + 1 ∧
      ∀ x, x < g.num_vertices →
        (cs1.set_U x = true ↔ cs.set_U x = true ∨ g.adj_matrix s x = 1) := by
  have hkey : ∀ v, (fun v => !cs.is_colored v && !cs.set_U v) v = true →
      0 ≤ neighbors_in_U g cs.set_U v :=
    fun v _ => neighbors_in_U_nonneg g cs.set_U v
  unfold rlf_class_round at h
  cases hsel : select_vertex g.num_vertices (fun v => !cs.is_colored v && !cs.set_U v)
      (neighbors_in_U g cs.set_U) (table_degree (calculate_all_degrees g)) with
  | none =>
    rw [hsel] at h
    exact Round.noConfusion h
  | some s =>
    rw [hsel] at h
    simp only [Round.again.injEq] at h
    have hmax := select_vertex_max _ _ _ _ hkey s hsel
    have hel := hmax.2.1
    simp only [Bool.and_eq_true, Bool.not_eq_true'] at hel
    refine ⟨s, hel.1, hel.2, ?_, by rw [← h], by rw [← h], by rw [← h], ?_⟩
    · exact isLexMax_congr _ _ _ _ _ _ (fun v _ => neighbors_in_U_eq g cs.set_U v)
        (fun v hv => table_degree_eq g v hv) s hmax
    · intro x hx
      rw [← h]
      simp only
      rw [add_neighbors_spec]
      constructor
      · rintro (h1 | ⟨_, h1⟩)
        · exact Or.inl h1
        · exact Or.inr h1
      · rintro (h1 | h1)
        · exact Or.inl h1
        · exact Or.inr ⟨hx, h1⟩

/-- C28: in every round of the inner loop of `recursive_largest_first_coloring` that adds a
vertex to the active class, the vertex `s` added is neither colored nor in `set_U`, its pair
(number of its neighbours in `set_U`, original degree) is the lexicographic maximum over the
vertices that are neither colored nor in `set_U`, `s` has the lowest id among those with
that pair, `s` receives the active colour, and afterwards `set_U` is the former `set_U`
together with all neighbours of `s`. -/
theorem rlf_class_round_selection (g : Graph) (current_color : Int) (cs cs1 : ClassState)
    (h : rlf_class_round g (calculate_all_degrees g) current_color cs = Round.again cs1) :
    ∃ s, cs.is_colored s = false ∧ cs.set_U s = false ∧
      IsLexMax g.num_vertices (fun v => !cs.is_colored v && !cs.set_U v)
        (fun v => (flagged_neighbors g cs.set_U v : Int)) (row_degree g) s ∧
      cs1.colors = store cs.colors s current_color ∧
      cs1.is_colored = store cs.is_colored s true ∧
      cs1.colored_count = cs.colored_count + 1 ∧
      ∀ x, x < g.num_vertices →
        (cs1.set_U x = true ↔ cs.set_U x = true ∨ g.adj_matrix s x = 1) :=
  rlf_class_round_shape g current_color cs cs1 h

theorem rlf_class_round_selection_witness :
    rlf_class_round cycle4 (calculate_all_degrees cycle4) 1 rlf_example_class =
      Round.again rlf_example_class_next ∧
    (∃ s, rlf_example_class.is_colored s = false ∧ rlf_example_class.set_U s = false ∧
      IsLexMax cycle4.num_vertices (fun v => !rlf_example_class.is_colored v &&
          !rlf_example_class.set_U v)
        (fun v => (flagged_neighbors cycle4 rlf_example_class.set_U v : Int)) (row_degree cycle4) s
            ∧
      rlf_example_class_next.colors = store rlf_example_class.colors s 1 ∧
      rlf_example_class_next.is_colored = store rlf_example_class.is_colored s true ∧
      rlf_example_class_next.colored_count = rlf_example_class.colored_count + 1 ∧
      ∀ x, x < cycle4.num_vertices →
        (rlf_example_class_next.set_U x = true ↔ rlf_example_class.set_U x = true ∨
            cycle4.adj_matrix s x = 1)) :=
  ⟨by rfl,
    rlf_class_round_selection cycle4 1 rlf_example_class rlf_example_class_next (by rfl)⟩

/-! ## A closed class of RLF is a maximal independent set -/

theorem rlf_open_class_rel (g : Graph) (st : RLFState) (s : Nat) (hs : s < g.num_vertices)
    (hu : st.is_colored s = false) : RLFGrowRel g st (rlf_open_class g st s) := by
  refine ⟨?_, ?_, ?_⟩
  · intro v hv
    have hvs : v ≠ s := by
      intro e
      rw [e, hu] at hv
      exact Bool.noConfusion hv
    simp only [rlf_open_class]
    rw [store_other _ _ _ _ hvs, store_other _ _ _ _ hvs]
    exact ⟨rfl, hv⟩
  · intro v _ hc hn
    simp only [rlf_open_class] at hc ⊢
    by_cases hvs : v = s
    · rw [hvs, store_same]
    · rw [store_other _ _ _ _ hvs, hn] at hc
      exact Bool.noConfusion hc
  · intro x _ hx
    simp only [rlf_open_class] at hx ⊢
    rw [add_neighbors_spec] at hx
    rcases hx with h | ⟨_, h⟩
    · exact Bool.noConfusion h
    · exact ⟨s, hs, store_same _ _ _, h⟩

theorem rlf_open_class_inv (g : Graph) (hg : g.Valid) (st : RLFState) (hI : RLFInv g st)
    (s : Nat) (hs : s < g.num_vertices) (hu : st.is_colored s = false) :
    RLFClassInv g st.current_color (rlf_open_class g st s) := by
  refine ⟨class_open g hg _ _ _ _ s hI.1 hs hu, ?_⟩
  intro w hw hcol x hx hadj
  simp only [rlf_open_class] at hcol ⊢
  have hws : w = s := by
    by_contra hne
    rw [store_other _ _ _ _ hne] at hcol
    have := (hI.1.2.2.2.1 w).2
    omega
  subst hws
  rw [add_neighbors_spec]
  exact Or.inr ⟨hx, hadj⟩

theorem rlf_class_round_rel (g : Graph) (st : RLFState) (cs cs1 : ClassState)
    (hC : RLFClassInv g st.current_color cs) (hR : RLFGrowRel g st cs)
    (h : rlf_class_round g (calculate_all_degrees g) st.current_color cs = Round.again cs1) :
    RLFGrowRel g st cs1 := by
  obtain ⟨s, hu, _, hmax, e1, e2, _, e4⟩ := rlf_class_round_shape g st.current_color cs cs1 h
  have hs := hmax.1
  obtain ⟨r1, r2, r3⟩ := hR
  have hs0 : cs.colors s = 0 := (hC.1.2.2.2.2.1 s hs).2 hu
  have hcc : 1 ≤ st.current_color := hC.1.2.1
  refine ⟨?_, ?_, ?_⟩
  · intro v hv
    obtain ⟨h1, h2⟩ := r1 v hv
    have hvs : v ≠ s := by
      intro e
      rw [e, hu] at h2
      exact Bool.noConfusion h2
    rw [e1, e2, store_other _ _ _ _ hvs, store_other _ _ _ _ hvs]
    exact ⟨h1, h2⟩
  · intro v hv hc hn
    rw [e1]
    by_cases hvs : v = s
    · rw [hvs, store_same]
    · rw [e2, store_other _ _ _ _ hvs] at hc
      rw [store_other _ _ _ _ hvs]
      exact r2 v hv hc hn
  · intro x hx hU
    rcases (e4 x hx).1 hU with h1 | h1
    · obtain ⟨w, hw, hwc, hadj⟩ := r3 x hx h1
      have hws : w ≠ s := by
        intro e
        rw [e, hs0] at hwc
        omega
      exact ⟨w, hw, by rw [e1, store_other _ _ _ _ hws]; exact hwc, hadj⟩
    · exact ⟨s, hs, by rw [e1, store_same], h1⟩

/-- The inner loop entered at the start vertex `s` ends, within its fuel, in a class state
that keeps the class invariant, relates to the opening state, and in which `set_U` holds
every vertex that is still uncolored. -/
theorem rlf_grow_class_spec (g : Graph) (hg : g.Valid) (st : RLFState) (hI : RLFInv g st)
    (s : Nat) (hs : s < g.num_vertices) (hu : st.is_colored s = false) :
    ∃ cs, rlf_grow_class g (calculate_all_degrees g) st.current_color
        (rlf_open_class g st s) = some cs ∧
      RLFClassInv g st.current_color cs ∧ RLFGrowRel g st cs ∧
      st.colored_count + 1 ≤ cs.colored_count ∧
      ∀ v, v < g.num_vertices → cs.is_colored v = false → cs.set_U v = true := by
  obtain ⟨cs, hrun, ⟨hC, hR, hge⟩, hexit⟩ := while_loop_spec
    (fun _ : ClassState => true)
    (rlf_class_round g (calculate_all_degrees g) st.current_color)
    (fun cs => RLFClassInv g st.current_color cs ∧ RLFGrowRel g st cs ∧
      st.colored_count + 1 ≤ cs.colored_count)
    (fun cs => g.num_vertices - cs.colored_count + 1)
    (by
      intro cs _ _
      show 0 < g.num_vertices - cs.colored_count + 1
      omega)
    (by
      intro cs hIc _
      rcases rlf_class_round_spec g hg st.current_color cs hIc.1 with
        hl | ⟨cs1, h1, h2, h3, h4⟩
      · exact Or.inl hl
      · refine Or.inr ⟨cs1, h1,
          ⟨h2, rlf_class_round_rel g st cs cs1 hIc.1 hIc.2.1 h1, by have := hIc.2.2; omega⟩, ?_⟩
        show g.num_vertices - cs1.colored_count + 1 < g.num_vertices - cs.colored_count + 1
        omega)
    (g.num_vertices + 1) (rlf_open_class g st s)
    ⟨rlf_open_class_inv g hg st hI s hs hu, rlf_open_class_rel g st s hs hu, le_refl _⟩
    (by
      show g.num_vertices - (st.colored_count + 1) + 1 ≤ g.num_vertices + 1
      omega)
  refine ⟨cs, hrun, hC, hR, hge, ?_⟩
  have hleave : rlf_class_round g (calculate_all_degrees g) st.current_color cs =
      Round.leave := by
    rcases hexit with h | h
    · exact Bool.noConfusion h
    · exact h
  have hkey : ∀ v, (fun v => !cs.is_colored v && !cs.set_U v) v = true →
      0 ≤ neighbors_in_U g cs.set_U v :=
    fun v _ => neighbors_in_U_nonneg g cs.set_U v
  unfold rlf_class_round at hleave
  cases hsel : select_vertex g.num_vertices (fun v => !cs.is_colored v && !cs.set_U v)
      (neighbors_in_U g cs.set_U) (table_degree (calculate_all_degrees g)) with
  | some v =>
    rw [hsel] at hleave
    exact Round.noConfusion hleave
  | none =>
    intro v hv hc
    have := select_vertex_none _ _ _ _ hkey hsel v hv
    simp only [hc, Bool.not_false, Bool.true_and, Bool.not_eq_false'] at this
    exact this

theorem rlf_start_exists (g : Graph) (st : RLFState) (hI : RLFInv g st)
    (hlt : st.colored_count < g.num_vertices) :
    ∃ s, rlf_start_vertex (calculate_all_degrees g) st.is_colored = some s := by
  cases hs : rlf_start_vertex (calculate_all_degrees g) st.is_colored with
  | some s => exact ⟨s, rfl⟩
  | none =>
    exfalso
    have hall := rlf_start_none g st.is_colored hs
    have := hI.1.1
    rw [count_true_all _ _ hall] at this
    omega

/-- C29: in `recursive_largest_first_coloring` on a valid graph, every round of the main
loop closes a class `cs` with these properties: its vertices were uncolored when the class
was opened, no two of them are adjacent, every vertex that is still uncolored is adjacent
to one of them, and the vertices that were uncolored at the opening and are not in the
class are still uncolored; so the class is a maximal independent set of the subgraph
induced by the vertices that were uncolored when it was opened. -/
theorem rlf_class_is_maximal (g : Graph) (hg : g.Valid) (st : RLFState)
    (hr : RlfReached g st) (hlt : st.colored_count < g.num_vertices) :
    ∃ s cs, rlf_start_vertex (calculate_all_degrees g) st.is_colored = some s ∧
      rlf_grow_class g (calculate_all_degrees g) st.current_color (rlf_open_class g st s) =
        some cs ∧
      rlf_round g (calculate_all_degrees g) st = Round.again (rlf_close_class st cs) ∧
      (∀ v, v < g.num_vertices → cs.colors v = st.current_color →
        st.is_colored v = false) ∧
      (∀ u, u < g.num_vertices → ∀ v, v < g.num_vertices →
        cs.colors u = st.current_color → cs.colors v = st.current_color →
        g.adj_matrix u v ≠ 1) ∧
      (∀ v, v < g.num_vertices → cs.is_colored v = false →
        ∃ w, w < g.num_vertices ∧ cs.colors w = st.current_color ∧ g.adj_matrix v w = 1) ∧
      (∀ v, v < g.num_vertices → st.is_colored v = false →
        cs.colors v ≠ st.current_color → cs.is_colored v = false) := by
  have hI := rlf_reached_inv g hg st hr
  obtain ⟨s, hs⟩ := rlf_start_exists g st hI hlt
  obtain ⟨hsn, hu⟩ := rlf_start_some g st.is_colored s hs
  obtain ⟨cs, hrun, hC, hR, _, hfull⟩ := rlf_grow_class_spec g hg st hI s hsn hu
  obtain ⟨hG, _⟩ := hC
  obtain ⟨r1, r2, r3⟩ := hR
  have hcc : 1 ≤ st.current_color := hG.2.1
  refine ⟨s, cs, hs, hrun, ?_, ?_, ?_, ?_, ?_⟩
  · rw [rlf_round_eq, hs]
    simp only [hrun]
  · intro v _ hv
    by_contra hc
    have hc1 : st.is_colored v = true := by simpa using hc
    have h1 := (r1 v hc1).1
    have h2 := (hI.1.2.2.2.1 v).2
    omega
  · intro u hu1 v hv1 hcu hcv hadj
    have := hG.2.2.2.2.2.1 u hu1 v hv1 hadj (by omega)
    exact this (by rw [hcu, hcv])
  · intro v hv hc
    obtain ⟨w, hw, hwc, hadj⟩ := r3 v hv (hfull v hv hc)
    refine ⟨w, hw, hwc, ?_⟩
    rw [hg.2.2.1 v hv w hw]
    exact hadj
  · intro v hv hn hne
    by_contra hc
    exact hne (r2 v hv (by simpa using hc) hn)

theorem rlf_class_is_maximal_witness :
    cycle4.Valid ∧
    RlfReached cycle4 rlf_example_start ∧
    rlf_example_start.colored_count < cycle4.num_vertices ∧
    (∃ s cs, rlf_start_vertex (calculate_all_degrees cycle4) rlf_example_start.is_colored = some s ∧
      rlf_grow_class cycle4 (calculate_all_degrees cycle4) rlf_example_start.current_color
          (rlf_open_class cycle4 rlf_example_start s) =
        some cs ∧
      rlf_round cycle4 (calculate_all_degrees cycle4) rlf_example_start = Round.again
          (rlf_close_class rlf_example_start cs) ∧
      (∀ v, v < cycle4.num_vertices → cs.colors v = rlf_example_start.current_color →
        rlf_example_start.is_colored v = false) ∧
      (∀ u, u < cycle4.num_vertices → ∀ v, v < cycle4.num_vertices →
        cs.colors u = rlf_example_start.current_color → cs.colors v =
            rlf_example_start.current_color →
        cycle4.adj_matrix u v ≠ 1) ∧
      (∀ v, v < cycle4.num_vertices → cs.is_colored v = false →
        ∃ w, w < cycle4.num_vertices ∧ cs.colors w = rlf_example_start.current_color ∧
            cycle4.adj_matrix v w = 1) ∧
      (∀ v, v < cycle4.num_vertices → rlf_example_start.is_colored v = false →
        cs.colors v ≠ rlf_example_start.current_color → cs.is_colored v = false)) :=
  ⟨by unfold Graph.Valid; decide, by unfold RlfReached; exact Reached.start, by decide,
    rlf_class_is_maximal cycle4 (by unfold Graph.Valid; decide) rlf_example_start
      (by unfold RlfReached; exact Reached.start) (by decide)⟩

/-! ## The pass of `welsh_powell_coloring` -/

theorem can_color_blocked (g : Graph) (colors : Nat → Int) (cc : Int) (v : Nat)
    (h : ¬ can_color_with_current g colors cc v = true) :
    ∃ j, j < g.num_vertices ∧ g.adj_matrix v j = 1 ∧ colors j = cc := by
  simp only [can_color_with_current, Bool.not_eq_true', Bool.not_eq_false, List.any_eq_true,
    List.mem_range, Bool.and_eq_true, decide_eq_true_eq] at h
  obtain ⟨j, hj, h1, h2⟩ := h
  exact ⟨j, hj, h1, h2⟩

/-- One step of the pass keeps the flags set, keeps the colour of every vertex that holds the
pass's colour, and leaves the entry it looked at colored, adjacent to the start vertex, or
adjacent to a vertex that holds the pass's colour. -/
theorem wp_pass_step_keep (g : Graph) (start : Nat) (st : WPState) (e : VertexDegree) :
    (wp_pass_step g start st e).current_color = st.current_color ∧
    (∀ v, st.is_colored v = true → (wp_pass_step g start st e).is_colored v = true) ∧
    (∀ w, w < g.num_vertices → st.colors w = st.current_color →
      (wp_pass_step g start st e).colors w = st.current_color) ∧
    ((wp_pass_step g start st e).is_colored e.id = true ∨
      g.adj_matrix start e.id ≠ 0 ∨
      ∃ j, j < g.num_vertices ∧ g.adj_matrix e.id j = 1 ∧
        (wp_pass_step g start st e).colors j = st.current_color) := by
  unfold wp_pass_step
  by_cases h1 : st.is_colored e.id = false ∧ g.adj_matrix start e.id = 0
  · simp only [if_pos h1]
    by_cases h2 : can_color_with_current g st.colors st.current_color e.id = true
    · simp only [if_pos h2]
      refine ⟨trivial, ?_, ?_, Or.inl (store_same _ _ _)⟩
      · intro v hv
        by_cases hve : v = e.id
        · rw [hve]; exact store_same _ _ _
        · rw [store_other _ _ _ _ hve]; exact hv
      · intro w hw hcol
        by_cases hwe : w = e.id
        · rw [hwe]; exact store_same _ _ _
        · rw [store_other _ _ _ _ hwe]; exact hcol
    · simp only [if_neg h2]
      refine ⟨trivial, fun v hv => hv, fun w _ hcol => hcol, Or.inr (Or.inr ?_)⟩
      exact can_color_blocked g _ _ _ h2
  · simp only [if_neg h1]
    refine ⟨trivial, fun v hv => hv, fun w _ hcol => hcol, ?_⟩
    by_cases hc : st.is_colored e.id = true
    · exact Or.inl hc
    · right; left
      intro h0
      apply h1
      refine ⟨?_, h0⟩
      cases hb : st.is_colored e.id with
      | true => exact absurd hb hc
      | false => rfl

theorem wp_pass_fold_keep (g : Graph) (start : Nat) :
    ∀ (l : List VertexDegree) (st : WPState),
      (l.foldl (wp_pass_step g start) st).current_color = st.current_color ∧
      (∀ v, st.is_colored v = true → (l.foldl (wp_pass_step g start) st).is_colored v = true) ∧
      (∀ w, w < g.num_vertices → st.colors w = st.current_color →
        (l.foldl (wp_pass_step g start) st).colors w = st.current_color) := by
  intro l
  induction l with
  | nil => intro st; exact ⟨rfl, fun v hv => hv, fun w _ hcol => hcol⟩
  | cons e l ih =>
    intro st
    simp only [List.foldl_cons]
    obtain ⟨h1, h2, h3, _⟩ := wp_pass_step_keep g start st e
    obtain ⟨k1, k2, k3⟩ := ih (wp_pass_step g start st e)
    refine ⟨k1.trans h1, fun v hv => k2 v (h2 v hv), ?_⟩
    intro w hw hcol
    have := k3 w hw (by rw [h1]; exact h3 w hw hcol)
    rw [this, h1]

/-- At the end of a pass every entry the pass went over is colored or adjacent to a vertex
that holds the pass's colour. -/
theorem wp_pass_covers (g : Graph) (hg : g.Valid) (start : Nat) (hs : start < g.num_vertices) :
    ∀ (l : List VertexDegree) (st : WPState), st.colors start = st.current_color →
      ∀ e, e ∈ l → e.id < g.num_vertices →
        (l.foldl (wp_pass_step g start) st).is_colored e.id = true ∨
        ∃ w, w < g.num_vertices ∧ g.adj_matrix e.id w = 1 ∧
          (l.foldl (wp_pass_step g start) st).colors w = st.current_color := by
  intro l
  induction l with
  | nil => intro st _ e he; exact absurd he (List.not_mem_nil e)
  | cons a l ih =>
    intro st hst e he hid
    simp only [List.foldl_cons]
    obtain ⟨h1, h2, h3, h4⟩ := wp_pass_step_keep g start st a
    obtain ⟨k1, k2, k3⟩ := wp_pass_fold_keep g start l (wp_pass_step g start st a)
    have hst1 : (wp_pass_step g start st a).colors start =
        (wp_pass_step g start st a).current_color := by
      rw [h1]; exact h3 start hs hst
    rcases List.mem_cons.1 he with hea | hel
    · subst hea
      rcases h4 with hc | hadj | ⟨j, hj, hja, hjc⟩
      · exact Or.inl (k2 _ hc)
      · right
        refine ⟨start, hs, ?_, ?_⟩
        · rw [hg.2.2.1 e.id hid start hs]
          rcases hg.2.1 start hs e.id hid with h0 | h1
          · exact absurd h0 hadj
          · exact h1
        · rw [← h1]; exact k3 start hs hst1
      · right
        refine ⟨j, hj, hja, ?_⟩
        rw [← h1]
        exact k3 j hj (by rw [h1]; exact hjc)
    · have := ih (wp_pass_step g start st a) hst1 e hel hid
      rw [h1] at this
      exact this

/-- The start vertex of a pass is an uncolored vertex whose degree no uncolored vertex
exceeds. -/
theorem wp_start_max (g : Graph) (sorted : List VertexDegree) (hs : QsortResult g sorted)
    (is_colored : Nat → Bool) (s : Nat) (h : wp_start_vertex sorted is_colored = some s) :
    s < g.num_vertices ∧ is_colored s = false ∧
    ∀ v, v < g.num_vertices → is_colored v = false → row_degree g v ≤ row_degree g s := by
  simp only [wp_start_vertex, Option.map_eq_some'] at h
  obtain ⟨e, hfind, hes⟩ := h
  obtain ⟨hp, as, bs, hsplit, hall⟩ := List.find?_eq_some.1 hfind
  have hdeg : ∀ a, a ∈ sorted → a.id < g.num_vertices ∧ a.degree = row_degree g a.id := by
    intro a ha
    have hmem := hs.1.mem_iff.1 ha
    simp only [calculate_all_degrees, List.mem_map, List.mem_range] at hmem
    obtain ⟨i, hi, rfl⟩ := hmem
    exact ⟨hi, rfl⟩
  have hmem : e ∈ sorted := List.mem_of_find?_eq_some hfind
  have hu : is_colored s = false := by
    rw [← hes]
    simpa using hp
  refine ⟨hes ▸ (hdeg e hmem).1, hu, ?_⟩
  intro v hv hvu
  obtain ⟨a, ha, hav⟩ := table_has g v hv
  have has : a ∈ sorted := hs.1.mem_iff.2 ha
  have hpw := hs.2
  rw [hsplit] at has hpw
  have hbefore : ∀ b, b ∈ as → is_colored b.id = true := by
    intro b hb
    simpa using hall b hb
  rcases List.mem_append.1 has with h1 | h1
  · have := hbefore a h1
    rw [hav, hvu] at this
    exact Bool.noConfusion this
  · rcases List.mem_cons.1 h1 with h2 | h2
    · rw [← hav, h2, hes]
    · have hpw1 := (List.pairwise_append.1 hpw).2.1
      have := (List.pairwise_cons.1 hpw1).1 a h2
      simp only [compare_vertex_degree] at this
      have d1 := (hdeg a (hs.1.mem_iff.2 ha)).2
      have d2 := (hdeg e hmem).2
      rw [hav] at d1
      rw [hes] at d2
      omega

/-- C30: in every round of the main loop of `welsh_powell_coloring` on a valid graph, the
start vertex (the first vertex the pass colours) is uncolored and no uncolored vertex has a
larger degree; the round is the pass run from the state in which the start vertex holds
`current_color`; and when the pass ends the start vertex holds that colour and every vertex
still uncolored is adjacent to a vertex that holds it. -/
theorem wp_pass_takes_all_it_can (g : Graph) (hg : g.Valid) (sorted : List VertexDegree)
    (hs : QsortResult g sorted) (st : WPState) (hr : WpReached g sorted st)
    (hlt : st.colored_count < g.num_vertices) :
    ∃ s st1, wp_start_vertex sorted st.is_colored = some s ∧
      wp_round g sorted st = Round.again st1 ∧
      st1 = { sorted.foldl (wp_pass_step g s)
                { st with
                  colors := store st.colors s st.current_color
                  is_colored := store st.is_colored s true
                  colored_count := st.colored_count + 1 } with
              current_color := st.current_color + 1 } ∧
      s < g.num_vertices ∧ st.is_colored s = false ∧
      (∀ v, v < g.num_vertices → st.is_colored v = false →
        row_degree g v ≤ row_degree g s) ∧
      st1.colors s = st.current_color ∧
      (∀ v, v < g.num_vertices → st1.is_colored v = false →
        ∃ w, w < g.num_vertices ∧ g.adj_matrix v w = 1 ∧
          st1.colors w = st.current_color) := by
  have hI := wp_reached_inv g hg sorted hs st hr
  cases hst : wp_start_vertex sorted st.is_colored with
  | none =>
    exfalso
    have hall : ∀ v, v < g.num_vertices → st.is_colored v = true := by
      intro v hv
      obtain ⟨e, he, hev⟩ := List.mem_map.1 ((sorted_ids_mem g sorted hs v).2 hv)
      simp only [wp_start_vertex, Option.map_eq_none', List.find?_eq_none] at hst
      have := hst e he
      rw [hev] at this
      simpa using this
    have hc := hI.1
    rw [count_true_all _ _ hall] at hc
    omega
  | some s =>
    obtain ⟨hsn, hsu, hmax⟩ := wp_start_max g sorted hs st.is_colored s hst
    have hopen : (store st.colors s st.current_color) s = st.current_color := store_same _ _ _
    obtain ⟨k1, _, k3⟩ := wp_pass_fold_keep g s sorted
      { st with
        colors := store st.colors s st.current_color
        is_colored := store st.is_colored s true
        colored_count := st.colored_count + 1 }
    have hcov := wp_pass_covers g hg s hsn sorted
      { st with
        colors := store st.colors s st.current_color
        is_colored := store st.is_colored s true
        colored_count := st.colored_count + 1 } hopen
    refine ⟨s, _, rfl, ?_, rfl, hsn, hsu, hmax, ?_, ?_⟩
    · simp only [wp_round, hst]
      congr 2
      rw [k1]
    · exact k3 s hsn hopen
    · intro v hv hvu
      obtain ⟨e, he, hev⟩ := List.mem_map.1 ((sorted_ids_mem g sorted hs v).2 hv)
      rcases hcov e he (hev ▸ hv) with hc | hw
      · rw [hev] at hc
        rw [hc] at hvu
        exact Bool.noConfusion hvu
      · rw [hev] at hw
        exact hw

theorem wp_pass_takes_all_it_can_witness :
    star3.Valid ∧
    QsortResult star3 star3_sorted ∧
    WpReached star3 star3_sorted wp_example_start ∧
    wp_example_start.colored_count < star3.num_vertices ∧
    (∃ s st1, wp_start_vertex star3_sorted wp_example_start.is_colored = some s ∧
      wp_round star3 star3_sorted wp_example_start = Round.again st1 ∧
      st1 = { star3_sorted.foldl (wp_pass_step star3 s)
                { wp_example_start with
                  colors := store wp_example_start.colors s wp_example_start.current_color
                  is_colored := store wp_example_start.is_colored s true
                  colored_count := wp_example_start.colored_count + 1 } with
              current_color := wp_example_start.current_color + 1 } ∧
      s < star3.num_vertices ∧ wp_example_start.is_colored s = false ∧
      (∀ v, v < star3.num_vertices → wp_example_start.is_colored v = false →
        row_degree star3 v ≤ row_degree star3 s) ∧
      st1.colors s = wp_example_start.current_color ∧
      (∀ v, v < star3.num_vertices → st1.is_colored v = false →
        ∃ w, w < star3.num_vertices ∧ star3.adj_matrix v w = 1 ∧
          st1.colors w = wp_example_start.current_color)) :=
  ⟨by unfold Graph.Valid; decide, by unfold QsortResult; decide, by unfold WpReached; exact
      Reached.start, by decide,
    wp_pass_takes_all_it_can star3 (by unfold Graph.Valid; decide) star3_sorted
      (by unfold QsortResult; decide) wp_example_start
      (by unfold WpReached; exact Reached.start) (by decide)⟩

/-! ## First fit along an order, vertex by vertex -/

theorem nodup_length_le (l : List Nat) (n : Nat) (hnd : l.Nodup) (h : ∀ v, v ∈ l → v < n) :
    l.length ≤ n := by
  have hsub : l.toFinset ⊆ Finset.range n := by
    intro v hv
    exact Finset.mem_range.2 (h v (List.mem_toFinset.1 hv))
  have := Finset.card_le_card hsub
  rw [List.toFinset_card_of_nodup hnd, Finset.card_range] at this
  exact this

/-- First fit along the order `pre ++ v :: post`: when `v` is visited only the vertices of
`pre` hold a colour, the colour `v` gets then is the one it ends with, and that colour is
the smallest positive integer that no neighbour of `v` in `pre` holds. -/
theorem first_fit_split (g : Graph) (hg : g.Valid) (pre post : List Nat) (v : Nat)
    (hnd : (pre ++ v :: post).Nodup)
    (hmem : ∀ u, u ∈ pre ++ v :: post → u < g.num_vertices) :
    (∀ u, u ∉ pre →
      (pre.foldl (first_fit_step g) { colors := fun _ => 0, max_colors_used := 0 }).colors u
        = 0) ∧
    ((pre ++ v :: post).foldl (first_fit_step g)
        { colors := fun _ => 0, max_colors_used := 0 }).colors v =
      (first_fit_step g
        (pre.foldl (first_fit_step g) { colors := fun _ => 0, max_colors_used := 0 })
        v).colors v ∧
    (∀ u, u ∈ pre →
      ((pre ++ v :: post).foldl (first_fit_step g)
        { colors := fun _ => 0, max_colors_used := 0 }).colors u =
      (pre.foldl (first_fit_step g) { colors := fun _ => 0, max_colors_used := 0 }).colors u ∧
      1 ≤ (pre.foldl (first_fit_step g)
        { colors := fun _ => 0, max_colors_used := 0 }).colors u) ∧
    1 ≤ ((pre ++ v :: post).foldl (first_fit_step g)
        { colors := fun _ => 0, max_colors_used := 0 }).colors v ∧
    (∀ u, u ∈ pre → g.adj_matrix v u = 1 →
      ((pre ++ v :: post).foldl (first_fit_step g)
        { colors := fun _ => 0, max_colors_used := 0 }).colors u ≠
      ((pre ++ v :: post).foldl (first_fit_step g)
        { colors := fun _ => 0, max_colors_used := 0 }).colors v) ∧
    (∀ x, 1 ≤ x →
      x < ((pre ++ v :: post).foldl (first_fit_step g)
        { colors := fun _ => 0, max_colors_used := 0 }).colors v →
      ∃ u, u ∈ pre ∧ g.adj_matrix v u = 1 ∧
        ((pre ++ v :: post).foldl (first_fit_step g)
          { colors := fun _ => 0, max_colors_used := 0 }).colors u = x) := by
  have hlen := nodup_length_le _ _ hnd hmem
  simp only [List.length_append, List.length_cons] at hlen
  obtain ⟨hndpre, hndvp, hdis⟩ := List.nodup_append.1 hnd
  have hvpost : v ∉ post := (List.nodup_cons.1 hndvp).1
  have hndpost : post.Nodup := (List.nodup_cons.1 hndvp).2
  have hvpre : v ∉ pre := fun h => hdis h (List.mem_cons_self v post)
  have hv : v < g.num_vertices := hmem v (List.mem_append_right _ (List.mem_cons_self v post))
  obtain ⟨hIB, hposB, hfixB⟩ := first_fit_fold_inv g hg pre
    { colors := fun _ => 0, max_colors_used := 0 } 0 (ffInv_init g)
    (fun u hu => ⟨hmem u (List.mem_append_left _ hu), rfl⟩) hndpre (by omega)
  rw [Nat.zero_add] at hIB
  obtain ⟨hIS, hposS, hfixS⟩ := first_fit_step_inv g hg pre.length _ v hv (by omega)
    (hfixB v hvpre) hIB
  obtain ⟨_, _, hfixF⟩ := first_fit_fold_inv g hg post _ (pre.length + 1) hIS
    (by
      intro u hu
      have hupre : u ∉ pre := fun h => hdis h (List.mem_cons_of_mem v hu)
      have huv : u ≠ v := fun e => hvpost (e ▸ hu)
      refine ⟨hmem u (List.mem_append_right _ (List.mem_cons_of_mem v hu)), ?_⟩
      rw [hfixS u huv]
      exact hfixB u hupre)
    hndpost (by omega)
  have hF : (pre ++ v :: post).foldl (first_fit_step g)
      { colors := fun _ => 0, max_colors_used := 0 } =
      post.foldl (first_fit_step g) (first_fit_step g
        (pre.foldl (first_fit_step g) { colors := fun _ => 0, max_colors_used := 0 }) v) := by
    rw [List.foldl_append, List.foldl_cons]
  rw [hF]
  have hFv := hfixF v hvpost
  have hFu : ∀ u, u ∈ pre →
      (post.foldl (first_fit_step g) (first_fit_step g
        (pre.foldl (first_fit_step g) { colors := fun _ => 0, max_colors_used := 0 })
        v)).colors u =
      (pre.foldl (first_fit_step g) { colors := fun _ => 0, max_colors_used := 0 }).colors u := by
    intro u hu
    have hupost : u ∉ post := fun h => hdis hu (List.mem_cons_of_mem v h)
    have huv : u ≠ v := fun e => hvpre (e ▸ hu)
    rw [hfixF u hupost, hfixS u huv]
  refine ⟨fun u hu => hfixB u hu, hFv, fun u hu => ⟨hFu u hu, hposB u hu⟩, ?_, ?_, ?_⟩
  · rw [hFv]; exact hposS
  · intro u hu hadj
    have hupre := hmem u (List.mem_append_left _ hu)
    have huv : u ≠ v := fun e => hvpre (e ▸ hu)
    rw [hFv, hFu u hu, ← hfixS u huv]
    exact fun e => hIS.1 v hv u hupre hadj (by omega) e.symm
  · intro x hx1 hx2
    rw [hFv] at hx2
    obtain ⟨w, hw, hadj, hwx⟩ := hIS.2.2.2 v hv x hx1 hx2
    have hwv : w ≠ v := by
      intro e
      rw [e, hg.2.2.2 v hv] at hadj
      exact absurd hadj (by decide)
    have hwpre : w ∈ pre := by
      by_contra hc
      rw [hfixS w hwv, hfixB w hc] at hwx
      have h0 : (0 : Int) = x := hwx
      omega
    exact ⟨w, hwpre, hadj, by rw [hFu w hwpre, ← hfixS w hwv]; exact hwx⟩

theorem mark_unavailable_congr (g : Graph) (v : Nat) (colors : Nat → Int)
    (marks1 marks2 : Nat → Bool)
    (h : ∀ w, w < g.num_vertices → marks1 w = marks2 w) :
    mark_unavailable g v colors marks1 = mark_unavailable g v colors marks2 := by
  unfold mark_unavailable
  apply List.foldl_ext
  intro a w hw
  rw [h w (List.mem_range.1 hw)]

theorem range_split (n v : Nat) (hv : v < n) :
    List.range n = List.range v ++ v :: List.range' (v + 1) (n - (v + 1)) := by
  have h1 : v :: List.range' (v + 1) (n - (v + 1)) = List.range' (0 + v) (n - (v + 1) + 1) := by
    rw [Nat.zero_add]; rfl
  rw [h1, List.range_eq_range', List.range_eq_range', List.range'_append_1]
  congr 1
  omega

/-- C22: on a valid graph, when `first_fit_coloring` visits the vertex `v` every vertex
`u >= v` still has colour `0`; the colour chosen then is the one `v` ends with, and it is
the colour the search finds when only the neighbours `u < v` are marked; it is positive, no
neighbour `u < v` ends with it, and every smaller positive integer is the final colour of
a neighbour `u < v`. -/
theorem first_fit_smallest_among_earlier (g : Graph) (hg : g.Valid) (v : Nat)
    (hv : v < g.num_vertices) :
    (∀ u, v ≤ u →
      ((List.range v).foldl (first_fit_step g)
        { colors := fun _ => 0, max_colors_used := 0 }).colors u = 0) ∧
    (first_fit_coloring g).colors v =
      (first_fit_step g ((List.range v).foldl (first_fit_step g)
        { colors := fun _ => 0, max_colors_used := 0 }) v).colors v ∧
    (first_fit_coloring g).colors v =
      chosen_color g.num_vertices (mark_unavailable g v
        ((List.range v).foldl (first_fit_step g)
          { colors := fun _ => 0, max_colors_used := 0 }).colors
        (fun u => decide (u < v))) ∧
    1 ≤ (first_fit_coloring g).colors v ∧
    (∀ u, u < v → g.adj_matrix v u = 1 →
      (first_fit_coloring g).colors u ≠ (first_fit_coloring g).colors v) ∧
    (∀ x, 1 ≤ x → x < (first_fit_coloring g).colors v →
      ∃ u, u < v ∧ g.adj_matrix v u = 1 ∧ (first_fit_coloring g).colors u = x) := by
  have hsplit := range_split g.num_vertices v hv
  have hnd : (List.range v ++ v :: List.range' (v + 1) (g.num_vertices - (v + 1))).Nodup := by
    rw [← hsplit]; exact List.nodup_range _
  have hmem : ∀ u, u ∈ List.range v ++ v :: List.range' (v + 1) (g.num_vertices - (v + 1)) →
      u < g.num_vertices := by
    intro u hu
    rw [← hsplit] at hu
    exact List.mem_range.1 hu
  obtain ⟨h1, h2, h3, h4, h5, h6⟩ := first_fit_split g hg _ _ v hnd hmem
  rw [← hsplit] at h2 h3 h4 h5 h6
  have hout : (first_fit_coloring g).colors =
      ((List.range g.num_vertices).foldl (first_fit_step g)
        { colors := fun _ => 0, max_colors_used := 0 }).colors := rfl
  rw [hout]
  refine ⟨?_, h2, ?_, h4, ?_, ?_⟩
  · intro u hu
    exact h1 u (by simp only [List.mem_range]; omega)
  · rw [h2]
    simp only [first_fit_step, store_same]
    congr 1
    apply mark_unavailable_congr
    intro w hw
    by_cases hwv : w < v
    · have := (h3 w (List.mem_range.2 hwv)).2
      have hI := (first_fit_fold_inv g hg (List.range v)
        { colors := fun _ => 0, max_colors_used := 0 } 0 (ffInv_init g)
        (fun u hu => ⟨by have := List.mem_range.1 hu; omega, rfl⟩) (List.nodup_range v)
        (by simp only [List.length_range]; omega)).1.2.1 w
      simp only [List.length_range] at hI
      simp only [hwv, decide_True, Bool.and_eq_true, decide_eq_true_eq]
      constructor
      · omega
      · omega
    · have := h1 w (by simp only [List.mem_range]; omega)
      simp [this, hwv]
  · intro u hu
    exact h5 u (List.mem_range.2 hu)
  · intro x hx1 hx2
    obtain ⟨u, hu, hadj, hux⟩ := h6 x hx1 hx2
    exact ⟨u, List.mem_range.1 hu, hadj, hux⟩

theorem first_fit_smallest_among_earlier_witness :
    star3.Valid ∧
    2 < star3.num_vertices ∧
    ((∀ u, 2 ≤ u →
      ((List.range 2).foldl (first_fit_step star3)
        { colors := fun _ => 0, max_colors_used := 0 }).colors u = 0) ∧
    (first_fit_coloring star3).colors 2 =
      (first_fit_step star3 ((List.range 2).foldl (first_fit_step star3)
        { colors := fun _ => 0, max_colors_used := 0 }) 2).colors 2 ∧
    (first_fit_coloring star3).colors 2 =
      chosen_color star3.num_vertices (mark_unavailable star3 2
        ((List.range 2).foldl (first_fit_step star3)
          { colors := fun _ => 0, max_colors_used := 0 }).colors
        (fun u => decide (u < 2))) ∧
    1 ≤ (first_fit_coloring star3).colors 2 ∧
    (∀ u, u < 2 → star3.adj_matrix 2 u = 1 →
      (first_fit_coloring star3).colors u ≠ (first_fit_coloring star3).colors 2) ∧
    (∀ x, 1 ≤ x → x < (first_fit_coloring star3).colors 2 →
      ∃ u, u < 2 ∧ star3.adj_matrix 2 u = 1 ∧ (first_fit_coloring star3).colors u = x)) :=
  ⟨by unfold Graph.Valid; decide, by decide,
    first_fit_smallest_among_earlier star3 (by unfold Graph.Valid; decide) 2 (by decide)⟩

/-! ## Largest-degree ordering against the specification's first fit -/

theorem find_range_spec (p : Nat → Bool) :
    ∀ (m k : Nat), (List.range m).find? p = some k →
      p k = true ∧ k < m ∧ ∀ j, j < k → p j = false := by
  intro m
  induction m with
  | zero => intro k h; simp at h
  | succ m ih =>
    intro k h
    rw [List.range_succ, List.find?_append] at h
    cases hfind : (List.range m).find? p with
    | some k1 =>
      rw [hfind] at h
      simp only [Option.or_some, Option.some.injEq] at h
      subst h
      obtain ⟨h1, h2, h3⟩ := ih k1 hfind
      exact ⟨h1, by omega, h3⟩
    | none =>
      rw [hfind] at h
      simp only [Option.none_or] at h
      have hnone := List.find?_eq_none.1 hfind
      rcases List.find?_cons_eq_some.1 h with ⟨hp, hk⟩ | ⟨_, hk⟩
      · subst hk
        refine ⟨hp, by omega, ?_⟩
        intro j hj
        simpa using hnone j (List.mem_range.2 hj)
      · simp at hk

theorem foldl_max_ge (l : List Int) :
    ∀ acc : Int, acc ≤ l.foldl max acc ∧ ∀ x, x ∈ l → x ≤ l.foldl max acc := by
  induction l with
  | nil => intro acc; simp
  | cons a l ih =>
    intro acc
    simp only [List.foldl_cons]
    obtain ⟨h1, h2⟩ := ih (max acc a)
    refine ⟨le_trans (le_max_left acc a) h1, ?_⟩
    intro x hx
    rcases List.mem_cons.1 hx with e | hxl
    · rw [e]; exact le_trans (le_max_right acc a) h1
    · exact h2 x hxl

/-- The value of `spec_smallest_available` is positive, is not the colour of a decided
neighbour, and every smaller positive integer is such a colour. -/
theorem spec_smallest_available_spec (g : Graph) (colors : Nat → Int) (decided : List Nat)
    (v : Nat) :
    1 ≤ spec_smallest_available g colors decided v ∧
    (∀ u, u ∈ decided → g.adj_matrix v u = 1 →
      colors u ≠ spec_smallest_available g colors decided v) ∧
    ∀ x, 1 ≤ x → x < spec_smallest_available g colors decided v →
      ∃ u, u ∈ decided ∧ g.adj_matrix v u = 1 ∧ colors u = x := by
  have hused : ∀ x : Int,
      x ∈ (decided.filter (fun u => decide (g.adj_matrix v u = 1))).map colors ↔
        ∃ u, u ∈ decided ∧ g.adj_matrix v u = 1 ∧ colors u = x := by
    intro x
    simp only [List.mem_map, List.mem_filter, decide_eq_true_eq]
    constructor
    · rintro ⟨u, ⟨h1, h2⟩, h3⟩; exact ⟨u, h1, h2, h3⟩
    · rintro ⟨u, h1, h2, h3⟩; exact ⟨u, ⟨h1, h2⟩, h3⟩
  obtain ⟨hl0, hlmax⟩ := foldl_max_ge
    ((decided.filter (fun u => decide (g.adj_matrix v u = 1))).map colors) 0
  have hcont : ∀ x : Int,
      ((decided.filter (fun u => decide (g.adj_matrix v u = 1))).map colors).contains x = true ↔
        x ∈ (decided.filter (fun u => decide (g.adj_matrix v u = 1))).map colors := by
    intro x
    simp
  cases hfind : (List.range
      ((((decided.filter (fun u => decide (g.adj_matrix v u = 1))).map colors).foldl
        max 0).toNat + 1)).find?
      (fun (k : Nat) => !((decided.filter (fun u => decide (g.adj_matrix v u = 1))).map
        colors).contains ((k : Int) + 1)) with
  | none =>
    exfalso
    have hnone := List.find?_eq_none.1 hfind _ (List.mem_range.2 (Nat.lt_succ_self _))
    simp only [Bool.not_eq_true', Bool.not_eq_false] at hnone
    have := hlmax _ ((hcont _).1 hnone)
    have e := Int.toNat_of_nonneg hl0
    omega
  | some k =>
    have hval : spec_smallest_available g colors decided v = (k : Int) + 1 := by
      unfold spec_smallest_available
      simp only [hfind]
    rw [hval]
    obtain ⟨h1, _, h3⟩ := find_range_spec _ _ k hfind
    simp only [Bool.not_eq_true'] at h1
    refine ⟨by omega, ?_, ?_⟩
    · intro u hu hadj heq
      have := (hcont _).2 ((hused _).2 ⟨u, hu, hadj, heq⟩)
      rw [this] at h1
      exact Bool.noConfusion h1
    · intro x hx1 hx2
      have hj := h3 (x - 1).toNat (by omega)
      simp only [Bool.not_eq_false'] at hj
      have e : (((x - 1).toNat : Nat) : Int) + 1 = x := by omega
      rw [e] at hj
      exact (hused x).1 ((hcont x).1 hj)

/-- The colour the code's search finds is the colour of the specification's primitive,
when the decided vertices are the vertices that hold a colour. -/
theorem chosen_color_eq_spec (g : Graph) (st : FFState) (decided : List Nat) (k : Nat)
    (hk : k < g.num_vertices) (hI : FFInv g k st)
    (hdec : ∀ w, w < g.num_vertices → (st.colors w ≠ 0 ↔ w ∈ decided))
    (hlt : ∀ w, w ∈ decided → w < g.num_vertices) (v : Nat) :
    (first_fit_step g st v).colors v = spec_smallest_available g st.colors decided v := by
  have hm : ∀ w, w < g.num_vertices → st.colors w ≠ 0 →
      (fun neighbor => decide (st.colors neighbor ≠ 0) &&
        decide (st.colors neighbor ≤ (g.num_vertices : Int))) w = true := by
    intro w _ hw
    have := (hI.2.1 w).2
    simp only [Bool.and_eq_true, decide_eq_true_eq]
    exact ⟨hw, by omega⟩
  obtain ⟨c1, _, c3⟩ := chosen_color_spec g v st.colors _ k hk hI.2.1 hm
  have c4 := chosen_color_below g v st.colors
    (fun neighbor => decide (st.colors neighbor ≠ 0) &&
      decide (st.colors neighbor ≤ (g.num_vertices : Int)))
  obtain ⟨s1, s2, s3⟩ := spec_smallest_available_spec g st.colors decided v
  simp only [first_fit_step, store_same]
  rcases lt_trichotomy
    (chosen_color g.num_vertices (mark_unavailable g v st.colors
      (fun neighbor => decide (st.colors neighbor ≠ 0) &&
        decide (st.colors neighbor ≤ (g.num_vertices : Int)))))
    (spec_smallest_available g st.colors decided v) with h | h | h
  · exfalso
    obtain ⟨u, hu, hadj, hux⟩ := s3 _ c1 h
    exact c3 u (hlt u hu) hadj hux
  · exact h
  · exfalso
    obtain ⟨w, hw, hadj, hwx⟩ := c4 _ s1 h
    have hne : st.colors w ≠ 0 := by omega
    exact s2 w ((hdec w hw).1 hne) hadj hwx

theorem spec_first_fit_refines (g : Graph) (hg : g.Valid) :
    ∀ (l : List Nat) (st : FFState) (decided : List Nat) (k : Nat), FFInv g k st →
      (∀ w, w < g.num_vertices → (st.colors w ≠ 0 ↔ w ∈ decided)) →
      (∀ w, w ∈ decided → w < g.num_vertices) →
      (∀ v, v ∈ l → v < g.num_vertices ∧ st.colors v = 0) → l.Nodup →
      k + l.length ≤ g.num_vertices →
      (l.foldl (first_fit_step g) st).colors =
        (l.foldl
          (fun p v => (store p.1 v (spec_smallest_available g p.1 p.2 v), v :: p.2))
          (st.colors, decided)).1 := by
  intro l
  induction l with
  | nil => intro st decided k _ _ _ _ _ _; rfl
  | cons v l ih =>
    intro st decided k hI hdec hlt hl hnd hlen
    have hvl : v ∉ l := (List.nodup_cons.1 hnd).1
    have hndl : l.Nodup := (List.nodup_cons.1 hnd).2
    simp only [List.length_cons] at hlen
    obtain ⟨hv, hv0⟩ := hl v (List.mem_cons_self v l)
    obtain ⟨hI1, hpos, hsame⟩ := first_fit_step_inv g hg k st v hv (by omega) hv0 hI
    have hc := chosen_color_eq_spec g st decided k (by omega) hI hdec hlt v
    have hcolors : (first_fit_step g st v).colors =
        store st.colors v (spec_smallest_available g st.colors decided v) := by
      rw [← hc]
      simp only [first_fit_step, store_same]
    have := ih (first_fit_step g st v) (v :: decided) (k + 1) hI1
      (by
        intro w hw
        by_cases hwv : w = v
        · subst hwv
          constructor
          · intro _; exact List.mem_cons_self _ _
          · intro _; omega
        · rw [hsame w hwv, hdec w hw]
          constructor
          · intro h; exact List.mem_cons_of_mem _ h
          · intro h
            rcases List.mem_cons.1 h with e | h1
            · exact absurd e hwv
            · exact h1)
      (by
        intro w hw
        rcases List.mem_cons.1 hw with e | h1
        · rw [e]; exact hv
        · exact hlt w h1)
      (by
        intro w hw
        have hwv : w ≠ v := fun e => hvl (e ▸ hw)
        obtain ⟨h1, h2⟩ := hl w (List.mem_cons_of_mem v hw)
        exact ⟨h1, by rw [hsame w hwv]; exact h2⟩)
      hndl (by omega)
    simp only [List.foldl_cons]
    rw [this, hcolors]

/-- The array `largest_degree_ordering_coloring` leaves is the array of the specification's
first fit along the sorted order. -/
theorem ldo_eq_spec (g : Graph) (hg : g.Valid) (sorted : List VertexDegree)
    (hs : QsortResult g sorted) :
    (largest_degree_ordering_coloring g sorted).colors =
      spec_largest_degree_ordering g sorted := by
  have hlen : (sorted.map (fun e => e.id)).length = g.num_vertices := by
    rw [List.length_map]; exact sorted_length g sorted hs
  have := spec_first_fit_refines g hg (sorted.map (fun e => e.id))
    { colors := fun _ => 0, max_colors_used := 0 } [] 0 (ffInv_init g)
    (by intro w _; simp)
    (by intro w hw; exact absurd hw (List.not_mem_nil w))
    (fun v hv => ⟨(sorted_ids_mem g sorted hs v).1 hv, rfl⟩)
    (sorted_ids_nodup g sorted hs) (by omega)
  unfold spec_largest_degree_ordering spec_first_fit_along
  rw [← this]
  simp only [largest_degree_ordering_coloring, ldo_as_fold]

/-- C23: on a valid graph `largest_degree_ordering_coloring` leaves the array of first fit
run along the degree-sorted order, as the specification words it; and if `v` stands at
position `i` of the sorted sequence of ids, `colors[v]` is positive, no neighbour at a
position `j < i` holds it, and every smaller positive integer is the colour of a neighbour
at a position `j < i`. -/
theorem ldo_is_first_fit_along_sorted (g : Graph) (hg : g.Valid) (sorted : List VertexDegree)
    (hs : QsortResult g sorted) :
    (largest_degree_ordering_coloring g sorted).colors =
      spec_largest_degree_ordering g sorted ∧
    ∀ (i v : Nat), (sorted.map (fun e => e.id))[i]? = some v →
      1 ≤ (largest_degree_ordering_coloring g sorted).colors v ∧
      (∀ (j u : Nat), j < i → (sorted.map (fun e => e.id))[j]? = some u → g.adj_matrix v u = 1 →
        (largest_degree_ordering_coloring g sorted).colors u ≠
          (largest_degree_ordering_coloring g sorted).colors v) ∧
      (∀ x, 1 ≤ x → x < (largest_degree_ordering_coloring g sorted).colors v →
        ∃ (j u : Nat), j < i ∧ (sorted.map (fun e => e.id))[j]? = some u ∧ g.adj_matrix v u = 1 ∧
          (largest_degree_ordering_coloring g sorted).colors u = x) := by
  refine ⟨ldo_eq_spec g hg sorted hs, ?_⟩
  intro i v hiv
  obtain ⟨hi, hget⟩ := List.getElem?_eq_some_iff.1 hiv
  have hsplit : sorted.map (fun e => e.id) =
      (sorted.map (fun e => e.id)).take i ++ v :: (sorted.map (fun e => e.id)).drop (i + 1) := by
    rw [← hget, ← List.drop_eq_getElem_cons hi, List.take_append_drop]
  have hnd := sorted_ids_nodup g sorted hs
  have hmem : ∀ u, u ∈ sorted.map (fun e => e.id) → u < g.num_vertices :=
    fun u hu => (sorted_ids_mem g sorted hs u).1 hu
  rw [hsplit] at hnd hmem
  obtain ⟨_, _, _, h4, h5, h6⟩ := first_fit_split g hg _ _ v hnd hmem
  rw [← hsplit] at h4 h5 h6
  have hout : (largest_degree_ordering_coloring g sorted).colors =
      ((sorted.map (fun e => e.id)).foldl (first_fit_step g)
        { colors := fun _ => 0, max_colors_used := 0 }).colors := by
    simp only [largest_degree_ordering_coloring, ldo_as_fold]
  rw [hout]
  refine ⟨h4, ?_, ?_⟩
  · intro j u hj hju hadj
    obtain ⟨hj1, hj2⟩ := List.getElem?_eq_some_iff.1 hju
    exact h5 u (List.mem_take_iff_getElem.2 ⟨j, by omega, hj2⟩) hadj
  · intro x hx1 hx2
    obtain ⟨u, hu, hadj, hux⟩ := h6 x hx1 hx2
    obtain ⟨j, hm, hju⟩ := List.mem_take_iff_getElem.1 hu
    exact ⟨j, u, by omega, List.getElem?_eq_some_iff.2 ⟨by omega, hju⟩, hadj, hux⟩

theorem ldo_is_first_fit_along_sorted_witness :
    star3.Valid ∧
    QsortResult star3 star3_sorted ∧
    ((largest_degree_ordering_coloring star3 star3_sorted).colors =
      spec_largest_degree_ordering star3 star3_sorted ∧
    ∀ (i v : Nat), (star3_sorted.map (fun e => e.id))[i]? = some v →
      1 ≤ (largest_degree_ordering_coloring star3 star3_sorted).colors v ∧
      (∀ (j u : Nat), j < i → (star3_sorted.map (fun e => e.id))[j]? = some u → star3.adj_matrix v
          u = 1 →
        (largest_degree_ordering_coloring star3 star3_sorted).colors u ≠
          (largest_degree_ordering_coloring star3 star3_sorted).colors v) ∧
      (∀ x, 1 ≤ x → x < (largest_degree_ordering_coloring star3 star3_sorted).colors v →
        ∃ (j u : Nat), j < i ∧ (star3_sorted.map (fun e => e.id))[j]? = some u ∧ star3.adj_matrix v
            u = 1 ∧
          (largest_degree_ordering_coloring star3 star3_sorted).colors u = x)) :=
  ⟨by unfold Graph.Valid; decide, by unfold QsortResult; decide,
    ldo_is_first_fit_along_sorted star3 (by unfold Graph.Valid; decide) star3_sorted
      (by unfold QsortResult; decide)⟩

/-! ## The maximal points: the loop and the recursion -/

theorem dominated_iff (n : Nat) (pts : Nat → Pt) (i : Nat) :
    dominated n pts i = true ↔
      ∃ j, j < n ∧ j ≠ i ∧ (pts j).x ≥ (pts i).x ∧ (pts j).y ≥ (pts i).y := by
  simp only [dominated, domina, List.any_eq_true, List.mem_range, Bool.and_eq_true,
    decide_eq_true_eq]
  constructor
  · rintro ⟨j, hj, hne, hx, hy⟩
    exact ⟨j, hj, fun e => hne e.symm, hx, hy⟩
  · rintro ⟨j, hj, hne, hx, hy⟩
    exact ⟨j, hj, fun e => hne e.symm, hx, hy⟩

theorem max_points_upto (n : Nat) (pts : Nat → Pt) (k : Nat) :
    (List.range k).foldl
      (fun printed i => if dominated n pts i = true then printed else printed ++ [pts i]) [] =
    ((List.range k).filter (fun i => !dominated n pts i)).map pts := by
  induction k with
  | zero => rfl
  | succ k ih =>
    rw [List.range_succ, List.foldl_append, ih, List.filter_append, List.map_append]
    by_cases h : dominated n pts k = true
    · simp [h]
    · simp [h]

theorem max_recurs_from (n : Nat) (pts : Nat → Pt) :
    ∀ (k idx : Nat), idx + k = n →
      max_recurs n pts (k + 1) idx =
        some (((List.range' idx k).filter (fun i => !dominated n pts i)).map pts) := by
  intro k
  induction k with
  | zero =>
    intro idx h
    have e : idx = n := by omega
    simp [max_recurs, e]
  | succ k ih =>
    intro idx h
    have hne : idx ≠ n := by omega
    rw [max_recurs, if_neg hne, ih (idx + 1) (by omega)]
    by_cases hd : dominated n pts idx = true
    · simp [List.range'_succ, hd]
    · simp [List.range'_succ, hd]

/-- C39: `max_recurs(n, pts, 0)` returns (call depth `n + 1` is enough) and prints the
points that `max(n, pts)` prints, in the same order: the points `pts[i]`, in increasing
`i`, for which no index `j != i` below `n` has `pts[j].x >= pts[i].x` and
`pts[j].y >= pts[i].y`. -/
theorem max_recurs_prints_as_max (n : Nat) (pts : Nat → Pt) :
    max_recurs n pts (n + 1) 0 = some (max_points n pts) ∧
    max_points n pts = ((List.range n).filter (fun i => !dominated n pts i)).map pts ∧
    ∀ i, (!dominated n pts i) = true ↔
      ¬ ∃ j, j < n ∧ j ≠ i ∧ (pts j).x ≥ (pts i).x ∧ (pts j).y ≥ (pts i).y := by
  refine ⟨?_, max_points_upto n pts n, ?_⟩
  · rw [max_recurs_from n pts n 0 (by omega), max_points, max_points_upto,
      List.range_eq_range']
  · intro i
    rw [← dominated_iff]
    simp

/-- The run of the two `main` functions: both print (2, 5) and (3, 3). -/
theorem max_on_main_points :
    max_points 3 main_points = [{ x := 2, y := 5 }, { x := 3, y := 3 }] ∧
    max_recurs 3 main_points 4 0 = some [{ x := 2, y := 5 }, { x := 3, y := 3 }] := by
  decide

/-! ## The degree table read by index -/

/-- C34: `calculate_all_degrees` fills the entry `v` of the table with `id = v` and with
the number of columns `j < num_vertices` with `adj_matrix[v][j] == 1` as `degree`; and
`incidence_degree_ordering_coloring`, `dsatur_coloring` and
`recursive_largest_first_coloring` hand this table, as it was filled, to every round, so
the read `all_vertices_degrees[v].degree` gives the degree of `v`. -/
theorem degree_table_by_index (g : Graph) (v : Nat) (hv : v < g.num_vertices) :
    (calculate_all_degrees g).length = g.num_vertices ∧
    (calculate_all_degrees g)[v]? =
      some { id := v,
             degree := (((Finset.range g.num_vertices).filter
               (fun j => g.adj_matrix v j = 1)).card : Int) } ∧
    table_degree (calculate_all_degrees g) v =
      (((Finset.range g.num_vertices).filter (fun j => g.adj_matrix v j = 1)).card : Int) ∧
    incidence_degree_ordering_coloring g =
      (while_loop (fun st => decide (st.colored_count < g.num_vertices))
        (ido_round g (calculate_all_degrees g)) g.num_vertices
        (seed_state (calculate_all_degrees g))).map
        (fun st => { colors := st.colors, returned := st.max_colors_used }) ∧
    dsatur_coloring g =
      (while_loop (fun st => decide (st.colored_count < g.num_vertices))
        (dsatur_round g (calculate_all_degrees g)) g.num_vertices
        (seed_state (calculate_all_degrees g))).map
        (fun st => { colors := st.colors, returned := st.max_colors_used }) ∧
    rlf_main_loop g =
      while_loop (fun st => decide (st.colored_count < g.num_vertices))
        (rlf_round g (calculate_all_degrees g)) g.num_vertices
        { colors := fun _ => 0, is_colored := fun _ => false, colored_count := 0,
          current_color := 1, max_colors_used := 0 } := by
  refine ⟨by simp [calculate_all_degrees], ?_, ?_, rfl, rfl, rfl⟩
  · rw [← row_degree_eq_card]
    simp [calculate_all_degrees, hv]
  · rw [table_degree_eq g v hv, row_degree_eq_card]

theorem degree_table_by_index_witness :
    1 < star3.num_vertices ∧
    ((calculate_all_degrees star3).length = star3.num_vertices ∧
    (calculate_all_degrees star3)[1]? =
      some { id := 1,
             degree := (((Finset.range star3.num_vertices).filter
               (fun j => star3.adj_matrix 1 j = 1)).card : Int) } ∧
    table_degree (calculate_all_degrees star3) 1 =
      (((Finset.range star3.num_vertices).filter (fun j => star3.adj_matrix 1 j = 1)).card : Int) ∧
    incidence_degree_ordering_coloring star3 =
      (while_loop (fun st => decide (st.colored_count < star3.num_vertices))
        (ido_round star3 (calculate_all_degrees star3)) star3.num_vertices
        (seed_state (calculate_all_degrees star3))).map
        (fun st => { colors := st.colors, returned := st.max_colors_used }) ∧
    dsatur_coloring star3 =
      (while_loop (fun st => decide (st.colored_count < star3.num_vertices))
        (dsatur_round star3 (calculate_all_degrees star3)) star3.num_vertices
        (seed_state (calculate_all_degrees star3))).map
        (fun st => { colors := st.colors, returned := st.max_colors_used }) ∧
    rlf_main_loop star3 =
      while_loop (fun st => decide (st.colored_count < star3.num_vertices))
        (rlf_round star3 (calculate_all_degrees star3)) star3.num_vertices
        { colors := fun _ => 0, is_colored := fun _ => false, colored_count := 0,
          current_color := 1, max_colors_used := 0 }) :=
  ⟨by decide,
    degree_table_by_index star3 1 (by decide)⟩

/-! ## Colour refinement: the initial colours -/

theorem row_sum_binary (incidence : Nat → Nat → Int) (m i : Nat)
    (hb : ∀ j, j < m → incidence i j = 0 ∨ incidence i j = 1) (hm : (m : Int) ≤ int_max) :
    ∀ M, M ≤ m →
      row_sum incidence M i = Except.ok (∑ j in Finset.range M, incidence i j) ∧
      0 ≤ ∑ j in Finset.range M, incidence i j ∧
      ∑ j in Finset.range M, incidence i j ≤ (M : Int) := by
  intro M
  induction M with
  | zero => intro _; exact ⟨rfl, by simp, by simp⟩
  | succ M ih =>
    intro hM
    obtain ⟨h1, h2, h3⟩ := ih (by omega)
    unfold row_sum at h1 ⊢
    rw [foldlM_range_succ, h1, Finset.sum_range_succ]
    have hlt : (M : Int) + 1 ≤ int_max := by
      have : ((M + 1 : Nat) : Int) ≤ (m : Int) := by exact_mod_cast hM
      push_cast at this
      omega
    have hmin : int_min ≤ 0 := by unfold int_min; decide
    rcases hb M (by omega) with h0 | h0
    · rw [h0]
      refine ⟨?_, by omega, by push_cast; omega⟩
      show int_result _ = _
      unfold int_result
      rw [if_pos ⟨by omega, by omega⟩]
    · rw [h0]
      refine ⟨?_, by omega, by push_cast; omega⟩
      show int_result _ = _
      unfold int_result
      rw [if_pos ⟨by omega, by omega⟩]

theorem init_colors_binary (incidence : Nat → Nat → Int) (n m : Nat)
    (hb : IsBinary n m incidence) (hm : (m : Int) ≤ int_max) (c0 : Nat → Int) :
    ∀ K, K ≤ n → ∃ r, init_colors incidence K m c0 = Except.ok r ∧
      (∀ i, i < K → r i = ∑ j in Finset.range m, incidence i j) ∧
      ∀ i, K ≤ i → r i = c0 i := by
  intro K
  induction K with
  | zero => intro _; exact ⟨c0, rfl, fun i hi => absurd hi (by omega), fun _ _ => rfl⟩
  | succ K ih =>
    intro hK
    obtain ⟨r, h1, h2, h3⟩ := ih (by omega)
    obtain ⟨hs, _, _⟩ := row_sum_binary incidence m K (hb K (by omega)) hm m (le_refl m)
    refine ⟨store r K (∑ j in Finset.range m, incidence K j), ?_, ?_, ?_⟩
    · unfold init_colors at h1 ⊢
      rw [foldlM_range_succ, h1]
      show (row_sum incidence m K >>= fun degree => Except.ok (store r K degree)) = _
      rw [hs]
      rfl
    · intro i hi
      by_cases hiK : i = K
      · subst hiK; rw [store_same]
      · rw [store_other _ _ _ _ hiK]; exact h2 i (by omega)
    · intro i hi
      rw [store_other _ _ _ _ (by omega), h3 i (by omega)]

/-- C33: for 0/1 matrices with `n` rows and `m` columns (`m` an `int`), `init_colors`
returns and sets `color[i]` to the sum of row `i` for every `i < n`; `color_refinement`
enters its loop with these arrays and `changed = 1`, so its first round runs
`refine_colors` on the row sums. -/
theorem init_colors_row_sums (n m : Nat) (inc1 inc2 : Nat → Nat → Int)
    (hb1 : IsBinary n m inc1) (hb2 : IsBinary n m inc2) (hm : (m : Int) ≤ int_max) :
    ∃ color1 color2,
      init_colors inc1 n m (fun _ => 0) = Except.ok color1 ∧
      init_colors inc2 n m (fun _ => 0) = Except.ok color2 ∧
      (∀ i, i < n → color1 i = ∑ j in Finset.range m, inc1 i j) ∧
      (∀ i, i < n → color2 i = ∑ j in Finset.range m, inc2 i j) ∧
      refine_start inc1 inc2 n m =
        Except.ok { color1 := color1, color2 := color2, new_color1 := fun _ => 0,
                    new_color2 := fun _ => 0, changed := 1 } ∧
      (∀ fuel, final_colors (fuel + 1) inc1 inc2 n m =
        (match refine_round inc1 inc2 n m
            { color1 := color1, color2 := color2, new_color1 := fun _ => 0,
              new_color2 := fun _ => 0, changed := 1 } with
          | Except.ok st1 => refinement_loop inc1 inc2 n m fuel st1
          | Except.error f => Except.error f)) ∧
      refine_round inc1 inc2 n m
          { color1 := color1, color2 := color2, new_color1 := fun _ => 0,
            new_color2 := fun _ => 0, changed := 1 } =
        (refine_colors inc1 n m color1 (fun _ => 0) >>= fun new_color1 =>
          refine_colors inc2 n m color2 (fun _ => 0) >>= fun new_color2 =>
            Except.ok (copy_back n
              { color1 := color1, color2 := color2, new_color1 := new_color1,
                new_color2 := new_color2, changed := 0 })) := by
  obtain ⟨c1, h1, hs1, _⟩ := init_colors_binary inc1 n m hb1 hm (fun _ => 0) n (le_refl n)
  obtain ⟨c2, h2, hs2, _⟩ := init_colors_binary inc2 n m hb2 hm (fun _ => 0) n (le_refl n)
  have hstart : refine_start inc1 inc2 n m =
      Except.ok { color1 := c1, color2 := c2, new_color1 := fun _ => 0,
                  new_color2 := fun _ => 0, changed := 1 } := by
    unfold refine_start
    rw [h1, h2]
    rfl
  refine ⟨c1, c2, h1, h2, hs1, hs2, hstart, ?_, rfl⟩
  intro fuel
  unfold final_colors
  rw [hstart]
  show refinement_loop inc1 inc2 n m (fuel + 1)
    { color1 := c1, color2 := c2, new_color1 := fun _ => 0, new_color2 := fun _ => 0,
      changed := 1 } = _
  rw [refinement_loop, if_pos (show (1 : Int) ≠ 0 by decide)]

theorem init_colors_row_sums_witness :
    IsBinary 3 2 refine_example1 ∧
    IsBinary 3 2 refine_example2 ∧
    ((2 : Nat) : Int) ≤ int_max ∧
    (∃ color1 color2,
      init_colors refine_example1 3 2 (fun _ => 0) = Except.ok color1 ∧
      init_colors refine_example2 3 2 (fun _ => 0) = Except.ok color2 ∧
      (∀ i, i < 3 → color1 i = ∑ j in Finset.range 2, refine_example1 i j) ∧
      (∀ i, i < 3 → color2 i = ∑ j in Finset.range 2, refine_example2 i j) ∧
      refine_start refine_example1 refine_example2 3 2 =
        Except.ok { color1 := color1, color2 := color2, new_color1 := fun _ => 0,
                    new_color2 := fun _ => 0, changed := 1 } ∧
      (∀ fuel, final_colors (fuel + 1) refine_example1 refine_example2 3 2 =
        (match refine_round refine_example1 refine_example2 3 2
            { color1 := color1, color2 := color2, new_color1 := fun _ => 0,
              new_color2 := fun _ => 0, changed := 1 } with
          | Except.ok st1 => refinement_loop refine_example1 refine_example2 3 2 fuel st1
          | Except.error f => Except.error f)) ∧
      refine_round refine_example1 refine_example2 3 2
          { color1 := color1, color2 := color2, new_color1 := fun _ => 0,
            new_color2 := fun _ => 0, changed := 1 } =
        (refine_colors refine_example1 3 2 color1 (fun _ => 0) >>= fun new_color1 =>
          refine_colors refine_example2 3 2 color2 (fun _ => 0) >>= fun new_color2 =>
            Except.ok (copy_back 3
              { color1 := color1, color2 := color2, new_color1 := new_color1,
                new_color2 := new_color2, changed := 0 }))) :=
  ⟨by unfold IsBinary; decide, by unfold IsBinary; decide, by unfold int_max; decide,
    init_colors_row_sums 3 2 refine_example1 refine_example2 (by unfold IsBinary; decide)
      (by unfold IsBinary; decide) (by unfold int_max; decide)⟩

/-! ## Colour refinement: the state in which the loop stops -/

/-- The flag `changed` after the copy loop over the first `K` rows: it is still `0` exactly
when it was `0` and no colour of the first matrix differed from its new colour. -/
theorem copy_back_changed (st : RefineState) (K : Nat) :
    (∀ i, K ≤ i → ((List.range K).foldl
      (fun st i =>
        { st with
          changed := if st.color1 i ≠ st.new_color1 i then 1 else st.changed
          color1 := store st.color1 i (st.new_color1 i)
          color2 := store st.color2 i (st.new_color2 i) }) st).color1 i = st.color1 i) ∧
    (((List.range K).foldl
      (fun st i =>
        { st with
          changed := if st.color1 i ≠ st.new_color1 i then 1 else st.changed
          color1 := store st.color1 i (st.new_color1 i)
          color2 := store st.color2 i (st.new_color2 i) }) st).changed = 0 ↔
      st.changed = 0 ∧ ∀ i, i < K → st.color1 i = st.new_color1 i) := by
  induction K with
  | zero => simp
  | succ K ih =>
    obtain ⟨hnew, _, _, _⟩ := copy_back_spec st K
    rw [List.range_succ, List.foldl_append]
    simp only [List.foldl_cons, List.foldl_nil]
    obtain ⟨h1, h2⟩ := ih
    constructor
    · intro i hi
      rw [store_other _ _ _ _ (by omega : i ≠ K)]
      exact h1 i (by omega)
    · rw [h1 K (le_refl K), hnew]
      by_cases hK : st.color1 K = st.new_color1 K
      · rw [if_neg (fun h => h hK), h2]
        constructor
        · rintro ⟨h0, hall⟩
          refine ⟨h0, ?_⟩
          intro i hi
          by_cases hiK : i = K
          · rw [hiK]; exact hK
          · exact hall i (by omega)
        · rintro ⟨h0, hall⟩
          exact ⟨h0, fun i hi => hall i (by omega)⟩
      · rw [if_pos hK]
        constructor
        · intro h
          exact absurd h (by decide)
        · rintro ⟨_, hall⟩
          exact absurd (hall K (by omega)) hK

/-- A run of `refine_colors` that returns also returns when `new_color` holds other
values at the start, with the same new colours for the rows `0 .. n-1`. -/
theorem refine_colors_any_start (incidence : Nat → Nat → Int) (n m : Nat)
    (color : Nat → Int) :
    ∀ (K : Nat) (nc nc1 r : Nat → Int),
      (List.range K).foldlM
        (fun new_color i => do
          let signature ← row_signature incidence n m color i
          let hash ← signature_hash n signature
          Except.ok (store new_color i hash)) nc = Except.ok r →
      ∃ r1, (List.range K).foldlM
        (fun new_color i => do
          let signature ← row_signature incidence n m color i
          let hash ← signature_hash n signature
          Except.ok (store new_color i hash)) nc1 = Except.ok r1 ∧
        (∀ i, i < K → r1 i = r i) ∧ ∀ i, K ≤ i → r1 i = nc1 i := by
  intro K
  induction K with
  | zero =>
    intro nc nc1 r _
    exact ⟨nc1, rfl, fun i hi => absurd hi (Nat.not_lt_zero i), fun _ _ => rfl⟩
  | succ K ih =>
    intro nc nc1 r h
    rw [foldlM_range_succ] at h
    obtain ⟨r0, h1, h2⟩ := except_bind_ok _ _ _ h
    obtain ⟨sig, hs, h3⟩ := except_bind_ok _ _ _ h2
    obtain ⟨hash, hh, h4⟩ := except_bind_ok _ _ _ h3
    have hr : r = store r0 K hash := by
      injection h4 with h5
      exact h5.symm
    obtain ⟨r1, k1, k2, k3⟩ := ih nc nc1 r0 h1
    refine ⟨store r1 K hash, ?_, ?_, ?_⟩
    · rw [foldlM_range_succ, k1]
      show (row_signature incidence n m color K >>= fun signature =>
        signature_hash n signature >>= fun hash => Except.ok (store r1 K hash)) = _
      rw [hs]
      show (signature_hash n sig >>= fun hash => Except.ok (store r1 K hash)) = _
      rw [hh]
      rfl
    · intro i hi
      by_cases hiK : i = K
      · subst hiK; rw [hr, store_same, store_same]
      · rw [hr, store_other _ _ _ _ hiK, store_other _ _ _ _ hiK]
        exact k2 i (by omega)
    · intro i hi
      rw [store_other _ _ _ _ (by omega : i ≠ K)]
      exact k3 i (by omega)

/-- A state in which the refinement loop stops is the state it was entered in, with
`changed = 0`, or the state left by a round that ended with `changed = 0`. -/
theorem refinement_loop_last (inc1 inc2 : Nat → Nat → Int) (n m : Nat) :
    ∀ (fuel : Nat) (st st1 : RefineState),
      refinement_loop inc1 inc2 n m fuel st = Except.ok st1 →
      (st1 = st ∧ st.changed = 0) ∨
      ∃ st0, refine_round inc1 inc2 n m st0 = Except.ok st1 ∧ st1.changed = 0 := by
  intro fuel
  induction fuel with
  | zero =>
    intro st st1 h
    unfold refinement_loop at h
    split at h
    · exact Except.noConfusion h
    · rename_i hc
      injection h with e
      exact Or.inl ⟨e.symm, by simpa using hc⟩
  | succ fuel ih =>
    intro st st1 h
    unfold refinement_loop at h
    split at h
    · split at h
      · rename_i st2 hround
        rcases ih st2 st1 h with ⟨e, hc⟩ | hlast
        · right
          exact ⟨st, by rw [e]; exact hround, by rw [e]; exact hc⟩
        · exact Or.inr hlast
      · exact Except.noConfusion h
    · rename_i hc
      injection h with e
      exact Or.inl ⟨e.symm, by simpa using hc⟩

/-- After a round that ends with `changed = 0` the colours of the first matrix are a
fixpoint: one more `refine_colors` pass returns and gives every row its colour again. -/
theorem refine_round_fixpoint (inc1 inc2 : Nat → Nat → Int) (n m : Nat)
    (st0 st1 : RefineState) (h : refine_round inc1 inc2 n m st0 = Except.ok st1)
    (hc : st1.changed = 0) :
    ∃ r, refine_colors inc1 n m st1.color1 st1.new_color1 = Except.ok r ∧
      ∀ i, i < n → r i = st1.color1 i := by
  unfold refine_round at h
  obtain ⟨r1, h1, h2⟩ := except_bind_ok _ _ _ h
  obtain ⟨r2, _, h4⟩ := except_bind_ok _ _ _ h2
  have hst1 : st1 = copy_back n
      { st0 with new_color1 := r1, new_color2 := r2, changed := 0 } := by
    injection h4 with e
    exact e.symm
  obtain ⟨k1, _, k3, _⟩ := copy_back_spec
    { st0 with new_color1 := r1, new_color2 := r2, changed := 0 } n
  obtain ⟨c1, c2⟩ := copy_back_changed
    { st0 with new_color1 := r1, new_color2 := r2, changed := 0 } n
  have hnew : st1.new_color1 = r1 := by rw [hst1]; exact k1
  have hfix : ∀ i, i < n → st0.color1 i = r1 i := by
    have := c2.1 (by rw [hst1] at hc; exact hc)
    exact this.2
  have hcol : st1.color1 = st0.color1 := by
    funext i
    rw [hst1]
    by_cases hi : i < n
    · have := k3 i hi
      unfold copy_back
      rw [this]
      exact (hfix i hi).symm
    · exact c1 i (by omega)
  obtain ⟨r, hr, hr1, _⟩ := refine_colors_any_start inc1 n m st0.color1 n st0.new_color1 r1 r1 h1
  refine ⟨r, ?_, ?_⟩
  · rw [hcol, hnew]
    exact hr
  · intro i hi
    rw [hr1 i hi, hcol]
    exact (hfix i hi).symm

theorem refine_start_changed (inc1 inc2 : Nat → Nat → Int) (n m : Nat) (st0 : RefineState)
    (h : refine_start inc1 inc2 n m = Except.ok st0) : st0.changed = 1 := by
  unfold refine_start at h
  obtain ⟨c1, _, h2⟩ := except_bind_ok _ _ _ h
  obtain ⟨c2, _, h3⟩ := except_bind_ok _ _ _ h2
  injection h3 with e
  rw [← e]

/-! ## Colour refinement: colours used as indices -/

/-- C37, at the adjacency matrix of the triangle (`n = 3`, both matrices): the first round
gives every row the colour 4 and leaves `changed = 1`; in the second round `refine_colors`
executes `signature[color[k]]++` with `color[k] = 4` on the 3-entry array `signature`, an
index outside the array, so no run returns a verdict. -/
theorem refine_colors_index_out_of_bounds :
    IsBinary 3 3 refine_triangle ∧
    (∃ st0 st1, refine_start refine_triangle refine_triangle 3 3 = Except.ok st0 ∧
      refine_round refine_triangle refine_triangle 3 3 st0 = Except.ok st1 ∧
      st1.changed = 1 ∧ st1.color1 0 = 4 ∧ st1.color1 1 = 4 ∧ st1.color1 2 = 4 ∧
      ¬ (0 ≤ st1.color1 1 ∧ st1.color1 1 < 3) ∧
      bump 3 (fun _ => 0) (st1.color1 1) = Except.error Fault.out_of_bounds ∧
      refine_colors refine_triangle 3 3 st1.color1 st1.new_color1 =
        Except.error Fault.out_of_bounds) ∧
    ∀ fuel, color_refinement (fuel + 2) refine_triangle refine_triangle 3 3 =
      Except.error Fault.out_of_bounds := by
  refine ⟨by unfold IsBinary; decide, ⟨_, _, rfl, rfl, by decide, by decide, by decide,
    by decide, by decide, rfl, rfl⟩, ?_⟩
  intro fuel
  rfl

/-! ## Colour refinement: a run that never leaves the loop -/

/-- A pass of `refine_colors` reads the colours of the rows `0 .. n-1` only. -/
theorem refine_colors_congr (incidence : Nat → Nat → Int) (n m : Nat)
    (color color1 new_color : Nat → Int) (h : ∀ k, k < n → color k = color1 k) :
    refine_colors incidence n m color new_color =
      refine_colors incidence n m color1 new_color := by
  unfold refine_colors
  apply foldlM_congr_mem
  intro i _ nc
  have hrow : row_signature incidence n m color i = row_signature incidence n m color1 i := by
    unfold row_signature
    apply foldlM_congr_mem
    intro j _ sig
    by_cases hij : incidence i j ≠ 0
    · rw [if_pos hij, if_pos hij]
      apply foldlM_congr_mem
      intro k hk sig1
      rw [h k (List.mem_range.1 hk)]
    · rw [if_neg hij, if_neg hij]
  rw [hrow]

/-- The colours (0, 1, 2) or (0, 2, 1) on the three rows. -/
theorem swap3_pass (color nc : Nat → Int) (h0 : color 0 = 0)
    (h : (color 1 = 1 ∧ color 2 = 2) ∨ (color 1 = 2 ∧ color 2 = 1)) :
    ∃ r, refine_colors refine_swap3 3 3 color nc = Except.ok r ∧ r 0 = 0 ∧
      r 1 = color 2 ∧ r 2 = color 1 := by
  rcases h with ⟨h1, h2⟩ | ⟨h1, h2⟩
  · have hc : ∀ k, k < 3 → color k = (fun i => if i = 1 then 1 else if i = 2 then 2 else 0) k := by
      intro k hk
      have : k = 0 ∨ k = 1 ∨ k = 2 := by omega
      rcases this with e | e | e <;> subst e <;> simp [h0, h1, h2]
    rw [refine_colors_congr refine_swap3 3 3 color _ nc hc, h1, h2]
    exact ⟨_, rfl, rfl, rfl, rfl⟩
  · have hc : ∀ k, k < 3 → color k = (fun i => if i = 1 then 2 else if i = 2 then 1 else 0) k := by
      intro k hk
      have : k = 0 ∨ k = 1 ∨ k = 2 := by omega
      rcases this with e | e | e <;> subst e <;> simp [h0, h1, h2]
    rw [refine_colors_congr refine_swap3 3 3 color _ nc hc, h1, h2]
    exact ⟨_, rfl, rfl, rfl, rfl⟩

theorem swap3_round (st : RefineState) (h1 : Swap3Colors st.color1)
    (h2 : Swap3Colors st.color2) :
    ∃ st1, refine_round refine_swap3 refine_swap3 3 3 st = Except.ok st1 ∧
      st1.changed ≠ 0 ∧ Swap3Colors st1.color1 ∧ Swap3Colors st1.color2 := by
  obtain ⟨r1, hr1, a0, a1, a2⟩ := swap3_pass st.color1 st.new_color1 h1.1 h1.2
  obtain ⟨r2, hr2, b0, b1, b2⟩ := swap3_pass st.color2 st.new_color2 h2.1 h2.2
  refine ⟨copy_back 3 { st with new_color1 := r1, new_color2 := r2, changed := 0 }, ?_, ?_,
    ?_, ?_⟩
  · unfold refine_round
    rw [hr1]
    show (refine_colors refine_swap3 3 3 st.color2 st.new_color2 >>= fun new_color2 =>
      Except.ok (copy_back 3
        { st with new_color1 := r1, new_color2 := new_color2, changed := 0 })) = _
    rw [hr2]
    rfl
  · intro hc
    have := ((copy_back_changed
      { st with new_color1 := r1, new_color2 := r2, changed := 0 } 3).2.1 hc).2 1 (by omega)
    simp only at this
    rw [a1] at this
    rcases h1.2 with ⟨e1, e2⟩ | ⟨e1, e2⟩
    · rw [e1, e2] at this; exact absurd this (by decide)
    · rw [e1, e2] at this; exact absurd this (by decide)
  · obtain ⟨_, _, k3, _⟩ := copy_back_spec
      { st with new_color1 := r1, new_color2 := r2, changed := 0 } 3
    unfold copy_back Swap3Colors
    rw [k3 0 (by omega), k3 1 (by omega), k3 2 (by omega)]
    simp only
    rw [a0, a1, a2]
    refine ⟨rfl, ?_⟩
    rcases h1.2 with ⟨e1, e2⟩ | ⟨e1, e2⟩
    · exact Or.inr ⟨e2, e1⟩
    · exact Or.inl ⟨e2, e1⟩
  · obtain ⟨_, _, _, k4⟩ := copy_back_spec
      { st with new_color1 := r1, new_color2 := r2, changed := 0 } 3
    unfold copy_back Swap3Colors
    rw [k4 0 (by omega), k4 1 (by omega), k4 2 (by omega)]
    simp only
    rw [b0, b1, b2]
    refine ⟨rfl, ?_⟩
    rcases h2.2 with ⟨e1, e2⟩ | ⟨e1, e2⟩
    · exact Or.inr ⟨e2, e1⟩
    · exact Or.inl ⟨e2, e1⟩

theorem swap3_loop :
    ∀ (fuel : Nat) (st : RefineState), st.changed ≠ 0 → Swap3Colors st.color1 →
      Swap3Colors st.color2 →
      refinement_loop refine_swap3 refine_swap3 3 3 fuel st =
        Except.error Fault.out_of_fuel := by
  intro fuel
  induction fuel with
  | zero =>
    intro st hc _ _
    rw [refinement_loop, if_pos hc]
  | succ fuel ih =>
    intro st hc h1 h2
    obtain ⟨st1, hr, hc1, k1, k2⟩ := swap3_round st h1 h2
    rw [refinement_loop, if_pos hc, hr]
    exact ih st1 hc1 k1 k2

/-- C38, at the matrix with the rows 000, 001, 011 (`n = m = 3`, both matrices): the rows
1 and 2 exchange the colours 1 and 2 in every round, `changed` is set after every round,
and the loop `while (changed)` is not left, whatever the number of rounds allowed; no
index leaves its array and no `int` overflows on the way. -/
theorem refinement_loop_never_stops :
    IsBinary 3 3 refine_swap3 ∧
    (∃ st0, refine_start refine_swap3 refine_swap3 3 3 = Except.ok st0 ∧
      st0.color1 0 = 0 ∧ st0.color1 1 = 1 ∧ st0.color1 2 = 2 ∧
      ∃ st1 st2, refine_round refine_swap3 refine_swap3 3 3 st0 = Except.ok st1 ∧
        st1.changed = 1 ∧ st1.color1 0 = 0 ∧ st1.color1 1 = 2 ∧ st1.color1 2 = 1 ∧
        refine_round refine_swap3 refine_swap3 3 3 st1 = Except.ok st2 ∧
        st2.changed = 1 ∧ st2.color1 0 = 0 ∧ st2.color1 1 = 1 ∧ st2.color1 2 = 2) ∧
    (∀ fuel, final_colors fuel refine_swap3 refine_swap3 3 3 =
      Except.error Fault.out_of_fuel) ∧
    ∀ fuel, color_refinement fuel refine_swap3 refine_swap3 3 3 =
      Except.error Fault.out_of_fuel := by
  have hfinal : ∀ fuel, final_colors fuel refine_swap3 refine_swap3 3 3 =
      Except.error Fault.out_of_fuel := by
    intro fuel
    have hstart : ∃ st0, refine_start refine_swap3 refine_swap3 3 3 = Except.ok st0 ∧
        st0.changed ≠ 0 ∧ Swap3Colors st0.color1 ∧ Swap3Colors st0.color2 :=
      ⟨_, rfl, by decide, ⟨rfl, Or.inl ⟨rfl, rfl⟩⟩, ⟨rfl, Or.inl ⟨rfl, rfl⟩⟩⟩
    obtain ⟨st0, h0, hc, k1, k2⟩ := hstart
    unfold final_colors
    rw [h0]
    exact swap3_loop fuel st0 hc k1 k2
  refine ⟨by unfold IsBinary; decide, ⟨_, rfl, rfl, rfl, rfl, _, _, rfl, rfl, rfl, rfl, rfl,
    rfl, rfl, rfl, rfl, rfl⟩, hfinal, ?_⟩
  intro fuel
  unfold color_refinement
  rw [hfinal fuel]
  rfl

/-! ## Termination of the main loops -/

theorem while_loop_fuel_mono {σ : Type} (cond : σ → Bool) (body : σ → Round σ) :
    ∀ (fuel : Nat) (st r : σ), while_loop cond body fuel st = some r →
      while_loop cond body (fuel + 1) st = some r := by
  intro fuel
  induction fuel with
  | zero =>
    intro st r h
    by_cases hc : cond st = true
    · simp [while_loop, hc] at h
    · simp only [while_loop, if_neg hc] at h ⊢
      exact h
  | succ fuel ih =>
    intro st r h
    by_cases hc : cond st = true
    · rw [while_loop, if_pos hc] at h
      rw [while_loop, if_pos hc]
      cases hb : body st with
      | leave => rw [hb] at h; exact h
      | again st1 =>
        rw [hb] at h
        exact ih st1 r h
      | starved => rw [hb] at h; exact Option.noConfusion h
    · rw [while_loop, if_neg hc] at h
      rw [while_loop, if_neg hc]
      exact h

theorem count_true_congr (f f1 : Nat → Bool) (n : Nat) (h : ∀ v, v < n → f v = f1 v) :
    count_true f n = count_true f1 n := by
  induction n with
  | zero => rfl
  | succ n ih =>
    simp only [count_true]
    rw [ih (fun v hv => h v (by omega)), h n (Nat.lt_succ_self n)]

/-- A round that keeps every flag and raises the count of the flags set has set the flag
of a vertex that was uncolored. -/
theorem colors_one_more (n : Nat) (f f1 : Nat → Bool) (c c1 : Nat)
    (hc : c = count_true f n) (hc1 : c1 = count_true f1 n) (hlt : c < c1)
    (hmono : ∀ v, f v = true → f1 v = true) : ColorsOneMore n f c f1 c1 := by
  refine ⟨hlt, hmono, ?_⟩
  by_contra hno
  have hsame : ∀ v, v < n → f v = f1 v := by
    intro v hv
    cases hf : f v with
    | true => exact (hmono v hf).symm
    | false =>
      cases hf1 : f1 v with
      | true => exact absurd ⟨v, hv, hf, hf1⟩ hno
      | false => rfl
  rw [count_true_congr f f1 n hsame] at hc
  omega

theorem store_true_mono (f : Nat → Bool) (s v : Nat) (h : f v = true) :
    store f s true v = true := by
  by_cases hvs : v = s
  · rw [hvs]; exact store_same _ _ _
  · rw [store_other _ _ _ _ hvs]; exact h

theorem wp_round_progress (g : Graph) (hg : g.Valid) (sorted : List VertexDegree)
    (hs : QsortResult g sorted) (st : WPState)
    (hI : ClassHeadInv g st.colors st.is_colored st.colored_count st.current_color)
    (hlt : st.colored_count < g.num_vertices) :
    ∃ st1, wp_round g sorted st = Round.again st1 ∧
      ColorsOneMore g.num_vertices st.is_colored st.colored_count st1.is_colored
        st1.colored_count := by
  rcases wp_round_spec g hg sorted hs st hI with ⟨_, hall⟩ | ⟨st1, h1, hI1, hlt1⟩
  · exfalso
    have := hI.1
    rw [count_true_all _ _ hall] at this
    omega
  · refine ⟨st1, h1, colors_one_more _ _ _ _ _ hI.1 hI1.1 hlt1 ?_⟩
    cases hst : wp_start_vertex sorted st.is_colored with
    | none =>
      simp only [wp_round, hst] at h1
      exact Round.noConfusion h1
    | some s =>
      simp only [wp_round, hst] at h1
      injection h1 with e
      intro v hv
      rw [← e]
      exact (wp_pass_fold_keep g s sorted _).2.1 v (store_true_mono _ s v hv)

theorem ido_round_progress (g : Graph) (hg : g.Valid) (st : DynState) (hI : DynInv g st)
    (hlt : st.colored_count < g.num_vertices) :
    ∃ st1, ido_round g (calculate_all_degrees g) st = Round.again st1 ∧
      ColorsOneMore g.num_vertices st.is_colored st.colored_count st1.is_colored
        st1.colored_count := by
  obtain ⟨st1, h1⟩ := ido_round_again g hg st hI hlt
  obtain ⟨s, c, e, hu, hmax, _⟩ := ido_round_shape g st hI hlt st1 h1
  refine ⟨st1, h1, ?_⟩
  rw [e]
  exact ⟨Nat.lt_succ_self _, fun v hv => store_true_mono _ s v hv,
    s, hmax.1, hu, store_same _ _ _⟩

theorem dsatur_round_progress (g : Graph) (hg : g.Valid) (st : DynState) (hI : DynInv g st)
    (hlt : st.colored_count < g.num_vertices) :
    ∃ st1, dsatur_round g (calculate_all_degrees g) st = Round.again st1 ∧
      ColorsOneMore g.num_vertices st.is_colored st.colored_count st1.is_colored
        st1.colored_count := by
  obtain ⟨st1, h1⟩ := dsatur_round_again g hg st hI hlt
  obtain ⟨s, c, e, hu, hmax, _⟩ := dsatur_round_shape g st hI hlt st1 h1
  refine ⟨st1, h1, ?_⟩
  rw [e]
  exact ⟨Nat.lt_succ_self _, fun v hv => store_true_mono _ s v hv,
    s, hmax.1, hu, store_same _ _ _⟩

/-- The inner loop of `recursive_largest_first_coloring`, entered for the class opened at
`s`, is left after at most `num_vertices` executions of its body, the one that ends in
`break` included. -/
theorem rlf_inner_within (g : Graph) (hg : g.Valid) (st : RLFState) (hI : RLFInv g st)
    (hlt : st.colored_count < g.num_vertices)
    (s : Nat) (hs : s < g.num_vertices) (hu : st.is_colored s = false) :
    ∃ cs, while_loop (fun _ => true)
        (rlf_class_round g (calculate_all_degrees g) st.current_color) g.num_vertices
        (rlf_open_class g st s) = some cs ∧
      rlf_grow_class g (calculate_all_degrees g) st.current_color (rlf_open_class g st s) =
        some cs ∧
      RLFClassInv g st.current_color cs ∧ RLFGrowRel g st cs ∧
      st.colored_count + 1 ≤ cs.colored_count := by
  obtain ⟨cs, hrun, ⟨hC, hR, hge⟩, _⟩ := while_loop_spec
    (fun _ : ClassState => true)
    (rlf_class_round g (calculate_all_degrees g) st.current_color)
    (fun cs => RLFClassInv g st.current_color cs ∧ RLFGrowRel g st cs ∧
      st.colored_count + 1 ≤ cs.colored_count)
    (fun cs => g.num_vertices - cs.colored_count + 1)
    (by
      intro cs _ _
      show 0 < g.num_vertices - cs.colored_count + 1
      omega)
    (by
      intro cs hIc _
      rcases rlf_class_round_spec g hg st.current_color cs hIc.1 with
        hl | ⟨cs1, h1, h2, h3, h4⟩
      · exact Or.inl hl
      · refine Or.inr ⟨cs1, h1,
          ⟨h2, rlf_class_round_rel g st cs cs1 hIc.1 hIc.2.1 h1,
            by have := hIc.2.2; omega⟩, ?_⟩
        show g.num_vertices - cs1.colored_count + 1 < g.num_vertices - cs.colored_count + 1
        omega)
    g.num_vertices (rlf_open_class g st s)
    ⟨rlf_open_class_inv g hg st hI s hs hu, rlf_open_class_rel g st s hs hu, le_refl _⟩
    (by
      show g.num_vertices - (st.colored_count + 1) + 1 ≤ g.num_vertices
      omega)
  exact ⟨cs, hrun, while_loop_fuel_mono _ _ _ _ _ hrun, hC, hR, hge⟩

theorem rlf_round_progress (g : Graph) (hg : g.Valid) (st : RLFState) (hI : RLFInv g st)
    (hlt : st.colored_count < g.num_vertices) :
    ∃ st1, rlf_round g (calculate_all_degrees g) st = Round.again st1 ∧
      ColorsOneMore g.num_vertices st.is_colored st.colored_count st1.is_colored
        st1.colored_count := by
  obtain ⟨s, hst⟩ := rlf_start_exists g st hI hlt
  obtain ⟨hs, hu⟩ := rlf_start_some g st.is_colored s hst
  obtain ⟨cs, _, hgrow, hC, hR, hge⟩ := rlf_inner_within g hg st hI hlt s hs hu
  refine ⟨rlf_close_class st cs, ?_, ?_⟩
  · rw [rlf_round_eq, hst]
    simp only [hgrow]
  · show ColorsOneMore g.num_vertices st.is_colored st.colored_count cs.is_colored
      cs.colored_count
    exact colors_one_more _ _ _ _ _ hI.1.1 hC.1.1 (by omega) (fun v hv => (hR.1 v hv).2)

/-- C31: on a valid graph the main loops of `welsh_powell_coloring`,
`incidence_degree_ordering_coloring`, `dsatur_coloring` and
`recursive_largest_first_coloring` are left after at most `num_vertices` rounds, with every
vertex colored; every round entered with `colored_count < num_vertices` runs to its end,
raises `colored_count`, clears no flag of `is_colored` and sets the flag of a vertex that
was uncolored; and the inner loop of `recursive_largest_first_coloring` is left after at
most `num_vertices` executions of its body for every class. -/
theorem main_loops_terminate (g : Graph) (hg : g.Valid) (sorted : List VertexDegree)
    (hs : QsortResult g sorted) :
    ((∃ st, while_loop (fun st => decide (st.colored_count < g.num_vertices))
          (wp_round g sorted) g.num_vertices
          { colors := fun _ => 0, is_colored := fun _ => false, colored_count := 0,
            current_color := 1 } = some st ∧
        ∀ v, v < g.num_vertices → st.is_colored v = true) ∧
      ∀ st, WpReached g sorted st → st.colored_count < g.num_vertices →
        ∃ st1, wp_round g sorted st = Round.again st1 ∧
          ColorsOneMore g.num_vertices st.is_colored st.colored_count st1.is_colored
            st1.colored_count) ∧
    ((∃ st, while_loop (fun st => decide (st.colored_count < g.num_vertices))
          (ido_round g (calculate_all_degrees g)) g.num_vertices
          (seed_state (calculate_all_degrees g)) = some st ∧
        ∀ v, v < g.num_vertices → st.is_colored v = true) ∧
      ∀ st, IdoReached g st → st.colored_count < g.num_vertices →
        ∃ st1, ido_round g (calculate_all_degrees g) st = Round.again st1 ∧
          ColorsOneMore g.num_vertices st.is_colored st.colored_count st1.is_colored
            st1.colored_count) ∧
    ((∃ st, while_loop (fun st => decide (st.colored_count < g.num_vertices))
          (dsatur_round g (calculate_all_degrees g)) g.num_vertices
          (seed_state (calculate_all_degrees g)) = some st ∧
        ∀ v, v < g.num_vertices → st.is_colored v = true) ∧
      ∀ st, DsaturReached g st → st.colored_count < g.num_vertices →
        ∃ st1, dsatur_round g (calculate_all_degrees g) st = Round.again st1 ∧
          ColorsOneMore g.num_vertices st.is_colored st.colored_count st1.is_colored
            st1.colored_count) ∧
    ((∃ st, while_loop (fun st => decide (st.colored_count < g.num_vertices))
          (rlf_round g (calculate_all_degrees g)) g.num_vertices
          { colors := fun _ => 0, is_colored := fun _ => false, colored_count := 0,
            current_color := 1, max_colors_used := 0 } = some st ∧
        ∀ v, v < g.num_vertices → st.is_colored v = true) ∧
      (∀ st, RlfReached g st → st.colored_count < g.num_vertices →
        ∃ st1, rlf_round g (calculate_all_degrees g) st = Round.again st1 ∧
          ColorsOneMore g.num_vertices st.is_colored st.colored_count st1.is_colored
            st1.colored_count) ∧
      ∀ st, RlfReached g st → st.colored_count < g.num_vertices →
        ∃ s cs, rlf_start_vertex (calculate_all_degrees g) st.is_colored = some s ∧
          while_loop (fun _ => true)
            (rlf_class_round g (calculate_all_degrees g) st.current_color) g.num_vertices
            (rlf_open_class g st s) = some cs) := by
  refine ⟨⟨?_, ?_⟩, ⟨?_, ?_⟩, ⟨?_, ?_⟩, ⟨?_, ?_, ?_⟩⟩
  · obtain ⟨st, hrun, _, hall⟩ := wp_loop_spec g hg sorted hs
    exact ⟨st, hrun, hall⟩
  · intro st hr hlt
    exact wp_round_progress g hg sorted hs st (wp_reached_inv g hg sorted hs st hr) hlt
  · obtain ⟨st, hrun, _, hall⟩ := dyn_loop_spec g hg (ido_round g (calculate_all_degrees g))
      (ido_round_spec g hg)
    exact ⟨st, hrun, hall⟩
  · intro st hr hlt
    exact ido_round_progress g hg st (ido_reached_inv g hg st hr) hlt
  · obtain ⟨st, hrun, _, hall⟩ := dyn_loop_spec g hg
      (dsatur_round g (calculate_all_degrees g)) (dsatur_round_spec g hg)
    exact ⟨st, hrun, hall⟩
  · intro st hr hlt
    exact dsatur_round_progress g hg st (dsatur_reached_inv g hg st hr) hlt
  · obtain ⟨st, hrun, _, hall⟩ := rlf_loop_spec g hg
    exact ⟨st, hrun, hall⟩
  · intro st hr hlt
    exact rlf_round_progress g hg st (rlf_reached_inv g hg st hr) hlt
  · intro st hr hlt
    have hI := rlf_reached_inv g hg st hr
    obtain ⟨s, hst⟩ := rlf_start_exists g st hI hlt
    obtain ⟨hsn, hu⟩ := rlf_start_some g st.is_colored s hst
    obtain ⟨cs, hrun, _⟩ := rlf_inner_within g hg st hI hlt s hsn hu
    exact ⟨s, cs, hst, hrun⟩

theorem main_loops_terminate_witness :
    star3.Valid ∧
    QsortResult star3 star3_sorted ∧
    (((∃ st, while_loop (fun st => decide (st.colored_count < star3.num_vertices))
          (wp_round star3 star3_sorted) star3.num_vertices
          { colors := fun _ => 0, is_colored := fun _ => false, colored_count := 0,
            current_color := 1 } = some st ∧
        ∀ v, v < star3.num_vertices → st.is_colored v = true) ∧
      ∀ st, WpReached star3 star3_sorted st → st.colored_count < star3.num_vertices →
        ∃ st1, wp_round star3 star3_sorted st = Round.again st1 ∧
          ColorsOneMore star3.num_vertices st.is_colored st.colored_count st1.is_colored
            st1.colored_count) ∧
    ((∃ st, while_loop (fun st => decide (st.colored_count < star3.num_vertices))
          (ido_round star3 (calculate_all_degrees star3)) star3.num_vertices
          (seed_state (calculate_all_degrees star3)) = some st ∧
        ∀ v, v < star3.num_vertices → st.is_colored v = true) ∧
      ∀ st, IdoReached star3 st → st.colored_count < star3.num_vertices →
        ∃ st1, ido_round star3 (calculate_all_degrees star3) st = Round.again st1 ∧
          ColorsOneMore star3.num_vertices st.is_colored st.colored_count st1.is_colored
            st1.colored_count) ∧
    ((∃ st, while_loop (fun st => decide (st.colored_count < star3.num_vertices))
          (dsatur_round star3 (calculate_all_degrees star3)) star3.num_vertices
          (seed_state (calculate_all_degrees star3)) = some st ∧
        ∀ v, v < star3.num_vertices → st.is_colored v = true) ∧
      ∀ st, DsaturReached star3 st → st.colored_count < star3.num_vertices →
        ∃ st1, dsatur_round star3 (calculate_all_degrees star3) st = Round.again st1 ∧
          ColorsOneMore star3.num_vertices st.is_colored st.colored_count st1.is_colored
            st1.colored_count) ∧
    ((∃ st, while_loop (fun st => decide (st.colored_count < star3.num_vertices))
          (rlf_round star3 (calculate_all_degrees star3)) star3.num_vertices
          { colors := fun _ => 0, is_colored := fun _ => false, colored_count := 0,
            current_color := 1, max_colors_used := 0 } = some st ∧
        ∀ v, v < star3.num_vertices → st.is_colored v = true) ∧
      (∀ st, RlfReached star3 st → st.colored_count < star3.num_vertices →
        ∃ st1, rlf_round star3 (calculate_all_degrees star3) st = Round.again st1 ∧
          ColorsOneMore star3.num_vertices st.is_colored st.colored_count st1.is_colored
            st1.colored_count) ∧
      ∀ st, RlfReached star3 st → st.colored_count < star3.num_vertices →
        ∃ s cs, rlf_start_vertex (calculate_all_degrees star3) st.is_colored = some s ∧
          while_loop (fun _ => true)
            (rlf_class_round star3 (calculate_all_degrees star3) st.current_color)
                star3.num_vertices
            (rlf_open_class star3 st s) = some cs)) :=
  ⟨by unfold Graph.Valid; decide, by unfold QsortResult; decide,
    main_loops_terminate star3 (by unfold Graph.Valid; decide) star3_sorted
      (by unfold QsortResult; decide)⟩

/-! ## Welsh-Powell against first fit along the sorted order -/

theorem nodup_position (ids : List Nat) (hnd : ids.Nodup) (i j v : Nat)
    (hi : ids[i]? = some v) (hj : ids[j]? = some v) : i = j := by
  obtain ⟨hil, hiv⟩ := List.getElem?_eq_some_iff.1 hi
  obtain ⟨hjl, hjv⟩ := List.getElem?_eq_some_iff.1 hj
  exact (List.Nodup.getElem_inj_iff hnd).1 (hiv.trans hjv.symm)

/-- Two first-fit colourings along the same sequence agree on its vertices. -/
theorem firstFitAlong_unique (g : Graph) (ids : List Nat) (c1 c2 : Nat → Int)
    (h1 : FirstFitAlong g ids c1) (h2 : FirstFitAlong g ids c2) :
    ∀ (i v : Nat), ids[i]? = some v → c1 v = c2 v := by
  intro i
  induction i using Nat.strong_induction_on with
  | _ i ih =>
    intro v hv
    obtain ⟨_, a2, a3⟩ := h1 i v hv
    obtain ⟨_, b2, b3⟩ := h2 i v hv
    rcases lt_trichotomy (c1 v) (c2 v) with h | h | h
    · exfalso
      obtain ⟨j, u, hj, hju, hadj, hux⟩ := b3 (c1 v) (h1 i v hv).1 h
      exact a2 j u hj hju hadj (by rw [ih j hj u hju]; exact hux)
    · exact h
    · exfalso
      obtain ⟨j, u, hj, hju, hadj, hux⟩ := a3 (c2 v) (h2 i v hv).1 h
      exact b2 j u hj hju hadj (by rw [← ih j hj u hju]; exact hux)

theorem earlierHolds_store (g : Graph) (ids : List Nat) (colors : Nat → Int) (i v : Nat)
    (x : Int) (w : Nat) (c : Int) (hx : 1 ≤ x) (hw : colors w = 0)
    (h : EarlierHolds g ids colors i v x) : EarlierHolds g ids (store colors w c) i v x := by
  obtain ⟨j, u, hj, hju, hadj, hux⟩ := h
  have huw : u ≠ w := by
    intro e
    rw [e, hw] at hux
    omega
  exact ⟨j, u, hj, hju, hadj, by rw [store_other _ _ _ _ huw]; exact hux⟩

/-- A step of the pass that leaves the state as it is keeps the pass invariant, given that
the entry visited, when it is still uncolored, has an earlier neighbour of the pass's
colour. -/
theorem wp_pass_skip (g : Graph) (ids : List Nat) (s : Nat) (cc : Int) (k : Nat)
    (st : WPState) (hP : WpPassInv g ids s cc k st) (v : Nat) (hk : ids[k]? = some v)
    (hblock : st.is_colored v = false → EarlierHolds g ids st.colors k v cc) :
    WpPassInv g ids s cc (k + 1) st := by
  obtain ⟨hcur, hsc, hA, hB, p, hp, hC⟩ := hP
  refine ⟨hcur, hsc, ?_, ?_, p, hp, hC⟩
  · intro i w hiw x hx1 hx2
    by_cases hik : i = k
    · subst hik
      have hwv : w = v := by
        rw [hk] at hiw
        injection hiw with e
        exact e.symm
      subst hwv
      by_cases hc : st.is_colored w = true
      · rw [if_pos hc] at hx2
        exact hA i w hk x hx1 (by rw [if_pos hc]; exact hx2)
      · rw [if_neg hc, if_pos (Nat.lt_succ_self i)] at hx2
        by_cases hxc : x = cc
        · rw [hxc]
          apply hblock
          cases hb : st.is_colored w with
          | true => exact absurd hb hc
          | false => rfl
        · exact hA i w hk x hx1
            (by rw [if_neg hc, if_neg (Nat.lt_irrefl i)]; omega)
    · apply hA i w hiw x hx1
      by_cases hc : st.is_colored w = true
      · rw [if_pos hc] at hx2 ⊢
        exact hx2
      · rw [if_neg hc] at hx2 ⊢
        by_cases hlt : i < k
        · rw [if_pos hlt]
          rw [if_pos (by omega : i < k + 1)] at hx2
          exact hx2
        · rw [if_neg hlt]
          rw [if_neg (by omega : ¬ i < k + 1)] at hx2
          exact hx2
  · intro i u hiu hcol
    rcases hB i u hiu hcol with h | h
    · exact Or.inl (by omega)
    · exact Or.inr h

/-- A step of the pass that gives the entry visited the pass's colour keeps the pass
invariant. -/
theorem wp_pass_take (g : Graph) (ids : List Nat) (hnd : ids.Nodup) (s : Nat) (cc : Int)
    (k : Nat) (st : WPState) (hP : WpPassInv g ids s cc k st) (v : Nat)
    (hk : ids[k]? = some v) (hu : st.is_colored v = false) (h0 : st.colors v = 0) :
    WpPassInv g ids s cc (k + 1)
      { st with
        colors := store st.colors v st.current_color
        is_colored := store st.is_colored v true
        colored_count := st.colored_count + 1 } := by
  obtain ⟨hcur, hsc, hA, hB, p, hp, hC⟩ := hP
  refine ⟨hcur, ?_, ?_, ?_, p, hp, ?_⟩
  · show store st.colors v st.current_color s = cc
    by_cases hsv : s = v
    · rw [hsv, store_same]; exact hcur
    · rw [store_other _ _ _ _ hsv]; exact hsc
  · intro i w hiw x hx1 hx2
    show EarlierHolds g ids (store st.colors v st.current_color) i w x
    apply earlierHolds_store g ids st.colors i w x v _ hx1 h0
    by_cases hwv : w = v
    · subst hwv
      have hik : i = k := nodup_position ids hnd i k w hiw hk
      subst hik
      have hx3 : x < cc := by
        have e1 : store st.is_colored w true w = true := store_same _ _ _
        have e2 : store st.colors w st.current_color w = st.current_color := store_same _ _ _
        simp only [e1, e2, if_true] at hx2
        omega
      exact hA i w hiw x hx1
        (by rw [if_neg (by rw [hu]; decide), if_neg (Nat.lt_irrefl i)]; exact hx3)
    · have hik : i ≠ k := by
        intro e
        rw [e, hk] at hiw
        injection hiw with e1
        exact hwv e1.symm
      have e1 : store st.is_colored v true w = st.is_colored w := store_other _ _ _ _ hwv
      have e2 : store st.colors v st.current_color w = st.colors w := store_other _ _ _ _ hwv
      simp only [e1, e2] at hx2
      apply hA i w hiw x hx1
      by_cases hc : st.is_colored w = true
      · rw [if_pos hc] at hx2 ⊢
        exact hx2
      · rw [if_neg hc] at hx2 ⊢
        by_cases hlt : i < k
        · rw [if_pos hlt]
          rw [if_pos (by omega : i < k + 1)] at hx2
          exact hx2
        · rw [if_neg hlt]
          rw [if_neg (by omega : ¬ i < k + 1)] at hx2
          exact hx2
  · intro i u hiu hcol
    by_cases huv : u = v
    · subst huv
      have hik : i = k := nodup_position ids hnd i k u hiu hk
      exact Or.inl (by omega)
    · have e2 : store st.colors v st.current_color u = st.colors u := store_other _ _ _ _ huv
      rcases hB i u hiu (by rw [← e2]; exact hcol) with h | h
      · exact Or.inl (by omega)
      · exact Or.inr h
  · intro i w hiw hunc
    have hunc1 : store st.is_colored v true w = false := hunc
    have hwv : w ≠ v := by
      intro e
      have : store st.is_colored v true w = true := by rw [e]; exact store_same _ _ _
      rw [this] at hunc1
      exact Bool.noConfusion hunc1
    have e1 : store st.is_colored v true w = st.is_colored w := store_other _ _ _ _ hwv
    exact hC i w hiw (by rw [← e1]; exact hunc1)

/-- One step of the pass keeps the pass invariant. -/
theorem wp_pass_step_order (g : Graph) (hg : g.Valid) (ids : List Nat) (hnd : ids.Nodup)
    (hmem : ∀ v, v ∈ ids ↔ v < g.num_vertices) (s : Nat) (hs : s < g.num_vertices)
    (cc : Int) (k : Nat) (st : WPState)
    (hI : ClassGrowInv g st.colors st.is_colored st.colored_count st.current_color)
    (hP : WpPassInv g ids s cc k st) (e : VertexDegree) (hk : ids[k]? = some e.id) :
    WpPassInv g ids s cc (k + 1) (wp_pass_step g s st e) := by
  have hv : e.id < g.num_vertices :=
    (hmem e.id).1 (List.mem_iff_getElem?.2 ⟨k, hk⟩)
  have hflag := hI.2.2.2.2.1
  obtain ⟨hcur, hsc, _, hB, p, hp, hC⟩ := hP
  have hstart : st.is_colored e.id = false → g.adj_matrix e.id s = 1 →
      EarlierHolds g ids st.colors k e.id cc :=
    fun hu hadj => ⟨p, s, hC k e.id hk hu, hp, hadj, hsc⟩
  unfold wp_pass_step
  by_cases h1 : st.is_colored e.id = false ∧ g.adj_matrix s e.id = 0
  · simp only [if_pos h1]
    by_cases h2 : can_color_with_current g st.colors st.current_color e.id = true
    · simp only [if_pos h2]
      exact wp_pass_take g ids hnd s cc k st ⟨hcur, hsc, by assumption, hB, p, hp, hC⟩ e.id hk
        h1.1 ((hflag e.id hv).2 h1.1)
    · simp only [if_neg h2]
      apply wp_pass_skip g ids s cc k st ⟨hcur, hsc, by assumption, hB, p, hp, hC⟩ e.id hk
      intro hu
      obtain ⟨j, hj, hadj, hjc⟩ := can_color_blocked g _ _ _ h2
      rw [hcur] at hjc
      obtain ⟨q, hq⟩ := List.mem_iff_getElem?.1 ((hmem j).2 hj)
      rcases hB q j hq hjc with hqk | hjs
      · exact ⟨q, j, hqk, hq, hadj, hjc⟩
      · rw [hjs] at hadj
        exact hstart hu hadj
  · simp only [if_neg h1]
    apply wp_pass_skip g ids s cc k st ⟨hcur, hsc, by assumption, hB, p, hp, hC⟩ e.id hk
    intro hu
    apply hstart hu
    have hne : g.adj_matrix s e.id ≠ 0 := fun h0 => h1 ⟨hu, h0⟩
    rw [hg.2.2.1 e.id hv s hs]
    rcases hg.2.1 s hs e.id hv with h0 | h1
    · exact absurd h0 hne
    · exact h1

/-- The pass, entry by entry, keeps the pass invariant. -/
theorem wp_pass_order (g : Graph) (hg : g.Valid) (sorted : List VertexDegree)
    (hs : QsortResult g sorted) (s : Nat) (hsn : s < g.num_vertices) (cc : Int)
    (st0 : WPState)
    (hI0 : ClassGrowInv g st0.colors st0.is_colored st0.colored_count st0.current_color)
    (hP0 : WpPassInv g (sorted.map (fun e => e.id)) s cc 0 st0) :
    ∀ k, k ≤ sorted.length →
      WpPassInv g (sorted.map (fun e => e.id)) s cc k
        ((sorted.take k).foldl (wp_pass_step g s) st0) := by
  have hids : ∀ e, e ∈ sorted → e.id < g.num_vertices := by
    intro e he
    exact (sorted_ids_mem g sorted hs e.id).1 (List.mem_map_of_mem _ he)
  intro k
  induction k with
  | zero => intro _; exact hP0
  | succ k ih =>
    intro hk
    have hlt : k < sorted.length := by omega
    have hget : sorted[k]? = some sorted[k] := List.getElem?_eq_getElem hlt
    rw [List.take_succ, hget, Option.toList_some, List.foldl_append]
    simp only [List.foldl_cons, List.foldl_nil]
    have hI := (wp_pass_inv g hg s (sorted.take k) st0
      (fun e he => hids e (List.mem_of_mem_take he)) hI0).1
    apply wp_pass_step_order g hg _ (sorted_ids_nodup g sorted hs)
      (sorted_ids_mem g sorted hs) s hsn cc k _ hI (ih (by omega))
    rw [List.getElem?_map, hget]
    rfl

/-- The state in which a pass is entered keeps the pass invariant for no entry visited. -/
theorem wp_open_order (g : Graph) (sorted : List VertexDegree) (st : WPState)
    (hI : ClassHeadInv g st.colors st.is_colored st.colored_count st.current_color)
    (hO : WpOrderInv g (sorted.map (fun e => e.id)) st) (s : Nat)
    (hst : wp_start_vertex sorted st.is_colored = some s) (hsn : s < g.num_vertices)
    (hu : st.is_colored s = false) :
    WpPassInv g (sorted.map (fun e => e.id)) s st.current_color 0
      { st with
        colors := store st.colors s st.current_color
        is_colored := store st.is_colored s true
        colored_count := st.colored_count + 1 } := by
  have hflag := hI.2.2.2.2.1
  have h0 : st.colors s = 0 := (hflag s hsn).2 hu
  refine ⟨rfl, store_same _ _ _, ?_, ?_, ?_⟩
  · intro i w hiw x hx1 hx2
    show EarlierHolds g _ (store st.colors s st.current_color) i w x
    apply earlierHolds_store g _ st.colors i w x s _ hx1 h0
    apply hO i w hiw x hx1
    by_cases hws : w = s
    · subst hws
      have e1 : store st.is_colored w true w = true := store_same _ _ _
      have e2 : store st.colors w st.current_color w = st.current_color := store_same _ _ _
      simp only [e1, e2, if_true] at hx2
      rw [if_neg (by rw [hu]; decide)]
      exact hx2
    · have e1 : store st.is_colored s true w = st.is_colored w := store_other _ _ _ _ hws
      have e2 : store st.colors s st.current_color w = st.colors w := store_other _ _ _ _ hws
      simp only [e1, e2, Nat.not_lt_zero, if_false] at hx2
      exact hx2
  · intro i u _ hcol
    right
    by_contra hne
    have hcol1 : store st.colors s st.current_color u = st.current_color := hcol
    rw [store_other _ _ _ _ hne] at hcol1
    have := (hI.2.2.2.1 u).2
    omega
  · simp only [wp_start_vertex, Option.map_eq_some'] at hst
    obtain ⟨e, hfind, hes⟩ := hst
    obtain ⟨_, as, bs, hsplit, hall⟩ := List.find?_eq_some.1 hfind
    refine ⟨as.length, ?_, ?_⟩
    · rw [hsplit, List.map_append, List.map_cons,
        List.getElem?_append_right (by rw [List.length_map]), List.length_map, Nat.sub_self,
        hes, List.getElem?_cons_zero]
    · intro i w hiw hunc
      have hunc1 : store st.is_colored s true w = false := hunc
      have hws : w ≠ s := by
        intro e1
        rw [e1, store_same] at hunc1
        exact Bool.noConfusion hunc1
      rw [store_other _ _ _ _ hws] at hunc1
      by_contra hle
      have hle1 : i ≤ as.length := by omega
      rcases Nat.lt_or_eq_of_le hle1 with hlt | heq
      · rw [hsplit, List.map_append,
          List.getElem?_append_left (by rw [List.length_map]; exact hlt),
          List.getElem?_map] at hiw
        have hget : as[i]? = some as[i] := List.getElem?_eq_getElem hlt
        rw [hget] at hiw
        injection hiw with e1
        have hcol := hall as[i] (List.getElem_mem hlt)
        simp only [Bool.not_not] at hcol
        have e2 : as[i].id = w := e1
        rw [e2, hunc1] at hcol
        exact Bool.noConfusion hcol
      · rw [heq, hsplit, List.map_append, List.map_cons,
          List.getElem?_append_right (by rw [List.length_map]), List.length_map,
          Nat.sub_self, hes, List.getElem?_cons_zero] at hiw
        injection hiw with e1
        exact hws e1.symm

/-- A round of the main loop of `welsh_powell_coloring` keeps the order invariant. -/
theorem wp_round_order (g : Graph) (hg : g.Valid) (sorted : List VertexDegree)
    (hs : QsortResult g sorted) (st : WPState)
    (hI : ClassHeadInv g st.colors st.is_colored st.colored_count st.current_color)
    (hO : WpOrderInv g (sorted.map (fun e => e.id)) st) (st1 : WPState)
    (h : wp_round g sorted st = Round.again st1) :
    WpOrderInv g (sorted.map (fun e => e.id)) st1 := by
  cases hst : wp_start_vertex sorted st.is_colored with
  | none =>
    simp only [wp_round, hst] at h
    exact Round.noConfusion h
  | some s =>
    obtain ⟨hsn, hsu, _⟩ := wp_start_max g sorted hs st.is_colored s hst
    have hP0 := wp_open_order g sorted st hI hO s hst hsn hsu
    have hI0 := class_open g hg _ _ _ _ s hI hsn hsu
    obtain ⟨hcur, _, hA, _, _⟩ := wp_pass_order g hg sorted hs s hsn st.current_color _ hI0 hP0
      sorted.length (le_refl _)
    rw [List.take_length] at hcur hA
    simp only [wp_round, hst] at h
    injection h with e
    intro i w hiw x hx1 hx2
    have hil : i < sorted.length := by
      have := (List.getElem?_eq_some_iff.1 hiw).1
      rw [List.length_map] at this
      exact this
    rw [← e] at hx2 ⊢
    simp only at hx2 ⊢
    apply hA i w hiw x hx1
    rw [if_pos hil]
    rw [hcur] at hx2
    exact hx2

/-- The main loop of `welsh_powell_coloring` ends with the first-fit colouring along the
sorted sequence of ids. -/
theorem wp_first_fit_along (g : Graph) (hg : g.Valid) (sorted : List VertexDegree)
    (hs : QsortResult g sorted) :
    ∃ st, wp_main_loop g sorted = some st ∧
      FirstFitAlong g (sorted.map (fun e => e.id)) st.colors := by
  obtain ⟨st, hrun, hI, hall⟩ := wp_loop_spec g hg sorted hs
  refine ⟨st, hrun, ?_⟩
  have hreach : WpReached g sorted st :=
    while_loop_reached _ _ _ _ _ _ Reached.start hrun
  have hboth := reached_inv _ _ _
    (fun st : WPState =>
      ClassHeadInv g st.colors st.is_colored st.colored_count st.current_color ∧
      WpOrderInv g (sorted.map (fun e => e.id)) st)
    ⟨classHead_init g, by
      intro i w _ x hx1 hx2
      simp only [Bool.false_eq_true, if_false] at hx2
      omega⟩
    (by
      intro st0 st1 hinv _ hb
      rcases wp_round_spec g hg sorted hs st0 hinv.1 with ⟨hl, _⟩ | ⟨st2, h1, h2, _⟩
      · rw [hl] at hb
        exact Round.noConfusion hb
      · rw [h1] at hb
        injection hb with e
        exact ⟨e ▸ h2, wp_round_order g hg sorted hs st0 hinv.1 hinv.2 st1 (e ▸ h1)⟩)
    st hreach
  obtain ⟨_, hO⟩ := hboth
  intro i v hiv
  have hv : v < g.num_vertices :=
    (sorted_ids_mem g sorted hs v).1 (List.mem_iff_getElem?.2 ⟨i, hiv⟩)
  have hpos : 1 ≤ st.colors v := (hI.2.2.2.2.1 v hv).1 (hall v hv)
  refine ⟨hpos, ?_, ?_⟩
  · intro j u _ hju hadj heq
    have hu : u < g.num_vertices :=
      (sorted_ids_mem g sorted hs u).1 (List.mem_iff_getElem?.2 ⟨j, hju⟩)
    exact hI.2.2.2.2.2.1 v hv u hu hadj (by omega) heq.symm
  · intro x hx1 hx2
    apply hO i v hiv x hx1
    rw [if_pos (hall v hv)]
    exact hx2

/-- The array of `largest_degree_ordering_coloring` is the first-fit colouring along the
sorted sequence of ids. -/
theorem ldo_first_fit_along (g : Graph) (hg : g.Valid) (sorted : List VertexDegree)
    (hs : QsortResult g sorted) :
    FirstFitAlong g (sorted.map (fun e => e.id))
      (largest_degree_ordering_coloring g sorted).colors := by
  intro i v hiv
  obtain ⟨hi, hget⟩ := List.getElem?_eq_some_iff.1 hiv
  have hsplit : sorted.map (fun e => e.id) =
      (sorted.map (fun e => e.id)).take i ++ v :: (sorted.map (fun e => e.id)).drop (i + 1) := by
    rw [← hget, ← List.drop_eq_getElem_cons hi, List.take_append_drop]
  have hnd := sorted_ids_nodup g sorted hs
  have hmem : ∀ u, u ∈ sorted.map (fun e => e.id) → u < g.num_vertices :=
    fun u hu => (sorted_ids_mem g sorted hs u).1 hu
  rw [hsplit] at hnd hmem
  obtain ⟨_, _, _, h4, h5, h6⟩ := first_fit_split g hg _ _ v hnd hmem
  rw [← hsplit] at h4 h5 h6
  have hout : (largest_degree_ordering_coloring g sorted).colors =
      ((sorted.map (fun e => e.id)).foldl (first_fit_step g)
        { colors := fun _ => 0, max_colors_used := 0 }).colors := by
    simp only [largest_degree_ordering_coloring, ldo_as_fold]
  rw [hout]
  refine ⟨h4, ?_, ?_⟩
  · intro j u hj hju hadj
    obtain ⟨hj1, hj2⟩ := List.getElem?_eq_some_iff.1 hju
    exact h5 u (List.mem_take_iff_getElem.2 ⟨j, by omega, hj2⟩) hadj
  · intro x hx1 hx2
    obtain ⟨u, hu, hadj, hux⟩ := h6 x hx1 hx2
    obtain ⟨j, hm, hju⟩ := List.mem_take_iff_getElem.1 hu
    exact ⟨j, u, by omega, List.getElem?_eq_some_iff.2 ⟨by omega, hju⟩, hadj, hux⟩

/-- C35: on a valid graph `welsh_powell_coloring` returns, and with the same sorted array
it leaves in `colors[0 .. num_vertices-1]` the values that
`largest_degree_ordering_coloring` leaves there and returns the same integer: both arrays
are the first-fit colouring along the sorted sequence of ids. -/
theorem welsh_powell_equals_ldo (g : Graph) (hg : g.Valid) (sorted : List VertexDegree)
    (hs : QsortResult g sorted) :
    ∃ out, welsh_powell_coloring g sorted = some out ∧
      (∀ v, v < g.num_vertices →
        out.colors v = (largest_degree_ordering_coloring g sorted).colors v) ∧
      out.returned = (largest_degree_ordering_coloring g sorted).returned ∧
      FirstFitAlong g (sorted.map (fun e => e.id)) out.colors ∧
      FirstFitAlong g (sorted.map (fun e => e.id))
        (largest_degree_ordering_coloring g sorted).colors := by
  obtain ⟨st, hrun, hF⟩ := wp_first_fit_along g hg sorted hs
  obtain ⟨out, hout, _, hR, _, hM⟩ := wp_spec g hg sorted hs
  have hL := ldo_first_fit_along g hg sorted hs
  have hout1 : out = { colors := st.colors, returned := st.current_color - 1 } := by
    simp only [welsh_powell_coloring, hrun, Option.map_some', Option.some.injEq] at hout
    exact hout.symm
  have hcol : out.colors = st.colors := by rw [hout1]
  have hsame : ∀ v, v < g.num_vertices →
      out.colors v = (largest_degree_ordering_coloring g sorted).colors v := by
    intro v hv
    obtain ⟨i, hi⟩ := List.mem_iff_getElem?.1 ((sorted_ids_mem g sorted hs v).2 hv)
    rw [hcol]
    exact firstFitAlong_unique g _ _ _ hF hL i v hi
  obtain ⟨_, hLR, hLM⟩ := ldo_spec g hg sorted hs
  refine ⟨out, hout, hsame, ?_, by rw [hcol]; exact hF, hL⟩
  have h1 := maxOK_eq_max_entry g hg.1 _ _ hLR hLM
  rw [h1]
  apply eq_max_entry g hg.1
  · intro v hv
    rw [← hsame v hv]
    exact hM.1 v
  · rcases hM.2.1 with ⟨v, hv, hvm⟩ | h0
    · exact ⟨v, hv, by rw [← hsame v hv]; exact hvm⟩
    · exfalso
      have a := (hR 0 (by have := hg.1; omega)).1
      have b := hM.1 0
      omega

theorem welsh_powell_equals_ldo_witness :
    star3.Valid ∧
    QsortResult star3 star3_sorted ∧
    (∃ out, welsh_powell_coloring star3 star3_sorted = some out ∧
      (∀ v, v < star3.num_vertices →
        out.colors v = (largest_degree_ordering_coloring star3 star3_sorted).colors v) ∧
      out.returned = (largest_degree_ordering_coloring star3 star3_sorted).returned ∧
      FirstFitAlong star3 (star3_sorted.map (fun e => e.id)) out.colors ∧
      FirstFitAlong star3 (star3_sorted.map (fun e => e.id))
        (largest_degree_ordering_coloring star3 star3_sorted).colors) :=
  ⟨by unfold Graph.Valid; decide, by unfold QsortResult; decide,
    welsh_powell_equals_ldo star3 (by unfold Graph.Valid; decide) star3_sorted
      (by unfold QsortResult; decide)⟩

/-! ## Colours against degrees -/

theorem firstFitAlong_greedy (g : Graph) (ids : List Nat)
    (hmem : ∀ v, v ∈ ids ↔ v < g.num_vertices) (colors : Nat → Int)
    (h : FirstFitAlong g ids colors) : Greedy g colors := by
  intro v hv x hx1 hx2
  obtain ⟨i, hi⟩ := List.mem_iff_getElem?.1 ((hmem v).2 hv)
  obtain ⟨j, u, _, hju, hadj, hux⟩ := (h i v hi).2.2 x hx1 hx2
  exact ⟨u, (hmem u).1 (List.mem_iff_getElem?.2 ⟨j, hju⟩), hadj, hux⟩

/-- With every colour below a vertex's own held by a neighbour, the largest colour in use
is at most the largest degree plus one. -/
theorem greedy_le_max_degree (g : Graph) (colors : Nat → Int) (m : Int)
    (hG : Greedy g colors) (hM : MaxOK g colors m) : m ≤ max_degree g + 1 := by
  rcases hM.2.1 with ⟨v, hv, hvm⟩ | h
  · rw [← hvm]
    have h1 := greedy_le_degree g _ hG v hv
    have h2 := row_degree_le_max_degree g v hv
    omega
  · have := max_degree_nonneg g
    omega

/-- A round of the main loop of `recursive_largest_first_coloring` keeps `ClassGreedy`. -/
theorem rlf_round_greedy (g : Graph) (hg : g.Valid) (st : RLFState) (hI : RLFInv g st)
    (hG : ClassGreedy g st.colors st.is_colored st.current_color) (st1 : RLFState)
    (h : rlf_round g (calculate_all_degrees g) st = Round.again st1) :
    ClassGreedy g st1.colors st1.is_colored st1.current_color := by
  rw [rlf_round_eq] at h
  cases hst : rlf_start_vertex (calculate_all_degrees g) st.is_colored with
  | none =>
    rw [hst] at h
    exact Round.noConfusion h
  | some s =>
    obtain ⟨hsn, hsu⟩ := rlf_start_some g st.is_colored s hst
    obtain ⟨cs, hgrow, hC, hR, _, hU⟩ := rlf_grow_class_spec g hg st hI s hsn hsu
    rw [hst] at h
    simp only [hgrow] at h
    injection h with e
    rw [← e]
    show ClassGreedy g cs.colors cs.is_colored (st.current_color + 1)
    have hflag := hI.1.2.2.2.2.1
    have hkeep : ∀ v, v < g.num_vertices → ∀ x, 1 ≤ x →
        (∃ w, w < g.num_vertices ∧ g.adj_matrix v w = 1 ∧ st.colors w = x) →
        ∃ w, w < g.num_vertices ∧ g.adj_matrix v w = 1 ∧ cs.colors w = x := by
      intro v _ x hx1 hw
      obtain ⟨w, hw, hadj, hwx⟩ := hw
      have hwc : st.is_colored w = true := by
        cases hb : st.is_colored w with
        | true => rfl
        | false =>
          have := (hflag w hw).2 hb
          omega
      exact ⟨w, hw, hadj, by rw [(hR.1 w hwc).1]; exact hwx⟩
    intro v hv x hx1 hx2
    by_cases hold : st.is_colored v = true
    · obtain ⟨k1, k2⟩ := hR.1 v hold
      rw [if_pos k2, k1] at hx2
      exact hkeep v hv x hx1 (hG v hv x hx1 (by rw [if_pos hold]; exact hx2))
    · have hold1 : st.is_colored v = false := by
        cases hb : st.is_colored v with
        | true => exact absurd hb hold
        | false => rfl
      by_cases hnew : cs.is_colored v = true
      · rw [if_pos hnew, hR.2.1 v hv hnew hold1] at hx2
        exact hkeep v hv x hx1 (hG v hv x hx1 (by rw [if_neg hold]; exact hx2))
      · rw [if_neg hnew] at hx2
        by_cases hxc : x = st.current_color
        · have hnew1 : cs.is_colored v = false := by
            cases hb : cs.is_colored v with
            | true => exact absurd hb hnew
            | false => rfl
          obtain ⟨w, hw, hwc, hadj⟩ := hR.2.2 v hv (hU v hv hnew1)
          exact ⟨w, hw, by rw [hg.2.2.1 v hv w hw]; exact hadj, by rw [hxc]; exact hwc⟩
        · exact hkeep v hv x hx1
            (hG v hv x hx1 (by rw [if_neg hold]; omega))

theorem rlf_final_greedy (g : Graph) (hg : g.Valid) :
    ∃ st, rlf_main_loop g = some st ∧ RLFInv g st ∧
      (∀ v, v < g.num_vertices → st.is_colored v = true) ∧ Greedy g st.colors := by
  obtain ⟨st, hrun, hI, hall⟩ := rlf_loop_spec g hg
  refine ⟨st, hrun, hI, hall, ?_⟩
  have hreach : RlfReached g st :=
    while_loop_reached _ _ _ _ _ _ Reached.start hrun
  have hboth := reached_inv _ _ _
    (fun st : RLFState =>
      RLFInv g st ∧ ClassGreedy g st.colors st.is_colored st.current_color)
    ⟨⟨classHead_init g, by simp⟩, by
      intro v _ x hx1 hx2
      simp only [Bool.false_eq_true, if_false] at hx2
      omega⟩
    (by
      intro st0 st1 hinv _ hb
      rcases rlf_round_spec g hg st0 hinv.1 with ⟨hl, _⟩ | ⟨st2, h1, h2, _⟩
      · rw [hl] at hb
        exact Round.noConfusion hb
      · rw [h1] at hb
        injection hb with e
        exact ⟨e ▸ h2, rlf_round_greedy g hg st0 hinv.1 hinv.2 st1 (e ▸ h1)⟩)
    st hreach
  intro v hv x hx1 hx2
  exact hboth.2 v hv x hx1 (by rw [if_pos (hall v hv)]; exact hx2)

/-- C36: on a valid graph each of `welsh_powell_coloring`,
`largest_degree_ordering_coloring`, `incidence_degree_ordering_coloring`,
`dsatur_coloring` and `recursive_largest_first_coloring` returns, returns at most the
largest degree plus one, and gives every vertex `v` a colour of at most the degree of `v`
plus one. -/
theorem colours_within_degree_plus_one (g : Graph) (hg : g.Valid)
    (sorted : List VertexDegree) (hs : QsortResult g sorted) :
    (∃ out, welsh_powell_coloring g sorted = some out ∧
      out.returned ≤ max_degree g + 1 ∧
      ∀ v, v < g.num_vertices → out.colors v ≤ row_degree g v + 1) ∧
    ((largest_degree_ordering_coloring g sorted).returned ≤ max_degree g + 1 ∧
      ∀ v, v < g.num_vertices →
        (largest_degree_ordering_coloring g sorted).colors v ≤ row_degree g v + 1) ∧
    (∃ out, incidence_degree_ordering_coloring g = some out ∧
      out.returned ≤ max_degree g + 1 ∧
      ∀ v, v < g.num_vertices → out.colors v ≤ row_degree g v + 1) ∧
    (∃ out, dsatur_coloring g = some out ∧
      out.returned ≤ max_degree g + 1 ∧
      ∀ v, v < g.num_vertices → out.colors v ≤ row_degree g v + 1) ∧
    (∃ out, recursive_largest_first_coloring g = some out ∧
      out.returned ≤ max_degree g + 1 ∧
      ∀ v, v < g.num_vertices → out.colors v ≤ row_degree g v + 1) := by
  have hmem := sorted_ids_mem g sorted hs
  refine ⟨?_, ?_, ?_, ?_, ?_⟩
  · obtain ⟨st, hrun, hF⟩ := wp_first_fit_along g hg sorted hs
    obtain ⟨out, hout, _, _, _, hM⟩ := wp_spec g hg sorted hs
    have hcol : out.colors = st.colors := by
      simp only [welsh_powell_coloring, hrun, Option.map_some', Option.some.injEq] at hout
      rw [← hout]
    have hG : Greedy g out.colors := by
      rw [hcol]
      exact firstFitAlong_greedy g _ hmem _ hF
    exact ⟨out, hout, greedy_le_max_degree g _ _ hG hM, greedy_le_degree g _ hG⟩
  · have hG := firstFitAlong_greedy g _ hmem _ (ldo_first_fit_along g hg sorted hs)
    obtain ⟨_, _, hM⟩ := ldo_spec g hg sorted hs
    exact ⟨greedy_le_max_degree g _ _ hG hM, greedy_le_degree g _ hG⟩
  · obtain ⟨st, hrun, hI, _⟩ := dyn_loop_spec g hg (ido_round g (calculate_all_degrees g))
      (ido_round_spec g hg)
    refine ⟨{ colors := st.colors, returned := st.max_colors_used }, ?_,
      greedy_le_max_degree g _ _ hI.2.2.2.2.2 hI.2.2.2.2.1,
      greedy_le_degree g _ hI.2.2.2.2.2⟩
    simp [incidence_degree_ordering_coloring, hrun]
  · obtain ⟨st, hrun, hI, _⟩ := dyn_loop_spec g hg
      (dsatur_round g (calculate_all_degrees g)) (dsatur_round_spec g hg)
    refine ⟨{ colors := st.colors, returned := st.max_colors_used }, ?_,
      greedy_le_max_degree g _ _ hI.2.2.2.2.2 hI.2.2.2.2.1,
      greedy_le_degree g _ hI.2.2.2.2.2⟩
    simp [dsatur_coloring, hrun]
  · obtain ⟨st, hrun, hI, hall, hG⟩ := rlf_final_greedy g hg
    have hfin := classHead_final g _ _ _ _ hI.1 hall
    rw [← hI.2] at hfin
    refine ⟨{ colors := st.colors, returned := st.max_colors_used }, ?_,
      greedy_le_max_degree g _ _ hG hfin.2.2.2, greedy_le_degree g _ hG⟩
    simp [recursive_largest_first_coloring, hrun]

theorem colours_within_degree_plus_one_witness :
    star3.Valid ∧
    QsortResult star3 star3_sorted ∧
    ((∃ out, welsh_powell_coloring star3 star3_sorted = some out ∧
      out.returned ≤ max_degree star3 + 1 ∧
      ∀ v, v < star3.num_vertices → out.colors v ≤ row_degree star3 v + 1) ∧
    ((largest_degree_ordering_coloring star3 star3_sorted).returned ≤ max_degree star3 + 1 ∧
      ∀ v, v < star3.num_vertices →
        (largest_degree_ordering_coloring star3 star3_sorted).colors v ≤ row_degree star3 v + 1) ∧
    (∃ out, incidence_degree_ordering_coloring star3 = some out ∧
      out.returned ≤ max_degree star3 + 1 ∧
      ∀ v, v < star3.num_vertices → out.colors v ≤ row_degree star3 v + 1) ∧
    (∃ out, dsatur_coloring star3 = some out ∧
      out.returned ≤ max_degree star3 + 1 ∧
      ∀ v, v < star3.num_vertices → out.colors v ≤ row_degree star3 v + 1) ∧
    (∃ out, recursive_largest_first_coloring star3 = some out ∧
      out.returned ≤ max_degree star3 + 1 ∧
      ∀ v, v < star3.num_vertices → out.colors v ≤ row_degree star3 v + 1)) :=
  ⟨by unfold Graph.Valid; decide, by unfold QsortResult; decide,
    colours_within_degree_plus_one star3 (by unfold Graph.Valid; decide) star3_sorted
      (by unfold QsortResult; decide)⟩

/-! ## Colour refinement: the fixpoint at which the loop stops -/

/-- A state in which the refinement loop stops, for an invariant the rounds keep: the
state the loop was entered in, with `changed = 0`, or the state left with `changed = 0`
by a round that started in a state with the invariant. -/
theorem refinement_loop_last_inv (inc1 inc2 : Nat → Nat → Int) (n m : Nat)
    (Inv : RefineState → Prop)
    (hstep : ∀ st st1, Inv st → refine_round inc1 inc2 n m st = Except.ok st1 → Inv st1) :
    ∀ (fuel : Nat) (st st1 : RefineState), Inv st →
      refinement_loop inc1 inc2 n m fuel st = Except.ok st1 →
      (st1 = st ∧ st.changed = 0) ∨
      ∃ st0, Inv st0 ∧ refine_round inc1 inc2 n m st0 = Except.ok st1 ∧ st1.changed = 0 := by
  intro fuel
  induction fuel with
  | zero =>
    intro st st1 _ h
    unfold refinement_loop at h
    split at h
    · exact Except.noConfusion h
    · rename_i hc
      injection h with e
      exact Or.inl ⟨e.symm, by simpa using hc⟩
  | succ fuel ih =>
    intro st st1 hI h
    unfold refinement_loop at h
    split at h
    · split at h
      · rename_i st2 hround
        rcases ih st2 st1 (hstep st st2 hI hround) h with ⟨e, hc⟩ | hlast
        · right
          exact ⟨st, hI, by rw [e]; exact hround, by rw [e]; exact hc⟩
        · exact Or.inr hlast
      · exact Except.noConfusion h
    · rename_i hc
      injection h with e
      exact Or.inl ⟨e.symm, by simpa using hc⟩

/-- After a round that ends with `changed = 0`, entered with the colours of the second
matrix those of the first one moved along a row permutation, the colours of the second
matrix are a fixpoint as well. -/
theorem refine_round_fixpoint_second (inc1 inc2 : Nat → Nat → Int) (n m : Nat)
    (rows : Equiv.Perm (Fin n)) (cols : Equiv.Perm (Fin m))
    (hperm : ∀ (i : Fin n) (j : Fin m), inc2 (rows i) (cols j) = inc1 i j)
    (st0 st1 : RefineState) (hcol : ColorsPermuted n rows st0.color1 st0.color2)
    (h : refine_round inc1 inc2 n m st0 = Except.ok st1) (hc : st1.changed = 0) :
    ∃ r, refine_colors inc2 n m st1.color2 st1.new_color2 = Except.ok r ∧
      ∀ i, i < n → r i = st1.color2 i := by
  have hcol1 := refine_round_permuted n m inc1 inc2 rows cols hperm st0 st1 hcol h
  unfold refine_round at h
  obtain ⟨r1, _, h2⟩ := except_bind_ok _ _ _ h
  obtain ⟨r2, h3, h4⟩ := except_bind_ok _ _ _ h2
  have hst1 : st1 = copy_back n
      { st0 with new_color1 := r1, new_color2 := r2, changed := 0 } := by
    injection h4 with e
    exact e.symm
  obtain ⟨_, k2, k3, k4⟩ := copy_back_spec
    { st0 with new_color1 := r1, new_color2 := r2, changed := 0 } n
  obtain ⟨_, c2⟩ := copy_back_changed
    { st0 with new_color1 := r1, new_color2 := r2, changed := 0 } n
  have hnew : st1.new_color2 = r2 := by rw [hst1]; exact k2
  have hfix : ∀ i, i < n → st0.color1 i = r1 i := (c2.1 (by rw [hst1] at hc; exact hc)).2
  have hc1 : ∀ i, i < n → st1.color1 i = r1 i := by
    intro i hi
    rw [hst1]
    exact k3 i hi
  have hc2 : ∀ i, i < n → st1.color2 i = r2 i := by
    intro i hi
    rw [hst1]
    exact k4 i hi
  have hsame : ∀ i, i < n → st1.color2 i = st0.color2 i := by
    intro i hi
    have e : ((rows (rows.symm ⟨i, hi⟩) : Fin n) : Nat) = i := by
      rw [Equiv.apply_symm_apply]
    have a1 := hcol1 (rows.symm ⟨i, hi⟩)
    have a0 := hcol (rows.symm ⟨i, hi⟩)
    rw [e] at a1 a0
    rw [a1, a0, hc1 _ (rows.symm ⟨i, hi⟩).isLt, hfix _ (rows.symm ⟨i, hi⟩).isLt]
  obtain ⟨r, hr, hr1, _⟩ := refine_colors_any_start inc2 n m st0.color2 n st0.new_color2 r2 r2 h3
  refine ⟨r, ?_, ?_⟩
  · rw [refine_colors_congr inc2 n m st1.color2 st0.color2 _ hsame, hnew]
    exact hr
  · intro i hi
    rw [hr1 i hi, hc2 i hi]

/-- C32, as stated, fails: with the all-zero 3 x 3 matrix as first matrix and the
matrix with the rows 110, 100, 010 as second one, the loop stops after one round with the
colours (2, 2, 2) for the second matrix, and one more `refine_colors` pass gives its row 0
the colour 4. -/
theorem second_matrix_not_at_fixpoint :
    IsBinary 3 3 refine_zero3 ∧ IsBinary 3 3 refine_path3 ∧
    ∃ st r, final_colors 5 refine_zero3 refine_path3 3 3 = Except.ok st ∧
      st.color2 0 = 2 ∧
      refine_colors refine_path3 3 3 st.color2 st.new_color2 = Except.ok r ∧
      r 0 = 4 ∧ r 0 ≠ st.color2 0 :=
  ⟨by unfold IsBinary; decide, by unfold IsBinary; decide, _, _, rfl, by decide, rfl,
    by decide, by decide⟩

/-- C32, amended: when the refinement loop of `color_refinement` stops, `changed` is `0`
and the colours of the first matrix are a fixpoint: one more `refine_colors` pass on the
first matrix returns and changes no row's colour. The colours of the second matrix are a
fixpoint as well when the second matrix is the first one after a permutation of its rows
and a permutation of its columns. -/
theorem loop_stops_at_first_fixpoint (fuel : Nat) (inc1 inc2 : Nat → Nat → Int) (n m : Nat)
    (st : RefineState) (h : final_colors fuel inc1 inc2 n m = Except.ok st) :
    st.changed = 0 ∧
    (∃ r, refine_colors inc1 n m st.color1 st.new_color1 = Except.ok r ∧
      ∀ i, i < n → r i = st.color1 i) ∧
    (Permuted n m inc1 inc2 →
      ∃ r, refine_colors inc2 n m st.color2 st.new_color2 = Except.ok r ∧
        ∀ i, i < n → r i = st.color2 i) := by
  unfold final_colors at h
  obtain ⟨st0, h0, h1⟩ := except_bind_ok _ _ _ h
  have hch := refine_start_changed inc1 inc2 n m st0 h0
  refine ⟨?_, ?_, ?_⟩
  · rcases refinement_loop_last inc1 inc2 n m fuel st0 st h1 with ⟨_, hc⟩ | ⟨_, _, hc⟩
    · rw [hch] at hc
      exact absurd hc (by decide)
    · exact hc
  · rcases refinement_loop_last inc1 inc2 n m fuel st0 st h1 with ⟨_, hc⟩ | ⟨st1, hr, hc⟩
    · rw [hch] at hc
      exact absurd hc (by decide)
    · exact refine_round_fixpoint inc1 inc2 n m st1 st hr hc
  · rintro ⟨rows, cols, hp⟩
    have hstart := refine_start_permuted n m inc1 inc2 rows cols hp st0 h0
    rcases refinement_loop_last_inv inc1 inc2 n m
      (fun st => ColorsPermuted n rows st.color1 st.color2)
      (fun a b ha hab => refine_round_permuted n m inc1 inc2 rows cols hp a b ha hab)
      fuel st0 st hstart h1 with ⟨_, hc⟩ | ⟨st1, hI1, hr, hc⟩
    · rw [hch] at hc
      exact absurd hc (by decide)
    · exact refine_round_fixpoint_second inc1 inc2 n m rows cols hp st1 st hI1 hr hc

theorem loop_stops_at_first_fixpoint_witness :
    ∃ st, final_colors 4 refine_example1 refine_example2 3 2 = Except.ok st ∧
      (st.changed = 0 ∧
        (∃ r, refine_colors refine_example1 3 2 st.color1 st.new_color1 = Except.ok r ∧
          ∀ i, i < 3 → r i = st.color1 i) ∧
        (Permuted 3 2 refine_example1 refine_example2 →
          ∃ r, refine_colors refine_example2 3 2 st.color2 st.new_color2 = Except.ok r ∧
            ∀ i, i < 3 → r i = st.color2 i)) :=
  ⟨_, rfl, loop_stops_at_first_fixpoint 4 refine_example1 refine_example2 3 2 _ rfl⟩
